import Mathlib

set_option linter.unusedTactic false
set_option linter.unreachableTactic false

/-!
# ReplicatedMergeTreeAlterThread

A shallow embedding of `ReplicatedMergeTreeAlterThread::run`
(`dbms/src/Storages/MergeTree/ReplicatedMergeTreeAlterThread.cpp`).

The body of `run` is a sequence of calls into collaborators (ZooKeeper, the
database catalog, `MergeTreeData`, the merger, the part check thread).  Each
call appends an event to a trace; a call may raise, in which case the C++
exception propagates through the enclosing scopes (running the destructors of
the scoped locks and blockers) up to the `catch (...)` of the loop body.

Log statements, and the `changed_parts` counter that only feeds them, are left
out.
-/

namespace DB

/-! ## Data model -/

/-- The constant of line 13: `static const auto ALTER_ERROR_SLEEP_MS = 10 * 1000`. -/
def ALTER_ERROR_SLEEP_MS : Nat := 10 * 1000

/-- ZooKeeper error code for a request that names an absent node. -/
def ZNONODE : Int := -101

/-- ZooKeeper error code for a conditional update whose version does not match. -/
def ZBADVERSION : Int := -103

/-- C++ exceptions: `zkutil::KeeperException` carries a code, every other
exception is kept with its message only. -/
inductive Exc where
  | KeeperException (code : Int)
  | Exception (what : String)
  deriving DecidableEq, Repr

/-- A list of (column name, type name) pairs. -/
abbrev NamesAndTypesList := List (String × String)

/-- The map column name ↦ default expression, kept as its key-sorted
association list so that equality of maps is equality of lists. -/
abbrev ColumnDefaults := List (String × String)

/-- The four components of `ColumnsDescription` (lines 61-64); the component
`alias` is spelled `alias_` here. -/
structure ColumnsDescription where
  columns : NamesAndTypesList
  materialized : NamesAndTypesList
  alias_ : NamesAndTypesList
  defaults : ColumnDefaults
  deriving DecidableEq, Repr

/-- A data part: its name and its part-local metadata. -/
structure DataPart where
  name : String
  columns : NamesAndTypesList
  checksums : String
  deriving DecidableEq, Repr

/-- What `alterDataPart` returns when the part has to change:
`getNewColumns().toString()` and `getNewChecksums().toString()` are the two
blobs, `new_columns` is the staged column list. -/
structure AlterDataPartTransaction where
  new_columns : NamesAndTypesList
  new_columns_str : String
  new_checksums_str : String
  deriving DecidableEq, Repr

/-- The fields of `MergeTreeData` that `run` reads or writes. -/
structure MergeTreeData where
  columns : NamesAndTypesList
  materialized_columns : NamesAndTypesList
  alias_columns : NamesAndTypesList
  column_defaults : ColumnDefaults
  primary_expr_ast : String
  data_parts : List DataPart
  deriving DecidableEq, Repr

/-- Result of `getColumnsListNonMaterialized()`. -/
def MergeTreeData.getColumnsListNonMaterialized (d : MergeTreeData) : NamesAndTypesList :=
  d.columns

/-- Modelled from the spec: `ITableDeclaration::getColumnsList` is not part of
the sources at hand; the spec calls its result "the full effective column list
(ordinary + materialized)". -/
def MergeTreeData.getColumnsList (d : MergeTreeData) : NamesAndTypesList :=
  d.columns ++ d.materialized_columns

/-- Result of `getDataParts()`: the current set of parts, in set order. -/
def MergeTreeData.getDataParts (d : MergeTreeData) : List DataPart :=
  d.data_parts

/-- Effect of `setColumnsList`. -/
def MergeTreeData.setColumnsList (d : MergeTreeData) (c : NamesAndTypesList) : MergeTreeData :=
  { d with columns := c }

/-- The fields of `StorageReplicatedMergeTree` that `run` reads or writes.
`part_check_queue` collects the names given to `enqueuePartForCheck`. -/
structure StorageReplicatedMergeTree where
  zookeeper_path : String
  replica_path : String
  columns_version : Int
  materialized_columns : NamesAndTypesList
  alias_columns : NamesAndTypesList
  column_defaults : ColumnDefaults
  data : MergeTreeData
  unreplicated_data : Option MergeTreeData
  unreplicated_merger : Bool
  part_check_queue : List String
  deriving DecidableEq, Repr

/-- A node of the coordination store. -/
structure ZNode where
  data : String
  version : Int
  deriving DecidableEq, Repr

/-- Modelled from the spec: the coordination store client (`zkutil::ZooKeeper`)
is not part of the sources at hand; the spec describes "hierarchical, versioned
key/value nodes" with get, set and an all-or-nothing multi-update.  The store
is the association list path ↦ node. -/
abbrev ZooKeeper := List (String × ZNode)

/-- The operation `zkutil::Op::SetData(path, data, version)`; version `-1`
means "whatever the current version is". -/
structure SetData where
  path : String
  data : String
  version : Int
  deriving DecidableEq, Repr

/-- The two data stores of a replicated table. -/
inductive Store where
  | data
  | unreplicated_data
  deriving DecidableEq, Repr

/-- Scoped objects of `run`; each is released by its destructor when the
enclosing block is left, normally or by an exception. -/
inductive Resource where
  | merge_blocker
  | unreplicated_merge_blocker
  | temporarily_stop_part_checks
  | table_lock_for_alter
  | table_lock
  deriving DecidableEq, Repr

/-- The calls and assignments made by `run`, with their arguments. -/
inductive Call where
  | getZooKeeper
  | get (path : String)
  | parse (s : String)
  | merger_cancel
  | unreplicated_merger_cancel
  | temporarilyStop
  | lockStructureForAlter
  | alterTable (d : ColumnsDescription)
  | setColumnsList (st : Store) (c : NamesAndTypesList)
  | assign_materialized_columns (c : NamesAndTypesList)
  | assign_alias_columns (c : NamesAndTypesList)
  | assign_column_defaults (c : ColumnDefaults)
  | initPrimaryKey (st : Store)
  | getDataParts (st : Store)
  | assign_columns_version (v : Int)
  | lockStructure
  | alterDataPart (st : Store) (part : String) (target : NamesAndTypesList)
  | multi (ops : List SetData)
  | enqueuePartForCheck (name : String)
  | commit (st : Store) (part : String)
  | set (path : String) (data : String)
  | assign_force_recheck_parts (b : Bool)
  | release (r : Resource)
  | wait
  | tryLogCurrentException
  | tryWait (ms : Nat)
  deriving DecidableEq, Repr

/-- One entry of the trace: the call returned, or `alterDataPart` returned the
given transaction (or none), or the call raised. -/
inductive Event where
  | ok (c : Call)
  | returned (c : Call) (t : Option AlterDataPartTransaction)
  | threw (c : Call) (e : Exc)
  deriving DecidableEq, Repr

/-- Everything a pass can read or write: the storage object, the coordination
store, the schema recorded by the database catalog, the local variable
`force_recheck_parts` of `run`, the flag `need_stop`, and the scoped objects
currently alive. -/
structure World where
  storage : StorageReplicatedMergeTree
  zookeeper : ZooKeeper
  catalog : ColumnsDescription
  force_recheck_parts : Bool
  need_stop : Bool
  held : List Resource
  deriving DecidableEq, Repr

/-- The behaviour of the collaborators during one pass.  `fault c` is the
exception raised by call `c`, if any; `parse` and `alterDataPart` give the
results of `ColumnsDescription<true>::parse` and `MergeTreeData::alterDataPart`
(called on the given store, for the given part, target column list and
primary key expression); `stop_after c` tells whether another thread sets
`need_stop` right after call `c`. -/
structure Env where
  fault : Call → Option Exc
  parse : String → Except Exc ColumnsDescription
  alterDataPart : Store → DataPart → NamesAndTypesList → String →
    Except Exc (Option AlterDataPartTransaction)
  stop_after : Call → Bool

/-! ## Coordination store -/

/-- Replace the data of the node at `path`, bumping its version. -/
def ZooKeeper.write : ZooKeeper → String → String → ZooKeeper
  | [], _, _ => []
  | (p, n) :: rest, path, data =>
    if p = path then (p, { data := data, version := n.version + 1 }) :: rest
    else (p, n) :: ZooKeeper.write rest path data

/-- Apply one `SetData`: the node must exist and, unless the requested
version is `-1`, have that version. -/
def ZooKeeper.applyOp (zk : ZooKeeper) (op : SetData) : Except Exc ZooKeeper :=
  match zk.lookup op.path with
  | none => .error (.KeeperException ZNONODE)
  | some n =>
    if op.version = -1 ∨ op.version = n.version then .ok (ZooKeeper.write zk op.path op.data)
    else .error (.KeeperException ZBADVERSION)

/-- Apply the operations in order on a working copy; the copy replaces the
store only if every operation succeeds. -/
def ZooKeeper.applyOps : ZooKeeper → List SetData → Except Exc ZooKeeper
  | zk, [] => .ok zk
  | zk, op :: ops =>
    match ZooKeeper.applyOp zk op with
    | .error e => .error e
    | .ok zk1 => ZooKeeper.applyOps zk1 ops

/-! ## The execution monad -/

/-- Result of running a piece of `run`: the events it produced, the world it
left, and its value or the exception that escaped it. -/
structure Run (α : Type) where
  trace : List Event
  world : World
  result : Except Exc α

/-- A piece of `run`: a function of the world it starts in. -/
def M (α : Type) : Type := World → Run α

/-- Sequencing: the second piece runs only if the first one did not raise. -/
def M.bind {α β : Type} (m : M α) (f : α → M β) : M β := fun w =>
  match m w with
  | ⟨t, w1, .error e⟩ => ⟨t, w1, .error e⟩
  | ⟨t, w1, .ok a⟩ => ⟨t ++ (f a w1).trace, (f a w1).world, (f a w1).result⟩

instance : Monad M where
  pure a := fun w => ⟨[], w, .ok a⟩
  bind := M.bind

/-- Read the world. -/
def getWorld : M World := fun w => ⟨[], w, .ok w⟩

/-- Change the world without any event. -/
def modifyWorld (f : World → World) : M Unit := fun w => ⟨[], f w, .ok ()⟩

/-- Raise an exception. -/
def raise {α : Type} (e : Exc) : M α := fun w => ⟨[], w, .error e⟩

/-- Record the stop request, if one arrives right after call `c`. -/
def World.noteStop (env : Env) (c : Call) (w : World) : World :=
  { w with need_stop := w.need_stop || env.stop_after c }

/-- A step that cannot raise (an assignment, a destructor, a wait). -/
def emit (env : Env) (c : Call) : M Unit := fun w =>
  ⟨[.ok c], w.noteStop env c, .ok ()⟩

/-- A call into a collaborator: it raises when the environment says so. -/
def call (env : Env) (c : Call) : M Unit := fun w =>
  match env.fault c with
  | some e => ⟨[.threw c e], w.noteStop env c, .error e⟩
  | none => ⟨[.ok c], w.noteStop env c, .ok ()⟩

/-- A call whose value is given by the environment. -/
def callResult {α : Type} (env : Env) (c : Call) (r : Except Exc α) : M α := fun w =>
  match env.fault c with
  | some e => ⟨[.threw c e], w.noteStop env c, .error e⟩
  | none =>
    match r with
    | .error e => ⟨[.threw c e], w.noteStop env c, .error e⟩
    | .ok a => ⟨[.ok c], w.noteStop env c, .ok a⟩

/-- Mark a scoped object as alive. -/
def acquire (r : Resource) : M Unit :=
  modifyWorld fun w => { w with held := r :: w.held }

/-- The scoped objects among `rs` that are alive in `w`. -/
def alive (rs : List Resource) (w : World) : List Resource :=
  rs.filter fun x => decide (x ∈ w.held)

/-- The events of the destructors that run when a block owning `rs` is left. -/
def releases (rs : List Resource) (w : World) : List Event :=
  (alive rs w).map fun x => Event.ok (.release x)

/-- The world after the destructors of a block owning `rs` have run. -/
def World.leave (env : Env) (rs : List Resource) (w : World) : World :=
  { ((alive rs w).foldl (fun v x => v.noteStop env (.release x)) w) with
      held := w.held.filter fun x => decide (x ∉ rs) }

/-- A C++ block: when it is left, normally or by an exception, the scoped
objects `rs` (listed in order of destruction) that are alive are released. -/
def scope {α : Type} (env : Env) (rs : List Resource) (body : M α) : M α := fun w =>
  ⟨(body w).trace ++ releases rs (body w).world, (body w).world.leave env rs, (body w).result⟩

/-- A try/catch around `body`: the handler runs when `body` raises (line
185-196 rethrows at the end of its handler). -/
def tryCatch {α : Type} (body : M α) (handler : Exc → M α) : M α := fun w =>
  match body w with
  | ⟨t, w1, .error e⟩ => ⟨t ++ (handler e w1).trace, (handler e w1).world, (handler e w1).result⟩
  | ⟨t, w1, .ok a⟩ => ⟨t, w1, .ok a⟩

/-! ## Calls into the coordination store and the data stores -/

/-- The call `zookeeper->get(path, &stat, wakeup_event)`: the data and the
version of the node; an absent node raises `ZNONODE`. -/
def zkGet (env : Env) (path : String) : M (String × Int) := do
  let w ← getWorld
  callResult env (.get path)
    (match w.zookeeper.lookup path with
     | none => .error (.KeeperException ZNONODE)
     | some n => .ok (n.data, n.version))

/-- The call `zookeeper->multi(ops)`: all operations are applied, or none. -/
def zkMulti (env : Env) (ops : List SetData) : M Unit := do
  let w ← getWorld
  let zk ← callResult env (.multi ops) (w.zookeeper.applyOps ops)
  modifyWorld fun v => { v with zookeeper := zk }

/-- The call `zookeeper->set(path, data)`, an unconditional `SetData`. -/
def zkSet (env : Env) (path data : String) : M Unit := do
  let w ← getWorld
  let zk ← callResult env (.set path data) (w.zookeeper.applyOp ⟨path, data, -1⟩)
  modifyWorld fun v => { v with zookeeper := zk }

/-- Modelled from the spec: `AlterDataPartTransaction::commit` is not part of
the sources at hand; by the spec it swaps the staged files for the live ones,
after which the part's metadata is the staged one. -/
def MergeTreeData.commit (d : MergeTreeData) (name : String) (t : AlterDataPartTransaction) :
    MergeTreeData :=
  { d with data_parts := d.data_parts.map fun p =>
      if p.name = name then { p with columns := t.new_columns, checksums := t.new_checksums_str }
      else p }

/-- The two operations of lines 179-183 for a part and its transaction. -/
def partOps (replica_path : String) (part : DataPart) (t : AlterDataPartTransaction) :
    List SetData :=
  [⟨replica_path ++ "/parts/" ++ part.name ++ "/columns", t.new_columns_str, -1⟩,
   ⟨replica_path ++ "/parts/" ++ part.name ++ "/checksums", t.new_checksums_str, -1⟩]

/-- The call `storage.enqueuePartForCheck(name)`. -/
def enqueuePartForCheck (env : Env) (name : String) : M Unit := do
  emit env (.enqueuePartForCheck name)
  modifyWorld fun v =>
    { v with storage := { v.storage with part_check_queue := v.storage.part_check_queue ++ [name] } }

/-- The call `alterDataPart(part, columns, primary_expr_ast, false)` on the
store `st`; the trace records what it returned. -/
def alterDataPart (env : Env) (st : Store) (part : DataPart)
    (columns : NamesAndTypesList) (primary_expr_ast : String) :
    M (Option AlterDataPartTransaction) := fun w =>
  let c := Call.alterDataPart st part.name columns
  match env.fault c with
  | some e => ⟨[.threw c e], w.noteStop env c, .error e⟩
  | none =>
    match env.alterDataPart st part columns primary_expr_ast with
    | .error e => ⟨[.threw c e], w.noteStop env c, .error e⟩
    | .ok t => ⟨[.returned c t], w.noteStop env c, .ok t⟩

/-- Lines 185-196: the multi-update and its handler, which enqueues the part
for a check when the code is `ZNONODE` and rethrows in every case. -/
def multiOrEnqueue (env : Env) (ops : List SetData) (name : String) : M Unit :=
  tryCatch (zkMulti env ops) fun e => do
    match e with
    | .KeeperException code =>
      if code = ZNONODE then enqueuePartForCheck env name else pure ()
    | .Exception _ => pure ()
    raise e

/-- The call `transaction->commit()` for a part of store `st`. -/
def commit (env : Env) (st : Store) (name : String) (t : AlterDataPartTransaction) : M Unit := do
  call env (.commit st name)
  modifyWorld fun v =>
    match st with
    | .data => { v with storage := { v.storage with data := v.storage.data.commit name t } }
    | .unreplicated_data => { v with storage := { v.storage with
        unreplicated_data := v.storage.unreplicated_data.map fun u => u.commit name t } }

/-! ## The body of `run` -/

/-- Lines 165-200: the loop over the parts of the primary store. -/
def alterParts (env : Env) (columns_plus_materialized : NamesAndTypesList) :
    List DataPart → M Unit
  | [] => pure ()
  | part :: rest => do
    let w ← getWorld
    let transaction ← alterDataPart env .data part columns_plus_materialized
      w.storage.data.primary_expr_ast
    match transaction with
    | none => alterParts env columns_plus_materialized rest
    | some t => do
      multiOrEnqueue env (partOps w.storage.replica_path part t) part.name
      commit env .data part.name t
      alterParts env columns_plus_materialized rest

/-- Lines 207-218: the loop over the parts of the non-replicated store. -/
def alterUnreplicatedParts (env : Env) (columns_plus_materialized : NamesAndTypesList) :
    List DataPart → M Unit
  | [] => pure ()
  | part :: rest => do
    let w ← getWorld
    let transaction ← alterDataPart env .unreplicated_data part columns_plus_materialized
      w.storage.data.primary_expr_ast
    match transaction with
    | none => alterUnreplicatedParts env columns_plus_materialized rest
    | some t => do
      commit env .unreplicated_data part.name t
      alterUnreplicatedParts env columns_plus_materialized rest

/-- Lines 106-112: assign the ordinary columns of both stores. -/
def assignColumns (env : Env) (columns : NamesAndTypesList) : M Unit := do
  emit env (.setColumnsList .data columns)
  modifyWorld fun v => { v with storage := { v.storage with
    data := v.storage.data.setColumnsList columns } }
  let w ← getWorld
  if w.storage.unreplicated_data.isSome then
    emit env (.setColumnsList .unreplicated_data columns)
    modifyWorld fun v => { v with storage := { v.storage with
      unreplicated_data := v.storage.unreplicated_data.map fun u => u.setColumnsList columns } }

/-- Lines 114-118: assign the materialized columns of the table and of the
primary store. -/
def assignMaterialized (env : Env) (materialized_columns : NamesAndTypesList) : M Unit := do
  emit env (.assign_materialized_columns materialized_columns)
  modifyWorld fun v => { v with storage := { v.storage with
    materialized_columns := materialized_columns
    data := { v.storage.data with materialized_columns := materialized_columns } } }

/-- Lines 120-124: assign the alias columns of the table and of the primary
store. -/
def assignAlias (env : Env) (alias_columns : NamesAndTypesList) : M Unit := do
  emit env (.assign_alias_columns alias_columns)
  modifyWorld fun v => { v with storage := { v.storage with
    alias_columns := alias_columns
    data := { v.storage.data with alias_columns := alias_columns } } }

/-- Lines 126-130: assign the column defaults of the table and of the
primary store. -/
def assignDefaults (env : Env) (column_defaults : ColumnDefaults) : M Unit := do
  emit env (.assign_column_defaults column_defaults)
  modifyWorld fun v => { v with storage := { v.storage with
    column_defaults := column_defaults
    data := { v.storage.data with column_defaults := column_defaults } } }

/-- Lines 132-135: initialise the primary key of both stores again. -/
def initPrimaryKeys (env : Env) : M Unit := do
  call env (.initPrimaryKey .data)
  let w ← getWorld
  if w.storage.unreplicated_data.isSome then
    call env (.initPrimaryKey .unreplicated_data)

/-- Lines 92-142: under the exclusive lock, compare the four components with
the ones in memory and, if one differs, alter the table in the catalog and
assign the components that differ.  The last argument of `alterTable` (an
empty engine modifier) is left out. -/
def applyChanges (env : Env) (columns_desc : ColumnsDescription) : M Unit := do
  let w ← getWorld
  let columns_changed :=
    decide (columns_desc.columns ≠ w.storage.data.getColumnsListNonMaterialized)
  let materialized_columns_changed :=
    decide (columns_desc.materialized ≠ w.storage.data.materialized_columns)
  let alias_columns_changed := decide (columns_desc.alias_ ≠ w.storage.data.alias_columns)
  let column_defaults_changed :=
    decide (columns_desc.defaults ≠ w.storage.data.column_defaults)
  if columns_changed || materialized_columns_changed || alias_columns_changed ||
      column_defaults_changed then
    call env (.alterTable columns_desc)
    modifyWorld fun v => { v with catalog := columns_desc }
    (if columns_changed then assignColumns env columns_desc.columns else pure ())
    (if materialized_columns_changed then assignMaterialized env columns_desc.materialized
      else pure ())
    (if alias_columns_changed then assignAlias env columns_desc.alias_ else pure ())
    (if column_defaults_changed then assignDefaults env columns_desc.defaults else pure ())
    initPrimaryKeys env

/-- Lines 144-147: take the list of parts and record the version, still
under the exclusive lock. -/
def snapshotAndSetVersion (env : Env) (version : Int) : M (List DataPart) := do
  emit env (.getDataParts .data)
  let w ← getWorld
  let parts := w.storage.data.getDataParts
  emit env (.assign_columns_version version)
  modifyWorld fun v => { v with storage := { v.storage with columns_version := version } }
  pure parts

/-- Lines 83-148: the update of the table structure, under the exclusive
lock.  Returns the list of parts taken at line 145. -/
def structuralUpdate (env : Env) (columns_desc : ColumnsDescription) (version : Int) :
    M (List DataPart) :=
  scope env [.table_lock_for_alter, .temporarily_stop_part_checks] do
    emit env .temporarilyStop
    acquire .temporarily_stop_part_checks
    call env .lockStructureForAlter
    acquire .table_lock_for_alter
    applyChanges env columns_desc
    snapshotAndSetVersion env version

/-- Lines 203-219: the same for the non-replicated store, if there is one. -/
def alterUnreplicated (env : Env) (columns_plus_materialized : NamesAndTypesList) : M Unit := do
  let w ← getWorld
  match w.storage.unreplicated_data with
  | none => pure ()
  | some u =>
    emit env (.getDataParts .unreplicated_data)
    alterUnreplicatedParts env columns_plus_materialized u.getDataParts

/-- Lines 221-232: publish the replica's columns node and clear the flag. -/
def publishColumns (env : Env) (columns_str : String) : M Unit := do
  let w ← getWorld
  zkSet env (w.storage.replica_path ++ "/columns") columns_str
  emit env (.assign_force_recheck_parts false)
  modifyWorld fun v => { v with force_recheck_parts := false }

/-- Lines 160-161: the list of parts the loop runs over. -/
def partsToAlter (env : Env) (changed_version : Bool) (parts : List DataPart) :
    M (List DataPart) := do
  if !changed_version then
    emit env (.getDataParts .data)
    let w ← getWorld
    pure w.storage.data.getDataParts
  else pure parts

/-- Lines 151-233: the update of the parts, under the shared lock.  `parts`
is the value of the local variable `parts` when the block is entered. -/
def updateParts (env : Env) (columns_str : String) (changed_version : Bool)
    (parts : List DataPart) : M Unit :=
  scope env [.table_lock] do
    call env .lockStructure
    acquire .table_lock
    let parts ← partsToAlter env changed_version parts
    let w ← getWorld
    let columns_plus_materialized := w.storage.data.getColumnsList
    alterParts env columns_plus_materialized parts
    alterUnreplicated env columns_plus_materialized
    publishColumns env columns_str

/-- Lines 73-78: suspend the merges if the parts are going to be looked at. -/
def cancelMerges (env : Env) (changed_version : Bool) : M Unit := do
  let w ← getWorld
  if changed_version || w.force_recheck_parts then
    emit env .merger_cancel
    acquire .merge_blocker
    if w.storage.unreplicated_merger then
      emit env .unreplicated_merger_cancel
      acquire .unreplicated_merge_blocker

/-- Lines 68-236: the block that owns the merge blockers. -/
def underBlockers (env : Env) (columns_str : String) (columns_desc : ColumnsDescription)
    (version : Int) (changed_version : Bool) : M Unit :=
  scope env [.unreplicated_merge_blocker, .merge_blocker] do
    let w ← getWorld
    cancelMerges env changed_version
    let parts ← (if changed_version then structuralUpdate env columns_desc version else pure [])
    if changed_version || w.force_recheck_parts then
      updateParts env columns_str changed_version parts

/-- Lines 55-64: fetch the shared columns node and parse it. -/
def fetch (env : Env) : M (String × Int × ColumnsDescription) := do
  call env .getZooKeeper
  let w ← getWorld
  let (columns_str, version) ← zkGet env (w.storage.zookeeper_path ++ "/columns")
  let columns_desc ← callResult env (.parse columns_str) (env.parse columns_str)
  pure (columns_str, version, columns_desc)

/-- Lines 55-238: the body of the `try` block, one reconciliation pass. -/
def reconcile (env : Env) : M Unit := do
  let (columns_str, version, columns_desc) ← fetch env
  let w ← getWorld
  let changed_version := decide (version ≠ w.storage.columns_version)
  underBlockers env columns_str columns_desc version changed_version
  emit env .wait

/-- Lines 30-247: one turn of the loop, the `try` block and its
`catch (...)`.  The value is the exception that was caught, if any. -/
def iteration (env : Env) : M (Option Exc) :=
  tryCatch (do reconcile env; pure none) fun e => do
    emit env .tryLogCurrentException
    emit env (.assign_force_recheck_parts true)
    modifyWorld fun v => { v with force_recheck_parts := true }
    emit env (.tryWait ALTER_ERROR_SLEEP_MS)
    pure (some e)

/-- Lines 28-248: the loop `while (!need_stop)`, given the behaviour of the
collaborators in each of the coming turns.  The value is `true` when the loop
was left because `need_stop` was set, `false` when the given turns are used up
and the loop would go on. -/
def loop : List Env → M Bool
  | [] => do
    let w ← getWorld
    pure w.need_stop
  | env :: envs => do
    let w ← getWorld
    if w.need_stop then pure true
    else do
      let _ ← iteration env
      loop envs

/-- Lines 22-251: `run`, which starts with `force_recheck_parts = true`. -/
def run (envs : List Env) : M Bool := do
  modifyWorld fun v => { v with force_recheck_parts := true }
  loop envs

/-! ## Properties of runs -/

/-- The exception that escaped the run, if any. -/
def Run.exc {α : Type} (r : Run α) : Option Exc :=
  match r.result with
  | .ok _ => none
  | .error e => some e

/-- The call an event belongs to. -/
def Event.call : Event → Call
  | .ok c => c
  | .returned c _ => c
  | .threw c _ => c

/-- Whether the event is a call that raised. -/
def Event.isThrew : Event → Bool
  | .threw _ _ => true
  | _ => false

/-- Relations between the world before a piece of `run`, the world after it,
its trace and the exception that escaped it, if any. -/
abbrev Rel : Type := World → World → List Event → Option Exc → Prop

/-- A relation is closed when it holds of the empty piece and of the
sequence of two pieces. -/
structure Closed (R : Rel) : Prop where
  refl : ∀ w, R w w [] none
  seq : ∀ w w1 w2 t1 t2 x, R w w1 t1 none → R w1 w2 t2 x → R w w2 (t1 ++ t2) x

/-- The relation is kept when a block owning `rs` is left. -/
def Leaves (env : Env) (rs : List Resource) (R : Rel) : Prop :=
  ∀ w w1 t x, R w w1 t x → R w (w1.leave env rs) (t ++ releases rs w1) x

/-- The piece `m` satisfies the relation `R` from every world. -/
def Holds {α : Type} (R : Rel) (m : M α) : Prop :=
  ∀ w, R w (m w).world (m w).trace (m w).exc

/-- Whether the event is one that may follow a raised exception inside the
`try` block: a destructor, or the call of the handler of lines 189-196. -/
def Event.isCleanup : Event → Bool
  | .ok (.release _) => true
  | .ok (.enqueuePartForCheck _) => true
  | _ => false

/-- The trace of a piece that returned holds no raising call; the trace of a
piece that raised `e` holds exactly one, which raised `e`, followed by
destructors and handler calls only. -/
def RaisedLast : Rel := fun _ _ t x =>
  match x with
  | none => ∀ ev ∈ t, ev.isThrew = false
  | some e => ∃ pre c post, t = pre ++ Event.threw c e :: post ∧
      (∀ ev ∈ pre, ev.isThrew = false) ∧ (∀ ev ∈ post, ev.isCleanup = true)

/-- The events of the handler of lines 189-196 for the exception `e` raised
by the multi-update of the part `name`. -/
def handlerEvents (e : Exc) (name : String) : List Event :=
  if e = .KeeperException ZNONODE then [.ok (.enqueuePartForCheck name)] else []

/-- The shapes of the trace of the loop over the primary parts: for each part
in turn, `alterDataPart` raises (and the loop ends), or returns nothing (and
the loop goes on), or returns a transaction, after which the multi-update
raises (the handler runs and the loop ends) or returns, after which `commit`
raises (and the loop ends) or returns (and the loop goes on). -/
inductive PartsTrace (rp : String) (cols : NamesAndTypesList) :
    List DataPart → List Event → Option Exc → Prop where
  | done : PartsTrace rp cols [] [] none
  | alter_threw (p : DataPart) (ps : List DataPart) (e : Exc) :
      PartsTrace rp cols (p :: ps) [.threw (.alterDataPart .data p.name cols) e] (some e)
  | skip (p : DataPart) (ps : List DataPart) (tr : List Event) (x : Option Exc) :
      PartsTrace rp cols ps tr x →
      PartsTrace rp cols (p :: ps) (.returned (.alterDataPart .data p.name cols) none :: tr) x
  | multi_threw (p : DataPart) (ps : List DataPart) (t : AlterDataPartTransaction) (e : Exc) :
      PartsTrace rp cols (p :: ps)
        (.returned (.alterDataPart .data p.name cols) (some t) ::
          .threw (.multi (partOps rp p t)) e :: handlerEvents e p.name) (some e)
  | commit_threw (p : DataPart) (ps : List DataPart) (t : AlterDataPartTransaction) (e : Exc) :
      PartsTrace rp cols (p :: ps)
        [.returned (.alterDataPart .data p.name cols) (some t),
          .ok (.multi (partOps rp p t)), .threw (.commit .data p.name) e] (some e)
  | step (p : DataPart) (ps : List DataPart) (t : AlterDataPartTransaction)
      (tr : List Event) (x : Option Exc) :
      PartsTrace rp cols ps tr x →
      PartsTrace rp cols (p :: ps)
        (.returned (.alterDataPart .data p.name cols) (some t) ::
          .ok (.multi (partOps rp p t)) :: .ok (.commit .data p.name) :: tr) x

/-- Calls of the loop over the parts of the primary store (lines 165-200). -/
def Call.isPartCall : Call → Bool
  | .alterDataPart .data _ _ => true
  | .multi _ => true
  | .enqueuePartForCheck _ => true
  | .commit .data _ => true
  | _ => false

/-- Calls that occur only before the loop over the primary parts, and the
destructors of the block of the structural update. -/
def Call.isEarly : Call → Bool
  | .getZooKeeper => true
  | .get _ => true
  | .parse _ => true
  | .merger_cancel => true
  | .unreplicated_merger_cancel => true
  | .temporarilyStop => true
  | .lockStructureForAlter => true
  | .alterTable _ => true
  | .setColumnsList _ _ => true
  | .assign_materialized_columns _ => true
  | .assign_alias_columns _ => true
  | .assign_column_defaults _ => true
  | .initPrimaryKey _ => true
  | .getDataParts .data => true
  | .assign_columns_version _ => true
  | .lockStructure => true
  | .release .table_lock_for_alter => true
  | .release .temporarily_stop_part_checks => true
  | _ => false

/-- Calls that occur only after the loop over the primary parts, and the
destructors. -/
def Call.isLate : Call → Bool
  | .getDataParts .unreplicated_data => true
  | .alterDataPart .unreplicated_data _ _ => true
  | .commit .unreplicated_data _ => true
  | .set _ _ => true
  | .assign_force_recheck_parts _ => true
  | .release _ => true
  | .wait => true
  | .tryLogCurrentException => true
  | .tryWait _ => true
  | _ => false

/-- Events of the way out after an exception: destructors and the `catch`
block of lines 240-247. -/
def Event.isUnwind : Event → Bool
  | .ok (.release _) => true
  | .ok .tryLogCurrentException => true
  | .ok (.assign_force_recheck_parts true) => true
  | .ok (.tryWait _) => true
  | _ => false

/-- Calls that occur before the shared lock is taken. -/
def Call.isSetup (c : Call) : Bool :=
  c.isEarly && decide (c ≠ .lockStructure)

/-- The shape of the trace of a pass: calls made before the loop over the
primary parts, then the trace of that loop over `ps`, then calls made after
it.  When the loop raised, what follows it is the way out only.  The loop
runs over the list `parts` once the shared lock has been taken. -/
def Spine (rp : String) (parts : List DataPart) (t : List Event) (exc : Option Exc) : Prop :=
  ∃ A PA B cols ps x, t = A ++ PA ++ B ∧ PartsTrace rp cols ps PA x ∧
    (∀ ev ∈ A, ev.call.isEarly = true) ∧ (∀ ev ∈ B, ev.call.isLate = true) ∧
    (x ≠ none → exc = x ∧ ∀ ev ∈ B, ev.isUnwind = true) ∧
    (ps = [] ∨ ps = parts) ∧ (Event.ok .lockStructure ∈ A → ps = parts)

/-- Every event of the trace satisfies `P`. -/
def All (P : Event → Bool) : Rel := fun _ _ t _ => ∀ ev ∈ t, P ev = true

/-- What the structural update leaves alone: the paths, the parts of the
primary store and its primary key expression, the part check queue, the
coordination store and `force_recheck_parts`. -/
def World.stable (w : World) :
    String × String × List DataPart × String × Bool × List String × ZooKeeper × Bool :=
  (w.storage.zookeeper_path, w.storage.replica_path, w.storage.data.data_parts,
    w.storage.data.primary_expr_ast, w.storage.unreplicated_merger,
    w.storage.part_check_queue, w.zookeeper, w.force_recheck_parts)

/-- The piece leaves the part `g` of the world as it was. -/
def Keeps {β : Type} (g : World → β) : Rel := fun w w1 _ _ => g w1 = g w

/-! ## A concrete table

The scenario of the spec: the table has schema `{id, name}` at version 5 and
the parts `P1` and `P2`; the shared columns node holds version 6, which adds
the column `age`.  In `Example.zookeeper` the node of `P2` was deleted. -/

namespace Example

/-- The schema at version 5. -/
def schema5 : ColumnsDescription := ⟨[("id", "Int32"), ("name", "String")], [], [], []⟩

/-- The schema at version 6. -/
def schema6 : ColumnsDescription :=
  ⟨[("id", "Int32"), ("name", "String"), ("age", "Int32")], [], [], [("age", "0")]⟩

/-- The first part. -/
def P1 : DataPart := ⟨"P1", schema5.columns, "sum1"⟩

/-- The second part. -/
def P2 : DataPart := ⟨"P2", schema5.columns, "sum2"⟩

/-- The storage object, at version 5. -/
def storage : StorageReplicatedMergeTree :=
  { zookeeper_path := "/t", replica_path := "/t/replicas/r1", columns_version := 5,
    materialized_columns := [], alias_columns := [], column_defaults := [],
    data := ⟨schema5.columns, [], [], [], "id", [P1, P2]⟩,
    unreplicated_data := none, unreplicated_merger := false, part_check_queue := [] }

/-- The coordination store, in which the columns node of `P2` is absent. -/
def zookeeper : ZooKeeper :=
  [("/t/columns", ⟨"v6", 6⟩), ("/t/replicas/r1/columns", ⟨"v5", 0⟩),
   ("/t/replicas/r1/parts/P1/columns", ⟨"c1", 0⟩),
   ("/t/replicas/r1/parts/P1/checksums", ⟨"sum1", 0⟩),
   ("/t/replicas/r1/parts/P2/checksums", ⟨"sum2", 0⟩)]

/-- The world when the worker starts. -/
def world : World := ⟨storage, zookeeper, schema5, true, false, []⟩

/-- Collaborators that never fail by themselves: the blobs `v5` and `v6`
parse to the two schemas, and a part needs a transaction when its columns are
not the target columns. -/
def env : Env :=
  { fault := fun _ => none
    parse := fun s =>
      if s = "v6" then .ok schema6 else if s = "v5" then .ok schema5
      else .error (.Exception "cannot parse")
    alterDataPart := fun _ p target _ =>
      if p.columns = target then .ok none else .ok (some ⟨target, "cols", "sums"⟩)
    stop_after := fun _ => false }

/-- The transaction that `env` returns for a part that is to get the columns
of version 6. -/
def transaction6 : AlterDataPartTransaction := ⟨schema6.columns, "cols", "sums"⟩

/-- The coordination store with the nodes of both parts. -/
def zookeeperFull : ZooKeeper :=
  [("/t/columns", ⟨"v6", 6⟩), ("/t/replicas/r1/columns", ⟨"v5", 0⟩),
   ("/t/replicas/r1/parts/P1/columns", ⟨"c1", 0⟩),
   ("/t/replicas/r1/parts/P1/checksums", ⟨"sum1", 0⟩),
   ("/t/replicas/r1/parts/P2/columns", ⟨"c2", 0⟩),
   ("/t/replicas/r1/parts/P2/checksums", ⟨"sum2", 0⟩)]

/-- The world when the worker starts, no node missing. -/
def worldFull : World := ⟨storage, zookeeperFull, schema5, true, false, []⟩

/-- Collaborators as in `env`, except that setting the replica's columns node
fails with a connection loss. -/
def envSetFails : Env :=
  { env with fault := fun c =>
      match c with
      | .set _ _ => some (.KeeperException (-4))
      | _ => none }

end Example

/-- What the update of the parts leaves alone: the recorded version, the
paths, the schema in memory (of the table and of both stores), the primary
key expression and the schema in the catalog. -/
def World.schema (w : World) :
    Int × String × String × NamesAndTypesList × NamesAndTypesList × NamesAndTypesList ×
      ColumnDefaults × String × NamesAndTypesList × NamesAndTypesList × ColumnDefaults ×
      ColumnsDescription × Bool × Bool :=
  (w.storage.columns_version, w.storage.zookeeper_path, w.storage.replica_path,
    w.storage.data.columns, w.storage.data.materialized_columns, w.storage.data.alias_columns,
    w.storage.data.column_defaults, w.storage.data.primary_expr_ast,
    w.storage.materialized_columns, w.storage.alias_columns, w.storage.column_defaults,
    w.catalog, w.storage.unreplicated_merger, w.storage.unreplicated_data.isSome)

/-- Calls of the structural update (lines 83-148) that occur nowhere else in
a pass, and the destructors of its block. -/
def Call.isStructural : Call → Bool
  | .temporarilyStop => true
  | .lockStructureForAlter => true
  | .alterTable _ => true
  | .setColumnsList _ _ => true
  | .assign_materialized_columns _ => true
  | .assign_alias_columns _ => true
  | .assign_column_defaults _ => true
  | .initPrimaryKey _ => true
  | .assign_columns_version _ => true
  | .release .table_lock_for_alter => true
  | .release .temporarily_stop_part_checks => true
  | _ => false

/-- The structural events of a trace, in order. -/
def structural (t : List Event) : List Event :=
  t.filter fun ev => ev.call.isStructural

/-- The assignments of lines 106-130 for the components that differ. -/
def assignEvents (d : ColumnsDescription) (w : World) : List Event :=
  (if d.columns ≠ w.storage.data.columns then
    Event.ok (.setColumnsList .data d.columns) ::
      (if w.storage.unreplicated_data.isSome then
        [Event.ok (.setColumnsList .unreplicated_data d.columns)] else [])
   else []) ++
  ((if d.materialized ≠ w.storage.data.materialized_columns then
    [Event.ok (.assign_materialized_columns d.materialized)] else []) ++
  ((if d.alias_ ≠ w.storage.data.alias_columns then
    [Event.ok (.assign_alias_columns d.alias_)] else []) ++
  (if d.defaults ≠ w.storage.data.column_defaults then
    [Event.ok (.assign_column_defaults d.defaults)] else [])))

/-- Whether one of the four components differs from the one in memory
(lines 92-98). -/
def differs (d : ColumnsDescription) (w : World) : Bool :=
  decide (d.columns ≠ w.storage.data.getColumnsListNonMaterialized) ||
    decide (d.materialized ≠ w.storage.data.materialized_columns) ||
    decide (d.alias_ ≠ w.storage.data.alias_columns) ||
    decide (d.defaults ≠ w.storage.data.column_defaults)

/-- The storage object after the assignments of lines 106-130. -/
def assigned (d : ColumnsDescription) (s : StorageReplicatedMergeTree) :
    StorageReplicatedMergeTree :=
  { s with
    materialized_columns :=
      if d.materialized ≠ s.data.materialized_columns then d.materialized
      else s.materialized_columns
    alias_columns := if d.alias_ ≠ s.data.alias_columns then d.alias_ else s.alias_columns
    column_defaults :=
      if d.defaults ≠ s.data.column_defaults then d.defaults else s.column_defaults
    data := { s.data with
      columns := d.columns
      materialized_columns := d.materialized
      alias_columns := d.alias_
      column_defaults := d.defaults }
    unreplicated_data :=
      if d.columns ≠ s.data.columns then s.unreplicated_data.map fun u => u.setColumnsList d.columns
      else s.unreplicated_data }


/-- The world in which the comparison of lines 92-95 is made, when the
structural update starts in `w`. -/
def World.locked (env : Env) (w : World) : World :=
  { ((({ (w.noteStop env .temporarilyStop) with
        held := .temporarily_stop_part_checks :: w.held } : World).noteStop env
          .lockStructureForAlter)) with
    held := .table_lock_for_alter :: .temporarily_stop_part_checks :: w.held }

/-- The schema in memory and in the catalog without the recorded version:
everything of `World.schema` but `columns_version`. -/
def World.layout (w : World) :
    String × String × NamesAndTypesList × NamesAndTypesList × NamesAndTypesList ×
      ColumnDefaults × String × NamesAndTypesList × NamesAndTypesList × ColumnDefaults ×
      ColumnsDescription × Bool × Bool :=
  w.schema.2

namespace Example

/-- A part that an earlier, unfinished ALTER left with the column `id` only. -/
def P3 : DataPart := ⟨"P3", [("id", "Int32")], "sum3"⟩

/-- The coordination store after a cycle of ALTERs: the shared columns node is
at version 7 and holds the blob of version 5 again. -/
def zookeeperCyclic : ZooKeeper :=
  [("/t/columns", ⟨"v5", 7⟩), ("/t/replicas/r1/columns", ⟨"v5", 0⟩),
   ("/t/replicas/r1/parts/P1/columns", ⟨"c1", 0⟩),
   ("/t/replicas/r1/parts/P1/checksums", ⟨"sum1", 0⟩),
   ("/t/replicas/r1/parts/P2/columns", ⟨"c2", 0⟩),
   ("/t/replicas/r1/parts/P2/checksums", ⟨"sum2", 0⟩),
   ("/t/replicas/r1/parts/P3/columns", ⟨"c3", 0⟩),
   ("/t/replicas/r1/parts/P3/checksums", ⟨"sum3", 0⟩)]

/-- The table at version 5 facing the cycle, every part in the current layout,
no recheck pending. -/
def worldCyclic : World := ⟨storage, zookeeperCyclic, schema5, false, false, []⟩

/-- The same, with the stale part `P3` in place of `P2`. -/
def worldCyclicStale : World :=
  ⟨{ storage with data := { storage.data with data_parts := [P1, P3] } }, zookeeperCyclic,
    schema5, false, false, []⟩

end Example

/-- Whether the event is a transaction returned for a part of the
non-replicated store. -/
def Event.isUnreplicatedTransaction : Event → Bool
  | .returned (.alterDataPart .unreplicated_data _ _) (some _) => true
  | _ => false

/-- In the trace, every transaction returned for a part of the non-replicated
store is followed at once by the call of its `commit`. -/
def CommitsAtOnce (t : List Event) : Prop :=
  ∀ pre post n c tr,
    t = pre ++ Event.returned (.alterDataPart .unreplicated_data n c) (some tr) :: post →
    ∃ ev post1, post = ev :: post1 ∧ ev.call = .commit .unreplicated_data n

/-- The relation on runs saying that the trace satisfies `CommitsAtOnce`. -/
def CommitsAtOnceRel : Rel := fun _ _ t _ => CommitsAtOnce t

namespace Example

/-- A part of the non-replicated store. -/
def U1 : DataPart := ⟨"U1", schema5.columns, "sumU"⟩

/-- The table with the part `P1` in the replicated store and the part `U1` in
a non-replicated store. -/
def storageUnreplicated : StorageReplicatedMergeTree :=
  { storage with
    data := { storage.data with data_parts := [P1] }
    unreplicated_data := some ⟨schema5.columns, [], [], [], "id", [U1]⟩
    unreplicated_merger := true }

/-- The world when the worker starts on that table. -/
def worldUnreplicated : World := ⟨storageUnreplicated, zookeeperFull, schema5, true, false, []⟩

end Example

/-- The assignments of a component of the schema in memory (lines 106-130). -/
def Call.isAssignment : Call → Bool
  | .setColumnsList _ _ => true
  | .assign_materialized_columns _ => true
  | .assign_alias_columns _ => true
  | .assign_column_defaults _ => true
  | _ => false

namespace Example

/-- Collaborators as in `env`, except that `alterTable` raises. -/
def envAlterFails : Env :=
  { env with fault := fun c =>
      match c with
      | .alterTable _ => some (.Exception "cannot alter")
      | _ => none }

end Example

/-- A stop request leaves its mark: `need_stop` stays set once it is set, and
it is set at the end of the piece when a stop request arrived right after one
of its calls. -/
def StopSeen (env : Env) : Rel := fun w w1 t _ =>
  (w.need_stop = true → w1.need_stop = true) ∧
    ∀ ev ∈ t, env.stop_after ev.call = true → w1.need_stop = true

namespace Example

/-- Collaborators as in `env`, with a stop request arriving right after the
`commit` of `P1`. -/
def envStop : Env :=
  { env with stop_after := fun c => decide (c = .commit .data "P1") }

end Example

/-- The scoped objects alive after an event, given those alive before it: a
call that returned a blocker or a lock brings it to life, a destructor ends
it. -/
def heldStep (h : List Resource) : Event → List Resource
  | .ok (.release r) => h.filter fun x => decide (x ≠ r)
  | .ok .merger_cancel => .merge_blocker :: h
  | .ok .unreplicated_merger_cancel => .unreplicated_merge_blocker :: h
  | .ok .temporarilyStop => .temporarily_stop_part_checks :: h
  | .ok .lockStructureForAlter => .table_lock_for_alter :: h
  | .ok .lockStructure => .table_lock :: h
  | _ => h

/-- The scoped objects alive after the events of `t`, given those alive
before. -/
def heldAfter (h : List Resource) (t : List Event) : List Resource :=
  t.foldl heldStep h

/-- Whether the event brings a scoped object to life or ends one. -/
def Event.moves : Event → Bool
  | .ok (.release _) => true
  | .ok .merger_cancel => true
  | .ok .unreplicated_merger_cancel => true
  | .ok .temporarilyStop => true
  | .ok .lockStructureForAlter => true
  | .ok .lockStructure => true
  | _ => false

/-- The merge blockers. -/
def Resource.isBlocker : Resource → Bool
  | .merge_blocker => true
  | .unreplicated_merge_blocker => true
  | _ => false

/-- The scoped objects alive in the world follow the trace, and whatever is
alive at some point of the piece was alive when it started or is one of `A`. -/
def Adds (A : List Resource) : Rel := fun w w1 t _ =>
  w1.held = heldAfter w.held t ∧
  ∀ pre post, t = pre ++ post → ∀ r ∈ heldAfter w.held pre, r ∈ w.held ∨ r ∈ A

/-- Started with merge blockers alive at most, the piece ends so, the scoped
objects alive in the world follow its trace, and at no point of it are the
exclusive and the shared structural lock both alive. -/
def Orderly : Rel := fun w w1 t _ =>
  (∀ r ∈ w.held, r.isBlocker = true) →
    w1.held = heldAfter w.held t ∧ (∀ r ∈ w1.held, r.isBlocker = true) ∧
    ∀ pre post, t = pre ++ post →
      ¬(Resource.table_lock_for_alter ∈ heldAfter w.held pre ∧
        Resource.table_lock ∈ heldAfter w.held pre)

/-- The part of a pass a call belongs to: 0 for the fetch (lines 55-59), 1 for
the suspension of the merges (lines 75-77), 2 for the structural update (lines
86-147) and the destructors of its block, 3 for `getDataParts` of the primary
store (lines 145 and 161), 4 for the update of the parts (lines 153-232) and
the destructor of its lock, 5 for the destructors of the merge blockers, 6 for
the waits and the `catch` block. -/
def Call.stage : Call → Nat
  | .getZooKeeper => 0
  | .get _ => 0
  | .parse _ => 0
  | .merger_cancel => 1
  | .unreplicated_merger_cancel => 1
  | .temporarilyStop => 2
  | .lockStructureForAlter => 2
  | .alterTable _ => 2
  | .setColumnsList _ _ => 2
  | .assign_materialized_columns _ => 2
  | .assign_alias_columns _ => 2
  | .assign_column_defaults _ => 2
  | .initPrimaryKey _ => 2
  | .assign_columns_version _ => 2
  | .release .table_lock_for_alter => 2
  | .release .temporarily_stop_part_checks => 2
  | .getDataParts .data => 3
  | .lockStructure => 4
  | .getDataParts .unreplicated_data => 4
  | .alterDataPart _ _ _ => 4
  | .multi _ => 4
  | .enqueuePartForCheck _ => 4
  | .commit _ _ => 4
  | .set _ _ => 4
  | .assign_force_recheck_parts false => 4
  | .release .table_lock => 4
  | .release .merge_blocker => 5
  | .release .unreplicated_merge_blocker => 5
  | .wait => 6
  | .tryLogCurrentException => 6
  | .assign_force_recheck_parts true => 6
  | .tryWait _ => 6

/-- Whether the event belongs to the update of the parts and, if it is a call
of `alterDataPart`, has the target column list `cols`. -/
def Event.updates (cols : NamesAndTypesList) (ev : Event) : Bool :=
  ev.call.stage == 4 &&
    match ev.call with
    | .alterDataPart _ _ c => decide (c = cols)
    | _ => true

/-- Whether the event belongs to the structural update, or is the reading of
the parts of the primary store, and neither brings a scoped object to life nor
ends one. -/
def Event.isQuiet (ev : Event) : Bool :=
  !ev.moves && (ev.call.stage == 2 || ev.call.stage == 3)

/-- The events of the `catch` block (lines 242-246). -/
def catchEvents : List Event :=
  [.ok .tryLogCurrentException, .ok (.assign_force_recheck_parts true),
    .ok (.tryWait ALTER_ERROR_SLEEP_MS)]

namespace Example

/-- The table at version 5 with the shared columns node at version 5 too, and
a recheck of the parts pending. -/
def worldRecheck : World :=
  ⟨storage, [("/t/columns", ⟨"v5", 5⟩), ("/t/replicas/r1/columns", ⟨"v5", 0⟩),
    ("/t/replicas/r1/parts/P1/columns", ⟨"c1", 0⟩),
    ("/t/replicas/r1/parts/P1/checksums", ⟨"sum1", 0⟩),
    ("/t/replicas/r1/parts/P2/columns", ⟨"c2", 0⟩),
    ("/t/replicas/r1/parts/P2/checksums", ⟨"sum2", 0⟩)], schema5, true, false, []⟩

end Example

/-- The events of a re-initialisation of the primary keys that returned
(lines 133-135): the one of the primary store and, if there is a
non-replicated store, the one of that store. -/
def initEvents (w : World) : List Event :=
  Event.ok (.initPrimaryKey .data) ::
    (if w.storage.unreplicated_data.isSome then [Event.ok (.initPrimaryKey .unreplicated_data)]
     else [])

end DB

/-! ## String references (`dbms/src/Core/StringRef.h`) -/

/-- A byte: a `char` read as `unsigned char`. -/
abbrev Byte := Fin 256

/-- A `const char *`: the byte at each offset from the pointer. -/
abbrev CharPtr := Nat → Byte

/-- Pointer arithmetic `p + k`. -/
def CharPtr.add (p : CharPtr) (k : Nat) : CharPtr := fun i => p (k + i)

/-- Lines 19-32: `struct StringRef`, a pointer and a size. -/
structure StringRef where
  data : CharPtr
  size : Nat

/-- The constructor `StringRef(const std::string & s)` (line 26): `s.data()`
points to the bytes of `s`, followed by a NUL. -/
def StringRef.ofString (s : List Byte) : StringRef :=
  ⟨fun i => s.getD i 0, s.length⟩

/-- The bytes a `StringRef` refers to (`toString`, line 29). -/
def StringRef.toString (x : StringRef) : List Byte :=
  (List.range x.size).map x.data

/-- The intrinsic `_mm_loadu_si128` of `emmintrin.h`: the 16 bytes at `p`. -/
def _mm_loadu_si128 (p : CharPtr) : List Byte :=
  (List.range 16).map p

/-- The intrinsic `_mm_cmpeq_epi8`: byte by byte, `0xFF` where the bytes are
equal and `0` where they are not. -/
def _mm_cmpeq_epi8 (a b : List Byte) : List Byte :=
  List.zipWith (fun x y => if x = y then 0xFF else 0) a b

/-- The intrinsic `_mm_and_si128`: bitwise and. -/
def _mm_and_si128 (a b : List Byte) : List Byte :=
  List.zipWith (fun x y => x &&& y) a b

/-- The intrinsic `_mm_movemask_epi8`: bit `i` of the mask is the most
significant bit of byte `i`. -/
def _mm_movemask_epi8 : List Byte → Nat
  | [] => 0
  | x :: xs => x.val / 128 + 2 * _mm_movemask_epi8 xs

/-- Lines 45-50. -/
def compareSSE2 (p1 p2 : CharPtr) : Bool :=
  decide (0xFFFF = _mm_movemask_epi8 (_mm_cmpeq_epi8 (_mm_loadu_si128 p1) (_mm_loadu_si128 p2)))

/-- Lines 52-70; `reinterpret_cast<const __m128i *>(p) + k` is `p + 16 * k`. -/
def compareSSE2x4 (p1 p2 : CharPtr) : Bool :=
  decide (0xFFFF = _mm_movemask_epi8
    (_mm_and_si128
      (_mm_and_si128
        (_mm_cmpeq_epi8 (_mm_loadu_si128 p1) (_mm_loadu_si128 p2))
        (_mm_cmpeq_epi8 (_mm_loadu_si128 (p1.add 16)) (_mm_loadu_si128 (p2.add 16))))
      (_mm_and_si128
        (_mm_cmpeq_epi8 (_mm_loadu_si128 (p1.add 32)) (_mm_loadu_si128 (p2.add 32)))
        (_mm_cmpeq_epi8 (_mm_loadu_si128 (p1.add 48)) (_mm_loadu_si128 (p2.add 48))))))

/-- The value of `reinterpret_cast<const T *>(p)[k]` for an unsigned integer
type `T` of `width` bytes, on a little-endian machine (SSE2 is x86): the bytes
at `p + width * k`, least significant first.  `loadLE p off width` is the value
of the `width` bytes at offset `off`. -/
def loadLE (p : CharPtr) : Nat → Nat → Nat
  | _, 0 => 0
  | off, width + 1 => (p off).val + 256 * loadLE p (off + 1) width

/-- Lines 86-92: the first `switch` of `memequalSSE2Wide`, with its
fall-through; `false` when it returns `false`, `true` when it breaks. -/
def memequalSSE2Wide_blocks (p1 p2 : CharPtr) (k : Nat) : Bool :=
  let case0 := true
  let case1 := if !compareSSE2 p1 p2 then false else case0
  let case2 := if !compareSSE2 (p1.add 16) (p2.add 16) then false else case1
  let case3 := if !compareSSE2 (p1.add 32) (p2.add 32) then false else case2
  match k with
  | 3 => case3
  | 2 => case2
  | 1 => case1
  | _ => case0

/-- Lines 97-117: the second `switch` of `memequalSSE2Wide`, with its
fall-through and the `goto l8`, and the `return true` that follows it. -/
def memequalSSE2Wide_tail (p1 p2 : CharPtr) (r : Nat) : Bool :=
  let case0 := true
  let case1 := if p1 0 ≠ p2 0 then false else case0
  let case2 := decide (loadLE p1 0 2 = loadLE p2 0 2)
  let case3 := if p1 2 ≠ p2 2 then false else case2
  let case4 := decide (loadLE p1 0 4 = loadLE p2 0 4)
  let case5 := if p1 4 ≠ p2 4 then false else case4
  let case6 := if p1 5 ≠ p2 5 then false else case5
  let case7 := if p1 6 ≠ p2 6 then false else case6
  let l8 := decide (loadLE p1 0 8 = loadLE p2 0 8)
  let case9 := if p1 8 ≠ p2 8 then false else l8
  let case10 := if p1 9 ≠ p2 9 then false else case9
  let case11 := if p1 10 ≠ p2 10 then false else case10
  let case12 := if loadLE p1 8 4 = loadLE p2 8 4 then l8 else false
  let case13 := if p1 12 ≠ p2 12 then false else case12
  let case14 := if p1 13 ≠ p2 13 then false else case13
  let case15 := if p1 14 ≠ p2 14 then false else case14
  match r with
  | 15 => case15
  | 14 => case14
  | 13 => case13
  | 12 => case12
  | 11 => case11
  | 10 => case10
  | 9 => case9
  | 8 => l8
  | 7 => case7
  | 6 => case6
  | 5 => case5
  | 4 => case4
  | 3 => case3
  | 2 => case2
  | 1 => case1
  | _ => case0

/-- Lines 72-118. -/
def memequalSSE2Wide (p1 p2 : CharPtr) (size : Nat) : Bool :=
  if size ≥ 64 then
    if compareSSE2x4 p1 p2 then memequalSSE2Wide (p1.add 64) (p2.add 64) (size - 64)
    else false
  else
    if !memequalSSE2Wide_blocks p1 p2 ((size % 64) / 16) then false
    else
      memequalSSE2Wide_tail (p1.add ((size % 64) / 16 * 16)) (p2.add ((size % 64) / 16 * 16))
        (size % 16)
termination_by size
decreasing_by omega

/-- The C library function `memcmp`: zero when the first `n` bytes are equal,
otherwise the difference of the first two bytes that differ, read as
`unsigned char`. -/
def memcmp (p1 p2 : CharPtr) : Nat → Int
  | 0 => 0
  | n + 1 =>
    if p1 0 = p2 0 then memcmp (p1.add 1) (p2.add 1) n
    else ((p1 0).val : Int) - ((p2 0).val : Int)

/-- Lines 123-136: `operator== (StringRef, StringRef)`; `sse2` tells whether
`__SSE2__` is defined. -/
def StringRef.operator_eq (sse2 : Bool) (lhs rhs : StringRef) : Bool :=
  if lhs.size ≠ rhs.size then false
  else if lhs.size = 0 then true
  else if sse2 then memequalSSE2Wide lhs.data rhs.data lhs.size
  else decide (0 = memcmp lhs.data rhs.data lhs.size)

/-- Lines 138-141. -/
def StringRef.operator_ne (sse2 : Bool) (lhs rhs : StringRef) : Bool :=
  !(StringRef.operator_eq sse2 lhs rhs)

/-- Lines 143-147. -/
def StringRef.operator_lt (lhs rhs : StringRef) : Bool :=
  let cmp := memcmp lhs.data rhs.data (min lhs.size rhs.size)
  decide (cmp < 0) || (decide (cmp = 0) && decide (lhs.size < rhs.size))

/-- Lines 149-153. -/
def StringRef.operator_gt (lhs rhs : StringRef) : Bool :=
  let cmp := memcmp lhs.data rhs.data (min lhs.size rhs.size)
  decide (cmp > 0) || (decide (cmp = 0) && decide (lhs.size > rhs.size))


/-- The order the documentation of `operator<` describes: lexicographic on the
bytes read as unsigned, a proper prefix being smaller. -/
def lexLt : List Byte → List Byte → Bool
  | [], [] => false
  | [], _ :: _ => true
  | _ :: _, [] => false
  | a :: as, b :: bs => decide (a < b) || (decide (a = b) && lexLt as bs)

/-- Lines 295-302: `operator== (StringRef lhs, const char * rhs)`, the loop
from position `pos` on. -/
def StringRef.operator_eq_cstr_from (lhs : StringRef) (rhs : CharPtr) (pos : Nat) : Bool :=
  if pos < lhs.size then
    if rhs pos = 0 ∨ lhs.data pos ≠ rhs pos then false
    else StringRef.operator_eq_cstr_from lhs rhs (pos + 1)
  else true
termination_by lhs.size - pos
decreasing_by omega

/-- Lines 295-302: `operator== (StringRef lhs, const char * rhs)`. -/
def StringRef.operator_eq_cstr (lhs : StringRef) (rhs : CharPtr) : Bool :=
  StringRef.operator_eq_cstr_from lhs rhs 0

/-- A C string: the bytes of `s` followed by the terminating NUL. -/
def cstr (s : List Byte) : CharPtr := fun i => s.getD i 0

/-- The functions `CRC32Hash` takes from outside this file: `Hash128to64` of
`city.h` and the `crc32q` instruction behind `_mm_crc32_u64`. -/
structure HashFunctions where
  Hash128to64 : Nat → Nat → Nat
  _mm_crc32_u64 : Nat → Nat → Nat

/-- A read of the input: the offset from `x.data` and the number of bytes. -/
abbrev Read := Nat × Nat

/-- The byte offsets a read touches. -/
def Read.indices (r : Read) : List Nat :=
  (List.range r.2).map (fun i => r.1 + i)

/-- The byte offsets a list of reads touches. -/
def indicesRead (rs : List Read) : List Nat :=
  rs.flatMap Read.indices

/-- Modelled from the spec: `unalignedLoad<T>` of `Common/unaligned.h`, which
is not among the sources, reads the `width` bytes of a `T` at the address
(`memcpy` into a `T`; least significant byte first on x86).  The result is the
value together with the read it makes. -/
def unalignedLoad (width : Nat) (data : CharPtr) (off : Nat) : Nat × List Read :=
  (loadLE data off width, [(off, width)])

/-- A read of one `char`, `data[off]`, together with the read it makes. -/
def readChar (data : CharPtr) (off : Nat) : Nat × List Read :=
  ((data off).val, [(off, 1)])

/-- Lines 188-191; `uint128 (u, v)` is the pair. -/
def hashLen16 (F : HashFunctions) (u v : Nat) : Nat :=
  F.Hash128to64 u v

/-- Lines 193-196. -/
def shiftMix (val : Nat) : Nat :=
  val ^^^ (val >>> 47)

/-- Lines 203-225: the value returned and the reads made, in order. -/
def hashLessThan8 (F : HashFunctions) (data : CharPtr) (size : Nat) : Nat × List Read :=
  let k2 := 0x9ae16a3b2f90404f
  let k3 := 0xc949d7c7509e6557
  if size ≥ 4 then
    let a := unalignedLoad 4 data 0
    let b := unalignedLoad 4 data (size - 4)
    (hashLen16 F ((size + (a.1 <<< 3)) % 2 ^ 64) b.1, a.2 ++ b.2)
  else if size > 0 then
    let a := readChar data 0
    let b := readChar data (size >>> 1)
    let c := readChar data (size - 1)
    let y := (a.1 + (b.1 <<< 8)) % 2 ^ 32
    let z := (size + (c.1 <<< 2)) % 2 ^ 32
    (shiftMix ((y * k2) % 2 ^ 64 ^^^ (z * k3) % 2 ^ 64) * k2 % 2 ^ 64, a.2 ++ b.2 ++ c.2)
  else (k2, [])

/-- Lines 257-263: the `do ... while (pos + 8 < end)` loop of `CRC32Hash`, from
the offset `pos` with the running value `res`; the value after the loop and the
reads made, in order. -/
def CRC32Hash.loop (F : HashFunctions) (data : CharPtr) (size pos res : Nat) :
    Nat × List Read :=
  let word := unalignedLoad 8 data pos
  let res1 := F._mm_crc32_u64 res word.1
  let pos1 := pos + 8
  if pos1 + 8 < size then
    let rest := CRC32Hash.loop F data size pos1 res1
    (rest.1, word.2 ++ rest.2)
  else (res1, word.2)
termination_by size - pos
decreasing_by omega

/-- Lines 239-270: `CRC32Hash::operator()`; the value returned and the reads
made, in order. -/
def CRC32Hash.call (F : HashFunctions) (x : StringRef) : Nat × List Read :=
  if x.size = 0 then (0, [])
  else if x.size < 8 then hashLessThan8 F x.data x.size
  else
    let looped := CRC32Hash.loop F x.data x.size 0 (2 ^ 64 - 1)
    let word := unalignedLoad 8 x.data (x.size - 8)
    (F._mm_crc32_u64 looped.1 word.1, looped.2 ++ word.2)

/-! ## Rows of the MySQL client library (`libs/libmysqlxx/src/Row.cpp`) -/

namespace mysqlxx

/-- The exception class of the library, with its message. -/
structure Exception where
  message : String
deriving DecidableEq

/-- The C library function `strcmp` on the characters of two C strings, each
given by the text before its terminator: zero when they are equal, otherwise
the difference at the first position where they differ, the terminator
counting as 0. -/
def strcmp_chars : List Char → List Char → Int
  | [], [] => 0
  | [], b :: _ => - (b.toNat : Int)
  | a :: _, [] => (a.toNat : Int)
  | a :: as, b :: bs =>
    if a = b then strcmp_chars as bs else (a.toNat : Int) - (b.toNat : Int)

/-- The C library function `strcmp`. -/
def strcmp (a b : String) : Int :=
  strcmp_chars a.toList b.toList

/-- The struct `MYSQL_FIELD` of the MySQL client library; only `name` is used. -/
structure MYSQL_FIELD where
  name : String
deriving DecidableEq

/-- Modelled from the spec: the result a row belongs to (`ResultBase.h` is not
among the sources): `getNumFields ()` gives the number of fields and
`getFields ()` the array of their descriptions. -/
structure ResultBase where
  num_fields : Nat
  fields : Nat → MYSQL_FIELD

/-- The accessor `getNumFields`. -/
def ResultBase.getNumFields (res : ResultBase) : Nat := res.num_fields

/-- The accessor `getFields`. -/
def ResultBase.getFields (res : ResultBase) : Nat → MYSQL_FIELD := res.fields

/-- Modelled from the spec: a row (`Row.h` is not among the sources) with the
result it belongs to and its access by index, `operator[] (unsigned)`, which
gives a value or throws. -/
structure Row (Value : Type) where
  res : ResultBase
  operator_index : Nat → Except Exception Value

/-- Lines 13-17 of `Row.cpp`: the loop of `operator[] (const char *)` from the
index `i` on, and the `throw` after it. -/
def Row.operator_index_name_from {Value : Type} (r : Row Value) (name : String)
    (n : Nat) (fields : Nat → MYSQL_FIELD) (i : Nat) : Except Exception Value :=
  if i < n then
    if strcmp name (fields i).name = 0 then r.operator_index i
    else Row.operator_index_name_from r name n fields (i + 1)
  else .error ⟨"Unknown column " ++ name⟩
termination_by n - i
decreasing_by omega

/-- Lines 8-18 of `Row.cpp`: `Row::operator[] (const char * name)`. -/
def Row.operator_index_name {Value : Type} (r : Row Value) (name : String) :
    Except Exception Value :=
  let n := r.res.getNumFields
  let fields := r.res.getFields
  Row.operator_index_name_from r name n fields 0

/-- A C string holds no NUL before its terminator. -/
@[reducible] def isCString (s : String) : Prop := ∀ c ∈ s.toList, c.toNat ≠ 0

namespace Example

/-- A result with the three fields `id`, `name`, `id`. -/
def res3 : ResultBase :=
  ⟨3, fun i => if i = 0 then ⟨"id"⟩ else if i = 1 then ⟨"name"⟩ else ⟨"id"⟩⟩

/-- A row of `res3` whose value at index `i` is `10 + i`. -/
def row3 : Row Nat := ⟨res3, fun i => .ok (10 + i)⟩

end Example

end mysqlxx

namespace DB

/-! ## Basic facts about the execution monad -/

theorem bind_apply {α β : Type} (m : M α) (f : α → M β) (w : World) :
    (m >>= f) w = match m w with
      | ⟨t, w1, .error e⟩ => ⟨t, w1, .error e⟩
      | ⟨t, w1, .ok a⟩ => ⟨t ++ (f a w1).trace, (f a w1).world, (f a w1).result⟩ := rfl

theorem bind_of_error {α β : Type} {m : M α} {f : α → M β} {w : World} {e : Exc}
    (h : (m w).result = .error e) :
    (m >>= f) w = ⟨(m w).trace, (m w).world, .error e⟩ := by
  rw [bind_apply]
  rcases hm : m w with ⟨t, w1, r⟩
  rw [hm] at h
  cases r with
  | error e1 => simp at h; simp [h]
  | ok a => simp at h

theorem bind_of_ok {α β : Type} {m : M α} {f : α → M β} {w : World} {a : α}
    (h : (m w).result = .ok a) :
    (m >>= f) w = ⟨(m w).trace ++ (f a (m w).world).trace, (f a (m w).world).world,
      (f a (m w).world).result⟩ := by
  rw [bind_apply]
  rcases hm : m w with ⟨t, w1, r⟩
  rw [hm] at h
  cases r with
  | error e1 => simp at h
  | ok a1 => simp at h; simp [h]

@[simp] theorem pure_apply {α : Type} (a : α) (w : World) :
    (pure a : M α) w = ⟨[], w, .ok a⟩ := rfl

@[simp] theorem getWorld_apply (w : World) : getWorld w = ⟨[], w, .ok w⟩ := rfl

@[simp] theorem modifyWorld_apply (f : World → World) (w : World) :
    modifyWorld f w = ⟨[], f w, .ok ()⟩ := rfl

@[simp] theorem raise_apply {α : Type} (e : Exc) (w : World) :
    (raise e : M α) w = ⟨[], w, .error e⟩ := rfl

@[simp] theorem emit_apply (env : Env) (c : Call) (w : World) :
    emit env c w = ⟨[.ok c], w.noteStop env c, .ok ()⟩ := rfl

@[simp] theorem acquire_apply (r : Resource) (w : World) :
    acquire r w = ⟨[], { w with held := r :: w.held }, .ok ()⟩ := rfl

@[simp] theorem scope_apply {α : Type} (env : Env) (rs : List Resource) (body : M α) (w : World) :
    scope env rs body w =
      ⟨(body w).trace ++ releases rs (body w).world, (body w).world.leave env rs,
        (body w).result⟩ := rfl

@[simp] theorem noteStop_storage (env : Env) (c : Call) (w : World) :
    (w.noteStop env c).storage = w.storage := rfl

@[simp] theorem noteStop_zookeeper (env : Env) (c : Call) (w : World) :
    (w.noteStop env c).zookeeper = w.zookeeper := rfl

@[simp] theorem noteStop_catalog (env : Env) (c : Call) (w : World) :
    (w.noteStop env c).catalog = w.catalog := rfl

@[simp] theorem noteStop_force (env : Env) (c : Call) (w : World) :
    (w.noteStop env c).force_recheck_parts = w.force_recheck_parts := rfl

@[simp] theorem noteStop_held (env : Env) (c : Call) (w : World) :
    (w.noteStop env c).held = w.held := rfl

theorem foldl_noteStop (env : Env) (xs : List Resource) (w : World) :
    (xs.foldl (fun v x => v.noteStop env (.release x)) w).storage = w.storage ∧
    (xs.foldl (fun v x => v.noteStop env (.release x)) w).zookeeper = w.zookeeper ∧
    (xs.foldl (fun v x => v.noteStop env (.release x)) w).catalog = w.catalog ∧
    (xs.foldl (fun v x => v.noteStop env (.release x)) w).force_recheck_parts =
      w.force_recheck_parts := by
  induction xs generalizing w with
  | nil => simp
  | cons x xs ih => simpa using ih (w.noteStop env (.release x))

@[simp] theorem leave_storage (env : Env) (rs : List Resource) (w : World) :
    (w.leave env rs).storage = w.storage := (foldl_noteStop env (alive rs w) w).1

@[simp] theorem leave_zookeeper (env : Env) (rs : List Resource) (w : World) :
    (w.leave env rs).zookeeper = w.zookeeper := (foldl_noteStop env (alive rs w) w).2.1

@[simp] theorem leave_catalog (env : Env) (rs : List Resource) (w : World) :
    (w.leave env rs).catalog = w.catalog := (foldl_noteStop env (alive rs w) w).2.2.1

@[simp] theorem leave_force (env : Env) (rs : List Resource) (w : World) :
    (w.leave env rs).force_recheck_parts = w.force_recheck_parts :=
  (foldl_noteStop env (alive rs w) w).2.2.2

@[simp] theorem leave_held (env : Env) (rs : List Resource) (w : World) :
    (w.leave env rs).held = w.held.filter fun x => decide (x ∉ rs) := rfl

/-! ## Rules for closed relations -/

theorem holds_bind {α β : Type} {R : Rel}
    (hC : Closed R) {m : M α} {f : α → M β}
    (hm : Holds R m) (hf : ∀ a, Holds R (f a)) : Holds R (m >>= f) := by
  intro w
  have h1 := hm w
  rw [bind_apply]
  rcases hmw : m w with ⟨t, w1, r⟩
  rw [hmw] at h1
  cases r with
  | error e => simpa [Run.exc] using h1
  | ok a =>
    have h2 := hf a w1
    simp only [Run.exc] at h1 h2 ⊢
    exact hC.seq _ _ _ _ _ _ h1 h2

theorem holds_pure {α : Type} {R : Rel} (hC : Closed R) (a : α) :
    Holds R (pure a : M α) :=
  fun w => hC.refl w

theorem holds_getWorld {R : Rel} (hC : Closed R) : Holds R getWorld :=
  fun w => hC.refl w

theorem holds_ite {α : Type} {R : Rel} {c : Prop} [Decidable c] {a b : M α}
    (ha : Holds R a) (hb : Holds R b) : Holds R (if c then a else b) := by
  split
  · exact ha
  · exact hb

theorem holds_scope {α : Type} {env : Env} {R : Rel} {rs : List Resource}
    (hL : Leaves env rs R) {m : M α} (hm : Holds R m) : Holds R (scope env rs m) := by
  intro w
  exact hL w _ _ _ (hm w)

theorem holds_emit {env : Env} {R : Rel} {c : Call}
    (h : ∀ w, R w (w.noteStop env c) [.ok c] none) : Holds R (emit env c) :=
  fun w => h w

theorem holds_modifyWorld {R : Rel} {f : World → World}
    (h : ∀ w, R w (f w) [] none) : Holds R (modifyWorld f) :=
  fun w => h w

theorem holds_acquire {R : Rel} {r : Resource}
    (h : ∀ w : World, R w { w with held := r :: w.held } [] none) : Holds R (acquire r) :=
  fun w => h w

theorem holds_call {env : Env} {R : Rel} {c : Call}
    (h : ∀ w, R w (w.noteStop env c) [.ok c] none)
    (h1 : ∀ w e, R w (w.noteStop env c) [.threw c e] (some e)) : Holds R (call env c) := by
  intro w
  unfold call
  split
  · exact h1 w _
  · exact h w

theorem holds_callResult {α : Type} {env : Env} {R : Rel} {c : Call} {r : Except Exc α}
    (h : ∀ w, R w (w.noteStop env c) [.ok c] none)
    (h1 : ∀ w e, R w (w.noteStop env c) [.threw c e] (some e)) :
    Holds R (callResult env c r) := by
  intro w
  unfold callResult
  split
  · exact h1 w _
  · split
    · exact h1 w _
    · exact h w

theorem holds_alterDataPart {env : Env} {R : Rel} {st : Store} {part : DataPart}
    {cols : NamesAndTypesList} {pk : String}
    (h : ∀ w t, R w (w.noteStop env (.alterDataPart st part.name cols))
      [.returned (.alterDataPart st part.name cols) t] none)
    (h1 : ∀ w e, R w (w.noteStop env (.alterDataPart st part.name cols))
      [.threw (.alterDataPart st part.name cols) e] (some e)) :
    Holds R (alterDataPart env st part cols pk) := by
  intro w
  unfold alterDataPart
  dsimp only
  split
  · exact h1 w _
  · split
    · exact h1 w _
    · exact h w _

/-! ## The loop over the primary parts -/

theorem multiOrEnqueue_cases (env : Env) (ops : List SetData) (name : String) (w : World) :
    (∃ e, (multiOrEnqueue env ops name w).result = .error e ∧
      (multiOrEnqueue env ops name w).trace = .threw (.multi ops) e :: handlerEvents e name ∧
      (multiOrEnqueue env ops name w).world.storage.replica_path = w.storage.replica_path) ∨
    ((multiOrEnqueue env ops name w).result = .ok () ∧
      (multiOrEnqueue env ops name w).trace = [.ok (.multi ops)] ∧
      (multiOrEnqueue env ops name w).world.storage = w.storage) := by
  unfold multiOrEnqueue tryCatch zkMulti
  simp only [bind_apply, getWorld_apply, callResult]
  cases hf : env.fault (.multi ops) with
  | some e =>
    left
    refine ⟨e, ?_⟩
    rcases e with code | msg
    · by_cases hc : code = ZNONODE
      · simp [hf, bind_apply, handlerEvents, hc, enqueuePartForCheck]
      · simp [hf, bind_apply, handlerEvents, hc]
    · simp [hf, bind_apply, handlerEvents]
  | none =>
    cases ha : w.zookeeper.applyOps ops with
    | error e =>
      left
      refine ⟨e, ?_⟩
      rcases e with code | msg
      · by_cases hc : code = ZNONODE
        · simp [hf, ha, bind_apply, handlerEvents, hc, enqueuePartForCheck]
        · simp [hf, ha, bind_apply, handlerEvents, hc]
      · simp [hf, ha, bind_apply, handlerEvents]
    | ok zk =>
      right
      simp [hf, ha]


theorem alterDataPart_cases (env : Env) (st : Store) (p : DataPart) (cols : NamesAndTypesList)
    (pk : String) (w : World) :
    (∃ e, (alterDataPart env st p cols pk w).result = .error e ∧
      (alterDataPart env st p cols pk w).trace = [.threw (.alterDataPart st p.name cols) e]) ∨
    (∃ t, (alterDataPart env st p cols pk w).result = .ok t ∧
      (alterDataPart env st p cols pk w).trace = [.returned (.alterDataPart st p.name cols) t] ∧
      (alterDataPart env st p cols pk w).world = w.noteStop env (.alterDataPart st p.name cols) ∧
      env.alterDataPart st p cols pk = .ok t) := by
  unfold alterDataPart
  dsimp only
  cases env.fault (.alterDataPart st p.name cols) with
  | some e => exact Or.inl ⟨e, rfl, rfl⟩
  | none =>
    cases h : env.alterDataPart st p cols pk with
    | error e => exact Or.inl ⟨e, rfl, rfl⟩
    | ok t => exact Or.inr ⟨t, rfl, rfl, rfl, rfl⟩

theorem commit_cases (env : Env) (st : Store) (name : String) (t : AlterDataPartTransaction)
    (w : World) :
    (∃ e, (commit env st name t w).result = .error e ∧
      (commit env st name t w).trace = [.threw (.commit st name) e]) ∨
    ((commit env st name t w).result = .ok () ∧
      (commit env st name t w).trace = [.ok (.commit st name)] ∧
      (commit env st name t w).world.storage.replica_path = w.storage.replica_path) := by
  unfold commit call
  simp only [bind_apply]
  cases env.fault (.commit st name) with
  | some e => left; exact ⟨e, by simp⟩
  | none =>
    right
    cases st <;> simp

theorem alterParts_trace (env : Env) (cols : NamesAndTypesList) (ps : List DataPart) :
    ∀ w : World, PartsTrace w.storage.replica_path cols ps
      (alterParts env cols ps w).trace (alterParts env cols ps w).exc := by
  induction ps with
  | nil =>
    intro w
    simp only [alterParts, pure_apply, Run.exc]
    exact PartsTrace.done
  | cons p ps ih =>
    intro w
    simp only [alterParts]
    rw [bind_of_ok (show (getWorld w).result = .ok w from rfl)]
    simp only [getWorld_apply, List.nil_append]
    rcases alterDataPart_cases env .data p cols w.storage.data.primary_expr_ast w with
      ⟨e, he, het⟩ | ⟨t, ht, htt, htw, _⟩
    · rw [bind_of_error he]
      simp only [Run.exc, het]
      exact PartsTrace.alter_threw p ps e
    · rw [bind_of_ok ht]
      simp only [htt, htw, List.singleton_append, Run.exc]
      cases t with
      | none =>
        have := ih (w.noteStop env (.alterDataPart .data p.name cols))
        simp only [noteStop_storage, Run.exc] at this
        exact PartsTrace.skip p ps _ _ this
      | some t =>
        dsimp only
        rcases multiOrEnqueue_cases env (partOps w.storage.replica_path p t) p.name
          (w.noteStop env (.alterDataPart .data p.name cols)) with ⟨e, h1, h2, _⟩ | ⟨h1, h2, h3⟩
        · rw [bind_of_error h1]
          simp only [h2]
          exact PartsTrace.multi_threw p ps t e
        · rw [bind_of_ok h1]
          simp only [h2, List.singleton_append]
          simp only [noteStop_storage] at h3
          rcases commit_cases env .data p.name t _ with ⟨e, c1, c2⟩ | ⟨c1, c2, c3⟩
          · rw [bind_of_error c1]
            simp only [c2]
            exact PartsTrace.commit_threw p ps t e
          · rw [bind_of_ok c1]
            simp only [c2, List.singleton_append]
            have := ih (commit env .data p.name t (multiOrEnqueue env
              (partOps w.storage.replica_path p t) p.name
              (w.noteStop env (.alterDataPart .data p.name cols))).world).world
            rw [c3, h3] at this
            simp only [Run.exc] at this
            exact PartsTrace.step p ps t _ _ this

/-! ## The shape of the trace of a pass -/

theorem isSetup_isEarly {c : Call} (h : c.isSetup = true) : c.isEarly = true := by
  simp [Call.isSetup] at h
  exact h.1

theorem spine_pre {rp : String} {parts : List DataPart} {t1 t2 : List Event} {exc : Option Exc}
    (h1 : ∀ ev ∈ t1, ev.call.isSetup = true) (h2 : Spine rp parts t2 exc) :
    Spine rp parts (t1 ++ t2) exc := by
  obtain ⟨A, PA, B, cols, ps, x, rfl, hP, hA, hB, hx, hps, hl⟩ := h2
  refine ⟨t1 ++ A, PA, B, cols, ps, x, by simp, hP, ?_, hB, hx, hps, ?_⟩
  · intro ev hev
    rcases List.mem_append.1 hev with h | h
    · exact isSetup_isEarly (h1 ev h)
    · exact hA ev h
  · intro hev
    rcases List.mem_append.1 hev with h | h
    · have := h1 _ h
      simp [Call.isSetup, Event.call] at this
    · exact hl h

theorem spine_of_setup {rp : String} {parts : List DataPart} {t : List Event} {exc : Option Exc}
    (h : ∀ ev ∈ t, ev.call.isSetup = true) : Spine rp parts t exc := by
  refine ⟨t, [], [], [], [], none, by simp, PartsTrace.done, ?_, by simp, by simp, Or.inl rfl, ?_⟩
  · intro ev hev
    exact isSetup_isEarly (h ev hev)
  · intro hev
    have := h _ hev
    simp [Call.isSetup, Event.call] at this

theorem spine_post {rp : String} {parts : List DataPart} {t1 t2 : List Event} {exc : Option Exc}
    (h1 : Spine rp parts t1 none) (h2 : ∀ ev ∈ t2, ev.call.isLate = true) :
    Spine rp parts (t1 ++ t2) exc := by
  obtain ⟨A, PA, B, cols, ps, x, rfl, hP, hA, hB, hx, hps, hl⟩ := h1
  have hxn : x = none := by
    by_contra hne
    exact hne (hx hne).1.symm
  subst hxn
  refine ⟨A, PA, B ++ t2, cols, ps, none, by simp, hP, hA, ?_, by simp, hps, hl⟩
  intro ev hev
  rcases List.mem_append.1 hev with h | h
  · exact hB ev h
  · exact h2 ev h

theorem spine_unwind {rp : String} {parts : List DataPart} {t1 t2 : List Event}
    {exc exc1 : Option Exc} (h1 : Spine rp parts t1 exc)
    (h2 : ∀ ev ∈ t2, ev.call.isLate = true ∧ ev.isUnwind = true)
    (hx1 : exc ≠ none → exc1 = exc) :
    Spine rp parts (t1 ++ t2) exc1 := by
  obtain ⟨A, PA, B, cols, ps, x, rfl, hP, hA, hB, hxx, hps, hl⟩ := h1
  refine ⟨A, PA, B ++ t2, cols, ps, x, by simp, hP, hA, ?_, ?_, hps, hl⟩
  · intro ev hev
    rcases List.mem_append.1 hev with h | h
    · exact hB ev h
    · exact (h2 ev h).1
  · intro hne
    have := hxx hne
    refine ⟨?_, ?_⟩
    · have hexc : exc ≠ none := by rw [this.1]; exact hne
      rw [hx1 hexc, this.1]
    · intro ev hev
      rcases List.mem_append.1 hev with h | h
      · exact this.2 ev h
      · exact (h2 ev h).2

theorem releases_late (rs : List Resource) (w : World) :
    ∀ ev ∈ releases rs w, ev.call.isLate = true ∧ ev.isUnwind = true ∧ ev.isThrew = false ∧
      ev.isCleanup = true := by
  intro ev hev
  simp only [releases, List.mem_map] at hev
  obtain ⟨x, _, rfl⟩ := hev
  simp [Event.isCleanup, Event.isThrew, Event.isUnwind, Event.call, Call.isLate]

theorem spine_leave {rp : String} {parts : List DataPart} {t : List Event} {exc : Option Exc}
    (rs : List Resource) (w : World) (h : Spine rp parts t exc) :
    Spine rp parts (t ++ releases rs w) exc :=
  spine_unwind h (fun ev hev => ⟨(releases_late rs w ev hev).1, (releases_late rs w ev hev).2.1⟩)
    (fun _ => rfl)


theorem closed_all (P : Event → Bool) : Closed (All P) where
  refl := by intro w; simp [All]
  seq := by
    intro w w1 w2 t1 t2 x h1 h2 ev hev
    rcases List.mem_append.1 hev with h | h
    · exact h1 ev h
    · exact h2 ev h

theorem leaves_all (env : Env) (rs : List Resource) (P : Event → Bool)
    (h : ∀ r ∈ rs, P (.ok (.release r)) = true) : Leaves env rs (All P) := by
  intro w w1 t x ht ev hev
  rcases List.mem_append.1 hev with h1 | h1
  · exact ht ev h1
  · simp only [releases, alive, List.mem_map, List.mem_filter] at h1
    obtain ⟨r, ⟨hr, _⟩, rfl⟩ := h1
    exact h r hr

theorem closed_keeps {β : Type} (g : World → β) : Closed (Keeps g) where
  refl := by intro w; rfl
  seq := by
    intro w w1 w2 t1 t2 x h1 h2
    exact Eq.trans h2 h1

theorem leaves_keeps {β : Type} (env : Env) (rs : List Resource) (g : World → β)
    (h : ∀ w, g (w.leave env rs) = g w) : Leaves env rs (Keeps g) := by
  intro w w1 t x ht
  exact Eq.trans (h w1) ht

theorem all_one {P : Event → Bool} {ev : Event} (h : P ev = true) (w w1 : World)
    (x : Option Exc) : All P w w1 [ev] x := by
  intro e he
  simp only [List.mem_singleton] at he
  rw [he]
  exact h

theorem all_nil (P : Event → Bool) (w w1 : World) (x : Option Exc) : All P w w1 [] x := by
  intro e he
  simp at he

theorem fetch_setup (env : Env) : Holds (All fun ev => ev.call.isSetup) (fetch env) := by
  have hC := closed_all fun ev => ev.call.isSetup
  unfold fetch zkGet
  repeat' with_reducible first
    | apply holds_pure hC
    | apply holds_getWorld hC
    | apply holds_ite
    | apply holds_scope (leaves_all _ _ _ (by decide))
    | apply holds_emit
    | apply holds_call
    | apply holds_callResult
    | apply holds_alterDataPart
    | apply holds_modifyWorld
    | apply holds_acquire
    | refine holds_bind hC ?_ (fun _ => ?_)
    | dsimp only
    | split
    | (intro w; first | exact all_nil _ _ _ _ | exact all_one rfl _ _ _)
    | (intro w e; exact all_one rfl _ _ _)

theorem cancelMerges_setup (env : Env) (c : Bool) :
    Holds (All fun ev => ev.call.isSetup) (cancelMerges env c) := by
  have hC := closed_all fun ev => ev.call.isSetup
  unfold cancelMerges
  repeat' with_reducible first
    | apply holds_pure hC
    | apply holds_getWorld hC
    | apply holds_ite
    | apply holds_scope (leaves_all _ _ _ (by decide))
    | apply holds_emit
    | apply holds_call
    | apply holds_callResult
    | apply holds_alterDataPart
    | apply holds_modifyWorld
    | apply holds_acquire
    | refine holds_bind hC ?_ (fun _ => ?_)
    | dsimp only
    | split
    | (intro w; first | exact all_nil _ _ _ _ | exact all_one rfl _ _ _)
    | (intro w e; exact all_one rfl _ _ _)

theorem structuralUpdate_setup (env : Env) (d : ColumnsDescription) (v : Int) :
    Holds (All fun ev => ev.call.isSetup) (structuralUpdate env d v) := by
  have hC := closed_all fun ev => ev.call.isSetup
  unfold structuralUpdate applyChanges assignColumns assignMaterialized assignAlias assignDefaults
    initPrimaryKeys snapshotAndSetVersion
  repeat' with_reducible first
    | apply holds_pure hC
    | apply holds_getWorld hC
    | apply holds_ite
    | apply holds_scope (leaves_all _ _ _ (by decide))
    | apply holds_emit
    | apply holds_call
    | apply holds_callResult
    | apply holds_alterDataPart
    | apply holds_modifyWorld
    | apply holds_acquire
    | refine holds_bind hC ?_ (fun _ => ?_)
    | dsimp only
    | split
    | (intro w; first | exact all_nil _ _ _ _ | exact all_one rfl _ _ _)
    | (intro w e; exact all_one rfl _ _ _)


theorem late_tail (env : Env) (cols : NamesAndTypesList) (s : String) :
    Holds (All fun ev => ev.call.isLate)
      (alterUnreplicated env cols >>= fun _ => publishColumns env s) := by
  have hC := closed_all fun ev => ev.call.isLate
  have hU : ∀ ps, Holds (All fun ev => ev.call.isLate) (alterUnreplicatedParts env cols ps) := by
    intro ps
    induction ps with
    | nil => exact holds_pure hC _
    | cons p ps ih =>
      unfold alterUnreplicatedParts commit
      repeat' with_reducible first
        | exact ih
        | apply holds_pure hC
        | apply holds_getWorld hC
        | apply holds_call
        | apply holds_alterDataPart
        | apply holds_modifyWorld
        | refine holds_bind hC ?_ (fun _ => ?_)
        | dsimp only
        | split
        | (intro w; first | exact all_nil _ _ _ _ | exact all_one rfl _ _ _)
        | (intro w e; exact all_one rfl _ _ _)
  unfold alterUnreplicated publishColumns zkSet
  repeat' with_reducible first
    | apply hU
    | apply holds_pure hC
    | apply holds_getWorld hC
    | apply holds_emit
    | apply holds_callResult
    | apply holds_modifyWorld
    | refine holds_bind hC ?_ (fun _ => ?_)
    | dsimp only
    | split
    | (intro w; first | exact all_nil _ _ _ _ | exact all_one rfl _ _ _)
    | (intro w e; exact all_one rfl _ _ _)

theorem partsToAlter_apply (env : Env) (c : Bool) (ps : List DataPart) (w : World) :
    partsToAlter env c ps w =
      ⟨if c then [] else [.ok (.getDataParts .data)],
        if c then w else w.noteStop env (.getDataParts .data),
        .ok (if c then ps else w.storage.data.data_parts)⟩ := by
  cases c <;> simp [partsToAlter, bind_apply, MergeTreeData.getDataParts]

theorem loop_tail_spine (env : Env) (cols : NamesAndTypesList) (s : String)
    (ps : List DataPart) (w : World) :
    ∃ PA B x,
      ((alterParts env cols ps >>= fun _ =>
          alterUnreplicated env cols >>= fun _ => publishColumns env s) w).trace = PA ++ B ∧
      PartsTrace w.storage.replica_path cols ps PA x ∧
      (∀ ev ∈ B, ev.call.isLate = true) ∧
      (x ≠ none → ((alterParts env cols ps >>= fun _ =>
          alterUnreplicated env cols >>= fun _ => publishColumns env s) w).exc = x ∧ B = []) := by
  have hP := alterParts_trace env cols ps w
  cases hr : (alterParts env cols ps w).result with
  | error e =>
    rw [bind_of_error hr]
    simp only [Run.exc, hr] at hP
    exact ⟨_, [], some e, by simp, hP, by simp, by simp [Run.exc]⟩
  | ok u =>
    rw [bind_of_ok hr]
    simp only [Run.exc, hr] at hP
    exact ⟨_, _, none, rfl, hP, late_tail env cols s _, by simp⟩

theorem updateParts_spine (env : Env) (s : String) (c : Bool) (ps : List DataPart) (w : World) :
    Spine w.storage.replica_path (if c then ps else w.storage.data.data_parts)
      (updateParts env s c ps w).trace (updateParts env s c ps w).exc := by
  unfold updateParts
  simp only [scope_apply, Run.exc]
  apply spine_leave
  cases hf : env.fault .lockStructure with
  | some e =>
    have h1 : (call env .lockStructure w).result = .error e := by simp [call, hf]
    rw [bind_of_error h1]
    simp only [call, hf]
    exact ⟨[.threw .lockStructure e], [], [], [], [], none, by simp, PartsTrace.done,
      by simp [Event.call, Call.isEarly], by simp, by simp, Or.inl rfl, by simp⟩
  | none =>
    have h1 : (call env .lockStructure w).result = .ok () := by simp [call, hf]
    rw [bind_of_ok h1]
    rw [bind_of_ok (show (acquire _ _).result = .ok () from rfl)]
    rw [bind_of_ok (show (partsToAlter env c ps _).result = .ok _ by
      rw [partsToAlter_apply])]
    rw [bind_of_ok (show (getWorld _).result = .ok _ from rfl)]
    simp only [getWorld_apply, acquire_apply, List.nil_append, List.append_nil]
    simp only [call, hf, partsToAlter_apply]
    obtain ⟨PA, B, x, h1, h2, h3, h4⟩ := loop_tail_spine env
      (if c = true then
        ({ (w.noteStop env Call.lockStructure) with
            held := Resource.table_lock :: (w.noteStop env Call.lockStructure).held } : World)
      else
        World.noteStop env (Call.getDataParts Store.data)
          { (w.noteStop env Call.lockStructure) with
            held := Resource.table_lock :: (w.noteStop env Call.lockStructure).held }).storage.data.getColumnsList
      s (if c = true then ps else w.storage.data.data_parts)
      (if c = true then
        ({ (w.noteStop env Call.lockStructure) with
            held := Resource.table_lock :: (w.noteStop env Call.lockStructure).held } : World)
      else
        World.noteStop env (Call.getDataParts Store.data)
          { (w.noteStop env Call.lockStructure) with
            held := Resource.table_lock :: (w.noteStop env Call.lockStructure).held })
    have hrp : (if c = true then
        ({ (w.noteStop env Call.lockStructure) with
            held := Resource.table_lock :: (w.noteStop env Call.lockStructure).held } : World)
      else
        World.noteStop env (Call.getDataParts Store.data)
          { (w.noteStop env Call.lockStructure) with
            held := Resource.table_lock ::
              (w.noteStop env Call.lockStructure).held }).storage.replica_path =
        w.storage.replica_path := by
      cases c <;> simp
    rw [hrp] at h2
    simp only [noteStop_storage] at h1 h4 ⊢
    rw [h1]
    refine ⟨[Event.ok Call.lockStructure] ++ (if c = true then [] else
      [Event.ok (Call.getDataParts Store.data)]), PA, B, _, _, x, by simp, h2, ?_, h3, ?_,
      Or.inr rfl, fun _ => rfl⟩
    · intro ev hev
      cases c <;> simp at hev
      · rcases hev with rfl | rfl <;> rfl
      · rw [hev]; rfl
    · intro hx
      have := h4 hx
      simp only [Run.exc] at this
      refine ⟨this.1, ?_⟩
      rw [this.2]
      simp


theorem leave_stable (env : Env) (rs : List Resource) (w : World) :
    (w.leave env rs).stable = w.stable := by
  simp [World.stable]

theorem cancelMerges_stable (env : Env) (c : Bool) :
    Holds (Keeps fun w => (w.storage, w.zookeeper, w.force_recheck_parts, w.catalog))
      (cancelMerges env c) := by
  have hC := closed_keeps fun w : World => (w.storage, w.zookeeper, w.force_recheck_parts, w.catalog)
  unfold cancelMerges
  repeat' first
    | with_reducible first
      | apply holds_pure hC
      | apply holds_getWorld hC
      | apply holds_ite
      | apply holds_emit
      | apply holds_acquire
      | refine holds_bind hC ?_ (fun _ => ?_)
      | dsimp only
    | (intro w; rfl)

theorem cancelMerges_ok (env : Env) (c : Bool) (w : World) :
    (cancelMerges env c w).result = .ok () := by
  unfold cancelMerges
  simp only [bind_apply, getWorld_apply]
  split <;> simp [bind_apply]
  split <;> simp [bind_apply]

theorem applyChanges_stable (env : Env) (d : ColumnsDescription) :
    Holds (Keeps World.stable) (applyChanges env d) := by
  have hC := closed_keeps World.stable
  unfold applyChanges assignColumns assignMaterialized assignAlias assignDefaults initPrimaryKeys
  repeat' first
    | with_reducible first
      | apply holds_pure hC
      | apply holds_getWorld hC
      | apply holds_ite
      | apply holds_emit
      | apply holds_call
      | apply holds_modifyWorld
      | refine holds_bind hC ?_ (fun _ => ?_)
      | dsimp only
    | (intro w; rfl)
    | (intro w e; rfl)

theorem snapshotAndSetVersion_apply (env : Env) (v : Int) (w : World) :
    snapshotAndSetVersion env v w =
      ⟨[.ok (.getDataParts .data), .ok (.assign_columns_version v)],
        { ((w.noteStop env (.getDataParts .data)).noteStop env (.assign_columns_version v)) with
          storage := { w.storage with columns_version := v } },
        .ok w.storage.data.data_parts⟩ := by
  simp [snapshotAndSetVersion, bind_apply, MergeTreeData.getDataParts]

theorem structuralUpdate_stable (env : Env) (d : ColumnsDescription) (v : Int) :
    Holds (Keeps World.stable) (structuralUpdate env d v) := by
  have hC := closed_keeps World.stable
  unfold structuralUpdate
  refine holds_scope (leaves_keeps _ _ _ (leave_stable env _)) ?_
  repeat' first
    | with_reducible first
      | exact applyChanges_stable env d
      | apply holds_emit
      | apply holds_call
      | apply holds_acquire
      | refine holds_bind hC ?_ (fun _ => ?_)
    | (intro w; rfl)
    | (intro w e; rfl)

theorem bind_ok_inv {α β : Type} {m : M α} {f : α → M β} {w : World} {b : β}
    (h : ((m >>= f) w).result = .ok b) :
    ∃ a, (m w).result = .ok a ∧ (f a (m w).world).result = .ok b := by
  cases hr : (m w).result with
  | error e => rw [bind_of_error hr] at h; simp at h
  | ok a => rw [bind_of_ok hr] at h; exact ⟨a, rfl, h⟩

@[simp] theorem call_world (env : Env) (c : Call) (w : World) :
    (call env c w).world = w.noteStop env c := by
  unfold call
  split <;> rfl

theorem structuralUpdate_parts (env : Env) (d : ColumnsDescription) (v : Int) (w : World)
    (ps : List DataPart) (h : (structuralUpdate env d v w).result = .ok ps) :
    ps = w.storage.data.data_parts := by
  unfold structuralUpdate at h
  simp only [scope_apply] at h
  obtain ⟨_, _, h⟩ := bind_ok_inv h
  obtain ⟨_, _, h⟩ := bind_ok_inv h
  obtain ⟨_, _, h⟩ := bind_ok_inv h
  obtain ⟨_, _, h⟩ := bind_ok_inv h
  obtain ⟨_, _, h⟩ := bind_ok_inv h
  rw [snapshotAndSetVersion_apply] at h
  simp only [Except.ok.injEq] at h
  rw [← h]
  have hk := applyChanges_stable env d
    (acquire Resource.table_lock_for_alter
      (call env Call.lockStructureForAlter
        (acquire Resource.temporarily_stop_part_checks
          (emit env Call.temporarilyStop w).world).world).world).world
  simp only [Keeps, World.stable, Prod.mk.injEq] at hk
  rw [hk.2.2.1]
  simp

theorem spine_bind {α β : Type} {rp : String} {parts : List DataPart} {m : M α}
    {f : α → M β} {w : World} (hm : Holds (All fun ev => ev.call.isSetup) m)
    (hf : ∀ a, (m w).result = .ok a →
      Spine rp parts (f a (m w).world).trace (f a (m w).world).exc) :
    Spine rp parts ((m >>= f) w).trace ((m >>= f) w).exc := by
  cases hr : (m w).result with
  | error e =>
    rw [bind_of_error hr]
    exact spine_of_setup (hm w)
  | ok a =>
    rw [bind_of_ok hr]
    exact spine_pre (hm w) (hf a hr)

theorem underBlockers_spine (env : Env) (s : String) (d : ColumnsDescription) (v : Int)
    (c : Bool) (w : World) :
    Spine w.storage.replica_path w.storage.data.data_parts
      (underBlockers env s d v c w).trace (underBlockers env s d v c w).exc := by
  unfold underBlockers
  simp only [scope_apply, Run.exc]
  apply spine_leave
  rw [bind_of_ok (show (getWorld w).result = .ok w from rfl)]
  simp only [getWorld_apply, List.nil_append]
  refine spine_bind (cancelMerges_setup env c) ?_
  intro _ _
  have hk := cancelMerges_stable env c w
  simp only [Keeps, Prod.mk.injEq] at hk
  generalize (cancelMerges env c w).world = w1 at hk ⊢
  cases c with
  | false =>
    simp only [Bool.false_eq_true, if_false, Bool.false_or]
    rw [bind_of_ok (show ((pure [] : M (List DataPart)) w1).result = .ok [] from rfl)]
    simp only [pure_apply, List.nil_append]
    split
    · have := updateParts_spine env s false [] w1
      simp only [Bool.false_eq_true, if_false, hk.1] at this
      exact this
    · exact spine_of_setup (by simp)
  | true =>
    simp only [if_true, Bool.true_or]
    refine spine_bind (structuralUpdate_setup env d v) ?_
    intro ps hps
    have hst := structuralUpdate_stable env d v w1
    have hparts := structuralUpdate_parts env d v w1 ps hps
    simp only [Keeps, World.stable, Prod.mk.injEq] at hst
    have := updateParts_spine env s true ps (structuralUpdate env d v w1).world
    simp only [if_true, hst.2.1] at this
    rw [hparts] at this ⊢
    rw [hk.1] at this ⊢
    exact this


theorem fetch_keeps (env : Env) :
    Holds (Keeps fun w => (w.storage, w.zookeeper, w.force_recheck_parts, w.catalog, w.held))
      (fetch env) := by
  have hC := closed_keeps fun w : World =>
    (w.storage, w.zookeeper, w.force_recheck_parts, w.catalog, w.held)
  unfold fetch zkGet
  repeat' first
    | with_reducible first
      | apply holds_pure hC
      | apply holds_getWorld hC
      | apply holds_call
      | apply holds_callResult
      | refine holds_bind hC ?_ (fun _ => ?_)
      | dsimp only
      | split
    | (intro w; rfl)
    | (intro w e; rfl)

theorem reconcile_spine (env : Env) (w : World) :
    Spine w.storage.replica_path w.storage.data.data_parts
      (reconcile env w).trace (reconcile env w).exc := by
  unfold reconcile
  refine spine_bind (fetch_setup env) ?_
  intro a _
  have hk := fetch_keeps env w
  simp only [Keeps, Prod.mk.injEq] at hk
  generalize (fetch env w).world = w1 at hk ⊢
  obtain ⟨s, v, d⟩ := a
  dsimp only
  rw [bind_of_ok (show (getWorld w1).result = .ok w1 from rfl)]
  simp only [getWorld_apply, List.nil_append]
  have hu := underBlockers_spine env s d v (decide (v ≠ w1.storage.columns_version)) w1
  rw [← hk.1]
  cases hr : (underBlockers env s d v (decide (v ≠ w1.storage.columns_version)) w1).result with
  | error e =>
    rw [bind_of_error hr]
    simp only [Run.exc, hr] at hu ⊢
    exact hu
  | ok u =>
    rw [bind_of_ok hr]
    simp only [Run.exc, hr] at hu
    exact spine_post hu (by simp [Event.call, Call.isLate])

theorem iteration_apply (env : Env) (w : World) :
    iteration env w =
      match (reconcile env w).result with
      | .ok _ => ⟨(reconcile env w).trace, (reconcile env w).world, .ok none⟩
      | .error e =>
        ⟨(reconcile env w).trace ++ [.ok .tryLogCurrentException,
            .ok (.assign_force_recheck_parts true), .ok (.tryWait ALTER_ERROR_SLEEP_MS)],
          { (((reconcile env w).world.noteStop env .tryLogCurrentException).noteStop env
              (.assign_force_recheck_parts true)).noteStop env (.tryWait ALTER_ERROR_SLEEP_MS)
            with force_recheck_parts := true },
          .ok (some e)⟩ := by
  unfold iteration tryCatch
  cases hr : (reconcile env w).result with
  | error e =>
    rw [bind_of_error hr]
    simp [bind_apply, World.noteStop]
  | ok u =>
    rw [bind_of_ok hr]
    simp

theorem iteration_spine (env : Env) (w : World) :
    ∃ x, (iteration env w).result = .ok x ∧
      Spine w.storage.replica_path w.storage.data.data_parts (iteration env w).trace x := by
  have h := reconcile_spine env w
  rw [iteration_apply]
  cases hr : (reconcile env w).result with
  | error e =>
    simp only [Run.exc, hr] at h
    refine ⟨some e, rfl, ?_⟩
    exact spine_unwind h (by simp [Event.call, Call.isLate, Event.isUnwind]) (fun _ => rfl)
  | ok u =>
    simp only [Run.exc, hr] at h
    exact ⟨none, rfl, h⟩

/-! ## Consequences of the shape of the loop trace -/

theorem mem_middle {A P B pre post : List Event} {ev : Event}
    (h : A ++ P ++ B = pre ++ ev :: post) (hA : ev ∉ A) (hB : ev ∉ B) :
    ∃ pre1 post1, P = pre1 ++ ev :: post1 ∧ pre = A ++ pre1 ∧ post = post1 ++ B := by
  rcases List.append_eq_append_iff.1 h with ⟨a, h1, h2⟩ | ⟨c, h1, h2⟩
  · exact absurd (h2 ▸ by simp) hB
  · rcases c with _ | ⟨x, c⟩
    · simp only [List.nil_append] at h2
      exact absurd (h2 ▸ by simp) hB
    · simp only [List.cons_append, List.cons.injEq] at h2
      obtain ⟨rfl, rfl⟩ := h2
      rcases List.append_eq_append_iff.1 h1 with ⟨a, h3, h4⟩ | ⟨c1, h3, h4⟩
      · exact ⟨a, c, h4, h3, rfl⟩
      · rcases c1 with _ | ⟨y, c1⟩
        · simp only [List.nil_append, List.append_nil] at h3 h4
          exact ⟨[], c, by simp [h4], by simp [h3], rfl⟩
        · simp only [List.cons_append, List.cons.injEq] at h4
          exact absurd (h3 ▸ h4.1 ▸ by simp) hA

theorem string_append_right_cancel {a b c : String} (h : a ++ c = b ++ c) : a = b := by
  have := congrArg String.data h
  simp only [String.data_append] at this
  exact String.ext (List.append_cancel_right this)

theorem string_append_left_cancel {a b c : String} (h : a ++ b = a ++ c) : b = c := by
  have := congrArg String.data h
  simp only [String.data_append] at this
  exact String.ext (List.append_cancel_left this)

theorem partOps_name {rp : String} {p q : DataPart} {t u : AlterDataPartTransaction}
    (h : partOps rp p t = partOps rp q u) : p.name = q.name := by
  simp only [partOps, List.cons.injEq, SetData.mk.injEq] at h
  have h1 := h.1.1
  have h2 := string_append_right_cancel h1
  exact string_append_left_cancel h2

theorem handlerEvents_mem {e : Exc} {n : String} {ev : Event} (h : ev ∈ handlerEvents e n) :
    ev = .ok (.enqueuePartForCheck n) ∧ e = .KeeperException ZNONODE := by
  unfold handlerEvents at h
  split at h
  · simp at h
    exact ⟨h, by assumption⟩
  · simp at h

theorem partsTrace_calls {rp : String} {cols : NamesAndTypesList} {ps : List DataPart}
    {tr : List Event} {x : Option Exc} (h : PartsTrace rp cols ps tr x) :
    ∀ ev ∈ tr, ev.call.isPartCall = true := by
  induction h with
  | done => simp
  | alter_threw p ps e => simp [Event.call, Call.isPartCall]
  | skip p ps tr x _ ih =>
    intro ev hev
    rcases List.mem_cons.1 hev with rfl | h
    · rfl
    · exact ih ev h
  | multi_threw p ps t e =>
    intro ev hev
    simp only [List.mem_cons] at hev
    rcases hev with rfl | rfl | h
    · rfl
    · rfl
    · rw [(handlerEvents_mem h).1]; rfl
  | commit_threw p ps t e => simp [Event.call, Call.isPartCall]
  | step p ps t tr x _ ih =>
    intro ev hev
    simp only [List.mem_cons] at hev
    rcases hev with rfl | rfl | rfl | h
    · rfl
    · rfl
    · rfl
    · exact ih ev h

/-- In the trace of the loop, a call of `commit` comes right after the
transaction was returned and its multi-update returned. -/
theorem partsTrace_commit {rp : String} {cols : NamesAndTypesList} {ps : List DataPart}
    {tr : List Event} {x : Option Exc} (h : PartsTrace rp cols ps tr x) :
    ∀ pre ev post n, tr = pre ++ ev :: post → ev.call = .commit .data n →
      ∃ pre1 p t, p ∈ ps ∧ p.name = n ∧
        pre = pre1 ++ [.returned (.alterDataPart .data n cols) (some t),
          .ok (.multi (partOps rp p t))] := by
  induction h with
  | done => intro pre ev post n h; simp at h
  | alter_threw p ps e =>
    intro pre ev post n h hc
    rcases pre with _ | ⟨a, pre⟩
    · simp at h; rw [← h.1] at hc; simp [Event.call] at hc
    · simp at h
  | skip p ps tr x _ ih =>
    intro pre ev post n h hc
    rcases pre with _ | ⟨a, pre⟩
    · simp at h; rw [← h.1] at hc; simp [Event.call] at hc
    · simp only [List.cons_append, List.cons.injEq] at h
      obtain ⟨pre1, q, t, hq, hn, hp⟩ := ih pre ev post n h.2 hc
      exact ⟨a :: pre1, q, t, List.mem_cons_of_mem _ hq, hn, by simp [hp]⟩
  | multi_threw p ps t e =>
    intro pre ev post n h hc
    have hev : ev ∈ (Event.returned (.alterDataPart .data p.name cols) (some t) ::
        .threw (.multi (partOps rp p t)) e :: handlerEvents e p.name) := by
      rw [h]; simp
    simp only [List.mem_cons] at hev
    rcases hev with rfl | rfl | h1
    · simp [Event.call] at hc
    · simp [Event.call] at hc
    · rw [(handlerEvents_mem h1).1] at hc; simp [Event.call] at hc
  | commit_threw p ps t e =>
    intro pre ev post n h hc
    rcases pre with _ | ⟨a, _ | ⟨b, _ | ⟨c, pre⟩⟩⟩
    · simp at h; rw [← h.1] at hc; simp [Event.call] at hc
    · simp at h; rw [← h.2.1] at hc; simp [Event.call] at hc
    · simp at h
      obtain ⟨rfl, rfl, rfl, _⟩ := h
      simp only [Event.call, Call.commit.injEq, true_and] at hc
      exact ⟨[], p, t, by simp, hc, by simp [hc]⟩
    · simp at h
  | step p ps t tr x _ ih =>
    intro pre ev post n h hc
    rcases pre with _ | ⟨a, _ | ⟨b, _ | ⟨c, pre⟩⟩⟩
    · simp at h; rw [← h.1] at hc; simp [Event.call] at hc
    · simp at h; rw [← h.2.1] at hc; simp [Event.call] at hc
    · simp at h
      obtain ⟨rfl, rfl, rfl, _⟩ := h
      simp only [Event.call, Call.commit.injEq, true_and] at hc
      exact ⟨[], p, t, by simp, hc, by simp [hc]⟩
    · simp only [List.cons_append, List.cons.injEq] at h
      obtain ⟨rfl, rfl, rfl, h⟩ := h
      obtain ⟨pre1, q, u, hq, hn, hp⟩ := ih pre ev post n h hc
      exact ⟨.returned (.alterDataPart .data p.name cols) (some t) ::
        .ok (.multi (partOps rp p t)) :: .ok (.commit .data p.name) :: pre1, q, u,
        List.mem_cons_of_mem _ hq, hn, by simp [hp]⟩


theorem partsTrace_none {rp : String} {cols : NamesAndTypesList} {ps : List DataPart}
    {tr : List Event} (h : PartsTrace rp cols ps tr none) :
    ∀ ev ∈ tr, ev.isThrew = false := by
  generalize hx : (none : Option Exc) = x at h
  induction h with
  | done => simp
  | alter_threw p ps e => simp at hx
  | skip p ps tr x _ ih =>
    intro ev hev
    rcases List.mem_cons.1 hev with rfl | h
    · rfl
    · exact ih hx ev h
  | multi_threw p ps t e => simp at hx
  | commit_threw p ps t e => simp at hx
  | step p ps t tr x _ ih =>
    intro ev hev
    simp only [List.mem_cons] at hev
    rcases hev with rfl | rfl | rfl | h
    · rfl
    · rfl
    · rfl
    · exact ih hx ev h

/-- When a multi-update raises in the loop, it is the multi-update of a part
of the list, only the handler follows it, and before it no call raised, no
part was enqueued and (part names being distinct) `commit` was not called for
that part. -/
theorem partsTrace_multi_threw {rp : String} {cols : NamesAndTypesList} {ps : List DataPart}
    {tr : List Event} {x : Option Exc} (h : PartsTrace rp cols ps tr x) :
    ∀ ops e, Event.threw (.multi ops) e ∈ tr →
      ∃ pre p t, p ∈ ps ∧ ops = partOps rp p t ∧ x = some e ∧
        tr = pre ++ Event.threw (.multi ops) e :: handlerEvents e p.name ∧
        (∀ ev ∈ pre, ev.isThrew = false ∧ ∀ n, ev.call ≠ .enqueuePartForCheck n) ∧
        ((ps.map DataPart.name).Nodup → ∀ ev ∈ pre, ev.call ≠ .commit .data p.name) := by
  induction h with
  | done => intro ops e h; simp at h
  | alter_threw p ps e => intro ops e1 h; simp at h
  | skip p ps tr x _ ih =>
    intro ops e h
    simp only [List.mem_cons, reduceCtorEq, false_or] at h
    obtain ⟨pre, q, t, hq, hops, hx, htr, hpre, hnd⟩ := ih ops e h
    refine ⟨.returned (.alterDataPart .data p.name cols) none :: pre, q, t,
      List.mem_cons_of_mem _ hq, hops, hx, by simp [htr], ?_, ?_⟩
    · intro ev hev
      rcases List.mem_cons.1 hev with rfl | h1
      · simp [Event.isThrew, Event.call]
      · exact hpre ev h1
    · intro hn ev hev
      rcases List.mem_cons.1 hev with rfl | h1
      · simp [Event.call]
      · exact hnd (List.nodup_cons.1 (by simpa using hn)).2 ev h1
  | multi_threw p ps t e =>
    intro ops e1 h
    simp only [List.mem_cons, reduceCtorEq, false_or, Event.threw.injEq, Call.multi.injEq] at h
    rcases h with ⟨rfl, rfl⟩ | h
    · refine ⟨[.returned (.alterDataPart .data p.name cols) (some t)], p, t, by simp, rfl, rfl,
        by simp, ?_, ?_⟩
      · intro ev hev
        simp only [List.mem_singleton] at hev
        subst hev
        simp [Event.isThrew, Event.call]
      · intro _ ev hev
        simp only [List.mem_singleton] at hev
        subst hev
        simp [Event.call]
    · have := (handlerEvents_mem h).1
      simp at this
  | commit_threw p ps t e => intro ops e1 h; simp at h
  | step p ps t tr x _ ih =>
    intro ops e h
    simp only [List.mem_cons, reduceCtorEq, false_or] at h
    obtain ⟨pre, q, u, hq, hops, hx, htr, hpre, hnd⟩ := ih ops e h
    refine ⟨.returned (.alterDataPart .data p.name cols) (some t) ::
        .ok (.multi (partOps rp p t)) :: .ok (.commit .data p.name) :: pre, q, u,
      List.mem_cons_of_mem _ hq, hops, hx, by simp [htr], ?_, ?_⟩
    · intro ev hev
      simp only [List.mem_cons] at hev
      rcases hev with rfl | rfl | rfl | h1
      · simp [Event.isThrew, Event.call]
      · simp [Event.isThrew, Event.call]
      · simp [Event.isThrew, Event.call]
      · exact hpre ev h1
    · intro hn ev hev
      have hn1 := List.nodup_cons.1 (by simpa using hn : (p.name :: ps.map DataPart.name).Nodup)
      simp only [List.mem_cons] at hev
      rcases hev with rfl | rfl | rfl | h1
      · simp [Event.call]
      · simp [Event.call]
      · simp only [Event.call, ne_eq, Call.commit.injEq, true_and]
        intro hpq
        exact hn1.1 (List.mem_map.2 ⟨q, hq, hpq.symm⟩)
      · exact hnd hn1.2 ev h1

/-! ## At most one call raises in a pass -/

theorem closed_raisedLast : Closed RaisedLast where
  refl := by intro w; simp [RaisedLast]
  seq := by
    intro w w1 w2 t1 t2 x h1 h2
    cases x with
    | none =>
      simp only [RaisedLast] at h1 h2 ⊢
      intro ev hev
      rcases List.mem_append.1 hev with h | h
      · exact h1 ev h
      · exact h2 ev h
    | some e =>
      simp only [RaisedLast] at h1 h2 ⊢
      obtain ⟨pre, c, post, rfl, hpre, hpost⟩ := h2
      refine ⟨t1 ++ pre, c, post, by simp, ?_, hpost⟩
      intro ev hev
      rcases List.mem_append.1 hev with h | h
      · exact h1 ev h
      · exact hpre ev h

theorem leaves_raisedLast (env : Env) (rs : List Resource) : Leaves env rs RaisedLast := by
  intro w w1 t x h
  cases x with
  | none =>
    simp only [RaisedLast] at h ⊢
    intro ev hev
    rcases List.mem_append.1 hev with h1 | h1
    · exact h ev h1
    · exact (releases_late rs w1 ev h1).2.2.1
  | some e =>
    simp only [RaisedLast] at h ⊢
    obtain ⟨pre, c, post, rfl, hpre, hpost⟩ := h
    refine ⟨pre, c, post ++ releases rs w1, by simp, hpre, ?_⟩
    intro ev hev
    rcases List.mem_append.1 hev with h1 | h1
    · exact hpost ev h1
    · exact (releases_late rs w1 ev h1).2.2.2

theorem raisedLast_ok (w w1 : World) (c : Call) : RaisedLast w w1 [.ok c] none := by
  simp [RaisedLast, Event.isThrew]

theorem raisedLast_returned (w w1 : World) (c : Call) (t : Option AlterDataPartTransaction) :
    RaisedLast w w1 [.returned c t] none := by
  simp [RaisedLast, Event.isThrew]

theorem raisedLast_nil (w w1 : World) : RaisedLast w w1 [] none := by
  simp [RaisedLast]

theorem raisedLast_threw (w w1 : World) (c : Call) (e : Exc) :
    RaisedLast w w1 [.threw c e] (some e) := by
  simp only [RaisedLast]
  exact ⟨[], c, [], by simp, by simp, by simp⟩

theorem raisedLast_multiOrEnqueue (env : Env) (ops : List SetData) (name : String) :
    Holds RaisedLast (multiOrEnqueue env ops name) := by
  intro w
  rcases multiOrEnqueue_cases env ops name w with ⟨e, h1, h2, _⟩ | ⟨h1, h2, _⟩
  · simp only [Run.exc, h1, h2, RaisedLast]
    refine ⟨[], .multi ops, handlerEvents e name, by simp, by simp, ?_⟩
    intro ev hev
    rw [(handlerEvents_mem hev).1]
    rfl
  · simp only [Run.exc, h1, h2]
    exact raisedLast_ok _ _ _

theorem raisedLast_alterParts (env : Env) (cols : NamesAndTypesList) (ps : List DataPart) :
    Holds RaisedLast (alterParts env cols ps) := by
  have hC := closed_raisedLast
  induction ps with
  | nil => exact holds_pure hC _
  | cons p ps ih =>
    unfold alterParts commit
    repeat' first
      | with_reducible first
        | exact ih
        | apply raisedLast_multiOrEnqueue
        | apply holds_pure hC
        | apply holds_getWorld hC
        | apply holds_call
        | apply holds_alterDataPart
        | apply holds_modifyWorld
        | refine holds_bind hC ?_ (fun _ => ?_)
        | dsimp only
        | split
      | (intro w; first | exact raisedLast_nil _ _ | exact raisedLast_ok _ _ _)
      | (intro w e; exact raisedLast_threw _ _ _ _)
      | (intro w t; exact raisedLast_returned _ _ _ _)

theorem raisedLast_alterUnreplicatedParts (env : Env) (cols : NamesAndTypesList)
    (ps : List DataPart) : Holds RaisedLast (alterUnreplicatedParts env cols ps) := by
  have hC := closed_raisedLast
  induction ps with
  | nil => exact holds_pure hC _
  | cons p ps ih =>
    unfold alterUnreplicatedParts commit
    repeat' first
      | with_reducible first
        | exact ih
        | apply holds_pure hC
        | apply holds_getWorld hC
        | apply holds_call
        | apply holds_alterDataPart
        | apply holds_modifyWorld
        | refine holds_bind hC ?_ (fun _ => ?_)
        | dsimp only
        | split
      | (intro w; first | exact raisedLast_nil _ _ | exact raisedLast_ok _ _ _)
      | (intro w e; exact raisedLast_threw _ _ _ _)
      | (intro w t; exact raisedLast_returned _ _ _ _)

theorem raisedLast_reconcile (env : Env) : Holds RaisedLast (reconcile env) := by
  have hC := closed_raisedLast
  unfold reconcile fetch zkGet underBlockers cancelMerges structuralUpdate applyChanges
    assignColumns assignMaterialized assignAlias assignDefaults initPrimaryKeys
    snapshotAndSetVersion updateParts partsToAlter alterUnreplicated publishColumns zkSet
  repeat' first
    | with_reducible first
      | apply raisedLast_alterParts
      | apply raisedLast_alterUnreplicatedParts
      | apply holds_pure hC
      | apply holds_getWorld hC
      | apply holds_ite
      | apply holds_scope (leaves_raisedLast _ _)
      | apply holds_emit
      | apply holds_call
      | apply holds_callResult
      | apply holds_modifyWorld
      | apply holds_acquire
      | refine holds_bind hC ?_ (fun _ => ?_)
      | dsimp only
      | split
    | (intro w; first | exact raisedLast_nil _ _ | exact raisedLast_ok _ _ _)
    | (intro w e; exact raisedLast_threw _ _ _ _)

theorem isEarly_not_part {c : Call} (h : c.isEarly = true) : c.isPartCall = false := by
  cases c with
  | alterDataPart st p t => cases st <;> simp [Call.isEarly] at h
  | commit st p => cases st <;> simp [Call.isEarly] at h
  | multi ops => simp [Call.isEarly] at h
  | enqueuePartForCheck n => simp [Call.isEarly] at h
  | _ => rfl

theorem isLate_not_part {c : Call} (h : c.isLate = true) : c.isPartCall = false := by
  cases c with
  | alterDataPart st p t => cases st <;> first | rfl | simp [Call.isLate] at h
  | commit st p => cases st <;> first | rfl | simp [Call.isLate] at h
  | multi ops => simp [Call.isLate] at h
  | enqueuePartForCheck n => simp [Call.isLate] at h
  | _ => rfl

theorem isEarly_not_set {c : Call} (h : c.isEarly = true) :
    (∀ path data, c ≠ .set path data) ∧ (∀ st p t, c ≠ .alterDataPart st p t) ∧
    (∀ st p, c ≠ .commit st p) := by
  cases c with
  | alterDataPart st p t => cases st <;> simp [Call.isEarly] at h
  | commit st p => cases st <;> simp [Call.isEarly] at h
  | set p d => simp [Call.isEarly] at h
  | _ => simp

theorem isUnwind_calls {ev : Event} (h : ev.isUnwind = true) :
    ev.isThrew = false ∧ ev.call.isPartCall = false ∧ (∀ path data, ev.call ≠ .set path data) ∧
    (∀ st p t, ev.call ≠ .alterDataPart st p t) ∧ (∀ st p, ev.call ≠ .commit st p) ∧
    (∀ ops, ev.call ≠ .multi ops) := by
  cases ev with
  | ok c =>
    cases c with
    | release r => simp [Event.isThrew, Event.call, Call.isPartCall]
    | tryLogCurrentException => simp [Event.isThrew, Event.call, Call.isPartCall]
    | assign_force_recheck_parts b => simp [Event.isThrew, Event.call, Call.isPartCall]
    | tryWait ms => simp [Event.isThrew, Event.call, Call.isPartCall]
    | _ => simp [Event.isUnwind] at h
  | returned c t => simp [Event.isUnwind] at h
  | threw c e => simp [Event.isUnwind] at h

theorem isCleanup_not_threw {ev : Event} (h : ev.isCleanup = true) : ev.isThrew = false := by
  cases ev with
  | threw c e => simp [Event.isCleanup] at h
  | _ => rfl

theorem reconcile_threw_unique (env : Env) (w : World) :
    ∀ ev1 ∈ (reconcile env w).trace, ∀ ev2 ∈ (reconcile env w).trace,
      ev1.isThrew = true → ev2.isThrew = true → ev1 = ev2 := by
  have h := raisedLast_reconcile env w
  intro ev1 h1 ev2 h2 t1 t2
  cases hx : (reconcile env w).exc with
  | none =>
    rw [hx] at h
    simp only [RaisedLast] at h
    rw [h ev1 h1] at t1
    simp at t1
  | some e =>
    rw [hx] at h
    simp only [RaisedLast] at h
    obtain ⟨pre, c, post, htr, hpre, hpost⟩ := h
    have key : ∀ ev ∈ (reconcile env w).trace, ev.isThrew = true → ev = .threw c e := by
      intro ev hev ht
      rw [htr] at hev
      simp only [List.mem_append, List.mem_cons] at hev
      rcases hev with h3 | rfl | h3
      · rw [hpre ev h3] at ht; simp at ht
      · rfl
      · rw [isCleanup_not_threw (hpost ev h3)] at ht; simp at ht
    rw [key ev1 h1 t1, key ev2 h2 t2]

theorem iteration_trace_cases (env : Env) (w : World) :
    (iteration env w).trace = (reconcile env w).trace ∨
    (iteration env w).trace = (reconcile env w).trace ++
      [.ok .tryLogCurrentException, .ok (.assign_force_recheck_parts true),
        .ok (.tryWait ALTER_ERROR_SLEEP_MS)] := by
  rw [iteration_apply]
  cases (reconcile env w).result with
  | error e => right; rfl
  | ok u => left; rfl

theorem iteration_threw_mem {env : Env} {w : World} {ev : Event}
    (h : ev ∈ (iteration env w).trace) (ht : ev.isThrew = true) :
    ev ∈ (reconcile env w).trace := by
  rcases iteration_trace_cases env w with h1 | h1
  · rw [h1] at h; exact h
  · rw [h1] at h
    simp only [List.mem_append, List.mem_cons, List.mem_singleton, List.not_mem_nil,
      or_false] at h
    rcases h with h | rfl | rfl | rfl
    · exact h
    · simp [Event.isThrew] at ht
    · simp [Event.isThrew] at ht
    · simp [Event.isThrew] at ht

theorem iteration_threw_unique (env : Env) (w : World) :
    ∀ ev1 ∈ (iteration env w).trace, ∀ ev2 ∈ (iteration env w).trace,
      ev1.isThrew = true → ev2.isThrew = true → ev1 = ev2 := by
  intro ev1 h1 ev2 h2 t1 t2
  exact reconcile_threw_unique env w ev1 (iteration_threw_mem h1 t1) ev2
    (iteration_threw_mem h2 t2) t1 t2

theorem iteration_caught {env : Env} {w : World} {e : Exc}
    (h : (iteration env w).result = .ok (some e)) :
    (reconcile env w).result = .error e ∧
    (iteration env w).trace = (reconcile env w).trace ++
      [.ok .tryLogCurrentException, .ok (.assign_force_recheck_parts true),
        .ok (.tryWait ALTER_ERROR_SLEEP_MS)] ∧
    (iteration env w).world.force_recheck_parts = true := by
  rw [iteration_apply] at h ⊢
  cases hr : (reconcile env w).result with
  | error e1 =>
    simp only [hr] at h ⊢
    simp only [Except.ok.injEq, Option.some.injEq] at h
    subst h
    simp
  | ok u =>
    simp only [hr] at h
    simp at h

theorem isEarly_not_enqueue {c : Call} (h : c.isEarly = true) :
    ∀ n, c ≠ .enqueuePartForCheck n := by
  intro n hc
  rw [hc] at h
  simp [Call.isEarly] at h

theorem isPartCall_not_set {c : Call} (h : c.isPartCall = true) :
    ∀ path data, c ≠ .set path data := by
  intro path data hc
  rw [hc] at h
  simp [Call.isPartCall] at h

theorem mem_bind_left {α β : Type} {m : M α} {f : α → M β} {w : World} {ev : Event}
    (h : ev ∈ (m w).trace) : ev ∈ ((m >>= f) w).trace := by
  cases hr : (m w).result with
  | error e => rw [bind_of_error hr]; exact h
  | ok a => rw [bind_of_ok hr]; exact List.mem_append_left _ h

theorem mem_bind_right {α β : Type} {m : M α} {f : α → M β} {w : World} {ev : Event} {a : α}
    (hr : (m w).result = .ok a) (h : ev ∈ (f a (m w).world).trace) :
    ev ∈ ((m >>= f) w).trace := by
  rw [bind_of_ok hr]; exact List.mem_append_right _ h

theorem partsTrace_all {rp : String} {cols : NamesAndTypesList} {ps : List DataPart}
    {tr : List Event} (h : PartsTrace rp cols ps tr none) :
    ∀ p ∈ ps, ∃ t, Event.returned (.alterDataPart .data p.name cols) t ∈ tr := by
  generalize hx : (none : Option Exc) = x at h
  induction h with
  | done => simp
  | alter_threw p ps e => simp at hx
  | skip p ps tr x _ ih =>
    intro q hq
    rcases List.mem_cons.1 hq with rfl | h
    · exact ⟨none, by simp⟩
    · obtain ⟨t, ht⟩ := ih hx q h
      exact ⟨t, List.mem_cons_of_mem _ ht⟩
  | multi_threw p ps t e => simp at hx
  | commit_threw p ps t e => simp at hx
  | step p ps t tr x _ ih =>
    intro q hq
    rcases List.mem_cons.1 hq with rfl | h
    · exact ⟨some t, by simp⟩
    · obtain ⟨u, hu⟩ := ih hx q h
      exact ⟨u, by simp [hu]⟩

theorem updateParts_ok_lock {env : Env} {s : String} {c : Bool} {ps : List DataPart}
    {w : World} {u : Unit} (h : (updateParts env s c ps w).result = .ok u) :
    Event.ok .lockStructure ∈ (updateParts env s c ps w).trace := by
  unfold updateParts at h ⊢
  simp only [scope_apply] at h ⊢
  apply List.mem_append_left
  apply mem_bind_left
  cases hf : env.fault .lockStructure with
  | some e =>
    have h1 : (call env .lockStructure w).result = .error e := by simp [call, hf]
    rw [bind_of_error h1] at h
    simp at h
  | none => simp [call, hf]

theorem underBlockers_ok_lock {env : Env} {s : String} {d : ColumnsDescription} {v : Int}
    {c : Bool} {w : World} {u : Unit} (h : (underBlockers env s d v c w).result = .ok u)
    (hc : c = true ∨ w.force_recheck_parts = true) :
    Event.ok .lockStructure ∈ (underBlockers env s d v c w).trace := by
  unfold underBlockers at h ⊢
  simp only [scope_apply] at h ⊢
  apply List.mem_append_left
  have hcond : (c || w.force_recheck_parts) = true := by
    rcases hc with h1 | h1 <;> simp [h1]
  obtain ⟨a1, h1, h⟩ := bind_ok_inv h
  refine mem_bind_right h1 ?_
  obtain ⟨a2, h2, h⟩ := bind_ok_inv h
  refine mem_bind_right h2 ?_
  simp only [getWorld_apply, Except.ok.injEq] at h1
  subst h1
  cases c with
  | false =>
    simp only [Bool.false_eq_true, if_false] at h ⊢
    obtain ⟨a3, h3, h⟩ := bind_ok_inv h
    refine mem_bind_right h3 ?_
    simp only [hcond, if_true] at h ⊢
    exact updateParts_ok_lock h
  | true =>
    simp only [if_true] at h ⊢
    obtain ⟨a3, h3, h⟩ := bind_ok_inv h
    refine mem_bind_right h3 ?_
    simp only [hcond, if_true] at h ⊢
    exact updateParts_ok_lock h

theorem reconcile_ok_lock {env : Env} {w : World} {u : Unit}
    (h : (reconcile env w).result = .ok u) (hf : w.force_recheck_parts = true) :
    Event.ok .lockStructure ∈ (reconcile env w).trace := by
  unfold reconcile at h ⊢
  obtain ⟨a1, h1, h⟩ := bind_ok_inv h
  refine mem_bind_right h1 ?_
  obtain ⟨s, v, d⟩ := a1
  dsimp only at h ⊢
  obtain ⟨a2, h2, h⟩ := bind_ok_inv h
  refine mem_bind_right h2 ?_
  obtain ⟨a3, h3, h⟩ := bind_ok_inv h
  apply mem_bind_left
  simp only [getWorld_apply, Except.ok.injEq] at h2
  subst h2
  have hk := fetch_keeps env w
  simp only [Keeps, Prod.mk.injEq] at hk
  simp only [getWorld_apply] at h3 ⊢
  exact underBlockers_ok_lock h3 (Or.inr (by rw [hk.2.2.1]; exact hf))

theorem iteration_never_raises (env : Env) (w : World) : ∃ x, (iteration env w).result = .ok x := by
  rw [iteration_apply]
  cases (reconcile env w).result with
  | error e => exact ⟨some e, rfl⟩
  | ok u => exact ⟨none, rfl⟩

theorem loop_never_raises (envs : List Env) : ∀ w, ∃ b, (loop envs w).result = .ok b := by
  induction envs with
  | nil => intro w; exact ⟨w.need_stop, rfl⟩
  | cons env envs ih =>
    intro w
    unfold loop
    rw [bind_of_ok (show (getWorld w).result = .ok w from rfl)]
    simp only [getWorld_apply]
    split
    · exact ⟨true, rfl⟩
    · obtain ⟨x, hx⟩ := iteration_never_raises env w
      rw [bind_of_ok hx]
      exact ih _

theorem loop_cons {env : Env} {envs : List Env} {w : World} (h : w.need_stop = false) :
    (loop (env :: envs) w).trace =
      (iteration env w).trace ++ (loop envs (iteration env w).world).trace ∧
    (loop (env :: envs) w).world = (loop envs (iteration env w).world).world ∧
    (loop (env :: envs) w).result = (loop envs (iteration env w).world).result := by
  obtain ⟨x, hx⟩ := iteration_never_raises env w
  have key : loop (env :: envs) w = (iteration env >>= fun _ => loop envs) w := by
    rw [loop]
    rw [bind_of_ok (show (getWorld w).result = .ok w from rfl)]
    simp only [getWorld_apply, h, Bool.false_eq_true, if_false, List.nil_append]
  rw [key, bind_of_ok hx]
  exact ⟨rfl, rfl, rfl⟩

theorem threw_mem_exc {env : Env} {w : World} {c : Call} {e : Exc}
    (h : Event.threw c e ∈ (reconcile env w).trace) : (reconcile env w).result = .error e := by
  have hr := raisedLast_reconcile env w
  cases hres : (reconcile env w).result with
  | ok u =>
    simp only [Run.exc, hres, RaisedLast] at hr
    have := hr _ h
    simp [Event.isThrew] at this
  | error e1 =>
    simp only [Run.exc, hres, RaisedLast] at hr
    obtain ⟨pre, c1, post, htr, hpre, hpost⟩ := hr
    rw [htr] at h
    simp only [List.mem_append, List.mem_cons] at h
    rcases h with h | h | h
    · have := hpre _ h
      simp [Event.isThrew] at this
    · simp only [Event.threw.injEq] at h
      rw [h.2]
    · have := isCleanup_not_threw (hpost _ h)
      simp [Event.isThrew] at this


theorem iteration_ok {env : Env} {w : World} (h : (iteration env w).result = .ok none) :
    (reconcile env w).result = .ok () ∧ (iteration env w).trace = (reconcile env w).trace ∧
    (iteration env w).world = (reconcile env w).world := by
  rw [iteration_apply] at h ⊢
  cases hr : (reconcile env w).result with
  | error e1 =>
    simp only [hr] at h
    simp at h
  | ok u => simp

theorem iteration_ok_all_parts {env : Env} {w : World}
    (hf : w.force_recheck_parts = true) (h : (iteration env w).result = .ok none) :
    ∀ p ∈ w.storage.data.data_parts, ∃ cols t,
      Event.returned (.alterDataPart .data p.name cols) t ∈ (iteration env w).trace := by
  obtain ⟨x, hres, A, PA, B, cols, ps, y, htr, hP, hA, hB, hy, _, hlock⟩ := iteration_spine env w
  have hx : x = none := by
    rw [h] at hres
    simp only [Except.ok.injEq] at hres
    exact hres.symm
  have hyn : y = none := by
    by_contra hne
    have := (hy hne).1
    rw [hx] at this
    exact hne this.symm
  subst hyn
  have hl : Event.ok .lockStructure ∈ (iteration env w).trace := by
    rw [(iteration_ok h).2.1]
    exact reconcile_ok_lock (iteration_ok h).1 hf
  have hlA : Event.ok .lockStructure ∈ A := by
    rw [htr] at hl
    simp only [List.mem_append] at hl
    rcases hl with (h1 | h1) | h1
    · exact h1
    · have := partsTrace_calls hP _ h1
      simp [Event.call, Call.isPartCall] at this
    · have := hB _ h1
      simp [Event.call, Call.isLate] at this
  have hps := hlock hlA
  subst hps
  intro p hp
  obtain ⟨t, ht⟩ := partsTrace_all hP p hp
  exact ⟨cols, t, by rw [htr]; simp [ht]⟩

theorem bind_ok_inv2 {α β : Type} {m : M α} {f : α → M β} {w : World} {b : β}
    (h : ((m >>= f) w).result = .ok b) :
    ∃ a, (m w).result = .ok a ∧ (f a (m w).world).result = .ok b ∧
      ((m >>= f) w).world = (f a (m w).world).world ∧
      ((m >>= f) w).trace = (m w).trace ++ (f a (m w).world).trace := by
  cases hr : (m w).result with
  | error e => rw [bind_of_error hr] at h; simp at h
  | ok a => rw [bind_of_ok hr] at h ⊢; exact ⟨a, rfl, h, rfl, rfl⟩

theorem holds_tryCatch_keeps {α β : Type} {g : World → β} {body : M α} {handler : Exc → M α}
    (hb : Holds (Keeps g) body) (hh : ∀ e, Holds (Keeps g) (handler e)) :
    Holds (Keeps g) (tryCatch body handler) := by
  intro w
  unfold tryCatch
  have h1 := hb w
  rcases hbw : body w with ⟨t, w1, r⟩
  rw [hbw] at h1
  cases r with
  | error e =>
    have h2 := hh e w1
    simp only [Keeps] at h1 h2 ⊢
    rw [h2, h1]
  | ok a => exact h1

theorem multiOrEnqueue_schema (env : Env) (ops : List SetData) (name : String) :
    Holds (Keeps World.schema) (multiOrEnqueue env ops name) := by
  have hC := closed_keeps World.schema
  unfold multiOrEnqueue
  apply holds_tryCatch_keeps
  · unfold zkMulti
    repeat' first
      | with_reducible first
        | apply holds_getWorld hC
        | apply holds_callResult
        | apply holds_modifyWorld
        | refine holds_bind hC ?_ (fun _ => ?_)
      | (intro w; rfl)
      | (intro w e; rfl)
  · intro e
    unfold enqueuePartForCheck
    repeat' first
      | with_reducible first
        | apply holds_pure hC
        | apply holds_ite
        | apply holds_emit
        | apply holds_modifyWorld
        | refine holds_bind hC ?_ (fun _ => ?_)
        | split
      | (intro w; rfl)

theorem commit_map_isSome (u : Option MergeTreeData) (f : MergeTreeData → MergeTreeData) :
    (u.map f).isSome = u.isSome := by
  cases u <;> rfl

theorem alterParts_schema (env : Env) (cols : NamesAndTypesList) (ps : List DataPart) :
    Holds (Keeps World.schema) (alterParts env cols ps) := by
  have hC := closed_keeps World.schema
  induction ps with
  | nil => exact holds_pure hC _
  | cons p ps ih =>
    unfold alterParts commit
    repeat' first
      | with_reducible first
        | exact ih
        | apply multiOrEnqueue_schema
        | apply holds_pure hC
        | apply holds_getWorld hC
        | apply holds_call
        | apply holds_alterDataPart
        | apply holds_modifyWorld
        | refine holds_bind hC ?_ (fun _ => ?_)
        | dsimp only
        | split
      | (intro w; rfl)
      | (intro w e; rfl)
      | (intro w t; rfl)

theorem alterUnreplicatedParts_schema (env : Env) (cols : NamesAndTypesList)
    (ps : List DataPart) : Holds (Keeps World.schema) (alterUnreplicatedParts env cols ps) := by
  have hC := closed_keeps World.schema
  induction ps with
  | nil => exact holds_pure hC _
  | cons p ps ih =>
    unfold alterUnreplicatedParts commit
    repeat' first
      | with_reducible first
        | exact ih
        | apply holds_pure hC
        | apply holds_getWorld hC
        | apply holds_call
        | apply holds_alterDataPart
        | apply holds_modifyWorld
        | refine holds_bind hC ?_ (fun _ => ?_)
        | dsimp only
        | split
      | (intro w; rfl)
      | (intro w e; rfl)
      | (intro w t; rfl)
      | (intro w; simp [Keeps, World.schema, commit_map_isSome])

theorem leave_schema (env : Env) (rs : List Resource) (w : World) :
    (w.leave env rs).schema = w.schema := by
  simp [World.schema]

theorem updateParts_schema (env : Env) (s : String) (c : Bool) (ps : List DataPart) :
    Holds (Keeps World.schema) (updateParts env s c ps) := by
  have hC := closed_keeps World.schema
  unfold updateParts partsToAlter alterUnreplicated publishColumns zkSet
  repeat' first
    | with_reducible first
      | apply alterParts_schema
      | apply alterUnreplicatedParts_schema
      | apply holds_pure hC
      | apply holds_getWorld hC
      | apply holds_ite
      | apply holds_scope (leaves_keeps _ _ _ (leave_schema env _))
      | apply holds_emit
      | apply holds_call
      | apply holds_callResult
      | apply holds_modifyWorld
      | apply holds_acquire
      | refine holds_bind hC ?_ (fun _ => ?_)
      | dsimp only
      | split
    | (intro w; rfl)
    | (intro w e; rfl)


theorem callResult_ok_inv {α : Type} {env : Env} {c : Call} {r : Except Exc α} {w : World}
    {a : α} (h : (callResult env c r w).result = .ok a) :
    r = .ok a ∧ env.fault c = none ∧ (callResult env c r w).world = w.noteStop env c ∧
    (callResult env c r w).trace = [.ok c] := by
  unfold callResult at h ⊢
  cases hf : env.fault c with
  | some e => simp [hf] at h
  | none =>
    cases r with
    | error e => simp [hf] at h
    | ok b =>
      simp only [hf] at h ⊢
      simp only [Except.ok.injEq] at h
      subst h
      simp

theorem call_ok_inv {env : Env} {c : Call} {w : World} {u : Unit}
    (h : (call env c w).result = .ok u) :
    env.fault c = none ∧ (call env c w).trace = [.ok c] := by
  unfold call at h ⊢
  cases hf : env.fault c with
  | some e => simp [hf] at h
  | none => simp

theorem fetch_ok_inv {env : Env} {w : World} {s : String} {v : Int} {d : ColumnsDescription}
    (h : (fetch env w).result = .ok (s, v, d)) :
    w.zookeeper.lookup (w.storage.zookeeper_path ++ "/columns") = some ⟨s, v⟩ ∧
    env.parse s = .ok d := by
  unfold fetch zkGet at h
  obtain ⟨_, h1, h, _, _⟩ := bind_ok_inv2 h
  obtain ⟨w1, h2, h, _, _⟩ := bind_ok_inv2 h
  simp only [getWorld_apply, Except.ok.injEq] at h2
  subst h2
  obtain ⟨a, h3, h, _, _⟩ := bind_ok_inv2 h
  obtain ⟨s1, v1⟩ := a
  dsimp only at h
  obtain ⟨w2, h4, h3, _, _⟩ := bind_ok_inv2 h3
  simp only [getWorld_apply, Except.ok.injEq] at h4
  subst h4
  have h5 := (callResult_ok_inv h3).1
  obtain ⟨d1, h6, h, _, _⟩ := bind_ok_inv2 h
  have h7 := (callResult_ok_inv h6).1
  simp only [pure_apply, Except.ok.injEq, Prod.mk.injEq] at h
  obtain ⟨rfl, rfl, rfl⟩ := h
  simp only [call_world, getWorld_apply, noteStop_zookeeper, noteStop_storage] at h5
  refine ⟨?_, h7⟩
  cases hl : List.lookup (w.storage.zookeeper_path ++ "/columns") w.zookeeper with
  | none => rw [hl] at h5; simp at h5
  | some n =>
    rw [hl] at h5
    simp only [Except.ok.injEq, Prod.mk.injEq] at h5
    obtain ⟨rfl, rfl⟩ := h5
    rfl

theorem structuralUpdate_ok_version {env : Env} {d : ColumnsDescription} {v : Int} {w : World}
    {ps : List DataPart} (h : (structuralUpdate env d v w).result = .ok ps) :
    (structuralUpdate env d v w).world.storage.columns_version = v := by
  unfold structuralUpdate at h ⊢
  simp only [scope_apply, leave_storage] at h ⊢
  obtain ⟨_, _, h, e1, _⟩ := bind_ok_inv2 h
  rw [e1]
  obtain ⟨_, _, h, e2, _⟩ := bind_ok_inv2 h
  rw [e2]
  obtain ⟨_, _, h, e3, _⟩ := bind_ok_inv2 h
  rw [e3]
  obtain ⟨_, _, h, e4, _⟩ := bind_ok_inv2 h
  rw [e4]
  obtain ⟨_, _, h, e5, _⟩ := bind_ok_inv2 h
  rw [e5, snapshotAndSetVersion_apply]

theorem lookup_write {zk : ZooKeeper} {path data : String} {n : ZNode}
    (h : zk.lookup path = some n) :
    (ZooKeeper.write zk path data).lookup path = some ⟨data, n.version + 1⟩ := by
  induction zk with
  | nil => simp [List.lookup] at h
  | cons x zk ih =>
    obtain ⟨p, m⟩ := x
    unfold ZooKeeper.write
    by_cases hp : p = path
    · subst hp
      simp only [List.lookup, beq_self_eq_true] at h
      simp only [Option.some.injEq] at h
      subst h
      simp [List.lookup]
    · have hb : (path == p) = false := by
        simp only [beq_eq_false_iff_ne, ne_eq]
        exact fun h1 => hp h1.symm
      simp only [List.lookup, hb] at h
      simp only [hp, if_false, List.lookup, hb]
      exact ih h

theorem applyOp_lookup {zk zk1 : ZooKeeper} {path data : String}
    (h : ZooKeeper.applyOp zk ⟨path, data, -1⟩ = .ok zk1) :
    ∃ ver, zk1.lookup path = some ⟨data, ver⟩ := by
  unfold ZooKeeper.applyOp at h
  dsimp only at h
  cases hl : List.lookup path zk with
  | none => rw [hl] at h; simp at h
  | some n =>
    rw [hl] at h
    simp only [true_or, if_true, Except.ok.injEq] at h
    subst h
    exact ⟨_, lookup_write hl⟩

theorem publishColumns_ok {env : Env} {s : String} {w : World} {u : Unit}
    (h : (publishColumns env s w).result = .ok u) :
    (publishColumns env s w).world.force_recheck_parts = false ∧
    (publishColumns env s w).world.storage = w.storage ∧
    ∃ ver, (publishColumns env s w).world.zookeeper.lookup
      (w.storage.replica_path ++ "/columns") = some ⟨s, ver⟩ := by
  unfold publishColumns zkSet at h ⊢
  obtain ⟨w1, h1, h, e1, _⟩ := bind_ok_inv2 h
  simp only [getWorld_apply, Except.ok.injEq] at h1
  subst h1
  rw [e1]
  obtain ⟨_, h2, h, e2, _⟩ := bind_ok_inv2 h
  rw [e2]
  obtain ⟨w2, h3, h2, e3, _⟩ := bind_ok_inv2 h2
  simp only [getWorld_apply, Except.ok.injEq] at h3
  subst h3
  obtain ⟨zk, h4, h2, e4, _⟩ := bind_ok_inv2 h2
  have h5 := callResult_ok_inv h4
  obtain ⟨ver, hver⟩ := applyOp_lookup h5.1
  rw [e3, e4, h5.2.2.1]
  simp only [getWorld_apply, bind_apply, emit_apply, modifyWorld_apply, noteStop_storage,
    noteStop_zookeeper]
  exact ⟨trivial, trivial, ver, hver⟩


theorem updateParts_ok {env : Env} {s : String} {c : Bool} {ps : List DataPart} {w : World}
    {u : Unit} (h : (updateParts env s c ps w).result = .ok u) :
    (updateParts env s c ps w).world.force_recheck_parts = false ∧
    ∃ ver, (updateParts env s c ps w).world.zookeeper.lookup
      ((updateParts env s c ps w).world.storage.replica_path ++ "/columns") = some ⟨s, ver⟩ := by
  unfold updateParts at h ⊢
  simp only [scope_apply, leave_storage, leave_force, leave_zookeeper] at h ⊢
  obtain ⟨_, _, h, e1, _⟩ := bind_ok_inv2 h
  rw [e1]
  obtain ⟨_, _, h, e2, _⟩ := bind_ok_inv2 h
  rw [e2]
  obtain ⟨_, _, h, e3, _⟩ := bind_ok_inv2 h
  rw [e3]
  obtain ⟨_, _, h, e4, _⟩ := bind_ok_inv2 h
  rw [e4]
  obtain ⟨_, _, h, e5, _⟩ := bind_ok_inv2 h
  rw [e5]
  obtain ⟨_, _, h, e6, _⟩ := bind_ok_inv2 h
  rw [e6]
  have hp := publishColumns_ok h
  rw [hp.2.1]
  exact ⟨hp.1, hp.2.2⟩

theorem underBlockers_ok {env : Env} {s : String} {d : ColumnsDescription} {v : Int}
    {w : World} {u : Unit}
    (h : (underBlockers env s d v (decide (v ≠ w.storage.columns_version)) w).result = .ok u)
    (hc : v ≠ w.storage.columns_version ∨ w.force_recheck_parts = true) :
    (underBlockers env s d v (decide (v ≠ w.storage.columns_version)) w).world.storage.columns_version
      = v ∧
    (underBlockers env s d v (decide (v ≠ w.storage.columns_version)) w).world.force_recheck_parts
      = false ∧
    ∃ ver, (underBlockers env s d v (decide (v ≠ w.storage.columns_version)) w).world.zookeeper.lookup
      ((underBlockers env s d v
        (decide (v ≠ w.storage.columns_version)) w).world.storage.replica_path ++ "/columns") =
        some ⟨s, ver⟩ := by
  generalize hcv : decide (v ≠ w.storage.columns_version) = c at h ⊢
  have hcond : (c || w.force_recheck_parts) = true := by
    rcases hc with h1 | h1
    · rw [← hcv]; simp [h1]
    · simp [h1]
  unfold underBlockers at h ⊢
  simp only [scope_apply, leave_storage, leave_force, leave_zookeeper] at h ⊢
  obtain ⟨w1, h1, h, e1, _⟩ := bind_ok_inv2 h
  simp only [getWorld_apply, Except.ok.injEq] at h1
  subst h1
  rw [e1]
  obtain ⟨_, _, h, e2, _⟩ := bind_ok_inv2 h
  rw [e2]
  have hk := cancelMerges_stable env c w
  simp only [Keeps, Prod.mk.injEq] at hk
  simp only [getWorld_apply] at h hk ⊢
  generalize (cancelMerges env c w).world = w2 at h hk ⊢
  cases c with
  | false =>
    simp only [Bool.false_or] at hcond
    simp only [Bool.false_eq_true, if_false, hcond, if_true, Bool.false_or] at h ⊢
    obtain ⟨ps0, _, h, e3, _⟩ := bind_ok_inv2 h
    rw [e3]
    simp only [pure_apply] at h ⊢
    have hs := updateParts_schema env s false ps0 w2
    simp only [Keeps, World.schema, Prod.mk.injEq] at hs
    have hu := updateParts_ok h
    refine ⟨?_, hu.1, hu.2⟩
    rw [hs.1, hk.1]
    simp only [decide_eq_false_iff_not, ne_eq, not_not] at hcv
    exact hcv.symm
  | true =>
    simp only [if_true, Bool.true_or] at h ⊢
    obtain ⟨ps, h3, h, e3, _⟩ := bind_ok_inv2 h
    rw [e3]
    have hs := updateParts_schema env s true ps (structuralUpdate env d v w2).world
    simp only [Keeps, World.schema, Prod.mk.injEq] at hs
    have hu := updateParts_ok h
    refine ⟨?_, hu.1, hu.2⟩
    rw [hs.1]
    exact structuralUpdate_ok_version h3

theorem reconcile_ok {env : Env} {w : World} {u : Unit} {blob : String} {vn : Int}
    (h : (reconcile env w).result = .ok u)
    (hnode : w.zookeeper.lookup (w.storage.zookeeper_path ++ "/columns") = some ⟨blob, vn⟩)
    (hc : vn ≠ w.storage.columns_version ∨ w.force_recheck_parts = true) :
    (reconcile env w).world.storage.columns_version = vn ∧
    (reconcile env w).world.force_recheck_parts = false ∧
    ∃ ver, (reconcile env w).world.zookeeper.lookup
      ((reconcile env w).world.storage.replica_path ++ "/columns") = some ⟨blob, ver⟩ := by
  unfold reconcile at h ⊢
  obtain ⟨a, h1, h, e1, _⟩ := bind_ok_inv2 h
  rw [e1]
  obtain ⟨s, v, d⟩ := a
  have hf := (fetch_ok_inv h1).1
  rw [hnode] at hf
  simp only [Option.some.injEq, ZNode.mk.injEq] at hf
  obtain ⟨rfl, rfl⟩ := hf
  dsimp only at h ⊢
  obtain ⟨w1, h2, h, e2, _⟩ := bind_ok_inv2 h
  simp only [getWorld_apply, Except.ok.injEq] at h2
  subst h2
  rw [e2]
  obtain ⟨_, h3, h, e3, _⟩ := bind_ok_inv2 h
  rw [e3]
  have hk := fetch_keeps env w
  simp only [Keeps, Prod.mk.injEq] at hk
  simp only [getWorld_apply, emit_apply, noteStop_storage, noteStop_force,
    noteStop_zookeeper] at h3 ⊢
  exact underBlockers_ok h3 (by rw [hk.1, hk.2.2.1]; exact hc)


/-- In the trace of a loop that did not raise, a returned transaction is
followed at once by its multi-update and by its `commit`, both returning. -/
theorem partsTrace_committed {rp : String} {cols : NamesAndTypesList} {ps : List DataPart}
    {tr : List Event} (h : PartsTrace rp cols ps tr none) :
    ∀ pre post n c t, tr = pre ++ Event.returned (.alterDataPart .data n c) (some t) :: post →
      ∃ p post1, p ∈ ps ∧ p.name = n ∧
        post = .ok (.multi (partOps rp p t)) :: .ok (.commit .data n) :: post1 := by
  generalize hx : (none : Option Exc) = x at h
  induction h with
  | done => intro pre post n c t h; simp at h
  | alter_threw p ps e => simp at hx
  | skip p ps tr x _ ih =>
    intro pre post n c t h
    rcases pre with _ | ⟨a, pre⟩
    · simp at h
    · simp only [List.cons_append, List.cons.injEq] at h
      obtain ⟨q, post1, hq, hn, hp⟩ := ih hx pre post n c t h.2
      exact ⟨q, post1, List.mem_cons_of_mem _ hq, hn, hp⟩
  | multi_threw p ps t e => simp at hx
  | commit_threw p ps t e => simp at hx
  | step p ps u tr x _ ih =>
    intro pre post n c t h
    rcases pre with _ | ⟨a, _ | ⟨b, _ | ⟨c1, pre⟩⟩⟩
    · simp only [List.nil_append, List.cons.injEq, Event.returned.injEq,
        Call.alterDataPart.injEq, true_and, Option.some.injEq] at h
      obtain ⟨⟨⟨hn, _⟩, rfl⟩, rfl⟩ := h
      exact ⟨p, tr, by simp, hn, by rw [hn]⟩
    · simp at h
    · simp at h
    · simp only [List.cons_append, List.cons.injEq] at h
      obtain ⟨q, post1, hq, hn, hp⟩ := ih hx pre post n c t h.2.2.2
      exact ⟨q, post1, List.mem_cons_of_mem _ hq, hn, hp⟩

theorem applyChanges_of_same {env : Env} {d : ColumnsDescription} {w : World}
    (hd : differs d w = false) : applyChanges env d w = ⟨[], w, .ok ()⟩ := by
  unfold applyChanges
  unfold differs at hd
  simp only [bind_apply, getWorld_apply, hd]
  rfl

theorem applyChanges_of_fault {env : Env} {d : ColumnsDescription} {w : World} {e : Exc}
    (hd : differs d w = true) (hf : env.fault (.alterTable d) = some e) :
    applyChanges env d w =
      ⟨[.threw (.alterTable d) e], w.noteStop env (.alterTable d), .error e⟩ := by
  unfold applyChanges
  unfold differs at hd
  simp only [bind_apply, getWorld_apply, hd, if_true, call, hf]
  rfl

theorem initPrimaryKeys_keeps (env : Env) :
    Holds (Keeps fun w => (w.storage, w.zookeeper, w.force_recheck_parts, w.catalog, w.held))
      (initPrimaryKeys env) := by
  have hC := closed_keeps fun w : World =>
    (w.storage, w.zookeeper, w.force_recheck_parts, w.catalog, w.held)
  unfold initPrimaryKeys
  repeat' first
    | with_reducible first
      | apply holds_pure hC
      | apply holds_getWorld hC
      | apply holds_ite
      | apply holds_call
      | refine holds_bind hC ?_ (fun _ => ?_)
    | (intro w; rfl)
    | (intro w e; rfl)

theorem applyChanges_of_differs {env : Env} {d : ColumnsDescription} {w : World}
    (hd : differs d w = true) (hf : env.fault (.alterTable d) = none) :
    ∃ w5 : World, w5.storage = assigned d w.storage ∧ w5.catalog = d ∧
      w5.zookeeper = w.zookeeper ∧ w5.force_recheck_parts = w.force_recheck_parts ∧
      w5.held = w.held ∧
      (applyChanges env d w).trace =
        Event.ok (.alterTable d) :: (assignEvents d w ++ (initPrimaryKeys env w5).trace) ∧
      (applyChanges env d w).result = (initPrimaryKeys env w5).result ∧
      (applyChanges env d w).world = (initPrimaryKeys env w5).world := by
  unfold applyChanges
  unfold differs at hd
  simp only [bind_apply, getWorld_apply, hd, if_true, call, hf, modifyWorld_apply]
  simp only [MergeTreeData.getColumnsListNonMaterialized] at hd ⊢
  cases h8 : w.storage.unreplicated_data <;>
  by_cases h1 : d.columns = w.storage.data.columns <;>
  by_cases h2 : d.materialized = w.storage.data.materialized_columns <;>
  by_cases h3 : d.alias_ = w.storage.data.alias_columns <;>
  by_cases h4 : d.defaults = w.storage.data.column_defaults <;>
  first
  | (exfalso; simp [h1, h2, h3, h4] at hd; done)
  | (simp only [h1, h2, h3, h4, h8, ne_eq, not_true_eq_false, not_false_eq_true, decide_True,
      decide_False, if_true, if_false, pure_apply, Bool.false_eq_true, assignColumns,
      assignMaterialized, assignAlias, assignDefaults, bind_apply, emit_apply,
      modifyWorld_apply, getWorld_apply, List.nil_append, List.cons_append, List.append_nil,
      assignEvents, assigned, noteStop_storage, Option.isSome_none, Option.isSome_some,
      Option.map_none', Option.map_some', MergeTreeData.setColumnsList]
     refine ⟨_, ?_, ?_, ?_, ?_, ?_, rfl, rfl, rfl⟩ <;>
     simp [h1, h2, h3, h4, h8, MergeTreeData.setColumnsList])


theorem isPartCall_not_structural {c : Call} (h : c.isPartCall = true) :
    c.isStructural = false := by
  cases c with
  | alterDataPart st p t => rfl
  | commit st p => rfl
  | multi ops => rfl
  | enqueuePartForCheck n => rfl
  | _ => simp [Call.isPartCall] at h

theorem isLate_not_structural_of {c : Call} (h : c.isLate = true)
    (h1 : c ≠ .release .table_lock_for_alter)
    (h2 : c ≠ .release .temporarily_stop_part_checks) : c.isStructural = false := by
  cases c with
  | release r => cases r <;> simp_all [Call.isStructural]
  | alterDataPart st p t => rfl
  | commit st p => rfl
  | getDataParts st => rfl
  | set p d => rfl
  | assign_force_recheck_parts b => rfl
  | wait => rfl
  | tryLogCurrentException => rfl
  | tryWait ms => rfl
  | _ => simp [Call.isLate] at h

theorem structural_append (a b : List Event) :
    structural (a ++ b) = structural a ++ structural b := by
  simp [structural]

theorem structural_eq_nil {t : List Event} (h : ∀ ev ∈ t, ev.call.isStructural = false) :
    structural t = [] := by
  simp only [structural, List.filter_eq_nil_iff]
  intro ev hev
  simp [h ev hev]

theorem structural_bind_left {α β : Type} {m : M α} {f : α → M β} {w : World}
    (h : Holds (All fun ev => !ev.call.isStructural) m) :
    structural ((m >>= f) w).trace =
      match (m w).result with
      | .ok a => structural (f a (m w).world).trace
      | .error _ => [] := by
  have h1 : structural (m w).trace = [] :=
    structural_eq_nil fun ev hev => by simpa using h w ev hev
  cases hr : (m w).result with
  | error e => rw [bind_of_error hr]; exact h1
  | ok a => rw [bind_of_ok hr]; simp [structural_append, h1]

theorem structural_bind_right {α β : Type} {m : M α} {f : α → M β} {w : World}
    (h : ∀ a, Holds (All fun ev => !ev.call.isStructural) (f a)) :
    structural ((m >>= f) w).trace = structural (m w).trace := by
  cases hr : (m w).result with
  | error e => rw [bind_of_error hr]
  | ok a =>
    rw [bind_of_ok hr]
    have h1 : structural (f a (m w).world).trace = [] :=
      structural_eq_nil fun ev hev => by simpa using h a _ ev hev
    simp [structural_append, h1]

theorem fetch_not_structural (env : Env) :
    Holds (All fun ev => !ev.call.isStructural) (fetch env) := by
  have hC := closed_all fun ev => !ev.call.isStructural
  unfold fetch zkGet
  repeat' first
    | with_reducible first
      | apply holds_pure hC
      | apply holds_getWorld hC
      | apply holds_call
      | apply holds_callResult
      | refine holds_bind hC ?_ (fun _ => ?_)
      | dsimp only
      | split
    | (intro w; first | exact all_nil _ _ _ _ | exact all_one rfl _ _ _)
    | (intro w e; exact all_one rfl _ _ _)

theorem cancelMerges_not_structural (env : Env) (c : Bool) :
    Holds (All fun ev => !ev.call.isStructural) (cancelMerges env c) := by
  have hC := closed_all fun ev => !ev.call.isStructural
  unfold cancelMerges
  repeat' first
    | with_reducible first
      | apply holds_pure hC
      | apply holds_getWorld hC
      | apply holds_ite
      | apply holds_emit
      | apply holds_acquire
      | refine holds_bind hC ?_ (fun _ => ?_)
      | dsimp only
    | (intro w; first | exact all_nil _ _ _ _ | exact all_one rfl _ _ _)

theorem alterParts_not_structural (env : Env) (cols : NamesAndTypesList)
    (ps : List DataPart) : Holds (All fun ev => !ev.call.isStructural) (alterParts env cols ps) := by
  intro w ev hev
  have := isPartCall_not_structural (partsTrace_calls (alterParts_trace env cols ps w) ev hev)
  simp [this]

theorem alterUnreplicatedParts_not_structural (env : Env) (cols : NamesAndTypesList)
    (ps : List DataPart) :
    Holds (All fun ev => !ev.call.isStructural) (alterUnreplicatedParts env cols ps) := by
  have hC := closed_all fun ev => !ev.call.isStructural
  induction ps with
  | nil => exact holds_pure hC _
  | cons p ps ih =>
    unfold alterUnreplicatedParts commit
    repeat' first
      | with_reducible first
        | exact ih
        | apply holds_pure hC
        | apply holds_getWorld hC
        | apply holds_call
        | apply holds_alterDataPart
        | apply holds_modifyWorld
        | refine holds_bind hC ?_ (fun _ => ?_)
        | dsimp only
        | split
      | (intro w; first | exact all_nil _ _ _ _ | exact all_one rfl _ _ _)
      | (intro w e; exact all_one rfl _ _ _)
      | (intro w t; exact all_one rfl _ _ _)

theorem updateParts_not_structural (env : Env) (s : String) (c : Bool) (ps : List DataPart) :
    Holds (All fun ev => !ev.call.isStructural) (updateParts env s c ps) := by
  have hC := closed_all fun ev => !ev.call.isStructural
  unfold updateParts partsToAlter alterUnreplicated publishColumns zkSet
  repeat' first
    | with_reducible first
      | apply alterParts_not_structural
      | apply alterUnreplicatedParts_not_structural
      | apply holds_pure hC
      | apply holds_getWorld hC
      | apply holds_ite
      | apply holds_scope (leaves_all _ _ _ (by decide))
      | apply holds_emit
      | apply holds_call
      | apply holds_callResult
      | apply holds_modifyWorld
      | apply holds_acquire
      | refine holds_bind hC ?_ (fun _ => ?_)
      | dsimp only
      | split
    | (intro w; first | exact all_nil _ _ _ _ | exact all_one rfl _ _ _)
    | (intro w e; exact all_one rfl _ _ _)

theorem releases_blockers_not_structural (w : World) :
    structural (releases [.unreplicated_merge_blocker, .merge_blocker] w) = [] := by
  apply structural_eq_nil
  intro ev hev
  simp only [releases, alive, List.mem_map, List.mem_filter, List.mem_cons,
    List.mem_singleton, List.not_mem_nil, or_false] at hev
  obtain ⟨r, ⟨hr, _⟩, rfl⟩ := hev
  rcases hr with rfl | rfl <;> rfl

/-- The structural events of the block that owns the merge blockers are
those of the structural update it runs when the version changed. -/
theorem underBlockers_structural (env : Env) (s : String) (d : ColumnsDescription) (v : Int)
    (c : Bool) (w : World) :
    structural (underBlockers env s d v c w).trace =
      if c then structural (structuralUpdate env d v (cancelMerges env c w).world).trace
      else [] := by
  unfold underBlockers
  simp only [scope_apply, structural_append, releases_blockers_not_structural, List.append_nil]
  rw [bind_of_ok (show (getWorld w).result = .ok w from rfl)]
  simp only [getWorld_apply, List.nil_append]
  rw [structural_bind_left (cancelMerges_not_structural env c)]
  simp only [cancelMerges_ok]
  cases c with
  | false =>
    simp only [Bool.false_eq_true, if_false]
    rw [bind_of_ok (show ((pure [] : M (List DataPart)) _).result = .ok [] from rfl)]
    simp only [pure_apply, List.nil_append]
    split
    · exact structural_eq_nil fun ev hev => by
        simpa using updateParts_not_structural env s false [] _ ev hev
    · rfl
  | true =>
    simp only [if_true, Bool.true_or]
    exact structural_bind_right fun ps => updateParts_not_structural env s true ps


theorem applyChanges_held (env : Env) (d : ColumnsDescription) :
    Holds (Keeps fun w => w.held) (applyChanges env d) := by
  have hC := closed_keeps fun w : World => w.held
  unfold applyChanges assignColumns assignMaterialized assignAlias assignDefaults initPrimaryKeys
  repeat' first
    | with_reducible first
      | apply holds_pure hC
      | apply holds_getWorld hC
      | apply holds_ite
      | apply holds_emit
      | apply holds_call
      | apply holds_modifyWorld
      | refine holds_bind hC ?_ (fun _ => ?_)
      | dsimp only
    | (intro w; rfl)
    | (intro w e; rfl)


theorem call_of_none {env : Env} {c : Call} (h : env.fault c = none) (w : World) :
    call env c w = ⟨[.ok c], w.noteStop env c, .ok ()⟩ := by
  unfold call
  rw [h]

theorem call_of_some {env : Env} {c : Call} {e : Exc} (h : env.fault c = some e) (w : World) :
    call env c w = ⟨[.threw c e], w.noteStop env c, .error e⟩ := by
  unfold call
  rw [h]

theorem structuralUpdate_of_ok {env : Env} {d : ColumnsDescription} {v : Int} {w : World}
    {ps : List DataPart} (h : (structuralUpdate env d v w).result = .ok ps) :
    env.fault .lockStructureForAlter = none ∧
    (applyChanges env d (w.locked env)).result = .ok () ∧
    (structuralUpdate env d v w).trace =
      .ok .temporarilyStop :: .ok .lockStructureForAlter ::
        ((applyChanges env d (w.locked env)).trace ++
          [.ok (.getDataParts .data), .ok (.assign_columns_version v),
            .ok (.release .table_lock_for_alter),
            .ok (.release .temporarily_stop_part_checks)]) ∧
    (structuralUpdate env d v w).world.storage =
      { (applyChanges env d (w.locked env)).world.storage with columns_version := v } ∧
    (structuralUpdate env d v w).world.catalog =
      (applyChanges env d (w.locked env)).world.catalog := by
  unfold structuralUpdate at h ⊢
  simp only [scope_apply, leave_storage, leave_catalog] at h ⊢
  obtain ⟨_, _, h, e1, t1⟩ := bind_ok_inv2 h
  rw [e1, t1]
  obtain ⟨_, _, h, e2, t2⟩ := bind_ok_inv2 h
  rw [e2, t2]
  obtain ⟨_, h3, h, e3, t3⟩ := bind_ok_inv2 h
  rw [e3, t3]
  obtain ⟨_, _, h, e4, t4⟩ := bind_ok_inv2 h
  rw [e4, t4]
  obtain ⟨_, h5, h, e5, t5⟩ := bind_ok_inv2 h
  rw [e5, t5]
  have hl := call_ok_inv h3
  simp only [emit_apply, acquire_apply, call_of_none hl.1, snapshotAndSetVersion_apply,
    List.nil_append, List.singleton_append, List.cons_append, List.append_assoc] at h5 ⊢
  have hheld := applyChanges_held env d (w.locked env)
  simp only [Keeps] at hheld
  have key : ∀ W : World, W.held = .table_lock_for_alter :: .temporarily_stop_part_checks ::
      w.held → releases [Resource.table_lock_for_alter, Resource.temporarily_stop_part_checks] W =
      [.ok (.release .table_lock_for_alter), .ok (.release .temporarily_stop_part_checks)] := by
    intro W hW
    simp [releases, alive, hW]
  refine ⟨hl.1, h5, ?_, rfl, rfl⟩
  rw [key]
  · rfl
  · exact hheld


theorem assigned_of_same {d : ColumnsDescription} {w : World} (hd : differs d w = false) :
    assigned d w.storage = w.storage := by
  simp only [differs, MergeTreeData.getColumnsListNonMaterialized, Bool.or_eq_false_iff,
    decide_eq_false_iff_not, ne_eq, not_not] at hd
  obtain ⟨⟨⟨h1, h2⟩, h3⟩, h4⟩ := hd
  simp only [assigned, h1, h2, h3, h4, ne_eq, not_true_eq_false, if_false]

theorem assignEvents_of_same {d : ColumnsDescription} {w : World} (hd : differs d w = false) :
    assignEvents d w = [] := by
  simp only [differs, MergeTreeData.getColumnsListNonMaterialized, Bool.or_eq_false_iff,
    decide_eq_false_iff_not, ne_eq, not_not] at hd
  obtain ⟨⟨⟨h1, h2⟩, h3⟩, h4⟩ := hd
  simp [assignEvents, h1, h2, h3, h4]

theorem initPrimaryKeys_calls (env : Env) :
    Holds (All fun ev => match ev.call with
      | .initPrimaryKey _ => true
      | _ => false) (initPrimaryKeys env) := by
  have hC := closed_all fun ev => match ev.call with
    | .initPrimaryKey _ => true
    | _ => false
  unfold initPrimaryKeys
  repeat' first
    | with_reducible first
      | apply holds_pure hC
      | apply holds_getWorld hC
      | apply holds_ite
      | apply holds_call
      | refine holds_bind hC ?_ (fun _ => ?_)
    | (intro w; first | exact all_nil _ _ _ _ | exact all_one rfl _ _ _)
    | (intro w e; exact all_one rfl _ _ _)

/-- After `applyChanges` returned, the storage object holds the four parsed
components; its trace is the call of `alterTable` (when a component differed),
the assignments of the components that differed, and calls of
`initPrimaryKey`. -/
theorem applyChanges_of_ok {env : Env} {d : ColumnsDescription} {w : World} {u : Unit}
    (h : (applyChanges env d w).result = .ok u) :
    (applyChanges env d w).world.storage = assigned d w.storage ∧
    (applyChanges env d w).world.catalog = (if differs d w then d else w.catalog) ∧
    ∃ tail, (applyChanges env d w).trace =
        (if differs d w then [Event.ok (.alterTable d)] else []) ++ assignEvents d w ++ tail ∧
      ∀ ev ∈ tail, ∃ st, ev.call = .initPrimaryKey st := by
  cases hd : differs d w with
  | false =>
    rw [applyChanges_of_same hd]
    simp [assigned_of_same hd, assignEvents_of_same hd]
  | true =>
    cases hf : env.fault (.alterTable d) with
    | some e =>
      rw [applyChanges_of_fault hd hf] at h
      simp at h
    | none =>
      obtain ⟨w5, h1, h2, _, _, _, h6, _, h8⟩ := applyChanges_of_differs hd hf
      have hk := initPrimaryKeys_keeps env w5
      simp only [Keeps, Prod.mk.injEq] at hk
      rw [h8, hk.1, h1, hk.2.2.2.1, h2, h6]
      refine ⟨rfl, by simp, (initPrimaryKeys env w5).trace, by simp, ?_⟩
      intro ev hev
      have := initPrimaryKeys_calls env w5 ev hev
      cases hc : ev.call <;> simp [hc] at this ⊢


theorem underBlockers_unchanged_schema (env : Env) (s : String) (d : ColumnsDescription)
    (v : Int) : Holds (Keeps World.schema) (underBlockers env s d v false) := by
  have hC := closed_keeps World.schema
  unfold underBlockers cancelMerges
  simp only [Bool.false_eq_true, if_false, Bool.false_or]
  repeat' first
    | with_reducible first
      | apply updateParts_schema
      | apply holds_pure hC
      | apply holds_getWorld hC
      | apply holds_ite
      | apply holds_scope (leaves_keeps _ _ _ (leave_schema env _))
      | apply holds_emit
      | apply holds_acquire
      | refine holds_bind hC ?_ (fun _ => ?_)
      | dsimp only
    | (intro w; rfl)

theorem fetch_schema (env : Env) : Holds (Keeps World.schema) (fetch env) := by
  intro w
  have hk := fetch_keeps env w
  simp only [Keeps, Prod.mk.injEq] at hk ⊢
  simp only [World.schema, hk.1, hk.2.2.2.1]

theorem iteration_schema_of_reconcile {env : Env} {w : World}
    (h : (reconcile env w).world.schema = w.schema) :
    (iteration env w).world.schema = w.schema := by
  rw [iteration_apply]
  cases (reconcile env w).result with
  | error e => exact h
  | ok u => exact h

theorem iteration_structural (env : Env) (w : World) :
    structural (iteration env w).trace = structural (reconcile env w).trace := by
  rcases iteration_trace_cases env w with h | h
  · rw [h]
  · rw [h, structural_append]
    simp [structural, Event.call, Call.isStructural]

theorem wait_not_structural (env : Env) :
    Holds (All fun ev => !ev.call.isStructural) (emit env .wait) :=
  fun _ => all_one rfl _ _ _

/-- The structural events of a pass are those of the structural update it
runs when the fetched version differs from `columns_version`. -/
theorem reconcile_structural (env : Env) (w : World) :
    structural (reconcile env w).trace =
      match (fetch env w).result with
      | .ok (_, v, d) =>
        if v ≠ w.storage.columns_version then
          structural (structuralUpdate env d v
            (cancelMerges env true (fetch env w).world).world).trace
        else []
      | .error _ => [] := by
  unfold reconcile
  rw [structural_bind_left (fetch_not_structural env)]
  have hk := fetch_keeps env w
  simp only [Keeps, Prod.mk.injEq] at hk
  cases hr : (fetch env w).result with
  | error e => rfl
  | ok a =>
    obtain ⟨s, v, d⟩ := a
    dsimp only
    rw [bind_of_ok (show (getWorld _).result = .ok _ from rfl)]
    simp only [getWorld_apply, List.nil_append]
    rw [structural_bind_right (fun _ => wait_not_structural env), underBlockers_structural,
      hk.1]
    by_cases hv : v = w.storage.columns_version
    · simp [hv]
    · simp [hv]

theorem reconcile_unchanged {env : Env} {w : World} {blob : String}
    (hnode : w.zookeeper.lookup (w.storage.zookeeper_path ++ "/columns") =
      some ⟨blob, w.storage.columns_version⟩) :
    structural (reconcile env w).trace = [] ∧ (reconcile env w).world.schema = w.schema := by
  constructor
  · rw [reconcile_structural]
    cases hr : (fetch env w).result with
    | error e => rfl
    | ok a =>
      obtain ⟨s, v, d⟩ := a
      have := (fetch_ok_inv hr).1
      rw [hnode] at this
      simp only [Option.some.injEq, ZNode.mk.injEq] at this
      simp [this.2]
  · unfold reconcile
    have hk := fetch_keeps env w
    have hs := fetch_schema env w
    simp only [Keeps, Prod.mk.injEq] at hk hs
    cases hr : (fetch env w).result with
    | error e => rw [bind_of_error hr]; exact hs
    | ok a =>
      obtain ⟨s, v, d⟩ := a
      have := (fetch_ok_inv hr).1
      rw [hnode] at this
      simp only [Option.some.injEq, ZNode.mk.injEq] at this
      obtain ⟨_, rfl⟩ := this
      rw [bind_of_ok hr]
      dsimp only
      rw [bind_of_ok (show (getWorld _).result = .ok _ from rfl)]
      simp only [getWorld_apply, hk.1, ne_eq, not_true_eq_false, decide_False]
      have hu := underBlockers_unchanged_schema env s d w.storage.columns_version
        (fetch env w).world
      simp only [Keeps] at hu
      cases hr2 : (underBlockers env s d w.storage.columns_version false
          (fetch env w).world).result with
      | error e => rw [bind_of_error hr2]; rw [hu, hs]
      | ok u =>
        rw [bind_of_ok hr2]
        simp only [emit_apply]
        rw [← hs, ← hu]
        rfl


/-- After a structural update that returned, the four components in memory
are the parsed ones. -/
theorem structuralUpdate_components {env : Env} {d : ColumnsDescription} {v : Int} {w : World}
    {ps : List DataPart} (h : (structuralUpdate env d v w).result = .ok ps) :
    (structuralUpdate env d v w).world.storage =
      { assigned d w.storage with columns_version := v } := by
  obtain ⟨_, h2, _, h4, _⟩ := structuralUpdate_of_ok h
  rw [h4, (applyChanges_of_ok h2).1]
  rfl

theorem underBlockers_changed_ok {env : Env} {s : String} {d : ColumnsDescription} {v : Int}
    {w : World} {u : Unit} (h : (underBlockers env s d v true w).result = .ok u) :
    (underBlockers env s d v true w).world.storage.data.columns = d.columns ∧
    (underBlockers env s d v true w).world.storage.data.materialized_columns = d.materialized ∧
    (underBlockers env s d v true w).world.storage.data.alias_columns = d.alias_ ∧
    (underBlockers env s d v true w).world.storage.data.column_defaults = d.defaults := by
  unfold underBlockers at h ⊢
  simp only [scope_apply, leave_storage] at h ⊢
  obtain ⟨w1, h1, h, e1, _⟩ := bind_ok_inv2 h
  simp only [getWorld_apply, Except.ok.injEq] at h1
  subst h1
  rw [e1]
  obtain ⟨_, _, h, e2, _⟩ := bind_ok_inv2 h
  rw [e2]
  simp only [if_true, Bool.true_or, getWorld_apply] at h ⊢
  obtain ⟨ps, h3, h, e3, _⟩ := bind_ok_inv2 h
  rw [e3]
  have hs := updateParts_schema env s true ps
    (structuralUpdate env d v (cancelMerges env true w).world).world
  simp only [Keeps, World.schema, Prod.mk.injEq] at hs
  have hc := structuralUpdate_components h3
  rw [hs.2.2.2.1, hs.2.2.2.2.1, hs.2.2.2.2.2.1, hs.2.2.2.2.2.2.1, hc]
  exact ⟨rfl, rfl, rfl, rfl⟩

theorem reconcile_changed_ok {env : Env} {w : World} {u : Unit} {blob : String} {v : Int}
    {d : ColumnsDescription} (h : (reconcile env w).result = .ok u)
    (hnode : w.zookeeper.lookup (w.storage.zookeeper_path ++ "/columns") = some ⟨blob, v⟩)
    (hparse : env.parse blob = .ok d) (hv : v ≠ w.storage.columns_version) :
    (reconcile env w).world.storage.data.columns = d.columns ∧
    (reconcile env w).world.storage.data.materialized_columns = d.materialized ∧
    (reconcile env w).world.storage.data.alias_columns = d.alias_ ∧
    (reconcile env w).world.storage.data.column_defaults = d.defaults := by
  unfold reconcile at h ⊢
  obtain ⟨a, h1, h, e1, _⟩ := bind_ok_inv2 h
  rw [e1]
  obtain ⟨s, v1, d1⟩ := a
  have hf := fetch_ok_inv h1
  rw [hnode] at hf
  simp only [Option.some.injEq, ZNode.mk.injEq] at hf
  obtain ⟨⟨rfl, rfl⟩, hp⟩ := hf
  rw [hparse] at hp
  simp only [Except.ok.injEq] at hp
  subst hp
  dsimp only at h ⊢
  obtain ⟨w1, h2, h, e2, _⟩ := bind_ok_inv2 h
  simp only [getWorld_apply, Except.ok.injEq] at h2
  subst h2
  rw [e2]
  obtain ⟨_, h3, h, e3, _⟩ := bind_ok_inv2 h
  rw [e3]
  have hk := fetch_keeps env w
  simp only [Keeps, Prod.mk.injEq] at hk
  simp only [getWorld_apply, emit_apply, noteStop_storage, hk.1, ne_eq, hv, not_false_eq_true,
    decide_True] at h3 ⊢
  exact underBlockers_changed_ok h3


theorem mem_assignEvents {d : ColumnsDescription} {w : World} {ev : Event} :
    ev ∈ assignEvents d w ↔
      (d.columns ≠ w.storage.data.columns ∧
        (ev = .ok (.setColumnsList .data d.columns) ∨
          (w.storage.unreplicated_data.isSome = true ∧
            ev = .ok (.setColumnsList .unreplicated_data d.columns)))) ∨
      (d.materialized ≠ w.storage.data.materialized_columns ∧
        ev = .ok (.assign_materialized_columns d.materialized)) ∨
      (d.alias_ ≠ w.storage.data.alias_columns ∧ ev = .ok (.assign_alias_columns d.alias_)) ∨
      (d.defaults ≠ w.storage.data.column_defaults ∧
        ev = .ok (.assign_column_defaults d.defaults)) := by
  unfold assignEvents
  by_cases h1 : d.columns = w.storage.data.columns <;>
  by_cases h2 : d.materialized = w.storage.data.materialized_columns <;>
  by_cases h3 : d.alias_ = w.storage.data.alias_columns <;>
  by_cases h4 : d.defaults = w.storage.data.column_defaults <;>
  by_cases h5 : w.storage.unreplicated_data.isSome = true <;>
  simp [h1, h2, h3, h4, h5, or_assoc]

/-- The events of a structural update that returned. -/
theorem structuralUpdate_mem_of_ok {env : Env} {d : ColumnsDescription} {v : Int} {w : World}
    {ps : List DataPart} (h : (structuralUpdate env d v w).result = .ok ps) (ev : Event) :
    ev ∈ (structuralUpdate env d v w).trace ↔
      ev = .ok .temporarilyStop ∨ ev = .ok .lockStructureForAlter ∨
      (differs d w = true ∧ ev = .ok (.alterTable d)) ∨ ev ∈ assignEvents d w ∨
      (ev ∈ (applyChanges env d (w.locked env)).trace ∧ ∃ st, ev.call = .initPrimaryKey st) ∨
      ev = .ok (.getDataParts .data) ∨ ev = .ok (.assign_columns_version v) ∨
      ev = .ok (.release .table_lock_for_alter) ∨
      ev = .ok (.release .temporarily_stop_part_checks) := by
  obtain ⟨_, h2, h3, _, _⟩ := structuralUpdate_of_ok h
  obtain ⟨_, _, tail, h4, h5⟩ := applyChanges_of_ok h2
  have hae : assignEvents d (w.locked env) = assignEvents d w := rfl
  have hdf : differs d (w.locked env) = differs d w := rfl
  rw [hae, hdf] at h4
  have ha : (ev ∈ if differs d w = true then [Event.ok (Call.alterTable d)] else []) ↔
      (differs d w = true ∧ ev = .ok (.alterTable d)) := by
    by_cases hd : differs d w = true <;> simp [hd]
  have h5 := h5 ev
  rw [h3, h4]
  simp only [List.mem_cons, List.mem_append, List.mem_singleton, List.not_mem_nil, or_false, ha]
  generalize (ev = Event.ok Call.temporarilyStop) = p1
  generalize (ev = Event.ok Call.lockStructureForAlter) = p2
  generalize (differs d w = true ∧ ev = Event.ok (Call.alterTable d)) = p3
  generalize (ev ∈ assignEvents d w) = p4
  generalize (ev = Event.ok (Call.getDataParts Store.data)) = p6
  generalize (ev = Event.ok (Call.assign_columns_version v)) = p7
  generalize (ev = Event.ok (Call.release Resource.table_lock_for_alter)) = p8
  generalize (ev = Event.ok (Call.release Resource.temporarily_stop_part_checks)) = p9
  generalize (∃ st, ev.call = Call.initPrimaryKey st) = p10 at h5 ⊢
  generalize (ev ∈ tail) = p5 at h5 ⊢
  clear * - h5
  tauto

theorem mem_releases {rs : List Resource} {w : World} {ev : Event} (h : ev ∈ releases rs w) :
    ∃ x ∈ rs, ev = .ok (.release x) := by
  simp only [releases, alive, List.mem_map, List.mem_filter] at h
  obtain ⟨x, ⟨hx, _⟩, rfl⟩ := h
  exact ⟨x, hx, rfl⟩

/-- The structural update when no component differs: it assigns nothing but
the version. -/
theorem structuralUpdate_of_same {env : Env} {d : ColumnsDescription} {v : Int} {w : World}
    (hd : differs d w = false) :
    ((structuralUpdate env d v w).world.schema = w.schema ∨
      (structuralUpdate env d v w).world.schema = (v, w.layout)) ∧
    ∀ ev ∈ (structuralUpdate env d v w).trace,
      ev.call ∈ [Call.temporarilyStop, .lockStructureForAlter, .getDataParts .data,
        .assign_columns_version v, .release .table_lock_for_alter,
        .release .temporarily_stop_part_checks] := by
  have hd1 : differs d (w.locked env) = false := hd
  unfold structuralUpdate
  simp only [scope_apply, World.layout, leave_schema]
  cases hf : env.fault .lockStructureForAlter with
  | some e =>
    simp only [bind_apply, emit_apply, acquire_apply, call_of_some hf]
    refine ⟨Or.inl rfl, ?_⟩
    intro ev hev
    simp only [List.mem_append, List.mem_cons, List.mem_singleton, List.not_mem_nil,
      or_false, List.nil_append] at hev
    rcases hev with (rfl | rfl) | hev
    · simp [Event.call]
    · simp [Event.call]
    · obtain ⟨x, hx, rfl⟩ := mem_releases hev
      simp only [List.mem_cons, List.mem_singleton, List.not_mem_nil, or_false] at hx
      rcases hx with rfl | rfl <;> simp [Event.call]
  | none =>
    have ha : applyChanges env d (w.locked env) = ⟨[], w.locked env, .ok ()⟩ :=
      applyChanges_of_same hd1
    simp only [bind_apply, emit_apply, acquire_apply, call_of_none hf]
    have ha1 : applyChanges env d
        { (Run.world ⟨[Event.ok Call.lockStructureForAlter],
            World.noteStop env Call.lockStructureForAlter
              { (World.noteStop env Call.temporarilyStop w) with
                held := Resource.temporarily_stop_part_checks ::
                  (World.noteStop env Call.temporarilyStop w).held },
            (Except.ok () : Except Exc Unit)⟩) with
          held := Resource.table_lock_for_alter :: (World.noteStop env Call.lockStructureForAlter
              { (World.noteStop env Call.temporarilyStop w) with
                held := Resource.temporarily_stop_part_checks ::
                  (World.noteStop env Call.temporarilyStop w).held }).held } =
        ⟨[], w.locked env, .ok ()⟩ := ha
    simp only [ha1, snapshotAndSetVersion_apply]
    refine ⟨Or.inr rfl, ?_⟩
    intro ev hev
    simp only [List.mem_append, List.mem_cons, List.mem_singleton, List.not_mem_nil,
      or_false, List.nil_append] at hev
    rcases hev with (rfl | rfl | rfl | rfl) | hev
    · simp [Event.call]
    · simp [Event.call]
    · simp [Event.call]
    · simp [Event.call]
    · obtain ⟨x, hx, rfl⟩ := mem_releases hev
      simp only [List.mem_cons, List.mem_singleton, List.not_mem_nil, or_false] at hx
      rcases hx with rfl | rfl <;> simp [Event.call]

theorem publishColumns_ok_set {env : Env} {s : String} {w : World} {u : Unit}
    (h : (publishColumns env s w).result = .ok u) :
    Event.ok (.set (w.storage.replica_path ++ "/columns") s) ∈ (publishColumns env s w).trace := by
  unfold publishColumns zkSet at h ⊢
  obtain ⟨w1, h1, h⟩ := bind_ok_inv h
  refine mem_bind_right h1 ?_
  simp only [getWorld_apply, Except.ok.injEq] at h1
  subst h1
  obtain ⟨_, h2, h⟩ := bind_ok_inv h
  apply mem_bind_left
  obtain ⟨w2, h3, h2⟩ := bind_ok_inv h2
  refine mem_bind_right h3 ?_
  simp only [getWorld_apply, Except.ok.injEq] at h3
  subst h3
  obtain ⟨zk, h4, h2⟩ := bind_ok_inv h2
  apply mem_bind_left
  have h5 := callResult_ok_inv h4
  simp [getWorld_apply, callResult, h5.1, h5.2.1]

theorem updateParts_ok_set {env : Env} {s : String} {c : Bool} {ps : List DataPart}
    {w : World} {u : Unit} (h : (updateParts env s c ps w).result = .ok u) :
    Event.ok (.set (w.storage.replica_path ++ "/columns") s) ∈
      (updateParts env s c ps w).trace := by
  have hs := updateParts_schema env s c ps w
  simp only [Keeps, World.schema, Prod.mk.injEq] at hs
  rw [← hs.2.2.1]
  unfold updateParts at h ⊢
  simp only [scope_apply, leave_storage] at h ⊢
  apply List.mem_append_left
  obtain ⟨_, h1, h, e1, _⟩ := bind_ok_inv2 h
  rw [e1]
  refine mem_bind_right h1 ?_
  obtain ⟨_, h2, h, e2, _⟩ := bind_ok_inv2 h
  rw [e2]
  refine mem_bind_right h2 ?_
  obtain ⟨_, h3, h, e3, _⟩ := bind_ok_inv2 h
  rw [e3]
  refine mem_bind_right h3 ?_
  obtain ⟨_, h4, h, e4, _⟩ := bind_ok_inv2 h
  rw [e4]
  refine mem_bind_right h4 ?_
  obtain ⟨_, h5, h, e5, _⟩ := bind_ok_inv2 h
  rw [e5]
  refine mem_bind_right h5 ?_
  obtain ⟨_, h6, h, e6, _⟩ := bind_ok_inv2 h
  rw [e6]
  refine mem_bind_right h6 ?_
  rw [(publishColumns_ok h).2.1]
  exact publishColumns_ok_set h

/-- A pass that completes with a changed version or a pending recheck has run
the update of the parts to its end. -/
theorem underBlockers_ok_updateParts {env : Env} {s : String} {d : ColumnsDescription}
    {v : Int} {c : Bool} {w : World} {u : Unit}
    (h : (underBlockers env s d v c w).result = .ok u)
    (hc : c = true ∨ w.force_recheck_parts = true) :
    ∃ ps w2, w2.storage.replica_path = w.storage.replica_path ∧
      (updateParts env s c ps w2).result = .ok () ∧
      ∀ ev ∈ (updateParts env s c ps w2).trace, ev ∈ (underBlockers env s d v c w).trace := by
  have hcond : (c || w.force_recheck_parts) = true := by
    rcases hc with h1 | h1 <;> simp [h1]
  unfold underBlockers at h ⊢
  simp only [scope_apply] at h ⊢
  obtain ⟨w1, h1, h⟩ := bind_ok_inv h
  simp only [getWorld_apply, Except.ok.injEq] at h1
  subst h1
  obtain ⟨a2, h2, h⟩ := bind_ok_inv h
  have hk := cancelMerges_stable env c w
  simp only [Keeps, Prod.mk.injEq] at hk
  simp only [getWorld_apply] at h hk
  obtain ⟨ps, h3, h⟩ := bind_ok_inv h
  simp only [hcond, if_true] at h
  have hmem : ∀ ev, ev ∈ (updateParts env s c ps
      ((if c = true then structuralUpdate env d v else pure [])
        (cancelMerges env c w).world).world).trace →
      ev ∈ ((do
        let w ← getWorld
        cancelMerges env c
        let parts ← (if c = true then structuralUpdate env d v else pure [])
        if (c || w.force_recheck_parts) = true then updateParts env s c parts
        else pure PUnit.unit) w).trace := by
    intro ev hev
    refine mem_bind_right (show (getWorld w).result = .ok w from rfl) ?_
    refine mem_bind_right h2 ?_
    refine mem_bind_right h3 ?_
    simp only [getWorld_apply, hcond, if_true]
    exact hev
  refine ⟨ps, _, ?_, h, fun ev hev => List.mem_append_left _ (hmem ev hev)⟩
  cases c with
  | false =>
    simp only [Bool.false_eq_true, if_false, pure_apply]
    rw [hk.1]
  | true =>
    simp only [if_true]
    have hst := structuralUpdate_stable env d v (cancelMerges env true w).world
    simp only [Keeps, World.stable, Prod.mk.injEq] at hst
    rw [hst.2.1, hk.1]

theorem reconcile_ok_updateParts {env : Env} {w : World} {u : Unit} {blob : String} {v : Int}
    (h : (reconcile env w).result = .ok u)
    (hnode : w.zookeeper.lookup (w.storage.zookeeper_path ++ "/columns") = some ⟨blob, v⟩)
    (hc : v ≠ w.storage.columns_version ∨ w.force_recheck_parts = true) :
    ∃ c ps w2, w2.storage.replica_path = w.storage.replica_path ∧
      (updateParts env blob c ps w2).result = .ok () ∧
      ∀ ev ∈ (updateParts env blob c ps w2).trace, ev ∈ (reconcile env w).trace := by
  unfold reconcile at h ⊢
  obtain ⟨a, h1, h⟩ := bind_ok_inv h
  obtain ⟨s, v1, d⟩ := a
  have hf := (fetch_ok_inv h1).1
  rw [hnode] at hf
  simp only [Option.some.injEq, ZNode.mk.injEq] at hf
  obtain ⟨rfl, rfl⟩ := hf
  dsimp only at h
  obtain ⟨w1, h2, h⟩ := bind_ok_inv h
  simp only [getWorld_apply, Except.ok.injEq] at h2
  subst h2
  obtain ⟨_, h3, h⟩ := bind_ok_inv h
  have hk := fetch_keeps env w
  simp only [Keeps, Prod.mk.injEq] at hk
  simp only [getWorld_apply] at h3
  obtain ⟨ps, w2, hp, hr, hm⟩ := underBlockers_ok_updateParts h3 (by
    rw [hk.1, hk.2.2.1]
    rcases hc with hc | hc
    · exact Or.inl (by simp [hc])
    · exact Or.inr hc)
  refine ⟨_, ps, w2, by rw [hp, hk.1], hr, fun ev hev => ?_⟩
  refine mem_bind_right h1 ?_
  dsimp only
  refine mem_bind_right (show (getWorld _).result = .ok _ from rfl) ?_
  apply mem_bind_left
  exact hm ev hev

theorem iteration_schema (env : Env) (w : World) :
    (iteration env w).world.schema = (reconcile env w).world.schema := by
  rw [iteration_apply]
  cases (reconcile env w).result with
  | error e => rfl
  | ok u => rfl

theorem underBlockers_of_same {env : Env} {s : String} {d : ColumnsDescription} {v : Int}
    {w : World} (hd : differs d w = false) :
    (underBlockers env s d v true w).world.schema = w.schema ∨
      (underBlockers env s d v true w).world.schema = (v, w.layout) := by
  have hk := cancelMerges_stable env true w
  simp only [Keeps, Prod.mk.injEq] at hk
  have hd2 : differs d (cancelMerges env true w).world = false := by
    simp only [differs, hk.1] at hd ⊢
    exact hd
  have hl2 : (cancelMerges env true w).world.schema = w.schema := by
    simp only [World.schema, hk.1, hk.2.2.2]
  have hs := (@structuralUpdate_of_same env _ v _ hd2).1
  rw [World.layout, hl2, ← World.layout] at hs
  unfold underBlockers
  simp only [scope_apply]
  rw [leave_schema]
  rw [bind_of_ok (show (getWorld w).result = .ok w from rfl)]
  rw [bind_of_ok (cancelMerges_ok env true _)]
  simp only [getWorld_apply, if_true, Bool.true_or]
  cases hr : (structuralUpdate env d v (cancelMerges env true w).world).result with
  | error e =>
    rw [bind_of_error hr]
    exact hs
  | ok ps =>
    rw [bind_of_ok hr]
    have hu := updateParts_schema env s true ps
      (structuralUpdate env d v (cancelMerges env true w).world).world
    simp only [Keeps] at hu
    show (updateParts env s true ps _).world.schema = _ ∨
      (updateParts env s true ps _).world.schema = _
    rw [hu]
    exact hs

/-- A pass that fetches another version but the same four components leaves
the schema in memory and the catalog alone, and of the structural update it
runs only the two locks, the list of parts and the assignment of the version. -/
theorem reconcile_of_same {env : Env} {w : World} {blob : String} {v : Int}
    {d : ColumnsDescription}
    (hnode : w.zookeeper.lookup (w.storage.zookeeper_path ++ "/columns") = some ⟨blob, v⟩)
    (hparse : env.parse blob = .ok d) (hv : v ≠ w.storage.columns_version)
    (hd : differs d w = false) :
    ((reconcile env w).world.schema = w.schema ∨
      (reconcile env w).world.schema = (v, w.layout)) ∧
    ∀ ev ∈ (reconcile env w).trace, ev.call.isStructural = true →
      ev.call ∈ [Call.temporarilyStop, .lockStructureForAlter, .assign_columns_version v,
        .release .table_lock_for_alter, .release .temporarily_stop_part_checks] := by
  have hk := fetch_keeps env w
  have hs := fetch_schema env w
  simp only [Keeps, Prod.mk.injEq] at hk hs
  have hd1 : differs d (fetch env w).world = false := by
    simp only [differs, hk.1] at hd ⊢
    exact hd
  constructor
  · unfold reconcile
    cases hr : (fetch env w).result with
    | error e =>
      rw [bind_of_error hr]
      exact Or.inl hs
    | ok a =>
      obtain ⟨s, v1, d1⟩ := a
      have hf := fetch_ok_inv hr
      rw [hnode] at hf
      simp only [Option.some.injEq, ZNode.mk.injEq] at hf
      obtain ⟨⟨rfl, rfl⟩, hp⟩ := hf
      rw [hparse] at hp
      simp only [Except.ok.injEq] at hp
      subst hp
      rw [bind_of_ok hr]
      dsimp only
      rw [bind_of_ok (show (getWorld _).result = .ok _ from rfl)]
      simp only [getWorld_apply, hk.1, ne_eq, hv, not_false_eq_true, decide_True]
      have hu := @underBlockers_of_same env blob _ v _ hd1
      rw [World.layout, hs, ← World.layout] at hu
      cases hr2 : (underBlockers env blob d v true (fetch env w).world).result with
      | error e => rw [bind_of_error hr2]; exact hu
      | ok u =>
        rw [bind_of_ok hr2]
        exact hu
  · intro ev hev hst
    have hmem : ev ∈ structural (reconcile env w).trace := by
      simp only [structural, List.mem_filter]
      exact ⟨hev, hst⟩
    rw [reconcile_structural] at hmem
    cases hr : (fetch env w).result with
    | error e =>
      rw [hr] at hmem
      simp at hmem
    | ok a =>
      obtain ⟨s, v1, d1⟩ := a
      have hf := fetch_ok_inv hr
      rw [hnode] at hf
      simp only [Option.some.injEq, ZNode.mk.injEq] at hf
      obtain ⟨⟨rfl, rfl⟩, hp⟩ := hf
      rw [hparse] at hp
      simp only [Except.ok.injEq] at hp
      subst hp
      rw [hr] at hmem
      simp only [ne_eq, hv, not_false_eq_true, if_true, structural, List.mem_filter] at hmem
      have hkc := cancelMerges_stable env true (fetch env w).world
      simp only [Keeps, Prod.mk.injEq] at hkc
      have hd2 : differs d (cancelMerges env true (fetch env w).world).world = false := by
        simp only [differs, hkc.1] at hd1 ⊢
        exact hd1
      have := (@structuralUpdate_of_same env _ v _ hd2).2 ev hmem.1
      simp only [List.mem_cons, List.mem_singleton, List.not_mem_nil, or_false] at this ⊢
      rcases this with h | h | h | h | h | h
      · exact Or.inl h
      · exact Or.inr (Or.inl h)
      · rw [h] at hst
        simp [Call.isStructural] at hst
      · exact Or.inr (Or.inr (Or.inl h))
      · exact Or.inr (Or.inr (Or.inr (Or.inl h)))
      · exact Or.inr (Or.inr (Or.inr (Or.inr h)))

theorem iteration_mem_structural {env : Env} {w : World} {ev : Event}
    (h : ev ∈ (iteration env w).trace) (hs : ev.call.isStructural = true) :
    ev ∈ (reconcile env w).trace := by
  have h1 : ev ∈ structural (iteration env w).trace := by
    simp only [structural, List.mem_filter]
    exact ⟨h, hs⟩
  rw [iteration_structural] at h1
  simp only [structural, List.mem_filter] at h1
  exact h1.1

/-- A pass that completes after taking the shared lock has called
`alterDataPart` for every part of the primary store. -/
theorem iteration_ok_all_parts_of_lock {env : Env} {w : World}
    (hl : Event.ok .lockStructure ∈ (iteration env w).trace)
    (h : (iteration env w).result = .ok none) :
    ∀ p ∈ w.storage.data.data_parts, ∃ cols t,
      Event.returned (.alterDataPart .data p.name cols) t ∈ (iteration env w).trace := by
  obtain ⟨x, hres, A, PA, B, cols, ps, y, htr, hP, hA, hB, hy, _, hlock⟩ := iteration_spine env w
  have hx : x = none := by
    rw [h] at hres
    simp only [Except.ok.injEq] at hres
    exact hres.symm
  have hyn : y = none := by
    by_contra hne
    have := (hy hne).1
    rw [hx] at this
    exact hne this.symm
  subst hyn
  have hlA : Event.ok .lockStructure ∈ A := by
    rw [htr] at hl
    simp only [List.mem_append] at hl
    rcases hl with (h1 | h1) | h1
    · exact h1
    · have := partsTrace_calls hP _ h1
      simp [Event.call, Call.isPartCall] at this
    · have := hB _ h1
      simp [Event.call, Call.isLate] at this
  have hps := hlock hlA
  subst hps
  intro p hp
  obtain ⟨t, ht⟩ := partsTrace_all hP p hp
  exact ⟨cols, t, by rw [htr]; simp [ht]⟩

/-- The fetch when none of its three calls fails. -/
theorem fetch_of_none {env : Env} {w : World} {blob : String} {v : Int}
    {d : ColumnsDescription}
    (hz : env.fault .getZooKeeper = none)
    (hg : env.fault (.get (w.storage.zookeeper_path ++ "/columns")) = none)
    (hp : env.fault (.parse blob) = none)
    (hnode : w.zookeeper.lookup (w.storage.zookeeper_path ++ "/columns") = some ⟨blob, v⟩)
    (hparse : env.parse blob = .ok d) :
    (fetch env w).result = .ok (blob, v, d) ∧
    (fetch env w).trace = [.ok .getZooKeeper, .ok (.get (w.storage.zookeeper_path ++ "/columns")),
      .ok (.parse blob)] := by
  unfold fetch zkGet
  simp only [bind_apply, getWorld_apply, call_of_none hz, callResult, hg, hp, hnode, hparse,
    noteStop_zookeeper, noteStop_storage, pure_apply]
  simp

/-- The fetch that returned made its three calls. -/
theorem fetch_ok_trace {env : Env} {w : World} {s : String} {v : Int} {d : ColumnsDescription}
    (h : (fetch env w).result = .ok (s, v, d)) :
    env.fault .getZooKeeper = none ∧
    env.fault (.get (w.storage.zookeeper_path ++ "/columns")) = none ∧
    env.fault (.parse s) = none := by
  unfold fetch zkGet at h
  obtain ⟨_, h1, h, _, _⟩ := bind_ok_inv2 h
  obtain ⟨w1, h2, h, _, _⟩ := bind_ok_inv2 h
  simp only [getWorld_apply, Except.ok.injEq] at h2
  subst h2
  obtain ⟨a, h3, h, _, _⟩ := bind_ok_inv2 h
  obtain ⟨s1, v1⟩ := a
  dsimp only at h
  obtain ⟨w2, h4, h3, _, _⟩ := bind_ok_inv2 h3
  simp only [getWorld_apply, Except.ok.injEq] at h4
  subst h4
  have h5 := (callResult_ok_inv h3).2.1
  obtain ⟨d1, h6, h, _, _⟩ := bind_ok_inv2 h
  have h7 := (callResult_ok_inv h6).2.1
  simp only [pure_apply, Except.ok.injEq, Prod.mk.injEq] at h
  obtain ⟨rfl, rfl, rfl⟩ := h
  simp only [call_world, noteStop_storage] at h5
  exact ⟨(call_ok_inv h1).1, h5, h7⟩

/-- The block that owns the merge blockers when the version is the recorded
one and no recheck is pending: nothing happens in it. -/
theorem underBlockers_idle {env : Env} {s : String} {d : ColumnsDescription} {v : Int}
    {w : World} (hf : w.force_recheck_parts = false) :
    (underBlockers env s d v false w).result = .ok () ∧
    (underBlockers env s d v false w).trace =
      releases [.unreplicated_merge_blocker, .merge_blocker] w ∧
    (underBlockers env s d v false w).world =
      w.leave env [.unreplicated_merge_blocker, .merge_blocker] := by
  unfold underBlockers cancelMerges
  simp only [scope_apply, bind_apply, getWorld_apply, hf, Bool.false_eq_true, if_false,
    Bool.or_self, pure_apply, List.nil_append, List.append_nil]
  simp

/-- After a pass that got as far as the block of the merge blockers, no merge
blocker is alive. -/
theorem reconcile_ok_held {env : Env} {w : World} {u : Unit}
    (h : (reconcile env w).result = .ok u) :
    ∀ x ∈ (reconcile env w).world.held,
      x ∉ [Resource.unreplicated_merge_blocker, Resource.merge_blocker] := by
  unfold reconcile at h ⊢
  obtain ⟨a, h1, h, e1, _⟩ := bind_ok_inv2 h
  rw [e1]
  obtain ⟨s, v, d⟩ := a
  dsimp only at h ⊢
  obtain ⟨w1, h2, h, e2, _⟩ := bind_ok_inv2 h
  simp only [getWorld_apply, Except.ok.injEq] at h2
  subst h2
  rw [e2]
  obtain ⟨_, h3, h, e3, _⟩ := bind_ok_inv2 h
  rw [e3]
  simp only [getWorld_apply, emit_apply, noteStop_held]
  unfold underBlockers
  simp only [scope_apply, leave_held]
  intro x hx
  simp only [List.mem_filter, decide_eq_true_eq] at hx
  exact hx.2

theorem releases_of_not_held {rs : List Resource} {w : World}
    (h : ∀ x ∈ w.held, x ∉ rs) : releases rs w = [] ∧ alive rs w = [] := by
  have ha : alive rs w = [] := by
    simp only [alive, List.filter_eq_nil_iff, decide_eq_true_eq]
    intro x hx hmem
    exact h x hmem hx
  simp [releases, ha]

theorem leave_of_not_held (env : Env) {rs : List Resource} {w : World}
    (h : ∀ x ∈ w.held, x ∉ rs) : w.leave env rs = w := by
  have ha := (releases_of_not_held h).2
  have hfil : w.held.filter (fun x => decide (x ∉ rs)) = w.held := by
    simp only [List.filter_eq_self, decide_eq_true_eq]
    exact h
  simp only [World.leave, ha, List.foldl_nil, hfil]

/-- A pass that fetches the recorded version while no recheck is pending makes
the three calls of the fetch, waits, and leaves everything but `need_stop` as it
was. -/
theorem reconcile_idle {env : Env} {w : World} {blob : String} {d : ColumnsDescription}
    (hfetch : (fetch env w).result = .ok (blob, w.storage.columns_version, d))
    (hf : w.force_recheck_parts = false) :
    (reconcile env w).result = .ok () ∧
    (reconcile env w).world.storage = w.storage ∧
    (reconcile env w).world.zookeeper = w.zookeeper ∧
    (reconcile env w).world.catalog = w.catalog ∧
    (reconcile env w).world.force_recheck_parts = false ∧
    ((∀ x ∈ w.held, x ∉ [Resource.unreplicated_merge_blocker, Resource.merge_blocker]) →
      (reconcile env w).world.held = w.held ∧
      (reconcile env w).trace = (fetch env w).trace ++ [.ok .wait]) := by
  have hk := fetch_keeps env w
  simp only [Keeps, Prod.mk.injEq] at hk
  have hf1 : (fetch env w).world.force_recheck_parts = false := by rw [hk.2.2.1]; exact hf
  have hu := @underBlockers_idle env blob d w.storage.columns_version _ hf1
  have key : reconcile env w =
      ⟨(fetch env w).trace ++ ((underBlockers env blob d w.storage.columns_version false
          (fetch env w).world).trace ++ [.ok .wait]),
        (underBlockers env blob d w.storage.columns_version false
          (fetch env w).world).world.noteStop env .wait, .ok ()⟩ := by
    unfold reconcile
    rw [bind_of_ok hfetch]
    dsimp only
    rw [bind_of_ok (show (getWorld _).result = .ok _ from rfl)]
    simp only [getWorld_apply, hk.1, ne_eq, not_true_eq_false, decide_False, List.nil_append]
    rw [bind_of_ok hu.1]
    rfl
  rw [key]
  simp only [noteStop_storage, noteStop_zookeeper, noteStop_catalog, noteStop_force,
    noteStop_held, hu.2.2, leave_storage, leave_zookeeper, leave_catalog, leave_force, hk.1,
    hk.2.1, hk.2.2.1, hk.2.2.2.1, hf, hu.2.1, true_and]
  intro hh
  have hh1 : ∀ x ∈ (fetch env w).world.held,
      x ∉ [Resource.unreplicated_merge_blocker, Resource.merge_blocker] := by
    rw [hk.2.2.2.2]; exact hh
  rw [leave_of_not_held env hh1, (releases_of_not_held hh1).1, hk.2.2.2.2]
  exact ⟨rfl, rfl⟩

theorem holds_keeps_of {α β γ : Type} {g : World → β} (f : β → γ) {m : M α}
    (h : Holds (Keeps g) m) : Holds (Keeps fun w => f (g w)) m :=
  fun w => congrArg f (h w)

/-- A pass does not change the two paths of the table. -/
theorem reconcile_paths (env : Env) :
    Holds (Keeps fun w => (w.storage.zookeeper_path, w.storage.replica_path))
      (reconcile env) := by
  have hC := closed_keeps fun w : World => (w.storage.zookeeper_path, w.storage.replica_path)
  unfold reconcile underBlockers
  repeat' first
    | exact holds_keeps_of (fun s => (s.1.zookeeper_path, s.1.replica_path)) (fetch_keeps env)
    | exact holds_keeps_of (fun s => (s.1.zookeeper_path, s.1.replica_path))
        (cancelMerges_stable env _)
    | exact holds_keeps_of (fun s => (s.1, s.2.1)) (structuralUpdate_stable env _ _)
    | exact holds_keeps_of (fun s => (s.2.1, s.2.2.1)) (updateParts_schema env _ _ _)
    | with_reducible first
      | apply holds_pure hC
      | apply holds_getWorld hC
      | apply holds_ite
      | apply holds_scope (leaves_keeps _ _ _ (fun w => by rw [leave_storage]))
      | apply holds_emit
      | refine holds_bind hC ?_ (fun _ => ?_)
      | dsimp only
      | split
    | (intro w; rfl)
    | (intro w e; rfl)

theorem World.eq_of_fields {a b : World} (h1 : a.storage = b.storage)
    (h2 : a.zookeeper = b.zookeeper) (h3 : a.catalog = b.catalog)
    (h4 : a.force_recheck_parts = b.force_recheck_parts) (h5 : a.held = b.held) :
    a = { b with need_stop := a.need_stop } := by
  cases a
  cases b
  simp only at h1 h2 h3 h4 h5
  simp [h1, h2, h3, h4, h5]

/-- After a completed pass the recorded version is the fetched one and no
recheck is pending. -/
theorem reconcile_ok_settled {env : Env} {w : World} {u : Unit} {blob : String} {v : Int}
    (h : (reconcile env w).result = .ok u)
    (hnode : w.zookeeper.lookup (w.storage.zookeeper_path ++ "/columns") = some ⟨blob, v⟩) :
    (reconcile env w).world.storage.columns_version = v ∧
    (reconcile env w).world.force_recheck_parts = false := by
  by_cases hc : v ≠ w.storage.columns_version ∨ w.force_recheck_parts = true
  · have := reconcile_ok h hnode hc
    exact ⟨this.1, this.2.1⟩
  · simp only [not_or, ne_eq, not_not, Bool.not_eq_true] at hc
    obtain ⟨hv, hf⟩ := hc
    have h0 := h
    unfold reconcile at h0
    obtain ⟨a, h1, _⟩ := bind_ok_inv h0
    obtain ⟨s, v1, d⟩ := a
    have hfi := (fetch_ok_inv h1).1
    rw [hnode] at hfi
    simp only [Option.some.injEq, ZNode.mk.injEq] at hfi
    obtain ⟨rfl, rfl⟩ := hfi
    rw [hv] at h1
    have hi := reconcile_idle h1 hf
    rw [hi.2.1]
    exact ⟨hv.symm, hi.2.2.2.2.1⟩

theorem commitsAtOnce_of_all {t : List Event}
    (h : ∀ ev ∈ t, ev.isUnreplicatedTransaction = false) : CommitsAtOnce t := by
  intro pre post n c tr ht
  have := h (Event.returned (.alterDataPart .unreplicated_data n c) (some tr))
    (by rw [ht]; simp)
  simp [Event.isUnreplicatedTransaction] at this

theorem commitsAtOnce_append {t1 t2 : List Event} (h1 : CommitsAtOnce t1)
    (h2 : CommitsAtOnce t2) : CommitsAtOnce (t1 ++ t2) := by
  intro pre post n c tr ht
  rcases List.append_eq_append_iff.1 ht with ⟨a, rfl, ha⟩ | ⟨b, hb, hc⟩
  · exact h2 a post n c tr ha
  · cases b with
    | nil =>
      simp only [List.nil_append] at hc
      exact h2 [] post n c tr hc.symm
    | cons e b =>
      simp only [List.cons_append, List.cons.injEq] at hc
      obtain ⟨rfl, rfl⟩ := hc
      obtain ⟨ev, post1, hp, hev⟩ := h1 pre b n c tr hb
      exact ⟨ev, post1 ++ t2, by rw [hp]; rfl, hev⟩

theorem commitsAtOnce_cons {ev : Event} {t : List Event}
    (h : ev.isUnreplicatedTransaction = false) (ht : CommitsAtOnce t) :
    CommitsAtOnce (ev :: t) :=
  @commitsAtOnce_append [ev] _ (commitsAtOnce_of_all (by simpa using h)) ht

theorem commitsAtOnce_transaction {n : String} {c : NamesAndTypesList}
    {tr : AlterDataPartTransaction} {ev : Event} {t : List Event}
    (hev : ev.call = .commit .unreplicated_data n) (ht : CommitsAtOnce t) :
    CommitsAtOnce (Event.returned (.alterDataPart .unreplicated_data n c) (some tr) :: ev :: t) := by
  have hne : ev.isUnreplicatedTransaction = false := by
    cases ev with
    | ok c1 => rfl
    | threw c1 e => rfl
    | returned c1 t1 =>
      simp only [Event.call] at hev
      subst hev
      rfl
  intro pre post n1 c1 tr1 h
  cases pre with
  | nil =>
    simp only [List.nil_append, List.cons.injEq, Event.returned.injEq, Call.alterDataPart.injEq,
      true_and, Option.some.injEq] at h
    obtain ⟨⟨⟨rfl, rfl⟩, rfl⟩, rfl⟩ := h
    exact ⟨ev, t, rfl, hev⟩
  | cons e pre =>
    simp only [List.cons_append, List.cons.injEq] at h
    exact commitsAtOnce_cons hne ht pre post n1 c1 tr1 h.2

theorem closed_commitsAtOnce : Closed CommitsAtOnceRel where
  refl := by
    intro w
    exact commitsAtOnce_of_all (by simp)
  seq := by
    intro w w1 w2 t1 t2 x h1 h2
    exact commitsAtOnce_append h1 h2

theorem leaves_commitsAtOnce (env : Env) (rs : List Resource) :
    Leaves env rs CommitsAtOnceRel := by
  intro w w1 t x h
  refine commitsAtOnce_append h (commitsAtOnce_of_all ?_)
  intro ev hev
  simp only [releases, List.mem_map] at hev
  obtain ⟨r, _, rfl⟩ := hev
  rfl

theorem commitsAtOnce_one {ev : Event} (h : ev.isUnreplicatedTransaction = false)
    (w w1 : World) (x : Option Exc) : CommitsAtOnceRel w w1 [ev] x :=
  commitsAtOnce_of_all (by simpa using h)

theorem commitsAtOnce_nil (w w1 : World) (x : Option Exc) : CommitsAtOnceRel w w1 [] x :=
  commitsAtOnce_of_all (by simp)

theorem commitsAtOnce_alterParts (env : Env) (cols : NamesAndTypesList) (ps : List DataPart) :
    Holds CommitsAtOnceRel (alterParts env cols ps) := by
  intro w
  apply commitsAtOnce_of_all
  intro ev hev
  have := partsTrace_calls (alterParts_trace env cols ps w) ev hev
  cases ev with
  | ok c1 => rfl
  | threw c1 e => rfl
  | returned c1 t1 =>
    cases c1 with
    | alterDataPart st n c =>
      cases st with
      | data => cases t1 <;> rfl
      | unreplicated_data => simp [Event.call, Call.isPartCall] at this
    | _ => cases t1 <;> rfl

theorem commitsAtOnce_alterUnreplicatedParts (env : Env) (cols : NamesAndTypesList)
    (ps : List DataPart) : Holds CommitsAtOnceRel (alterUnreplicatedParts env cols ps) := by
  induction ps with
  | nil => exact holds_pure closed_commitsAtOnce _
  | cons p ps ih =>
    intro w
    show CommitsAtOnce (alterUnreplicatedParts env cols (p :: ps) w).trace
    simp only [alterUnreplicatedParts]
    rw [bind_of_ok (show (getWorld w).result = .ok w from rfl)]
    simp only [getWorld_apply, List.nil_append]
    rcases alterDataPart_cases env .unreplicated_data p cols w.storage.data.primary_expr_ast w
      with ⟨e, he, het⟩ | ⟨t, ht, htt, htw, _⟩
    · rw [bind_of_error he]
      simp only [het]
      exact commitsAtOnce_of_all (by simp [Event.isUnreplicatedTransaction])
    · rw [bind_of_ok ht]
      simp only [htt, List.singleton_append]
      cases t with
      | none =>
        exact commitsAtOnce_cons rfl (ih _)
      | some t =>
        dsimp only
        rcases commit_cases env .unreplicated_data p.name t
          (alterDataPart env .unreplicated_data p cols w.storage.data.primary_expr_ast w).world
          with ⟨e, c1, c2⟩ | ⟨c1, c2, _⟩
        · rw [bind_of_error c1]
          simp only [c2]
          exact commitsAtOnce_transaction rfl (commitsAtOnce_of_all (by simp))
        · rw [bind_of_ok c1]
          simp only [c2, List.singleton_append]
          exact commitsAtOnce_transaction rfl (ih _)

theorem commitsAtOnce_reconcile (env : Env) : Holds CommitsAtOnceRel (reconcile env) := by
  have hC := closed_commitsAtOnce
  unfold reconcile fetch zkGet underBlockers cancelMerges structuralUpdate applyChanges
    assignColumns assignMaterialized assignAlias assignDefaults initPrimaryKeys
    snapshotAndSetVersion updateParts partsToAlter alterUnreplicated publishColumns zkSet
  repeat' first
    | with_reducible first
      | apply commitsAtOnce_alterParts
      | apply commitsAtOnce_alterUnreplicatedParts
      | apply holds_pure hC
      | apply holds_getWorld hC
      | apply holds_ite
      | apply holds_scope (leaves_commitsAtOnce _ _)
      | apply holds_emit
      | apply holds_call
      | apply holds_callResult
      | apply holds_modifyWorld
      | apply holds_acquire
      | refine holds_bind hC ?_ (fun _ => ?_)
      | dsimp only
      | split
    | (intro w; first | exact commitsAtOnce_nil _ _ _ | exact commitsAtOnce_one (by rfl) _ _ _)
    | (intro w e; exact commitsAtOnce_one (by rfl) _ _ _)

theorem commitsAtOnce_iteration (env : Env) (w : World) :
    CommitsAtOnce (iteration env w).trace := by
  rcases iteration_trace_cases env w with h | h
  · rw [h]
    exact commitsAtOnce_reconcile env w
  · rw [h]
    exact commitsAtOnce_append (commitsAtOnce_reconcile env w)
      (commitsAtOnce_of_all (by simp [Event.isUnreplicatedTransaction]))

/-- In the trace of the loop over the primary parts, a returned transaction
is followed by its multi-update; after that comes the call of its `commit`, or
the multi-update raised and only its handler follows. -/
theorem partsTrace_transaction {rp : String} {cols : NamesAndTypesList} {ps : List DataPart}
    {tr : List Event} {x : Option Exc} (h : PartsTrace rp cols ps tr x) :
    ∀ pre post n c t, tr = pre ++ Event.returned (.alterDataPart .data n c) (some t) :: post →
      ∃ p, p ∈ ps ∧ p.name = n ∧
        ((∃ ev post1, post = .ok (.multi (partOps rp p t)) :: ev :: post1 ∧
            ev.call = .commit .data n) ∨
          (∃ e, x = some e ∧ post = .threw (.multi (partOps rp p t)) e :: handlerEvents e n)) := by
  induction h with
  | done => intro pre post n c t h; simp at h
  | alter_threw p ps e =>
    intro pre post n c t h
    rcases pre with _ | ⟨a, _ | ⟨b, pre⟩⟩ <;> simp at h
  | skip p ps tr x _ ih =>
    intro pre post n c t h
    rcases pre with _ | ⟨a, pre⟩
    · simp at h
    · simp only [List.cons_append, List.cons.injEq] at h
      obtain ⟨q, hq, hn, hp⟩ := ih pre post n c t h.2
      exact ⟨q, List.mem_cons_of_mem _ hq, hn, hp⟩
  | multi_threw p ps u e =>
    intro pre post n c t h
    rcases pre with _ | ⟨a, _ | ⟨b, pre⟩⟩
    · simp only [List.nil_append, List.cons.injEq, Event.returned.injEq,
        Call.alterDataPart.injEq, true_and, Option.some.injEq] at h
      obtain ⟨⟨⟨hn, _⟩, rfl⟩, rfl⟩ := h
      exact ⟨p, by simp, hn, Or.inr ⟨e, rfl, by rw [hn]⟩⟩
    · simp at h
    · simp only [List.cons_append, List.cons.injEq] at h
      have hm : Event.returned (.alterDataPart .data n c) (some t) ∈ handlerEvents e p.name := by
        rw [h.2.2]; simp
      have := (handlerEvents_mem hm).1
      simp at this
  | commit_threw p ps u e =>
    intro pre post n c t h
    rcases pre with _ | ⟨a, _ | ⟨b, _ | ⟨c1, pre⟩⟩⟩
    · simp only [List.nil_append, List.cons.injEq, Event.returned.injEq,
        Call.alterDataPart.injEq, true_and, Option.some.injEq] at h
      obtain ⟨⟨⟨hn, _⟩, rfl⟩, rfl⟩ := h
      exact ⟨p, by simp, hn, Or.inl ⟨.threw (.commit .data p.name) e, [], rfl, by rw [hn]; rfl⟩⟩
    · simp at h
    · simp at h
    · simp at h
  | step p ps u tr x _ ih =>
    intro pre post n c t h
    rcases pre with _ | ⟨a, _ | ⟨b, _ | ⟨c1, pre⟩⟩⟩
    · simp only [List.nil_append, List.cons.injEq, Event.returned.injEq,
        Call.alterDataPart.injEq, true_and, Option.some.injEq] at h
      obtain ⟨⟨⟨hn, _⟩, rfl⟩, rfl⟩ := h
      exact ⟨p, by simp, hn, Or.inl ⟨.ok (.commit .data p.name), tr, rfl, by rw [hn]; rfl⟩⟩
    · simp at h
    · simp at h
    · simp only [List.cons_append, List.cons.injEq] at h
      obtain ⟨q, hq, hn, hp⟩ := ih pre post n c t h.2.2.2
      exact ⟨q, List.mem_cons_of_mem _ hq, hn, hp⟩

/-- Every multi-update of the loop over the primary parts sets the two nodes
of one of its parts. -/
theorem partsTrace_multi_ops {rp : String} {cols : NamesAndTypesList} {ps : List DataPart}
    {tr : List Event} {x : Option Exc} (h : PartsTrace rp cols ps tr x) :
    ∀ ev ∈ tr, ∀ ops, ev.call = .multi ops → ∃ p, p ∈ ps ∧ ∃ t, ops = partOps rp p t := by
  induction h with
  | done => simp
  | alter_threw p ps e => simp [Event.call]
  | skip p ps tr x _ ih =>
    intro ev hev ops hc
    rcases List.mem_cons.1 hev with rfl | h
    · simp [Event.call] at hc
    · obtain ⟨q, hq, t, ht⟩ := ih ev h ops hc
      exact ⟨q, List.mem_cons_of_mem _ hq, t, ht⟩
  | multi_threw p ps t e =>
    intro ev hev ops hc
    simp only [List.mem_cons] at hev
    rcases hev with rfl | rfl | h
    · simp [Event.call] at hc
    · simp only [Event.call, Call.multi.injEq] at hc
      exact ⟨p, by simp, t, hc.symm⟩
    · rw [(handlerEvents_mem h).1] at hc
      simp [Event.call] at hc
  | commit_threw p ps t e =>
    intro ev hev ops hc
    simp only [List.mem_cons, List.mem_singleton, List.not_mem_nil, or_false] at hev
    rcases hev with rfl | rfl | rfl
    · simp [Event.call] at hc
    · simp only [Event.call, Call.multi.injEq] at hc
      exact ⟨p, by simp, t, hc.symm⟩
    · simp [Event.call] at hc
  | step p ps t tr x _ ih =>
    intro ev hev ops hc
    simp only [List.mem_cons] at hev
    rcases hev with rfl | rfl | rfl | h
    · simp [Event.call] at hc
    · simp only [Event.call, Call.multi.injEq] at hc
      exact ⟨p, by simp, t, hc.symm⟩
    · simp [Event.call] at hc
    · obtain ⟨q, hq, u, hu⟩ := ih ev h ops hc
      exact ⟨q, List.mem_cons_of_mem _ hq, u, hu⟩

/-- The three ways the structural update goes when a component differs: the
exclusive lock is not obtained; or `alterTable` raises; or `alterTable`
returns, the components that differ are assigned, the primary keys are
initialised again and, unless that raised, the parts are listed and the version
is assigned.  In each case the destructors `R` of the block come last. -/
theorem structuralUpdate_shape {env : Env} {d : ColumnsDescription} {v : Int} {w : World}
    (hd : differs d w = true) :
    ∃ R, (∀ ev ∈ R, ∃ x, ev = Event.ok (.release x)) ∧
      ((∃ e, env.fault .lockStructureForAlter = some e ∧
          (structuralUpdate env d v w).trace =
            [.ok .temporarilyStop, .threw .lockStructureForAlter e] ++ R ∧
          (structuralUpdate env d v w).result = .error e ∧
          (structuralUpdate env d v w).world.schema = w.schema ∧
          (structuralUpdate env d v w).world.zookeeper = w.zookeeper) ∨
        (∃ e, env.fault (.alterTable d) = some e ∧
          (structuralUpdate env d v w).trace =
            [.ok .temporarilyStop, .ok .lockStructureForAlter, .threw (.alterTable d) e] ++ R ∧
          (structuralUpdate env d v w).result = .error e ∧
          (structuralUpdate env d v w).world.schema = w.schema ∧
          (structuralUpdate env d v w).world.zookeeper = w.zookeeper) ∨
        (∃ ipk rest, env.fault .lockStructureForAlter = none ∧
          env.fault (.alterTable d) = none ∧ (structuralUpdate env d v w).trace =
            [.ok .temporarilyStop, .ok .lockStructureForAlter, .ok (.alterTable d)] ++
              assignEvents d w ++ (ipk ++ rest ++ R) ∧
          (∀ ev ∈ ipk, ∃ st, ev.call = .initPrimaryKey st) ∧
          (rest = [] ∨
            rest = [.ok (.getDataParts .data), .ok (.assign_columns_version v)]))) := by
  have hd1 : differs d (w.locked env) = true := hd
  have hae : assignEvents d (w.locked env) = assignEvents d w := rfl
  have hrel : ∀ W : World, ∀ ev ∈ releases
      [Resource.table_lock_for_alter, Resource.temporarily_stop_part_checks] W,
      ∃ x, ev = Event.ok (.release x) := by
    intro W ev hev
    obtain ⟨x, _, rfl⟩ := mem_releases hev
    exact ⟨x, rfl⟩
  unfold structuralUpdate
  simp only [scope_apply, leave_schema, leave_zookeeper]
  rw [bind_of_ok (show (emit env .temporarilyStop w).result = .ok () from rfl)]
  rw [bind_of_ok (show (acquire .temporarily_stop_part_checks _).result = .ok () from rfl)]
  cases hf : env.fault .lockStructureForAlter with
  | some e =>
    rw [bind_of_error (show (call env .lockStructureForAlter _).result = .error e from by
      simp [call, hf])]
    simp only [emit_apply, acquire_apply, call_of_some hf, List.nil_append,
      List.singleton_append, List.cons_append, List.append_assoc]
    exact ⟨_, hrel _, Or.inl ⟨e, rfl, rfl, rfl, rfl, rfl⟩⟩
  | none =>
    rw [bind_of_ok (show (call env .lockStructureForAlter _).result = .ok () from by
      simp [call, hf])]
    rw [bind_of_ok (show (acquire .table_lock_for_alter _).result = .ok () from rfl)]
    have hW : (acquire .table_lock_for_alter (call env .lockStructureForAlter
        (acquire .temporarily_stop_part_checks (emit env .temporarilyStop w).world).world).world).world
        = w.locked env := by
      simp only [call_world, acquire_apply, emit_apply]
      rfl
    rw [hW]
    cases ha : env.fault (.alterTable d) with
    | some e =>
      have hap := applyChanges_of_fault hd1 ha
      rw [bind_of_error (show (applyChanges env d (w.locked env)).result = .error e from by
        rw [hap])]
      rw [hap]
      simp only [emit_apply, acquire_apply, call_of_none hf, List.nil_append,
        List.singleton_append, List.cons_append, List.append_assoc]
      exact ⟨_, hrel _, Or.inr (Or.inl ⟨e, rfl, rfl, rfl, rfl, rfl⟩)⟩
    | none =>
      obtain ⟨w5, _, _, _, _, _, htr, hres, hwd⟩ := applyChanges_of_differs hd1 ha
      rw [hae] at htr
      have hipk : ∀ ev ∈ (initPrimaryKeys env w5).trace, ∃ st, ev.call = .initPrimaryKey st := by
        intro ev hev
        have := initPrimaryKeys_calls env w5 ev hev
        cases hc : ev.call <;> simp [hc] at this ⊢
      cases hr : (initPrimaryKeys env w5).result with
      | error e =>
        rw [bind_of_error (show (applyChanges env d (w.locked env)).result = .error e from by
          rw [hres, hr])]
        simp only [emit_apply, acquire_apply, call_of_none hf, List.nil_append, htr,
          List.singleton_append, List.cons_append, List.append_assoc, List.append_nil]
        exact ⟨_, hrel _, Or.inr (Or.inr ⟨(initPrimaryKeys env w5).trace, [], trivial, trivial, rfl, hipk,
          Or.inl rfl⟩)⟩
      | ok u =>
        rw [bind_of_ok (show (applyChanges env d (w.locked env)).result = .ok u from by
          rw [hres, hr])]
        simp only [emit_apply, acquire_apply, call_of_none hf, List.nil_append, htr,
          snapshotAndSetVersion_apply,
          List.singleton_append, List.cons_append, List.append_assoc, List.append_nil]
        exact ⟨_, hrel _, Or.inr (Or.inr ⟨(initPrimaryKeys env w5).trace,
          [.ok (.getDataParts .data), .ok (.assign_columns_version v)], trivial, trivial, rfl, hipk,
          Or.inr rfl⟩)⟩

theorem not_structural_of_all {α : Type} {m : M α}
    (h : Holds (All fun ev => !ev.call.isStructural) m) (w : World) :
    ∀ ev ∈ (m w).trace, ev.call.isStructural = false := by
  intro ev hev
  simpa using h w ev hev

theorem releases_blockers_mem (w : World) :
    ∀ ev ∈ releases [.unreplicated_merge_blocker, .merge_blocker] w,
      ev.call.isStructural = false := by
  intro ev hev
  obtain ⟨x, hx, rfl⟩ := mem_releases hev
  simp only [List.mem_cons, List.mem_singleton, List.not_mem_nil, or_false] at hx
  rcases hx with rfl | rfl <;> rfl

/-- The trace of the block of the merge blockers, when the version changed,
around the trace of the structural update. -/
theorem underBlockers_split (env : Env) (s : String) (d : ColumnsDescription) (v : Int)
    (w : World) :
    ∃ T0 T1, (underBlockers env s d v true w).trace =
        T0 ++ (structuralUpdate env d v (cancelMerges env true w).world).trace ++ T1 ∧
      (∀ ev ∈ T0, ev.call.isStructural = false) ∧ (∀ ev ∈ T1, ev.call.isStructural = false) ∧
      (∀ e, (structuralUpdate env d v (cancelMerges env true w).world).result = .error e →
        (underBlockers env s d v true w).result = .error e ∧
        (underBlockers env s d v true w).world.schema =
          (structuralUpdate env d v (cancelMerges env true w).world).world.schema ∧
        (underBlockers env s d v true w).world.zookeeper =
          (structuralUpdate env d v (cancelMerges env true w).world).world.zookeeper ∧
        (underBlockers env s d v true w).world.force_recheck_parts =
          (structuralUpdate env d v (cancelMerges env true w).world).world.force_recheck_parts) := by
  unfold underBlockers
  simp only [scope_apply, leave_schema, leave_zookeeper, leave_force]
  rw [bind_of_ok (show (getWorld w).result = .ok w from rfl)]
  rw [bind_of_ok (cancelMerges_ok env true _)]
  simp only [getWorld_apply, if_true, Bool.true_or, List.nil_append]
  cases hr : (structuralUpdate env d v (cancelMerges env true w).world).result with
  | error e =>
    rw [bind_of_error hr]
    refine ⟨(cancelMerges env true w).trace,
      releases [.unreplicated_merge_blocker, .merge_blocker]
        (structuralUpdate env d v (cancelMerges env true w).world).world, by simp,
      not_structural_of_all (cancelMerges_not_structural env true) w,
      releases_blockers_mem _, ?_⟩
    intro e1 he1
    simp only [Except.error.injEq] at he1
    subst he1
    exact ⟨rfl, rfl, rfl, rfl⟩
  | ok ps =>
    rw [bind_of_ok hr]
    refine ⟨(cancelMerges env true w).trace,
      (updateParts env s true ps
        (structuralUpdate env d v (cancelMerges env true w).world).world).trace ++
        releases [.unreplicated_merge_blocker, .merge_blocker]
          (updateParts env s true ps
            (structuralUpdate env d v (cancelMerges env true w).world).world).world,
      by simp, not_structural_of_all (cancelMerges_not_structural env true) w, ?_, ?_⟩
    · intro ev hev
      rcases List.mem_append.1 hev with h | h
      · exact not_structural_of_all (updateParts_not_structural env s true ps) _ ev h
      · exact releases_blockers_mem _ ev h
    · intro e he
      simp at he

/-- The trace of a pass that fetched another version, around the trace of
the structural update; a pass whose fetch raised has no structural event. -/
theorem reconcile_changed_split {env : Env} {w : World} {blob : String} {v : Int}
    {d : ColumnsDescription}
    (hnode : w.zookeeper.lookup (w.storage.zookeeper_path ++ "/columns") = some ⟨blob, v⟩)
    (hparse : env.parse blob = .ok d) (hv : v ≠ w.storage.columns_version) :
    ((∃ e, (fetch env w).result = .error e) ∧
      ∀ ev ∈ (reconcile env w).trace, ev.call.isStructural = false) ∨
    ∃ w2 T0 T1, w2.storage = w.storage ∧ w2.zookeeper = w.zookeeper ∧ w2.catalog = w.catalog ∧
      w2.force_recheck_parts = w.force_recheck_parts ∧
      (reconcile env w).trace = T0 ++ (structuralUpdate env d v w2).trace ++ T1 ∧
      (∀ ev ∈ T0, ev.call.isStructural = false) ∧ (∀ ev ∈ T1, ev.call.isStructural = false) ∧
      (∀ e, (structuralUpdate env d v w2).result = .error e →
        (reconcile env w).result = .error e ∧
        (reconcile env w).world.schema = (structuralUpdate env d v w2).world.schema ∧
        (reconcile env w).world.zookeeper = (structuralUpdate env d v w2).world.zookeeper ∧
        (reconcile env w).world.force_recheck_parts =
          (structuralUpdate env d v w2).world.force_recheck_parts) := by
  have hk := fetch_keeps env w
  simp only [Keeps, Prod.mk.injEq] at hk
  have hkc := cancelMerges_stable env true (fetch env w).world
  simp only [Keeps, Prod.mk.injEq] at hkc
  unfold reconcile
  cases hr : (fetch env w).result with
  | error e =>
    left
    rw [bind_of_error hr]
    exact ⟨⟨e, rfl⟩, not_structural_of_all (fetch_not_structural env) w⟩
  | ok a =>
    right
    obtain ⟨s, v1, d1⟩ := a
    have hf := fetch_ok_inv hr
    rw [hnode] at hf
    simp only [Option.some.injEq, ZNode.mk.injEq] at hf
    obtain ⟨⟨rfl, rfl⟩, hp⟩ := hf
    rw [hparse] at hp
    simp only [Except.ok.injEq] at hp
    subst hp
    rw [bind_of_ok hr]
    dsimp only
    rw [bind_of_ok (show (getWorld _).result = .ok _ from rfl)]
    simp only [getWorld_apply, hk.1, ne_eq, hv, not_false_eq_true, decide_True, List.nil_append]
    obtain ⟨T0, T1, htr, h0, h1, herr⟩ := underBlockers_split env blob d v (fetch env w).world
    have e1 : (cancelMerges env true (fetch env w).world).world.storage = w.storage := by
      rw [hkc.1, hk.1]
    have e2 : (cancelMerges env true (fetch env w).world).world.zookeeper = w.zookeeper := by
      rw [hkc.2.1, hk.2.1]
    have e3 : (cancelMerges env true (fetch env w).world).world.catalog = w.catalog := by
      rw [hkc.2.2.2, hk.2.2.2.1]
    have e4 : (cancelMerges env true (fetch env w).world).world.force_recheck_parts =
        w.force_recheck_parts := by
      rw [hkc.2.2.1, hk.2.2.1]
    refine ⟨(cancelMerges env true (fetch env w).world).world, ?_⟩
    cases hu : (underBlockers env blob d v true (fetch env w).world).result with
    | error e =>
      rw [bind_of_error hu]
      refine ⟨(fetch env w).trace ++ T0, T1, e1, e2, e3, e4, by rw [htr]; simp, ?_, h1, ?_⟩
      · intro ev hev
        rcases List.mem_append.1 hev with h | h
        · exact not_structural_of_all (fetch_not_structural env) w ev h
        · exact h0 ev h
      · intro e1 he1
        have := herr e1 he1
        rw [hu] at this
        exact ⟨this.1, this.2.1, this.2.2.1, this.2.2.2⟩
    | ok u =>
      rw [bind_of_ok hu]
      refine ⟨(fetch env w).trace ++ T0, T1 ++ [.ok .wait], e1, e2, e3, e4,
        by rw [htr]; simp, ?_, ?_, ?_⟩
      · intro ev hev
        rcases List.mem_append.1 hev with h | h
        · exact not_structural_of_all (fetch_not_structural env) w ev h
        · exact h0 ev h
      · intro ev hev
        rcases List.mem_append.1 hev with h | h
        · exact h1 ev h
        · simp only [List.mem_singleton] at h
          rw [h]
          rfl
      · intro e1 he1
        have := (herr e1 he1).1
        rw [hu] at this
        simp at this

theorem schema_of_eq {a b : World} (h1 : a.storage = b.storage) (h2 : a.catalog = b.catalog) :
    a.schema = b.schema := by
  simp only [World.schema, h1, h2]

/-- The trace of a turn that fetched another version while a component
differs: either the fetch raised and there is no structural event, or the
trace is that of the structural update, in one of its three shapes, between
events that are not structural. -/
theorem iteration_changed_cases {env : Env} {w : World} {blob : String} {v : Int}
    {d : ColumnsDescription}
    (hnode : w.zookeeper.lookup (w.storage.zookeeper_path ++ "/columns") = some ⟨blob, v⟩)
    (hparse : env.parse blob = .ok d) (hv : v ≠ w.storage.columns_version)
    (hd : differs d w = true) :
    ((∃ e, (fetch env w).result = .error e) ∧
      ∀ ev ∈ (iteration env w).trace, ev.call.isStructural = false) ∨
    ∃ T0 T1 R, (∀ ev ∈ T0, ev.call.isStructural = false) ∧
      (∀ ev ∈ T1, ev.call.isStructural = false) ∧ (∀ ev ∈ R, ∃ x, ev = Event.ok (.release x)) ∧
      ((∃ e, env.fault .lockStructureForAlter = some e ∧ (iteration env w).trace =
          T0 ++ ([.ok .temporarilyStop, .threw .lockStructureForAlter e] ++ R) ++ T1) ∨
        (∃ e, env.fault (.alterTable d) = some e ∧ (iteration env w).trace =
            T0 ++ ([.ok .temporarilyStop, .ok .lockStructureForAlter,
              .threw (.alterTable d) e] ++ R) ++ T1 ∧
          (iteration env w).result = .ok (some e) ∧
          (iteration env w).world.schema = w.schema ∧
          (iteration env w).world.zookeeper = w.zookeeper ∧
          (iteration env w).world.force_recheck_parts = true) ∨
        (∃ ipk rest, (iteration env w).trace =
            T0 ++ ([.ok .temporarilyStop, .ok .lockStructureForAlter, .ok (.alterTable d)] ++
              assignEvents d w ++ (ipk ++ rest ++ R)) ++ T1 ∧
          (∀ ev ∈ ipk, ∃ st, ev.call = .initPrimaryKey st) ∧
          (rest = [] ∨
            rest = [.ok (.getDataParts .data), .ok (.assign_columns_version v)]))) := by
  have hH : ∀ ev ∈ [Event.ok .tryLogCurrentException, .ok (.assign_force_recheck_parts true),
      .ok (.tryWait ALTER_ERROR_SLEEP_MS)], ev.call.isStructural = false := by
    intro ev hev
    simp only [List.mem_cons, List.mem_singleton, List.not_mem_nil, or_false] at hev
    rcases hev with rfl | rfl | rfl <;> rfl
  rcases @reconcile_changed_split env _ _ _ _ hnode hparse hv with ⟨hfe, hns⟩ |
    ⟨w2, T0, T1, e1, e2, e3, e4, htr, h0, h1, herr⟩
  · left
    refine ⟨hfe, ?_⟩
    intro ev hev
    rcases iteration_trace_cases env w with h | h
    · rw [h] at hev
      exact hns ev hev
    · rw [h] at hev
      rcases List.mem_append.1 hev with h2 | h2
      · exact hns ev h2
      · exact hH ev h2
  · right
    have hd2 : differs d w2 = true := by
      simp only [differs, e1] at hd ⊢
      exact hd
    have hae : assignEvents d w2 = assignEvents d w := by
      simp only [assignEvents, e1]
    obtain ⟨R, hR, hshape⟩ := @structuralUpdate_shape env _ v _ hd2
    have hT : ∃ T1x, (∀ ev ∈ T1x, ev.call.isStructural = false) ∧
        (iteration env w).trace = T0 ++ (structuralUpdate env d v w2).trace ++ T1x := by
      rcases iteration_trace_cases env w with h | h
      · exact ⟨T1, h1, by rw [h, htr]⟩
      · refine ⟨T1 ++ _, ?_, by rw [h, htr, List.append_assoc]⟩
        intro ev hev
        rcases List.mem_append.1 hev with h2 | h2
        · exact h1 ev h2
        · exact hH ev h2
    obtain ⟨T1x, h1x, htrx⟩ := hT
    refine ⟨T0, T1x, R, h0, h1x, hR, ?_⟩
    rcases hshape with ⟨e, hf, hs, _⟩ | ⟨e, hf, hs, hres, hsch, hzk⟩ | ⟨ipk, rest, _, _, hs, hipk, hrest⟩
    · exact Or.inl ⟨e, hf, by rw [htrx, hs]⟩
    · refine Or.inr (Or.inl ⟨e, hf, by rw [htrx, hs], ?_⟩)
      obtain ⟨r1, r2, r3, r4⟩ := herr e hres
      rw [iteration_apply, r1]
      refine ⟨rfl, ?_, ?_, rfl⟩
      · show World.schema _ = _
        rw [← schema_of_eq e1 e3, ← hsch, ← r2]
        rfl
      · show World.zookeeper _ = _
        rw [← e2, ← hzk, ← r3]
        rfl
    · exact Or.inr (Or.inr ⟨ipk, rest, by rw [htrx, hs, hae], hipk, hrest⟩)

theorem assignEvents_calls {d : ColumnsDescription} {w : World} {ev : Event}
    (h : ev ∈ assignEvents d w) : ev.call.isAssignment = true := by
  rw [mem_assignEvents] at h
  rcases h with ⟨_, rfl | ⟨_, rfl⟩⟩ | ⟨_, rfl⟩ | ⟨_, rfl⟩ | ⟨_, rfl⟩ <;> rfl

theorem isAssignment_isStructural {c : Call} (h : c.isAssignment = true) :
    c.isStructural = true := by
  cases c <;> first | rfl | simp [Call.isAssignment] at h

/-- The calls of the events of the third shape that come before the
assignment of the version. -/
theorem shape_before_version {d : ColumnsDescription} {w : World} {ipk : List Event}
    (hipk : ∀ ev ∈ ipk, ∃ st, ev.call = .initPrimaryKey st) :
    ∀ ev ∈ [Event.ok .temporarilyStop, .ok .lockStructureForAlter, .ok (.alterTable d)] ++
        assignEvents d w ++ (ipk ++ [.ok (.getDataParts .data)]),
      (∀ v1, ev.call ≠ .assign_columns_version v1) ∧ (∀ x, ev.call ≠ .release x) := by
  intro ev hev
  simp only [List.mem_append, List.mem_cons, List.mem_singleton, List.not_mem_nil,
    or_false] at hev
  rcases hev with ((rfl | rfl | rfl) | h) | h | rfl
  · simp [Event.call]
  · simp [Event.call]
  · simp [Event.call]
  · have := assignEvents_calls h
    constructor
    · intro v1 hc
      rw [hc] at this
      simp [Call.isAssignment] at this
    · intro x hc
      rw [hc] at this
      simp [Call.isAssignment] at this
  · obtain ⟨st, hst⟩ := hipk ev h
    simp [hst]
  · simp [Event.call]

/-- The calls of the events of the third shape that come after the
assignments. -/
theorem shape_after_assignments {v : Int} {ipk rest R : List Event}
    (hipk : ∀ ev ∈ ipk, ∃ st, ev.call = .initPrimaryKey st)
    (hrest : rest = [] ∨
      rest = [.ok (.getDataParts .data), .ok (.assign_columns_version v)])
    (hR : ∀ ev ∈ R, ∃ x, ev = Event.ok (.release x)) :
    ∀ ev ∈ ipk ++ rest ++ R, ev.call.isAssignment = false ∧ (∀ d1, ev.call ≠ .alterTable d1) ∧
      (∀ e, ev ≠ .threw .lockStructureForAlter e) := by
  intro ev hev
  simp only [List.mem_append] at hev
  rcases hev with (h | h) | h
  · obtain ⟨st, hst⟩ := hipk ev h
    refine ⟨by rw [hst]; rfl, by simp [hst], ?_⟩
    intro e he
    rw [he] at hst
    simp [Event.call] at hst
  · rcases hrest with rfl | rfl
    · simp at h
    · simp only [List.mem_cons, List.mem_singleton, List.not_mem_nil, or_false] at h
      rcases h with rfl | rfl <;> simp [Event.call, Call.isAssignment]
  · obtain ⟨x, rfl⟩ := hR ev h
    simp [Event.call, Call.isAssignment]

/-- In a turn that fetched another version while a component differs, every
`alterTable` event carries the fetched description. -/
theorem changed_alterTable_arg {env : Env} {w : World} {blob : String} {v : Int}
    {d : ColumnsDescription}
    (hnode : w.zookeeper.lookup (w.storage.zookeeper_path ++ "/columns") = some ⟨blob, v⟩)
    (hparse : env.parse blob = .ok d) (hv : v ≠ w.storage.columns_version)
    (hd : differs d w = true) :
    ∀ ev ∈ (iteration env w).trace, ∀ d1, ev.call = .alterTable d1 → d1 = d := by
  intro ev hev d1 hcall
  have hs : ev.call.isStructural = true := by rw [hcall]; rfl
  rcases iteration_changed_cases hnode hparse hv hd with ⟨_, hns⟩ |
    ⟨T0, T1, R, h0, h1, hR, hsh⟩
  · rw [hns ev hev] at hs
    simp at hs
  · have hnot0 : ev ∉ T0 := fun h => by rw [h0 ev h] at hs; simp at hs
    have hnot1 : ev ∉ T1 := fun h => by rw [h1 ev h] at hs; simp at hs
    have hnotR : ev ∉ R := fun h => by
      obtain ⟨x, rfl⟩ := hR ev h
      simp [Event.call] at hcall
    rcases hsh with ⟨e, _, htr⟩ | ⟨e, _, htr, _⟩ | ⟨ipk, rest, htr, hipk, hrest⟩
    · rw [htr] at hev
      simp only [List.mem_append, List.mem_cons, List.mem_singleton, List.not_mem_nil,
        or_false, hnot0, hnot1, hnotR, false_or] at hev
      rcases hev with rfl | rfl <;> simp [Event.call] at hcall
    · rw [htr] at hev
      simp only [List.mem_append, List.mem_cons, List.mem_singleton, List.not_mem_nil,
        or_false, hnot0, hnot1, hnotR, false_or] at hev
      rcases hev with rfl | rfl | rfl
      · simp [Event.call] at hcall
      · simp [Event.call] at hcall
      · simp only [Event.call, Call.alterTable.injEq] at hcall
        exact hcall.symm
    · rw [htr] at hev
      have hB := shape_after_assignments hipk hrest hR
      simp only [List.mem_append, List.mem_cons, List.mem_singleton, List.not_mem_nil,
        or_false, hnot0, hnot1, hnotR, false_or] at hev hB
      rcases hev with ((rfl | rfl | rfl) | h) | h
      · simp [Event.call] at hcall
      · simp [Event.call] at hcall
      · simp only [Event.call, Call.alterTable.injEq] at hcall
        exact hcall.symm
      · have := assignEvents_calls h
        rw [hcall] at this
        simp [Call.isAssignment] at this
      · exact absurd hcall ((hB ev (Or.inl h)).2.1 d1)

/-- In such a turn `alterTable` has returned before any component in memory
is assigned. -/
theorem changed_assignment_after_alterTable {env : Env} {w : World} {blob : String} {v : Int}
    {d : ColumnsDescription}
    (hnode : w.zookeeper.lookup (w.storage.zookeeper_path ++ "/columns") = some ⟨blob, v⟩)
    (hparse : env.parse blob = .ok d) (hv : v ≠ w.storage.columns_version)
    (hd : differs d w = true) :
    ∀ pre ev post, (iteration env w).trace = pre ++ ev :: post →
      ev.call.isAssignment = true → Event.ok (.alterTable d) ∈ pre := by
  intro pre ev post htrace ha
  have hs : ev.call.isStructural = true := isAssignment_isStructural ha
  rcases iteration_changed_cases hnode hparse hv hd with ⟨_, hns⟩ |
    ⟨T0, T1, R, h0, h1, hR, hsh⟩
  · rw [hns ev (by rw [htrace]; simp)] at hs
    simp at hs
  · have hnot0 : ev ∉ T0 := fun h => by rw [h0 ev h] at hs; simp at hs
    have hnot1 : ev ∉ T1 := fun h => by rw [h1 ev h] at hs; simp at hs
    have hnotR : ev ∉ R := fun h => by
      obtain ⟨x, rfl⟩ := hR ev h
      simp [Event.call, Call.isAssignment] at ha
    rcases hsh with ⟨e, _, htr⟩ | ⟨e, _, htr, _⟩ | ⟨ipk, rest, htr, hipk, hrest⟩
    · have hev : ev ∈ (iteration env w).trace := by rw [htrace]; simp
      rw [htr] at hev
      simp only [List.mem_append, List.mem_cons, List.mem_singleton, List.not_mem_nil,
        or_false, hnot0, hnot1, hnotR, false_or] at hev
      rcases hev with rfl | rfl <;> simp [Event.call, Call.isAssignment] at ha
    · have hev : ev ∈ (iteration env w).trace := by rw [htrace]; simp
      rw [htr] at hev
      simp only [List.mem_append, List.mem_cons, List.mem_singleton, List.not_mem_nil,
        or_false, hnot0, hnot1, hnotR, false_or] at hev
      rcases hev with rfl | rfl | rfl <;> simp [Event.call, Call.isAssignment] at ha
    · rw [htr] at htrace
      obtain ⟨pre1, post1, hsu, hpre, _⟩ := mem_middle htrace hnot0 hnot1
      have hB := shape_after_assignments hipk hrest hR
      have hnA : ev ∉ [Event.ok .temporarilyStop, .ok .lockStructureForAlter,
          .ok (.alterTable d)] := fun h => by
        simp only [List.mem_cons, List.mem_singleton, List.not_mem_nil, or_false] at h
        rcases h with rfl | rfl | rfl <;> simp [Event.call, Call.isAssignment] at ha
      have hnB : ev ∉ ipk ++ rest ++ R := fun h => by
        rw [(hB ev h).1] at ha
        simp at ha
      obtain ⟨pre2, post2, _, hpre1, _⟩ := mem_middle hsu hnA hnB
      rw [hpre, hpre1]
      simp

/-- In such a turn the version is assigned after `alterTable`, the
assignments and the initialisation of the primary keys, and before the
exclusive lock is released. -/
theorem changed_version_last {env : Env} {w : World} {blob : String} {v : Int}
    {d : ColumnsDescription}
    (hnode : w.zookeeper.lookup (w.storage.zookeeper_path ++ "/columns") = some ⟨blob, v⟩)
    (hparse : env.parse blob = .ok d) (hv : v ≠ w.storage.columns_version)
    (hd : differs d w = true) :
    ∀ pre ev post v1, (iteration env w).trace = pre ++ ev :: post →
      ev.call = .assign_columns_version v1 →
      v1 = v ∧ Event.ok (.alterTable d) ∈ pre ∧ Event.ok .lockStructureForAlter ∈ pre ∧
      (∀ e1 ∈ pre, e1.call ≠ .release .table_lock_for_alter) ∧
      (∀ e1 ∈ post, e1.call.isAssignment = false ∧ (∀ st, e1.call ≠ .initPrimaryKey st) ∧
        ∀ d1, e1.call ≠ .alterTable d1) := by
  intro pre ev post v1 htrace hcall
  have hs : ev.call.isStructural = true := by rw [hcall]; rfl
  rcases iteration_changed_cases hnode hparse hv hd with ⟨_, hns⟩ |
    ⟨T0, T1, R, h0, h1, hR, hsh⟩
  · rw [hns ev (by rw [htrace]; simp)] at hs
    simp at hs
  · have hnot0 : ev ∉ T0 := fun h => by rw [h0 ev h] at hs; simp at hs
    have hnot1 : ev ∉ T1 := fun h => by rw [h1 ev h] at hs; simp at hs
    have hnotR : ev ∉ R := fun h => by
      obtain ⟨x, rfl⟩ := hR ev h
      simp [Event.call] at hcall
    rcases hsh with ⟨e, _, htr⟩ | ⟨e, _, htr, _⟩ | ⟨ipk, rest, htr, hipk, hrest⟩
    · have hev : ev ∈ (iteration env w).trace := by rw [htrace]; simp
      rw [htr] at hev
      simp only [List.mem_append, List.mem_cons, List.mem_singleton, List.not_mem_nil,
        or_false, hnot0, hnot1, hnotR, false_or] at hev
      rcases hev with rfl | rfl <;> simp [Event.call] at hcall
    · have hev : ev ∈ (iteration env w).trace := by rw [htrace]; simp
      rw [htr] at hev
      simp only [List.mem_append, List.mem_cons, List.mem_singleton, List.not_mem_nil,
        or_false, hnot0, hnot1, hnotR, false_or] at hev
      rcases hev with rfl | rfl | rfl <;> simp [Event.call] at hcall
    · rw [htr] at htrace
      obtain ⟨pre1, post1, hsu, hpre, hpost⟩ := mem_middle htrace hnot0 hnot1
      have hA := shape_before_version (d := d) (w := w) hipk
      have hnA : ev ∉ [Event.ok .temporarilyStop, .ok .lockStructureForAlter,
          .ok (.alterTable d)] ++ assignEvents d w ++ (ipk ++ [.ok (.getDataParts .data)]) :=
        fun h => (hA ev h).1 v1 hcall
      rcases hrest with rfl | rfl
      · exfalso
        have hev : ev ∈ [Event.ok .temporarilyStop, .ok .lockStructureForAlter,
            .ok (.alterTable d)] ++ assignEvents d w ++ (ipk ++ [] ++ R) := by
          rw [hsu]; simp
        simp only [List.mem_append, List.mem_cons, List.mem_singleton, List.not_mem_nil,
          or_false, hnotR] at hev hnA
        tauto
      · have hsu2 : ([Event.ok .temporarilyStop, .ok .lockStructureForAlter,
            .ok (.alterTable d)] ++ assignEvents d w ++ (ipk ++ [.ok (.getDataParts .data)])) ++
            [.ok (.assign_columns_version v)] ++ R = pre1 ++ ev :: post1 := by
          rw [← hsu]
          simp
        obtain ⟨pre2, post2, hP, hpre1, hpost1⟩ := mem_middle hsu2 hnA hnotR
        have hsingle : pre2 = [] ∧ ev = .ok (.assign_columns_version v) ∧ post2 = [] := by
          cases pre2 with
          | nil =>
            simp only [List.nil_append, List.cons.injEq] at hP
            exact ⟨rfl, hP.1.symm, hP.2.symm⟩
          | cons a pre2 =>
            simp only [List.cons_append, List.cons.injEq] at hP
            have := hP.2
            simp at this
        obtain ⟨rfl, rfl, rfl⟩ := hsingle
        simp only [Event.call, Call.assign_columns_version.injEq] at hcall
        refine ⟨hcall.symm, by rw [hpre, hpre1]; simp, by rw [hpre, hpre1]; simp, ?_, ?_⟩
        · intro e1 he1
          rw [hpre, hpre1] at he1
          simp only [List.append_nil] at he1
          rcases List.mem_append.1 he1 with h | h
          · intro hc
            have := h0 e1 h
            rw [hc] at this
            simp [Call.isStructural] at this
          · exact (hA e1 h).2 _
        · intro e1 he1
          rw [hpost, hpost1] at he1
          simp only [List.nil_append] at he1
          rcases List.mem_append.1 he1 with h | h
          · obtain ⟨x, rfl⟩ := hR e1 h
            simp [Event.call, Call.isAssignment]
          · have hn := h1 e1 h
            refine ⟨?_, ?_, ?_⟩
            · cases hc : e1.call.isAssignment with
              | false => rfl
              | true =>
                rw [isAssignment_isStructural hc] at hn
                simp at hn
            · intro st hc
              rw [hc] at hn
              simp [Call.isStructural] at hn
            · intro d1 hc
              rw [hc] at hn
              simp [Call.isStructural] at hn

/-- In such a turn, when `alterTable` raises, the turn ends in the `catch`
block and the schema in memory, the catalog, `columns_version` and the
coordination store are as before. -/
theorem changed_alterTable_threw {env : Env} {w : World} {blob : String} {v : Int}
    {d : ColumnsDescription}
    (hnode : w.zookeeper.lookup (w.storage.zookeeper_path ++ "/columns") = some ⟨blob, v⟩)
    (hparse : env.parse blob = .ok d) (hv : v ≠ w.storage.columns_version)
    (hd : differs d w = true) :
    ∀ e, Event.threw (.alterTable d) e ∈ (iteration env w).trace →
      (iteration env w).result = .ok (some e) ∧ (iteration env w).world.schema = w.schema ∧
      (iteration env w).world.zookeeper = w.zookeeper ∧
      (iteration env w).world.force_recheck_parts = true := by
  intro e hev
  rcases iteration_changed_cases hnode hparse hv hd with ⟨_, hns⟩ |
    ⟨T0, T1, R, h0, h1, hR, hsh⟩
  · have := hns _ hev
    simp [Event.call, Call.isStructural] at this
  · have hnot0 : Event.threw (.alterTable d) e ∉ T0 := fun h => by
      have := h0 _ h
      simp [Event.call, Call.isStructural] at this
    have hnot1 : Event.threw (.alterTable d) e ∉ T1 := fun h => by
      have := h1 _ h
      simp [Event.call, Call.isStructural] at this
    have hnotR : Event.threw (.alterTable d) e ∉ R := fun h => by
      obtain ⟨x, hx⟩ := hR _ h
      simp at hx
    rcases hsh with ⟨e1, _, htr⟩ | ⟨e1, _, htr, hres, hsch, hzk, hforce⟩ |
      ⟨ipk, rest, htr, hipk, hrest⟩
    · rw [htr] at hev
      simp [hnot0, hnot1, hnotR] at hev
    · rw [htr] at hev
      simp only [List.mem_append, List.mem_cons, List.mem_singleton, List.not_mem_nil,
        or_false, hnot0, hnot1, hnotR, false_or] at hev
      simp only [reduceCtorEq, Event.threw.injEq, true_and, false_or] at hev
      subst hev
      exact ⟨hres, hsch, hzk, hforce⟩
    · exfalso
      rw [htr] at hev
      have hB := shape_after_assignments hipk hrest hR
      simp only [List.mem_append, List.mem_cons, List.mem_singleton, List.not_mem_nil,
        or_false, hnot0, hnot1, hnotR, false_or, reduceCtorEq] at hev hB
      rcases hev with h | h
      · have := assignEvents_calls h
        simp [Event.call, Call.isAssignment] at this
      · exact (hB _ (Or.inl h)).2.1 d rfl

/-- A turn that fetches another version while a component differs, whose
fetch and exclusive lock do not fail, calls `alterTable` with the fetched
description. -/
theorem changed_calls_alterTable {env : Env} {w : World} {blob : String} {v : Int}
    {d : ColumnsDescription}
    (hnode : w.zookeeper.lookup (w.storage.zookeeper_path ++ "/columns") = some ⟨blob, v⟩)
    (hparse : env.parse blob = .ok d) (hv : v ≠ w.storage.columns_version)
    (hd : differs d w = true)
    (hz : env.fault .getZooKeeper = none)
    (hg : env.fault (.get (w.storage.zookeeper_path ++ "/columns")) = none)
    (hp : env.fault (.parse blob) = none)
    (hl : env.fault .lockStructureForAlter = none) :
    ∃ ev ∈ (iteration env w).trace, ev.call = .alterTable d := by
  rcases iteration_changed_cases hnode hparse hv hd with ⟨⟨e, he⟩, _⟩ |
    ⟨T0, T1, R, h0, h1, hR, hsh⟩
  · rw [(fetch_of_none hz hg hp hnode hparse).1] at he
    simp at he
  · rcases hsh with ⟨e1, hf, _⟩ | ⟨e1, _, htr, _⟩ | ⟨ipk, rest, htr, _⟩
    · rw [hl] at hf
      simp at hf
    · exact ⟨.threw (.alterTable d) e1, by rw [htr]; simp, rfl⟩
    · exact ⟨.ok (.alterTable d), by rw [htr]; simp, rfl⟩

/-- The trace of the loop over a non-empty list of primary parts starts with
the call of `alterDataPart` for the first of them. -/
theorem partsTrace_head {rp : String} {cols : NamesAndTypesList} {q : DataPart}
    {ps : List DataPart} {tr : List Event} {x : Option Exc}
    (h : PartsTrace rp cols (q :: ps) tr x) :
    ∃ ev post, tr = ev :: post ∧ ev.call = .alterDataPart .data q.name cols := by
  cases h with
  | alter_threw p ps e => exact ⟨_, _, rfl, rfl⟩
  | skip p ps tr x h1 => exact ⟨_, _, rfl, rfl⟩
  | multi_threw p ps t e => exact ⟨_, _, rfl, rfl⟩
  | commit_threw p ps t e => exact ⟨_, _, rfl, rfl⟩
  | step p ps t tr x h1 => exact ⟨_, _, rfl, rfl⟩

/-- The events that end the processing of a part in the loop over the primary
parts name a part of the list. -/
theorem partsTrace_names {rp : String} {cols : NamesAndTypesList} {ps : List DataPart}
    {tr : List Event} {x : Option Exc} (h : PartsTrace rp cols ps tr x) :
    ∀ ev ∈ tr, ∀ n, (ev = .ok (.commit .data n) ∨
        ∃ c, ev = .returned (.alterDataPart .data n c) none) → n ∈ ps.map DataPart.name := by
  induction h with
  | done => simp
  | alter_threw p ps e => simp
  | skip p ps tr x _ ih =>
    intro ev hev n hn
    rcases List.mem_cons.1 hev with rfl | h
    · rcases hn with hn | ⟨c1, hn⟩
      · simp at hn
      · simp only [Event.returned.injEq, Call.alterDataPart.injEq, true_and, and_true] at hn
        simp [hn]
    · exact List.mem_map.2 (by
        obtain ⟨q, hq, hqn⟩ := List.mem_map.1 (ih ev h n hn)
        exact ⟨q, List.mem_cons_of_mem _ hq, hqn⟩)
  | multi_threw p ps t e =>
    intro ev hev n hn
    simp only [List.mem_cons] at hev
    rcases hev with rfl | rfl | h
    · rcases hn with hn | ⟨c1, hn⟩ <;> simp at hn
    · rcases hn with hn | ⟨c1, hn⟩ <;> simp at hn
    · rw [(handlerEvents_mem h).1] at hn
      rcases hn with hn | ⟨c1, hn⟩ <;> simp at hn
  | commit_threw p ps t e =>
    intro ev hev n hn
    simp only [List.mem_cons, List.mem_singleton, List.not_mem_nil, or_false] at hev
    rcases hev with rfl | rfl | rfl <;> rcases hn with hn | ⟨c1, hn⟩ <;> simp at hn
  | step p ps t tr x _ ih =>
    intro ev hev n hn
    simp only [List.mem_cons] at hev
    rcases hev with rfl | rfl | rfl | h
    · rcases hn with hn | ⟨c1, hn⟩ <;> simp at hn
    · rcases hn with hn | ⟨c1, hn⟩ <;> simp at hn
    · rcases hn with hn | ⟨c1, hn⟩
      · simp only [Event.ok.injEq, Call.commit.injEq, true_and] at hn
        simp [hn]
      · simp at hn
    · exact List.mem_map.2 (by
        obtain ⟨q, hq, hqn⟩ := List.mem_map.1 (ih ev h n hn)
        exact ⟨q, List.mem_cons_of_mem _ hq, hqn⟩)

/-- In the loop over the primary parts, once a part is done with (its
`commit` returned, or `alterDataPart` returned no transaction for it), the next
event is the call of `alterDataPart` for the part that follows it in the list. -/
theorem partsTrace_next {rp : String} {cols : NamesAndTypesList} {ps : List DataPart}
    {tr : List Event} {x : Option Exc} (h : PartsTrace rp cols ps tr x) :
    (ps.map DataPart.name).Nodup → ∀ l1 p q l2, ps = l1 ++ p :: q :: l2 →
      ∀ pre e post, tr = pre ++ e :: post →
        (e = .ok (.commit .data p.name) ∨
          ∃ c, e = .returned (.alterDataPart .data p.name c) none) →
        ∃ ev post1, post = ev :: post1 ∧ ev.call = .alterDataPart .data q.name cols := by
  induction h with
  | done =>
    intro _ l1 p q l2 hps
    simp at hps
  | alter_threw p0 ps0 e0 =>
    intro _ l1 p q l2 _ pre e post htr he
    rcases pre with _ | ⟨a, pre⟩
    · simp only [List.nil_append, List.cons.injEq] at htr
      rcases he with rfl | ⟨c1, rfl⟩ <;> simp at htr
    · simp at htr
  | multi_threw p0 ps0 t e0 =>
    intro _ l1 p q l2 _ pre e post htr he
    have hmem : e ∈ Event.returned (.alterDataPart .data p0.name cols) (some t) ::
        .threw (.multi (partOps rp p0 t)) e0 :: handlerEvents e0 p0.name := by
      rw [htr]; simp
    simp only [List.mem_cons] at hmem
    rcases hmem with rfl | rfl | h
    · rcases he with he | ⟨c1, he⟩ <;> simp at he
    · rcases he with he | ⟨c1, he⟩ <;> simp at he
    · rw [(handlerEvents_mem h).1] at he
      rcases he with he | ⟨c1, he⟩ <;> simp at he
  | commit_threw p0 ps0 t e0 =>
    intro _ l1 p q l2 _ pre e post htr he
    have hmem : e ∈ [Event.returned (.alterDataPart .data p0.name cols) (some t),
        .ok (.multi (partOps rp p0 t)), .threw (.commit .data p0.name) e0] := by
      rw [htr]; simp
    simp only [List.mem_cons, List.mem_singleton, List.not_mem_nil, or_false] at hmem
    rcases hmem with rfl | rfl | rfl <;> rcases he with he | ⟨c1, he⟩ <;> simp at he
  | skip p0 ps0 tr0 x0 h0 ih =>
    intro hnd l1 p q l2 hps pre e post htr he
    simp only [List.map_cons, List.nodup_cons] at hnd
    rcases l1 with _ | ⟨a, l1⟩
    · simp only [List.nil_append, List.cons.injEq] at hps
      obtain ⟨rfl, rfl⟩ := hps
      rcases pre with _ | ⟨b, pre⟩
      · simp only [List.nil_append, List.cons.injEq] at htr
        rw [← htr.2]
        exact partsTrace_head h0
      · simp only [List.cons_append, List.cons.injEq] at htr
        exfalso
        exact hnd.1 (partsTrace_names h0 e (by rw [htr.2]; simp) _ he)
    · simp only [List.cons_append, List.cons.injEq] at hps
      obtain ⟨rfl, rfl⟩ := hps
      rcases pre with _ | ⟨b, pre⟩
      · simp only [List.nil_append, List.cons.injEq] at htr
        exfalso
        rcases he with he | ⟨c1, he⟩
        · rw [he] at htr
          simp at htr
        · rw [he] at htr
          simp only [Event.returned.injEq, Call.alterDataPart.injEq, true_and, and_true] at htr
          apply hnd.1
          rw [htr.1.1]
          simp
      · simp only [List.cons_append, List.cons.injEq] at htr
        exact ih hnd.2 l1 p q l2 rfl pre e post htr.2 he
  | step p0 ps0 t tr0 x0 h0 ih =>
    intro hnd l1 p q l2 hps pre e post htr he
    simp only [List.map_cons, List.nodup_cons] at hnd
    rcases pre with _ | ⟨b1, _ | ⟨b2, _ | ⟨b3, pre⟩⟩⟩
    · simp only [List.nil_append, List.cons.injEq] at htr
      exfalso
      rcases he with he | ⟨c1, he⟩ <;> rw [he] at htr <;> simp at htr
    · simp only [List.cons_append, List.nil_append, List.cons.injEq] at htr
      exfalso
      rcases he with he | ⟨c1, he⟩ <;> rw [he] at htr <;> simp at htr
    · simp only [List.cons_append, List.nil_append, List.cons.injEq] at htr
      rcases he with he | ⟨c1, he⟩
      · rw [he] at htr
        simp only [Event.ok.injEq, Call.commit.injEq, true_and] at htr
        rcases l1 with _ | ⟨a, l1⟩
        · simp only [List.nil_append, List.cons.injEq] at hps
          obtain ⟨rfl, rfl⟩ := hps
          rw [← htr.2.2.2]
          exact partsTrace_head h0
        · simp only [List.cons_append, List.cons.injEq] at hps
          obtain ⟨rfl, rfl⟩ := hps
          exfalso
          apply hnd.1
          rw [htr.2.2.1]
          simp
      · rw [he] at htr
        simp at htr
    · simp only [List.cons_append, List.cons.injEq] at htr
      rcases l1 with _ | ⟨a, l1⟩
      · simp only [List.nil_append, List.cons.injEq] at hps
        obtain ⟨rfl, rfl⟩ := hps
        exfalso
        exact hnd.1 (partsTrace_names h0 e (by rw [htr.2.2.2]; simp) _ he)
      · simp only [List.cons_append, List.cons.injEq] at hps
        obtain ⟨rfl, rfl⟩ := hps
        exact ih hnd.2 l1 p q l2 rfl pre e post htr.2.2.2 he

theorem closed_stopSeen (env : Env) : Closed (StopSeen env) where
  refl := by
    intro w
    exact ⟨id, by simp⟩
  seq := by
    intro w w1 w2 t1 t2 x h1 h2
    refine ⟨fun h => h2.1 (h1.1 h), ?_⟩
    intro ev hev hs
    rcases List.mem_append.1 hev with h | h
    · exact h2.1 (h1.2 ev h hs)
    · exact h2.2 ev h hs

theorem foldl_noteStop_need_stop (env : Env) (xs : List Resource) (w : World) :
    (w.need_stop = true →
      (xs.foldl (fun v x => v.noteStop env (.release x)) w).need_stop = true) ∧
    ∀ x ∈ xs, env.stop_after (.release x) = true →
      (xs.foldl (fun v x => v.noteStop env (.release x)) w).need_stop = true := by
  induction xs generalizing w with
  | nil => exact ⟨id, by simp⟩
  | cons a xs ih =>
    simp only [List.foldl_cons]
    have h := ih (w.noteStop env (.release a))
    constructor
    · intro hw
      exact h.1 (by simp [World.noteStop, hw])
    · intro x hx hs
      rcases List.mem_cons.1 hx with rfl | hx
      · exact h.1 (by simp [World.noteStop, hs])
      · exact h.2 x hx hs

theorem leaves_stopSeen (env : Env) (rs : List Resource) : Leaves env rs (StopSeen env) := by
  intro w w1 t x h
  have hf := foldl_noteStop_need_stop env (alive rs w1) w1
  have hn : (w1.leave env rs).need_stop =
      ((alive rs w1).foldl (fun v x => v.noteStop env (.release x)) w1).need_stop := rfl
  refine ⟨fun hw => by rw [hn]; exact hf.1 (h.1 hw), ?_⟩
  intro ev hev hs
  rw [hn]
  rcases List.mem_append.1 hev with h1 | h1
  · exact hf.1 (h.2 ev h1 hs)
  · simp only [releases, List.mem_map] at h1
    obtain ⟨r, hr, rfl⟩ := h1
    exact hf.2 r hr hs

theorem stopSeen_step (env : Env) {c : Call} {ev : Event} (hc : ev.call = c) (w : World)
    (x : Option Exc) : StopSeen env w (w.noteStop env c) [ev] x := by
  refine ⟨fun h => by simp [World.noteStop, h], ?_⟩
  intro e he hs
  simp only [List.mem_singleton] at he
  subst he
  rw [hc] at hs
  simp [World.noteStop, hs]

theorem stopSeen_same (env : Env) {w w1 : World} (h : w1.need_stop = w.need_stop)
    (x : Option Exc) : StopSeen env w w1 [] x :=
  ⟨fun hw => by rw [h]; exact hw, by simp⟩

theorem holds_tryCatch_stopSeen {α : Type} {env : Env} {body : M α} {handler : Exc → M α}
    (hb : Holds (StopSeen env) body) (hh : ∀ e, Holds (StopSeen env) (handler e)) :
    Holds (StopSeen env) (tryCatch body handler) := by
  intro w
  unfold tryCatch
  have h1 := hb w
  rcases hbw : body w with ⟨t, w1, r⟩
  rw [hbw] at h1
  cases r with
  | ok a => exact h1
  | error e =>
    have h2 := hh e w1
    exact (closed_stopSeen env).seq w w1 _ t _ _ ⟨h1.1, h1.2⟩ h2

theorem stopSeen_alterParts (env : Env) (cols : NamesAndTypesList) (ps : List DataPart) :
    Holds (StopSeen env) (alterParts env cols ps) := by
  have hC := closed_stopSeen env
  induction ps with
  | nil => exact holds_pure hC _
  | cons p ps ih =>
    unfold alterParts multiOrEnqueue commit zkMulti enqueuePartForCheck raise
    repeat' first
      | with_reducible first
        | exact ih
        | apply holds_pure hC
        | apply holds_getWorld hC
        | apply holds_ite
        | refine holds_tryCatch_stopSeen ?_ (fun _ => ?_)
        | apply holds_emit
        | apply holds_call
        | apply holds_callResult
        | apply holds_alterDataPart
        | apply holds_modifyWorld
        | refine holds_bind hC ?_ (fun _ => ?_)
        | dsimp only
        | split
      | (intro w; first
          | exact stopSeen_step env (by rfl) _ _
          | exact stopSeen_same env (by rfl) _
          | exact (closed_stopSeen env).refl _)
      | (intro w e; exact stopSeen_step env (by rfl) _ _)
      | (intro w t; exact stopSeen_step env (by rfl) _ _)

theorem stopSeen_alterUnreplicatedParts (env : Env) (cols : NamesAndTypesList)
    (ps : List DataPart) : Holds (StopSeen env) (alterUnreplicatedParts env cols ps) := by
  have hC := closed_stopSeen env
  induction ps with
  | nil => exact holds_pure hC _
  | cons p ps ih =>
    unfold alterUnreplicatedParts commit
    repeat' first
      | with_reducible first
        | exact ih
        | apply holds_pure hC
        | apply holds_getWorld hC
        | apply holds_call
        | apply holds_alterDataPart
        | apply holds_modifyWorld
        | refine holds_bind hC ?_ (fun _ => ?_)
        | dsimp only
        | split
      | (intro w; first
          | exact stopSeen_step env (by rfl) _ _
          | exact stopSeen_same env (by rfl) _
          | exact (closed_stopSeen env).refl _)
      | (intro w e; exact stopSeen_step env (by rfl) _ _)
      | (intro w t; exact stopSeen_step env (by rfl) _ _)

theorem stopSeen_iteration (env : Env) : Holds (StopSeen env) (iteration env) := by
  have hC := closed_stopSeen env
  unfold iteration reconcile fetch zkGet underBlockers cancelMerges structuralUpdate applyChanges
    assignColumns assignMaterialized assignAlias assignDefaults initPrimaryKeys
    snapshotAndSetVersion updateParts partsToAlter alterUnreplicated publishColumns zkSet
  repeat' first
    | with_reducible first
      | apply stopSeen_alterParts
      | apply stopSeen_alterUnreplicatedParts
      | apply holds_pure hC
      | apply holds_getWorld hC
      | apply holds_ite
      | refine holds_tryCatch_stopSeen ?_ (fun _ => ?_)
      | apply holds_scope (leaves_stopSeen _ _)
      | apply holds_emit
      | apply holds_call
      | apply holds_callResult
      | apply holds_modifyWorld
      | apply holds_acquire
      | refine holds_bind hC ?_ (fun _ => ?_)
      | dsimp only
      | split
    | (intro w; first
        | exact stopSeen_step env (by rfl) _ _
        | exact stopSeen_same env (by rfl) _
        | exact (closed_stopSeen env).refl _)
    | (intro w e; exact stopSeen_step env (by rfl) _ _)

theorem loop_of_stop (envs : List Env) {w : World} (h : w.need_stop = true) :
    loop envs w = ⟨[], w, .ok true⟩ := by
  cases envs with
  | nil =>
    simp only [loop, bind_apply, getWorld_apply, pure_apply, h]
    rfl
  | cons env envs =>
    rw [loop]
    simp only [bind_apply, getWorld_apply, h, if_true, pure_apply]
    rfl

theorem heldAfter_nil (h : List Resource) : heldAfter h [] = h := rfl

theorem heldAfter_cons (h : List Resource) (ev : Event) (t : List Event) :
    heldAfter h (ev :: t) = heldAfter (heldStep h ev) t := rfl

theorem heldAfter_append (h : List Resource) (t1 t2 : List Event) :
    heldAfter h (t1 ++ t2) = heldAfter (heldAfter h t1) t2 := by
  simp [heldAfter, List.foldl_append]

theorem heldStep_of_not_moves {ev : Event} (hm : ev.moves = false) (h : List Resource) :
    heldStep h ev = h := by
  cases ev with
  | ok c => cases c <;> first | rfl | simp [Event.moves] at hm
  | returned c t => rfl
  | threw c e => rfl

theorem heldAfter_of_not_moves {t : List Event} (hm : ∀ ev ∈ t, ev.moves = false)
    (h : List Resource) : heldAfter h t = h := by
  induction t generalizing h with
  | nil => rfl
  | cons ev t ih =>
    rw [heldAfter_cons, heldStep_of_not_moves (hm ev (List.mem_cons_self _ _))]
    exact ih (fun e he => hm e (List.mem_cons_of_mem _ he)) h

theorem heldStep_mem {h : List Resource} {ev : Event} {r : Resource}
    (hr : r ∈ heldStep h ev) : r ∈ h ∨ heldStep [] ev = [r] := by
  cases ev with
  | ok c =>
    cases c <;> first
      | exact Or.inl hr
      | (simp only [heldStep, List.mem_cons] at hr
         rcases hr with rfl | hr
         · exact Or.inr rfl
         · exact Or.inl hr)
      | (simp only [heldStep, List.mem_filter] at hr
         exact Or.inl hr.1)
  | returned c t => exact Or.inl hr
  | threw c e => exact Or.inl hr

/-- The destructors of a block remove what it owns. -/
theorem heldAfter_releases (rs : List Resource) (w : World) :
    heldAfter w.held (releases rs w) = w.held.filter fun x => decide (x ∉ rs) := by
  have key : ∀ (xs : List Resource) (h : List Resource),
      heldAfter h (xs.map fun x => Event.ok (.release x)) = h.filter fun x => decide (x ∉ xs) := by
    intro xs
    induction xs with
    | nil => intro h; simp [heldAfter]
    | cons a xs ih =>
      intro h
      rw [List.map_cons, heldAfter_cons, ih]
      simp only [heldStep, List.filter_filter]
      apply List.filter_congr
      intro x _
      simp only [List.mem_cons, not_or, ne_eq, decide_not, Bool.and_eq_true, Bool.not_eq_true',
        decide_eq_false_iff_not, Bool.decide_and]
      by_cases hx : x = a <;> simp [hx]
  unfold releases
  rw [key]
  apply List.filter_congr
  intro x hx
  simp only [alive, List.mem_filter, decide_eq_true_eq, hx, and_true]

theorem heldAfter_releases_segment (rs : List Resource) (w : World) (pre post : List Event)
    (h : releases rs w = pre ++ post) : ∀ r ∈ heldAfter w.held pre, r ∈ w.held := by
  have key : ∀ (t : List Event), (∀ ev ∈ t, ∃ x, ev = Event.ok (.release x)) →
      ∀ (h : List Resource) (r : Resource), r ∈ heldAfter h t → r ∈ h := by
    intro t
    induction t with
    | nil => intro _ h r hr; exact hr
    | cons ev t ih =>
      intro hall h r hr
      rw [heldAfter_cons] at hr
      have := ih (fun e he => hall e (List.mem_cons_of_mem _ he)) _ r hr
      obtain ⟨x, rfl⟩ := hall ev (List.mem_cons_self _ _)
      simp only [heldStep, List.mem_filter] at this
      exact this.1
  apply key
  intro ev hev
  have : ev ∈ releases rs w := by rw [h]; exact List.mem_append_left _ hev
  obtain ⟨x, _, rfl⟩ := mem_releases this
  exact ⟨x, rfl⟩

theorem closed_adds (A : List Resource) : Closed (Adds A) where
  refl := by
    intro w
    refine ⟨rfl, ?_⟩
    intro pre post h r hr
    have : pre = [] := by
      cases pre with
      | nil => rfl
      | cons a l => simp at h
    subst this
    exact Or.inl hr
  seq := by
    intro w w1 w2 t1 t2 x h1 h2
    refine ⟨by rw [h2.1, h1.1, heldAfter_append], ?_⟩
    intro pre post h r hr
    rcases List.append_eq_append_iff.1 h with ⟨a, rfl, h3⟩ | ⟨c, rfl, h3⟩
    · rw [heldAfter_append, ← h1.1] at hr
      rcases h2.2 a post h3 r hr with h4 | h4
      · rw [h1.1] at h4
        exact h1.2 t1 [] (by simp) r h4
      · exact Or.inr h4
    · exact h1.2 pre c rfl r hr

theorem leaves_adds (env : Env) (rs : List Resource) (A : List Resource) :
    Leaves env rs (Adds A) := by
  intro w w1 t x h
  refine ⟨by rw [leave_held, heldAfter_append, ← h.1, heldAfter_releases], ?_⟩
  intro pre post hp r hr
  rcases List.append_eq_append_iff.1 hp with ⟨a, rfl, h3⟩ | ⟨c, rfl, h3⟩
  · rw [heldAfter_append, ← h.1] at hr
    have := heldAfter_releases_segment rs w1 a post h3 r hr
    rw [h.1] at this
    exact h.2 t [] (by simp) r this
  · exact h.2 pre c rfl r hr

theorem adds_still (A : List Resource) {ev : Event} (hm : ev.moves = false) {w w1 : World}
    (hh : w1.held = w.held) (x : Option Exc) : Adds A w w1 [ev] x := by
  refine ⟨by rw [hh, heldAfter_of_not_moves (by simpa using hm)], ?_⟩
  intro pre post h r hr
  rcases List.append_eq_cons_iff.1 h.symm with ⟨rfl, _⟩ | ⟨a, rfl, h2⟩
  · exact Or.inl hr
  · have h3 : a = [] ∧ post = [] := by simpa using h2.symm
    obtain ⟨rfl, _⟩ := h3
    rw [heldAfter_of_not_moves (by simpa using hm)] at hr
    exact Or.inl hr

theorem adds_same (A : List Resource) {w w1 : World} (hh : w1.held = w.held)
    (x : Option Exc) : Adds A w w1 [] x := by
  have := (closed_adds A).refl w
  exact ⟨by rw [hh]; exact this.1, this.2⟩

theorem adds_acquired (A : List Resource) {ev : Event} {r : Resource} (hr : r ∈ A)
    (hs : ∀ h, heldStep h ev = r :: h) {w w1 : World} (hh : w1.held = r :: w.held)
    (x : Option Exc) : Adds A w w1 [ev] x := by
  refine ⟨by rw [hh]; simp [heldAfter, hs], ?_⟩
  intro pre post h r1 hr1
  rcases List.append_eq_cons_iff.1 h.symm with ⟨rfl, _⟩ | ⟨a, rfl, h2⟩
  · exact Or.inl hr1
  · have h3 : a = [] ∧ post = [] := by simpa using h2.symm
    obtain ⟨rfl, _⟩ := h3
    simp only [heldAfter, List.foldl_cons, List.foldl_nil, hs, List.mem_cons] at hr1
    rcases hr1 with rfl | hr1
    · exact Or.inr hr
    · exact Or.inl hr1

/-- A call that returns a scoped object, followed by the rest of the block. -/
theorem holds_emit_acquire {α : Type} {env : Env} {A : List Resource} {c : Call} {r : Resource}
    {m : M α} (hr : r ∈ A) (hs : ∀ h, heldStep h (.ok c) = r :: h) (hm : Holds (Adds A) m) :
    Holds (Adds A) (emit env c >>= fun _ => acquire r >>= fun _ => m) := by
  intro w
  have h1 : Adds A w ({ (w.noteStop env c) with held := r :: w.held }) [.ok c] none :=
    adds_acquired A hr hs rfl none
  have h2 := hm ({ (w.noteStop env c) with held := r :: w.held })
  exact (closed_adds A).seq _ _ _ _ _ _ h1 h2

/-- A call that returns a scoped object, at the end of a block. -/
theorem holds_emit_acquire_last {env : Env} {A : List Resource} {c : Call} {r : Resource}
    (hr : r ∈ A) (hs : ∀ h, heldStep h (.ok c) = r :: h) :
    Holds (Adds A) (emit env c >>= fun _ => acquire r) := by
  intro w
  exact adds_acquired A hr hs rfl none

/-- A call that returns a scoped object or raises, followed by the rest of
the block. -/
theorem holds_call_acquire {α : Type} {env : Env} {A : List Resource} {c : Call} {r : Resource}
    {m : M α} (hr : r ∈ A) (hs : ∀ h, heldStep h (.ok c) = r :: h)
    (hn : ∀ e, (Event.threw c e).moves = false) (hm : Holds (Adds A) m) :
    Holds (Adds A) (call env c >>= fun _ => acquire r >>= fun _ => m) := by
  intro w
  cases hf : env.fault c with
  | some e =>
    have : (call env c >>= fun _ => acquire r >>= fun _ => m) w =
        ⟨[.threw c e], w.noteStop env c, .error e⟩ := by
      simp only [bind_apply, call, hf]
    rw [this]
    exact adds_still A (hn e) rfl (some e)
  | none =>
    have h1 : Adds A w ({ (w.noteStop env c) with held := r :: w.held }) [.ok c] none :=
      adds_acquired A hr hs rfl none
    have h2 := hm ({ (w.noteStop env c) with held := r :: w.held })
    have : (call env c >>= fun _ => acquire r >>= fun _ => m) w =
        ⟨[.ok c] ++ (m ({ (w.noteStop env c) with held := r :: w.held })).trace,
          (m ({ (w.noteStop env c) with held := r :: w.held })).world,
          (m ({ (w.noteStop env c) with held := r :: w.held })).result⟩ := by
      simp only [bind_apply, call, hf, acquire_apply, List.nil_append]
      rfl
    rw [this]
    exact (closed_adds A).seq _ _ _ _ _ _ h1 h2

theorem holds_tryCatch_adds {α : Type} {A : List Resource} {body : M α} {handler : Exc → M α}
    (hb : Holds (Adds A) body) (hh : ∀ e, Holds (Adds A) (handler e)) :
    Holds (Adds A) (tryCatch body handler) := by
  intro w
  unfold tryCatch
  have h1 := hb w
  rcases hbw : body w with ⟨t, w1, r⟩
  rw [hbw] at h1
  cases r with
  | ok a => exact h1
  | error e =>
    have h2 := hh e w1
    exact (closed_adds A).seq w w1 _ t _ _ ⟨h1.1, h1.2⟩ h2

theorem adds_fetch (env : Env) (A : List Resource) : Holds (Adds A) (fetch env) := by
  have hC := closed_adds A
  unfold fetch zkGet
  repeat' first
    | with_reducible first
      | apply holds_pure hC
      | apply holds_getWorld hC
      | apply holds_call
      | apply holds_callResult
      | refine holds_bind hC ?_ (fun _ => ?_)
      | dsimp only
      | split
    | (intro w; first
        | exact adds_still A (by rfl) (by rfl) _
        | exact adds_same A (by rfl) _)
    | (intro w e; exact adds_still A (by rfl) (by rfl) _)

theorem adds_cancelMerges (env : Env) (c : Bool) (A : List Resource)
    (h1 : Resource.merge_blocker ∈ A) (h2 : Resource.unreplicated_merge_blocker ∈ A) :
    Holds (Adds A) (cancelMerges env c) := by
  have hC := closed_adds A
  unfold cancelMerges
  repeat' first
    | refine holds_emit_acquire h1 (fun _ => rfl) ?_
    | exact holds_emit_acquire_last h2 (fun _ => rfl)
    | with_reducible first
      | apply holds_pure hC
      | apply holds_getWorld hC
      | apply holds_ite
      | refine holds_bind hC ?_ (fun _ => ?_)
      | dsimp only
    | (intro w; first
        | exact adds_still A (by rfl) (by rfl) _
        | exact adds_same A (by rfl) _)

theorem adds_alterParts (env : Env) (A : List Resource) (cols : NamesAndTypesList)
    (ps : List DataPart) : Holds (Adds A) (alterParts env cols ps) := by
  have hC := closed_adds A
  induction ps with
  | nil => exact holds_pure hC _
  | cons p ps ih =>
    unfold alterParts multiOrEnqueue commit zkMulti enqueuePartForCheck raise
    repeat' first
      | with_reducible first
        | exact ih
        | apply holds_pure hC
        | apply holds_getWorld hC
        | apply holds_ite
        | refine holds_tryCatch_adds ?_ (fun _ => ?_)
        | apply holds_emit
        | apply holds_call
        | apply holds_callResult
        | apply holds_alterDataPart
        | apply holds_modifyWorld
        | refine holds_bind hC ?_ (fun _ => ?_)
        | dsimp only
        | split
      | (intro w; first
          | exact adds_still A (by rfl) (by rfl) _
          | exact adds_same A (by rfl) _
          | exact (closed_adds A).refl _)
      | (intro w e; exact adds_still A (by rfl) (by rfl) _)
      | (intro w t; exact adds_still A (by rfl) (by rfl) _)

theorem adds_alterUnreplicatedParts (env : Env) (A : List Resource) (cols : NamesAndTypesList)
    (ps : List DataPart) : Holds (Adds A) (alterUnreplicatedParts env cols ps) := by
  have hC := closed_adds A
  induction ps with
  | nil => exact holds_pure hC _
  | cons p ps ih =>
    unfold alterUnreplicatedParts commit
    repeat' first
      | with_reducible first
        | exact ih
        | apply holds_pure hC
        | apply holds_getWorld hC
        | apply holds_call
        | apply holds_alterDataPart
        | apply holds_modifyWorld
        | refine holds_bind hC ?_ (fun _ => ?_)
        | dsimp only
        | split
      | (intro w; first
          | exact adds_still A (by rfl) (by rfl) _
          | exact adds_same A (by rfl) _)
      | (intro w e; exact adds_still A (by rfl) (by rfl) _)
      | (intro w t; exact adds_still A (by rfl) (by rfl) _)

theorem adds_structuralUpdate (env : Env) (d : ColumnsDescription) (v : Int)
    (A : List Resource) (h1 : Resource.temporarily_stop_part_checks ∈ A)
    (h2 : Resource.table_lock_for_alter ∈ A) :
    Holds (Adds A) (structuralUpdate env d v) := by
  have hC := closed_adds A
  unfold structuralUpdate
  apply holds_scope (leaves_adds _ _ _)
  refine holds_emit_acquire h1 (fun _ => rfl) ?_
  refine holds_call_acquire h2 (fun _ => rfl) (fun _ => rfl) ?_
  unfold applyChanges assignColumns assignMaterialized assignAlias
    assignDefaults initPrimaryKeys snapshotAndSetVersion
  repeat' first
    | with_reducible first
      | apply holds_pure hC
      | apply holds_getWorld hC
      | apply holds_ite
      | apply holds_scope (leaves_adds _ _ _)
      | apply holds_emit
      | apply holds_call
      | apply holds_modifyWorld
      | refine holds_bind hC ?_ (fun _ => ?_)
      | dsimp only
      | split
    | (intro w; first
        | exact adds_still A (by rfl) (by rfl) _
        | exact adds_same A (by rfl) _)
    | (intro w e; exact adds_still A (by rfl) (by rfl) _)

theorem adds_updateParts (env : Env) (s : String) (c : Bool) (ps : List DataPart)
    (A : List Resource) (h1 : Resource.table_lock ∈ A) :
    Holds (Adds A) (updateParts env s c ps) := by
  have hC := closed_adds A
  unfold updateParts
  apply holds_scope (leaves_adds _ _ _)
  refine holds_call_acquire h1 (fun _ => rfl) (fun _ => rfl) ?_
  unfold partsToAlter alterUnreplicated publishColumns zkSet
  repeat' first
    | with_reducible first
      | apply adds_alterParts
      | apply adds_alterUnreplicatedParts
      | apply holds_pure hC
      | apply holds_getWorld hC
      | apply holds_ite
      | apply holds_scope (leaves_adds _ _ _)
      | apply holds_emit
      | apply holds_call
      | apply holds_callResult
      | apply holds_modifyWorld
      | refine holds_bind hC ?_ (fun _ => ?_)
      | dsimp only
      | split
    | (intro w; first
        | exact adds_still A (by rfl) (by rfl) _
        | exact adds_same A (by rfl) _)
    | (intro w e; exact adds_still A (by rfl) (by rfl) _)

theorem closed_orderly : Closed Orderly where
  refl := by
    intro w hw
    refine ⟨rfl, hw, ?_⟩
    intro pre post h
    have : pre = [] := by
      cases pre with
      | nil => rfl
      | cons a l => simp at h
    subst this
    intro hb
    have := hw _ hb.1
    simp [Resource.isBlocker] at this
  seq := by
    intro w w1 w2 t1 t2 x h1 h2 hw
    obtain ⟨a1, a2, a3⟩ := h1 hw
    obtain ⟨b1, b2, b3⟩ := h2 a2
    refine ⟨by rw [b1, a1, heldAfter_append], b2, ?_⟩
    intro pre post h
    rcases List.append_eq_append_iff.1 h with ⟨a, rfl, h3⟩ | ⟨c, rfl, h3⟩
    · rw [heldAfter_append, ← a1]
      exact b3 a post h3
    · exact a3 pre c rfl

theorem orderly_of_adds {A : List Resource} {w w1 : World} {t : List Event} {x y : Option Exc}
    (hA : Resource.table_lock_for_alter ∉ A ∨ Resource.table_lock ∉ A)
    (h : Adds A w w1 t x) (hpost : ∀ r ∈ w1.held, r ∈ w.held ∨ r.isBlocker = true) :
    Orderly w w1 t y := by
  intro hw
  refine ⟨h.1, ?_, ?_⟩
  · intro r hr
    rcases hpost r hr with h1 | h1
    · exact hw r h1
    · exact h1
  · intro pre post hp hb
    have n1 : Resource.table_lock_for_alter ∉ w.held := fun hm => by
      have := hw _ hm
      simp [Resource.isBlocker] at this
    have n2 : Resource.table_lock ∉ w.held := fun hm => by
      have := hw _ hm
      simp [Resource.isBlocker] at this
    rcases h.2 pre post hp _ hb.1 with h1 | h1
    · exact n1 h1
    · rcases h.2 pre post hp _ hb.2 with h2 | h2
      · exact n2 h2
      · rcases hA with hA | hA
        · exact hA h1
        · exact hA h2

theorem adds_post {A : List Resource} {w w1 : World} {t : List Event} {x : Option Exc}
    (h : Adds A w w1 t x) : ∀ r ∈ w1.held, r ∈ w.held ∨ r ∈ A := by
  intro r hr
  rw [h.1] at hr
  exact h.2 t [] (by simp) r hr

theorem leaves_orderly (env : Env) (rs : List Resource) : Leaves env rs Orderly := by
  intro w w1 t x h hw
  obtain ⟨a1, a2, a3⟩ := h hw
  refine ⟨by rw [leave_held, heldAfter_append, ← a1, heldAfter_releases], ?_, ?_⟩
  · intro r hr
    rw [leave_held, List.mem_filter] at hr
    exact a2 r hr.1
  · intro pre post hp
    rcases List.append_eq_append_iff.1 hp with ⟨a, rfl, h3⟩ | ⟨c, rfl, h3⟩
    · rw [heldAfter_append, ← a1]
      intro hb
      have := a2 _ (heldAfter_releases_segment rs w1 a post h3 _ hb.1)
      simp [Resource.isBlocker] at this
    · exact a3 pre c rfl

theorem orderly_still {ev : Event} (hm : ev.moves = false) {w w1 : World}
    (hh : w1.held = w.held) (x : Option Exc) : Orderly w w1 [ev] x :=
  orderly_of_adds (Or.inl (List.not_mem_nil _)) (adds_still [] hm hh x)
    (fun _ hr => Or.inl (hh ▸ hr))

theorem orderly_same {w w1 : World} (hh : w1.held = w.held) (x : Option Exc) :
    Orderly w w1 [] x :=
  orderly_of_adds (Or.inl (List.not_mem_nil _)) (adds_same [] hh x)
    (fun _ hr => Or.inl (hh ▸ hr))

theorem holds_tryCatch_orderly {α : Type} {body : M α} {handler : Exc → M α}
    (hb : Holds Orderly body) (hh : ∀ e, Holds Orderly (handler e)) :
    Holds Orderly (tryCatch body handler) := by
  intro w
  unfold tryCatch
  have h1 := hb w
  rcases hbw : body w with ⟨t, w1, r⟩
  rw [hbw] at h1
  cases r with
  | ok a => exact h1
  | error e =>
    have h2 := hh e w1
    exact closed_orderly.seq w w1 _ t _ _ (fun hw => h1 hw) h2

theorem orderly_fetch (env : Env) : Holds Orderly (fetch env) := by
  intro w
  exact orderly_of_adds (Or.inl (List.not_mem_nil _)) (adds_fetch env [] w)
    (fun r hr => (adds_post (adds_fetch env [] w) r hr).elim Or.inl (fun h => by simp at h))

theorem orderly_cancelMerges (env : Env) (c : Bool) : Holds Orderly (cancelMerges env c) := by
  intro w
  have h := adds_cancelMerges env c [.merge_blocker, .unreplicated_merge_blocker]
    (by simp) (by simp) w
  refine orderly_of_adds (Or.inl (by simp)) h (fun r hr => ?_)
  rcases adds_post h r hr with h1 | h1
  · exact Or.inl h1
  · right
    simp only [List.mem_cons, List.mem_singleton, List.not_mem_nil, or_false] at h1
    rcases h1 with rfl | rfl <;> rfl

theorem orderly_structuralUpdate (env : Env) (d : ColumnsDescription) (v : Int) :
    Holds Orderly (structuralUpdate env d v) := by
  intro w
  have h := adds_structuralUpdate env d v
    [.temporarily_stop_part_checks, .table_lock_for_alter] (by simp) (by simp) w
  refine orderly_of_adds (Or.inr (by simp)) h (fun r hr => ?_)
  rcases adds_post h r hr with h1 | h1
  · exact Or.inl h1
  · exfalso
    simp only [structuralUpdate, scope_apply, leave_held, List.mem_filter, List.mem_cons,
      List.mem_singleton, List.not_mem_nil, or_false, not_or, decide_eq_true_eq] at hr
    simp only [List.mem_cons, List.mem_singleton, List.not_mem_nil, or_false] at h1
    rcases h1 with rfl | rfl
    · exact hr.2.2 rfl
    · exact hr.2.1 rfl

theorem orderly_updateParts (env : Env) (s : String) (c : Bool) (ps : List DataPart) :
    Holds Orderly (updateParts env s c ps) := by
  intro w
  have h := adds_updateParts env s c ps [.table_lock] (by simp) w
  refine orderly_of_adds (Or.inl (by simp)) h (fun r hr => ?_)
  rcases adds_post h r hr with h1 | h1
  · exact Or.inl h1
  · exfalso
    simp only [updateParts, scope_apply, leave_held, List.mem_filter, List.mem_cons,
      List.mem_singleton, List.not_mem_nil, or_false, decide_eq_true_eq] at hr
    simp only [List.mem_cons, List.mem_singleton, List.not_mem_nil, or_false] at h1
    exact hr.2 h1

/-- A block that owns the merge blockers and is entered with merge blockers
alive at most is left with nothing alive. -/
theorem orderly_scope_blockers {α : Type} {env : Env} {body : M α} (hb : Holds Orderly body) :
    Holds Orderly (scope env [.unreplicated_merge_blocker, .merge_blocker] body) ∧
    ∀ w : World, (∀ r ∈ w.held, r.isBlocker = true) →
      (scope env [.unreplicated_merge_blocker, .merge_blocker] body w).world.held = [] := by
  refine ⟨holds_scope (leaves_orderly _ _) hb, ?_⟩
  intro w hw
  rw [scope_apply]
  simp only [leave_held]
  rw [List.filter_eq_nil_iff]
  intro r hr
  have := (hb w hw).2.1 r hr
  cases r <;> simp [Resource.isBlocker] at this ⊢

theorem orderly_underBlockers (env : Env) (s : String) (d : ColumnsDescription) (v : Int)
    (c : Bool) :
    Holds Orderly (underBlockers env s d v c) ∧
    ∀ w : World, (∀ r ∈ w.held, r.isBlocker = true) →
      (underBlockers env s d v c w).world.held = [] := by
  have hC := closed_orderly
  unfold underBlockers
  apply orderly_scope_blockers
  repeat' first
    | with_reducible first
      | apply orderly_cancelMerges
      | apply orderly_structuralUpdate
      | apply orderly_updateParts
      | apply holds_pure hC
      | apply holds_getWorld hC
      | apply holds_ite
      | refine holds_bind hC ?_ (fun _ => ?_)
      | dsimp only
      | split

theorem orderly_iteration (env : Env) : Holds Orderly (iteration env) := by
  have hC := closed_orderly
  unfold iteration reconcile
  repeat' first
    | with_reducible first
      | apply orderly_fetch
      | exact (orderly_underBlockers _ _ _ _ _).1
      | apply holds_pure hC
      | apply holds_getWorld hC
      | apply holds_ite
      | refine holds_tryCatch_orderly ?_ (fun _ => ?_)
      | apply holds_emit
      | apply holds_modifyWorld
      | refine holds_bind hC ?_ (fun _ => ?_)
      | dsimp only
      | split
    | (intro w; first
        | exact orderly_still (by rfl) (by rfl) _
        | exact orderly_same (by rfl) _)

theorem mem_bind_inv {α β : Type} {m : M α} {f : α → M β} {w : World} {ev : Event}
    (h : ev ∈ ((m >>= f) w).trace) :
    ev ∈ (m w).trace ∨ ∃ a, (m w).result = .ok a ∧ ev ∈ (f a (m w).world).trace := by
  cases hr : (m w).result with
  | error e =>
    rw [bind_of_error hr] at h
    exact Or.inl h
  | ok a =>
    rw [bind_of_ok hr] at h
    rcases List.mem_append.1 h with h1 | h1
    · exact Or.inl h1
    · exact Or.inr ⟨a, rfl, h1⟩

/-- Where an event sits in a list that holds it once. -/
theorem split_unique {ev : Event} {A B pre post : List Event} (hA : ev ∉ A)
    (h : A ++ ev :: B = pre ++ ev :: post) (hpre : ev ∉ pre) : pre = A ∧ post = B := by
  induction A generalizing pre with
  | nil =>
    cases pre with
    | nil =>
      simp only [List.nil_append, List.cons.injEq, true_and] at h
      exact ⟨rfl, h.symm⟩
    | cons a pre =>
      simp only [List.nil_append, List.cons_append, List.cons.injEq] at h
      exact absurd (h.1 ▸ List.mem_cons_self _ _) hpre
  | cons a A ih =>
    cases pre with
    | nil =>
      simp only [List.nil_append, List.cons_append, List.cons.injEq] at h
      exact absurd (h.1 ▸ List.mem_cons_self _ _) hA
    | cons b pre =>
      simp only [List.cons_append, List.cons.injEq] at h
      obtain ⟨rfl, h2⟩ := h
      have := ih (fun hm => hA (List.mem_cons_of_mem _ hm)) h2
        (fun hm => hpre (List.mem_cons_of_mem _ hm))
      exact ⟨by rw [this.1], this.2⟩

/-- A split of `A ++ B` at an event that is not in `B` is a split of `A`. -/
theorem split_left {ev : Event} {A B pre post : List Event} (hB : ev ∉ B)
    (h : A ++ B = pre ++ ev :: post) : ∃ post1, A = pre ++ ev :: post1 ∧ post = post1 ++ B := by
  rcases List.append_eq_append_iff.1 h with ⟨a, rfl, h3⟩ | ⟨c, rfl, h3⟩
  · exfalso
    apply hB
    rw [h3]
    simp
  · cases c with
    | nil =>
      exfalso
      apply hB
      simp only [List.nil_append] at h3
      rw [← h3]
      simp
    | cons x c =>
      simp only [List.cons_append, List.cons.injEq] at h3
      obtain ⟨rfl, rfl⟩ := h3
      exact ⟨c, rfl, rfl⟩

/-- A split of `A ++ B` at an event that is not in `A` is a split of `B`. -/
theorem split_right {ev : Event} {A B pre post : List Event} (hA : ev ∉ A)
    (h : A ++ B = pre ++ ev :: post) : ∃ pre1, B = pre1 ++ ev :: post ∧ pre = A ++ pre1 := by
  rcases List.append_eq_append_iff.1 h with ⟨a, rfl, h3⟩ | ⟨c, rfl, h3⟩
  · exact ⟨a, h3, rfl⟩
  · cases c with
    | nil =>
      simp only [List.nil_append] at h3
      exact ⟨[], by simpa using h3.symm, by simp⟩
    | cons x c =>
      exfalso
      apply hA
      simp only [List.cons_append, List.cons.injEq] at h3
      rw [h3.1]
      simp

theorem holds_tryCatch_all {α : Type} {P : Event → Bool} {body : M α} {handler : Exc → M α}
    (hb : Holds (All P) body) (hh : ∀ e, Holds (All P) (handler e)) :
    Holds (All P) (tryCatch body handler) := by
  intro w
  unfold tryCatch
  have h1 := hb w
  rcases hbw : body w with ⟨t, w1, r⟩
  rw [hbw] at h1
  cases r with
  | ok a => exact h1
  | error e =>
    have h2 := hh e w1
    intro ev hev
    rcases List.mem_append.1 hev with h | h
    · exact h1 ev h
    · exact h2 ev h

theorem alterParts_updates (env : Env) (cols : NamesAndTypesList) (ps : List DataPart) :
    Holds (All (Event.updates cols)) (alterParts env cols ps) := by
  have hC := closed_all (Event.updates cols)
  induction ps with
  | nil => exact holds_pure hC _
  | cons p ps ih =>
    unfold alterParts multiOrEnqueue commit zkMulti enqueuePartForCheck raise
    repeat' first
      | with_reducible first
        | exact ih
        | apply holds_pure hC
        | apply holds_getWorld hC
        | apply holds_ite
        | refine holds_tryCatch_all ?_ (fun _ => ?_)
        | apply holds_emit
        | apply holds_call
        | apply holds_callResult
        | apply holds_alterDataPart
        | apply holds_modifyWorld
        | refine holds_bind hC ?_ (fun _ => ?_)
        | dsimp only
        | split
      | (intro w; first
          | exact all_nil _ _ _ _
          | exact all_one (by simp [Event.updates, Event.call, Call.stage]) _ _ _)
      | (intro w e; exact all_one (by simp [Event.updates, Event.call, Call.stage]) _ _ _)
      | (intro w t; exact all_one (by simp [Event.updates, Event.call, Call.stage]) _ _ _)

theorem alterUnreplicatedParts_updates (env : Env) (cols : NamesAndTypesList)
    (ps : List DataPart) :
    Holds (All (Event.updates cols)) (alterUnreplicatedParts env cols ps) := by
  have hC := closed_all (Event.updates cols)
  induction ps with
  | nil => exact holds_pure hC _
  | cons p ps ih =>
    unfold alterUnreplicatedParts commit
    repeat' first
      | with_reducible first
        | exact ih
        | apply holds_pure hC
        | apply holds_getWorld hC
        | apply holds_call
        | apply holds_alterDataPart
        | apply holds_modifyWorld
        | refine holds_bind hC ?_ (fun _ => ?_)
        | dsimp only
        | split
      | (intro w; first
          | exact all_nil _ _ _ _
          | exact all_one (by simp [Event.updates, Event.call, Call.stage]) _ _ _)
      | (intro w e; exact all_one (by simp [Event.updates, Event.call, Call.stage]) _ _ _)
      | (intro w t; exact all_one (by simp [Event.updates, Event.call, Call.stage]) _ _ _)

theorem tail_updates (env : Env) (cols : NamesAndTypesList) (s : String) (ps : List DataPart) :
    Holds (All (Event.updates cols))
      (alterParts env cols ps >>= fun _ =>
        alterUnreplicated env cols >>= fun _ => publishColumns env s) := by
  have hC := closed_all (Event.updates cols)
  unfold alterUnreplicated publishColumns zkSet
  repeat' first
    | with_reducible first
      | apply alterParts_updates
      | apply alterUnreplicatedParts_updates
      | apply holds_pure hC
      | apply holds_getWorld hC
      | apply holds_emit
      | apply holds_callResult
      | apply holds_modifyWorld
      | refine holds_bind hC ?_ (fun _ => ?_)
      | dsimp only
      | split
    | (intro w; first
        | exact all_nil _ _ _ _
        | exact all_one (by simp [Event.updates, Event.call, Call.stage]) _ _ _)
    | (intro w e; exact all_one (by simp [Event.updates, Event.call, Call.stage]) _ _ _)

theorem fetch_stage (env : Env) :
    Holds (All fun ev => ev.call.stage == 0) (fetch env) := by
  have hC := closed_all fun ev => ev.call.stage == 0
  unfold fetch zkGet
  repeat' first
    | with_reducible first
      | apply holds_pure hC
      | apply holds_getWorld hC
      | apply holds_call
      | apply holds_callResult
      | refine holds_bind hC ?_ (fun _ => ?_)
      | dsimp only
      | split
    | (intro w; first | exact all_nil _ _ _ _ | exact all_one rfl _ _ _)
    | (intro w e; exact all_one rfl _ _ _)

theorem cancelMerges_stage (env : Env) (c : Bool) :
    Holds (All fun ev => ev.call.stage == 1) (cancelMerges env c) := by
  have hC := closed_all fun ev => ev.call.stage == 1
  unfold cancelMerges
  repeat' first
    | with_reducible first
      | apply holds_pure hC
      | apply holds_getWorld hC
      | apply holds_ite
      | apply holds_emit
      | apply holds_acquire
      | refine holds_bind hC ?_ (fun _ => ?_)
      | dsimp only
    | (intro w; first | exact all_nil _ _ _ _ | exact all_one rfl _ _ _)

theorem structural_tail_quiet (env : Env) (d : ColumnsDescription) (v : Int) :
    Holds (All Event.isQuiet)
      (applyChanges env d >>= fun _ => snapshotAndSetVersion env v) := by
  have hC := closed_all Event.isQuiet
  unfold applyChanges assignColumns assignMaterialized assignAlias
    assignDefaults initPrimaryKeys snapshotAndSetVersion
  repeat' first
    | with_reducible first
      | apply holds_pure hC
      | apply holds_getWorld hC
      | apply holds_ite
      | apply holds_emit
      | apply holds_call
      | apply holds_modifyWorld
      | refine holds_bind hC ?_ (fun _ => ?_)
      | dsimp only
      | split
    | (intro w; first | exact all_nil _ _ _ _ | exact all_one rfl _ _ _)
    | (intro w e; exact all_one rfl _ _ _)

/-- The trace of the structural update: the part checks are stopped, the
exclusive lock is asked for, and, if it is given, events follow that leave the
scoped objects alone, then the destructors of the block. -/
theorem structuralUpdate_anatomy (env : Env) (d : ColumnsDescription) (v : Int) (w : World) :
    ∃ X R, (∀ ev ∈ X, ev.isQuiet = true) ∧
      (∀ ev ∈ R, ∃ x, ev = Event.ok (.release x) ∧
        (x = .table_lock_for_alter ∨ x = .temporarily_stop_part_checks)) ∧
      ((∃ e, env.fault .lockStructureForAlter = some e ∧ X = [] ∧
          (structuralUpdate env d v w).result = .error e ∧
          (structuralUpdate env d v w).trace =
            .ok .temporarilyStop :: .threw .lockStructureForAlter e :: R) ∨
        (env.fault .lockStructureForAlter = none ∧
          (structuralUpdate env d v w).trace =
            .ok .temporarilyStop :: .ok .lockStructureForAlter :: (X ++ R))) := by
  have hR : ∀ w1 : World, ∀ ev ∈ releases
      [Resource.table_lock_for_alter, Resource.temporarily_stop_part_checks] w1,
      ∃ x, ev = Event.ok (.release x) ∧
        (x = .table_lock_for_alter ∨ x = .temporarily_stop_part_checks) := by
    intro w1 ev hev
    obtain ⟨x, hx, rfl⟩ := mem_releases hev
    exact ⟨x, rfl, by simpa using hx⟩
  unfold structuralUpdate
  simp only [scope_apply]
  rw [bind_of_ok (show (emit env .temporarilyStop w).result = .ok () from rfl)]
  rw [bind_of_ok (show (acquire _ _).result = .ok () from rfl)]
  cases hf : env.fault .lockStructureForAlter with
  | some e =>
    have h1 : ∀ w1, (call env .lockStructureForAlter w1).result = .error e := by
      intro w1; simp [call, hf]
    rw [bind_of_error (h1 _)]
    simp only [call, hf, emit_apply, acquire_apply, List.singleton_append, List.nil_append,
      List.cons_append]
    exact ⟨[], _, by simp, hR _, Or.inl ⟨e, rfl, rfl, rfl, rfl⟩⟩
  | none =>
    have h1 : ∀ w1, (call env .lockStructureForAlter w1).result = .ok () := by
      intro w1; simp [call, hf]
    rw [bind_of_ok (h1 _)]
    rw [bind_of_ok (show (acquire _ _).result = .ok () from rfl)]
    simp only [call, hf, emit_apply, acquire_apply, List.singleton_append, List.nil_append,
      List.cons_append]
    exact ⟨_, _, structural_tail_quiet env d v _, hR _, Or.inr ⟨trivial, rfl⟩⟩

/-- The trace of the update of the parts: the shared lock is asked for, and,
if it is given, the parts of the primary store are read unless the version
changed; the events that follow belong to the update of the parts, with the
column list of the store as their target. -/
theorem updateParts_anatomy (env : Env) (s : String) (c : Bool) (ps : List DataPart)
    (w : World) :
    ∃ Z, (∀ ev ∈ Z, ev.updates w.storage.data.getColumnsList = true) ∧
      ((∃ e, env.fault .lockStructure = some e ∧
          (updateParts env s c ps w).trace = .threw .lockStructure e :: Z) ∨
        (env.fault .lockStructure = none ∧
          (updateParts env s c ps w).trace =
            .ok .lockStructure ::
              ((if c then [] else [.ok (.getDataParts .data)]) ++ Z))) := by
  have hR : ∀ w1 : World, ∀ ev ∈ releases [Resource.table_lock] w1,
      ev.updates w.storage.data.getColumnsList = true := by
    intro w1 ev hev
    obtain ⟨x, hx, rfl⟩ := mem_releases hev
    simp only [List.mem_singleton] at hx
    subst hx
    rfl
  unfold updateParts
  simp only [scope_apply]
  cases hf : env.fault .lockStructure with
  | some e =>
    have h1 : (call env .lockStructure w).result = .error e := by simp [call, hf]
    rw [bind_of_error h1]
    simp only [call, hf, List.singleton_append]
    exact ⟨_, hR _, Or.inl ⟨e, rfl, rfl⟩⟩
  | none =>
    have h1 : (call env .lockStructure w).result = .ok () := by simp [call, hf]
    rw [bind_of_ok h1]
    rw [bind_of_ok (show (acquire _ _).result = .ok () from rfl)]
    rw [bind_of_ok (show (partsToAlter env c ps _).result = .ok _ by
      rw [partsToAlter_apply])]
    rw [bind_of_ok (show (getWorld _).result = .ok _ from rfl)]
    simp only [getWorld_apply, acquire_apply, List.nil_append, List.append_nil]
    simp only [call, hf, partsToAlter_apply]
    have hcols : (if c = true then
        ({ (w.noteStop env Call.lockStructure) with
            held := Resource.table_lock :: (w.noteStop env Call.lockStructure).held } : World)
      else
        World.noteStop env (Call.getDataParts Store.data)
          { (w.noteStop env Call.lockStructure) with
            held := Resource.table_lock ::
              (w.noteStop env Call.lockStructure).held }).storage.data.getColumnsList =
        w.storage.data.getColumnsList := by
      cases c <;> simp
    rw [hcols]
    simp only [List.singleton_append, List.cons_append, List.append_assoc, List.nil_append]
    refine ⟨_, ?_, Or.inr ⟨trivial, rfl⟩⟩
    intro ev hev
    rcases List.mem_append.1 hev with h | h
    · exact tail_updates env _ s _ _ ev h
    · exact hR _ ev h

theorem cancelMerges_trace (env : Env) (c : Bool) (w : World) :
    (cancelMerges env c w).trace =
      if c || w.force_recheck_parts then
        Event.ok .merger_cancel ::
          (if w.storage.unreplicated_merger then [Event.ok .unreplicated_merger_cancel] else [])
      else [] := by
  unfold cancelMerges
  simp only [bind_apply, getWorld_apply]
  split <;> simp [bind_apply]
  split <;> simp [bind_apply]

theorem structuralUpdate_stage (env : Env) (d : ColumnsDescription) (v : Int) (w : World) :
    ∀ ev ∈ (structuralUpdate env d v w).trace, ev.call.stage = 2 ∨ ev.call.stage = 3 := by
  obtain ⟨X, R, hX, hR, h⟩ := structuralUpdate_anatomy env d v w
  have hX1 : ∀ ev ∈ X, ev.call.stage = 2 ∨ ev.call.stage = 3 := by
    intro ev hev
    have := hX ev hev
    simp only [Event.isQuiet, Bool.and_eq_true, Bool.or_eq_true, beq_iff_eq] at this
    exact this.2
  have hR1 : ∀ ev ∈ R, ev.call.stage = 2 ∨ ev.call.stage = 3 := by
    intro ev hev
    obtain ⟨x, rfl, hx⟩ := hR ev hev
    rcases hx with rfl | rfl <;> exact Or.inl rfl
  intro ev hev
  rcases h with ⟨e, _, _, _, htr⟩ | ⟨_, htr⟩
  · rw [htr] at hev
    simp only [List.mem_cons] at hev
    rcases hev with rfl | rfl | hev
    · exact Or.inl rfl
    · exact Or.inl rfl
    · exact hR1 ev hev
  · rw [htr] at hev
    simp only [List.mem_cons, List.mem_append] at hev
    rcases hev with rfl | rfl | hev | hev
    · exact Or.inl rfl
    · exact Or.inl rfl
    · exact hX1 ev hev
    · exact hR1 ev hev

theorem updates_stage {cols : NamesAndTypesList} {ev : Event} (h : ev.updates cols = true) :
    ev.call.stage = 4 := by
  simp only [Event.updates, Bool.and_eq_true, beq_iff_eq] at h
  exact h.1

theorem updateParts_stage (env : Env) (s : String) (c : Bool) (ps : List DataPart) (w : World) :
    ∀ ev ∈ (updateParts env s c ps w).trace,
      ev.call.stage = 4 ∨ (ev = .ok (.getDataParts .data) ∧ c = false) := by
  obtain ⟨Z, hZ, h⟩ := updateParts_anatomy env s c ps w
  intro ev hev
  rcases h with ⟨e, _, htr⟩ | ⟨_, htr⟩
  · rw [htr] at hev
    simp only [List.mem_cons] at hev
    rcases hev with rfl | hev
    · exact Or.inl rfl
    · exact Or.inl (updates_stage (hZ ev hev))
  · rw [htr] at hev
    simp only [List.mem_cons, List.mem_append] at hev
    rcases hev with rfl | hev | hev
    · exact Or.inl rfl
    · cases c
      · simp only [Bool.false_eq_true, if_false, List.mem_singleton] at hev
        exact Or.inr ⟨hev, rfl⟩
      · simp at hev
    · exact Or.inl (updates_stage (hZ ev hev))

theorem releases_blockers_stage (w : World) :
    ∀ ev ∈ releases [.unreplicated_merge_blocker, .merge_blocker] w, ev.call.stage = 5 := by
  intro ev hev
  obtain ⟨x, hx, rfl⟩ := mem_releases hev
  simp only [List.mem_cons, List.mem_singleton, List.not_mem_nil, or_false] at hx
  rcases hx with rfl | rfl <;> rfl

/-- The trace of the block that owns the merge blockers, piece by piece: the
suspension of the merges, the structural update if the version changed, the
update of the parts if it is reached, the destructors of the blockers. -/
theorem underBlockers_anatomy (env : Env) (s : String) (d : ColumnsDescription) (v : Int)
    (c : Bool) (w : World) :
    ∃ TS TU RB,
      (underBlockers env s d v c w).trace = (cancelMerges env c w).trace ++ TS ++ TU ++ RB ∧
      (∀ ev ∈ RB, ev.call.stage = 5) ∧
      ((c = false ∧ TS = []) ∨
        (c = true ∧ TS = (structuralUpdate env d v (cancelMerges env c w).world).trace)) ∧
      (TU = [] ∨ ∃ ps w3, TU = (updateParts env s c ps w3).trace ∧
        (c = true → (structuralUpdate env d v (cancelMerges env c w).world).result = .ok ps ∧
          w3 = (structuralUpdate env d v (cancelMerges env c w).world).world) ∧
        (c = false → w3 = (cancelMerges env c w).world)) := by
  unfold underBlockers
  simp only [scope_apply]
  rw [bind_of_ok (show (getWorld w).result = .ok w from rfl)]
  rw [bind_of_ok (cancelMerges_ok env c _)]
  simp only [getWorld_apply, List.nil_append]
  cases c with
  | false =>
    simp only [Bool.false_eq_true, if_false, Bool.false_or]
    rw [bind_of_ok (show ((pure [] : M (List DataPart)) _).result = .ok [] from rfl)]
    simp only [pure_apply, List.nil_append]
    by_cases hf : w.force_recheck_parts = true
    · simp only [hf, if_true]
      exact ⟨[], (updateParts env s false [] (cancelMerges env false w).world).trace,
        releases [.unreplicated_merge_blocker, .merge_blocker]
          (updateParts env s false [] (cancelMerges env false w).world).world,
        by simp, releases_blockers_stage _, Or.inl ⟨trivial, rfl⟩,
        Or.inr ⟨[], _, rfl, by simp, fun _ => rfl⟩⟩
    · simp only [hf, if_false, pure_apply]
      exact ⟨[], [], releases [.unreplicated_merge_blocker, .merge_blocker]
          (cancelMerges env false w).world,
        by simp, releases_blockers_stage _, Or.inl ⟨trivial, rfl⟩, Or.inl rfl⟩
  | true =>
    simp only [if_true, Bool.true_or]
    cases hr : (structuralUpdate env d v (cancelMerges env true w).world).result with
    | error e =>
      rw [bind_of_error hr]
      exact ⟨(structuralUpdate env d v (cancelMerges env true w).world).trace, [],
        releases [.unreplicated_merge_blocker, .merge_blocker]
          (structuralUpdate env d v (cancelMerges env true w).world).world,
        by simp, releases_blockers_stage _, Or.inr ⟨trivial, rfl⟩, Or.inl rfl⟩
    | ok ps =>
      rw [bind_of_ok hr]
      exact ⟨(structuralUpdate env d v (cancelMerges env true w).world).trace,
        (updateParts env s true ps
          (structuralUpdate env d v (cancelMerges env true w).world).world).trace,
        releases [.unreplicated_merge_blocker, .merge_blocker]
          (updateParts env s true ps
            (structuralUpdate env d v (cancelMerges env true w).world).world).world,
        by simp, releases_blockers_stage _, Or.inr ⟨trivial, rfl⟩,
        Or.inr ⟨ps, _, rfl, fun _ => ⟨rfl, rfl⟩, by simp⟩⟩

/-- The trace of a turn of the loop, piece by piece: the fetch, the block
that owns the merge blockers if the fetch returned, and the wait or the
`catch` block. -/
theorem iteration_anatomy (env : Env) (w : World) :
    (∃ e, (fetch env w).result = .error e ∧
      (iteration env w).trace = (fetch env w).trace ++ catchEvents) ∨
    (∃ s v d, (fetch env w).result = .ok (s, v, d) ∧ ∃ E,
      (E = [.ok .wait] ∨ E = catchEvents) ∧
      (iteration env w).trace = (fetch env w).trace ++
        (underBlockers env s d v (decide (v ≠ w.storage.columns_version))
          (fetch env w).world).trace ++ E) := by
  have hk := fetch_keeps env w
  simp only [Keeps, Prod.mk.injEq] at hk
  rw [iteration_apply]
  unfold reconcile
  cases hr : (fetch env w).result with
  | error e =>
    left
    rw [bind_of_error hr]
    exact ⟨e, rfl, rfl⟩
  | ok a =>
    right
    obtain ⟨s, v, d⟩ := a
    refine ⟨s, v, d, rfl, ?_⟩
    rw [bind_of_ok hr]
    dsimp only
    rw [bind_of_ok (show (getWorld _).result = .ok _ from rfl)]
    simp only [getWorld_apply, hk.1, List.nil_append]
    cases hu : (underBlockers env s d v (decide (v ≠ w.storage.columns_version))
        (fetch env w).world).result with
    | error e =>
      rw [bind_of_error hu]
      exact ⟨catchEvents, Or.inr rfl, rfl⟩
    | ok u =>
      rw [bind_of_ok hu]
      exact ⟨[.ok .wait], Or.inl rfl, by simp⟩

/-- Where an event sits in a list that holds it once. -/
theorem split_at_unique {ev : Event} {A B pre post : List Event} (hA : ev ∉ A) (hB : ev ∉ B)
    (h : A ++ ev :: B = pre ++ ev :: post) : pre = A ∧ post = B := by
  induction A generalizing pre with
  | nil =>
    cases pre with
    | nil =>
      simp only [List.nil_append, List.cons.injEq, true_and] at h
      exact ⟨rfl, h.symm⟩
    | cons a pre =>
      simp only [List.nil_append, List.cons_append, List.cons.injEq] at h
      exfalso
      apply hB
      rw [h.2]
      simp
  | cons a A ih =>
    cases pre with
    | nil =>
      simp only [List.nil_append, List.cons_append, List.cons.injEq] at h
      exact absurd (h.1 ▸ List.mem_cons_self _ _) hA
    | cons b pre =>
      simp only [List.cons_append, List.cons.injEq] at h
      obtain ⟨rfl, h2⟩ := h
      have := ih (fun hm => hA (List.mem_cons_of_mem _ hm)) h2
      exact ⟨by rw [this.1], this.2⟩

theorem catchEvents_stage : ∀ ev ∈ catchEvents, ev.call.stage = 6 ∧ ev.moves = false := by
  intro ev hev
  simp only [catchEvents, List.mem_cons, List.mem_singleton, List.not_mem_nil, or_false] at hev
  rcases hev with rfl | rfl | rfl <;> exact ⟨rfl, rfl⟩

theorem fetch_held (env : Env) (w : World) :
    (fetch env w).world.held = w.held ∧ heldAfter w.held (fetch env w).trace = w.held := by
  have hk := fetch_keeps env w
  simp only [Keeps, Prod.mk.injEq] at hk
  have := (adds_fetch env [] w).1
  rw [hk.2.2.2.2] at this
  exact ⟨hk.2.2.2.2, this.symm⟩

/-- The trace of a turn whose fetch returned, piece by piece, with the part
of the pass each piece belongs to. -/
theorem iteration_pieces {env : Env} {w : World} {s : String} {v : Int}
    {d : ColumnsDescription} (hf : (fetch env w).result = .ok (s, v, d)) :
    ∃ TS TU RB E,
      (iteration env w).trace = (fetch env w).trace ++
        (cancelMerges env (decide (v ≠ w.storage.columns_version)) (fetch env w).world).trace ++
          TS ++ TU ++ RB ++ E ∧
      (∀ ev ∈ (fetch env w).trace, ev.call.stage = 0) ∧
      (∀ ev ∈ (cancelMerges env (decide (v ≠ w.storage.columns_version))
        (fetch env w).world).trace, ev.call.stage = 1) ∧
      (∀ ev ∈ TS, ev.call.stage = 2 ∨ ev.call.stage = 3) ∧
      (∀ ev ∈ TU, ev.call.stage = 4 ∨
        (ev = .ok (.getDataParts .data) ∧ v = w.storage.columns_version)) ∧
      (∀ ev ∈ RB, ev.call.stage = 5) ∧
      (∀ ev ∈ E, ev.call.stage = 6 ∧ ev.moves = false) ∧
      ((v = w.storage.columns_version ∧ TS = []) ∨
        (v ≠ w.storage.columns_version ∧
          TS = (structuralUpdate env d v (cancelMerges env (decide (v ≠ w.storage.columns_version))
            (fetch env w).world).world).trace)) ∧
      (TU = [] ∨ ∃ ps w3,
        TU = (updateParts env s (decide (v ≠ w.storage.columns_version)) ps w3).trace ∧
        (v ≠ w.storage.columns_version →
          (structuralUpdate env d v (cancelMerges env (decide (v ≠ w.storage.columns_version))
            (fetch env w).world).world).result = .ok ps ∧
          w3 = (structuralUpdate env d v (cancelMerges env
            (decide (v ≠ w.storage.columns_version)) (fetch env w).world).world).world)) := by
  rcases iteration_anatomy env w with ⟨e, he, _⟩ | ⟨s1, v1, d1, hf1, E, hE, htr⟩
  · rw [hf] at he
    simp at he
  rw [hf] at hf1
  simp only [Except.ok.injEq, Prod.mk.injEq] at hf1
  obtain ⟨rfl, rfl, rfl⟩ := hf1
  obtain ⟨TS, TU, RB, hu, hRB, hTS, hTU⟩ := underBlockers_anatomy env s d v
    (decide (v ≠ w.storage.columns_version)) (fetch env w).world
  refine ⟨TS, TU, RB, E, by rw [htr, hu]; simp, ?_, ?_, ?_, ?_, hRB, ?_, ?_, ?_⟩
  · intro ev hev
    simpa using fetch_stage env w ev hev
  · intro ev hev
    simpa using cancelMerges_stage env _ _ ev hev
  · intro ev hev
    rcases hTS with ⟨_, rfl⟩ | ⟨_, rfl⟩
    · simp at hev
    · exact structuralUpdate_stage env _ _ _ ev hev
  · intro ev hev
    rcases hTU with rfl | ⟨ps, w3, rfl, _, _⟩
    · simp at hev
    · rcases updateParts_stage env _ _ _ _ ev hev with h | ⟨h1, h2⟩
      · exact Or.inl h
      · exact Or.inr ⟨h1, by simpa using h2⟩
  · intro ev hev
    rcases hE with rfl | rfl
    · simp only [List.mem_singleton] at hev
      subst hev
      exact ⟨rfl, rfl⟩
    · exact catchEvents_stage ev hev
  · rcases hTS with ⟨h1, h2⟩ | ⟨h1, h2⟩
    · exact Or.inl ⟨by simpa using h1, h2⟩
    · exact Or.inr ⟨by simpa using h1, h2⟩
  · rcases hTU with h | ⟨ps, w3, h1, h2, _⟩
    · exact Or.inl h
    · exact Or.inr ⟨ps, w3, h1, fun hv => h2 (by simpa using hv)⟩

theorem underBlockers_stage (env : Env) (s : String) (d : ColumnsDescription) (v : Int)
    (c : Bool) (w : World) :
    ∀ ev ∈ (underBlockers env s d v c w).trace, ev.call.stage ≠ 0 ∧ ev.call.stage ≠ 6 := by
  obtain ⟨TS, TU, RB, hu, hRB, hTS, hTU⟩ := underBlockers_anatomy env s d v c w
  intro ev hev
  rw [hu] at hev
  simp only [List.mem_append] at hev
  rcases hev with ((hev | hev) | hev) | hev
  · have : ev.call.stage = 1 := by simpa using cancelMerges_stage env _ _ ev hev
    omega
  · rcases hTS with ⟨_, rfl⟩ | ⟨_, rfl⟩
    · simp at hev
    · have := structuralUpdate_stage env _ _ _ ev hev
      omega
  · rcases hTU with rfl | ⟨ps, w3, rfl, _, _⟩
    · simp at hev
    · rcases updateParts_stage env _ _ _ _ ev hev with h | ⟨rfl, _⟩
      · omega
      · exact ⟨by decide, by decide⟩
  · have := hRB ev hev
    omega

/-- At the waits of a turn that starts with no scoped object alive, none is
alive. -/
theorem wait_points_idle {env : Env} {w : World} (hw : w.held = []) :
    ∀ pre ev post, (iteration env w).trace = pre ++ ev :: post → ev.call.stage = 6 →
      heldAfter [] pre = [] := by
  intro pre ev post hsplit hst
  have hF := fetch_held env w
  rw [hw] at hF
  have tail : ∀ (T E : List Event), heldAfter [] T = [] → (∀ e ∈ T, e.call.stage ≠ 6) →
      (∀ e ∈ E, e.call.stage = 6 ∧ e.moves = false) → T ++ E = pre ++ ev :: post →
      heldAfter [] pre = [] := by
    intro T E hT hT6 hE h
    obtain ⟨pre1, h1, rfl⟩ := split_right (fun hm => hT6 ev hm hst) h
    rw [heldAfter_append, hT]
    apply heldAfter_of_not_moves
    intro e he
    exact (hE e (by rw [h1]; exact List.mem_append_left _ he)).2
  rcases iteration_anatomy env w with ⟨e, _, htr⟩ | ⟨s, v, d, hf, E, hE, htr⟩
  · rw [htr] at hsplit
    refine tail _ _ hF.2 ?_ catchEvents_stage hsplit
    intro e1 he1
    have : e1.call.stage = 0 := by simpa using fetch_stage env w e1 he1
    omega
  · rw [htr] at hsplit
    have hpre : ∀ r ∈ (fetch env w).world.held, r.isBlocker = true := by
      rw [hF.1]; simp
    have hU := orderly_underBlockers env s d v (decide (v ≠ w.storage.columns_version))
    have h1 := (hU.1 (fetch env w).world hpre).1
    rw [hU.2 _ hpre, hF.1] at h1
    refine tail _ E (by rw [heldAfter_append, hF.2]; exact h1.symm) ?_ ?_ hsplit
    · intro e1 he1
      rcases List.mem_append.1 he1 with h | h
      · have : e1.call.stage = 0 := by simpa using fetch_stage env w e1 h
        omega
      · exact (underBlockers_stage env _ _ _ _ _ e1 h).2
    · intro e1 he1
      rcases hE with rfl | rfl
      · simp only [List.mem_singleton] at he1
        subst he1
        exact ⟨rfl, rfl⟩
      · exact catchEvents_stage e1 he1

theorem stage_of_wait {ev : Event} (h : ev.call = .wait ∨ ∃ ms, ev.call = .tryWait ms) :
    ev.call.stage = 6 := by
  rcases h with h | ⟨ms, h⟩ <;> rw [h] <;> rfl

/-- The suspension of the merges in a turn whose fetch returned. -/
theorem iteration_cancels {env : Env} {w : World} {s : String} {v : Int}
    {d : ColumnsDescription} (hf : (fetch env w).result = .ok (s, v, d)) (ev : Event)
    (hst : ev.call.stage = 1) :
    ev ∈ (iteration env w).trace ↔
      ev ∈ (if decide (v ≠ w.storage.columns_version) || w.force_recheck_parts then
        Event.ok .merger_cancel ::
          (if w.storage.unreplicated_merger then [Event.ok .unreplicated_merger_cancel] else [])
        else []) := by
  have hk := fetch_keeps env w
  simp only [Keeps, Prod.mk.injEq] at hk
  obtain ⟨TS, TU, RB, E, htr, h0, _, h2, h4, h5, h6, _, _⟩ := iteration_pieces hf
  rw [htr, cancelMerges_trace, hk.1, hk.2.2.1]
  simp only [List.mem_append]
  constructor
  · rintro (((((h | h) | h) | h) | h) | h)
    · have := h0 ev h; omega
    · exact h
    · have := h2 ev h; omega
    · rcases h4 ev h with h | ⟨rfl, _⟩
      · omega
      · simp [Event.call, Call.stage] at hst
    · have := h5 ev h; omega
    · have := (h6 ev h).1; omega
  · intro h
    exact Or.inl (Or.inl (Or.inl (Or.inl (Or.inr h))))

theorem iteration_error_stage {env : Env} {w : World} {e : Exc}
    (hf : (fetch env w).result = .error e) :
    ∀ ev ∈ (iteration env w).trace, ev.call.stage = 0 ∨ ev.call.stage = 6 := by
  rcases iteration_anatomy env w with ⟨e1, _, htr⟩ | ⟨s, v, d, hf1, _⟩
  · intro ev hev
    rw [htr] at hev
    rcases List.mem_append.1 hev with h | h
    · left; simpa using fetch_stage env w ev h
    · right; exact (catchEvents_stage ev h).1
  · rw [hf] at hf1
    simp at hf1

theorem iteration_last (env : Env) (w : World) :
    ∃ pre ev, (iteration env w).trace = pre ++ [ev] ∧
      (ev = .ok .wait ∨ ev = .ok (.tryWait ALTER_ERROR_SLEEP_MS)) := by
  rcases iteration_anatomy env w with ⟨e1, _, htr⟩ | ⟨s, v, d, _, E, hE, htr⟩
  · exact ⟨(fetch env w).trace ++ [.ok .tryLogCurrentException,
      .ok (.assign_force_recheck_parts true)], .ok (.tryWait ALTER_ERROR_SLEEP_MS),
      by rw [htr]; simp [catchEvents], Or.inr rfl⟩
  · rcases hE with rfl | rfl
    · exact ⟨_, .ok .wait, htr, Or.inl rfl⟩
    · exact ⟨(fetch env w).trace ++ (underBlockers env s d v
        (decide (v ≠ w.storage.columns_version)) (fetch env w).world).trace ++
        [.ok .tryLogCurrentException, .ok (.assign_force_recheck_parts true)],
        .ok (.tryWait ALTER_ERROR_SLEEP_MS), by rw [htr]; simp [catchEvents], Or.inr rfl⟩

/-- Where the parts of the primary store are read in a turn whose fetch
returned: right after the shared lock was given when the version is the
recorded one, and otherwise after the exclusive lock was given, with nothing
in between that brings a scoped object to life or ends one. -/
theorem iteration_reads_parts {env : Env} {w : World} {s : String} {v : Int}
    {d : ColumnsDescription} (hf : (fetch env w).result = .ok (s, v, d))
    {pre post : List Event}
    (hsplit : (iteration env w).trace = pre ++ Event.ok (.getDataParts .data) :: post) :
    ∃ p0 x1, (∀ ev ∈ x1, ev.moves = false) ∧
      ((v ≠ w.storage.columns_version ∧ pre = p0 ++ Event.ok .lockStructureForAlter :: x1) ∨
        (v = w.storage.columns_version ∧ pre = p0 ++ Event.ok .lockStructure :: x1)) := by
  obtain ⟨TS, TU, RB, E, htr, h0, h1, h2, h4, h5, h6, hTS, hTU⟩ := iteration_pieces hf
  have n0 : Event.ok (.getDataParts .data) ∉ (fetch env w).trace ++
      (cancelMerges env (decide (v ≠ w.storage.columns_version)) (fetch env w).world).trace := by
    intro hm
    rcases List.mem_append.1 hm with h | h
    · have := h0 _ h; simp [Event.call, Call.stage] at this
    · have := h1 _ h; simp [Event.call, Call.stage] at this
  have n5 : Event.ok (.getDataParts .data) ∉ RB ++ E := by
    intro hm
    rcases List.mem_append.1 hm with h | h
    · have := h5 _ h; simp [Event.call, Call.stage] at this
    · have := (h6 _ h).1; simp [Event.call, Call.stage] at this
  rw [htr] at hsplit
  by_cases hv : v = w.storage.columns_version
  · rcases hTS with ⟨_, rfl⟩ | ⟨h, _⟩
    swap
    · exact absurd hv h
    have e1 : (fetch env w).trace ++
        (cancelMerges env (decide (v ≠ w.storage.columns_version)) (fetch env w).world).trace ++
        [] ++ TU ++ RB ++ E =
        ((fetch env w).trace ++ (cancelMerges env (decide (v ≠ w.storage.columns_version))
          (fetch env w).world).trace) ++ (TU ++ (RB ++ E)) := by simp
    rw [e1] at hsplit
    obtain ⟨pre1, hs1, rfl⟩ := split_right n0 hsplit
    obtain ⟨post1, hs2, _⟩ := split_left n5 hs1
    rcases hTU with rfl | ⟨ps, w3, rfl, _⟩
    · simp at hs2
    obtain ⟨Z, hZ, hz⟩ := updateParts_anatomy env s (decide (v ≠ w.storage.columns_version)) ps w3
    have nZ : Event.ok (.getDataParts .data) ∉ Z := by
      intro hm
      have := updates_stage (hZ _ hm)
      simp [Event.call, Call.stage] at this
    rcases hz with ⟨e, _, hz⟩ | ⟨_, hz⟩
    · rw [hz] at hs2
      have : Event.ok (.getDataParts .data) ∈ Event.threw .lockStructure e :: Z := by
        rw [hs2]; simp
      simp only [List.mem_cons, reduceCtorEq, false_or] at this
      exact absurd this nZ
    · rw [hz] at hs2
      simp only [hv, ne_eq, not_true_eq_false, decide_False, Bool.false_eq_true, if_false,
        List.singleton_append] at hs2
      have := split_at_unique (A := [Event.ok .lockStructure]) (by simp) nZ hs2
      refine ⟨(fetch env w).trace ++ (cancelMerges env (decide (v ≠ w.storage.columns_version))
          (fetch env w).world).trace, [], by simp, Or.inr ⟨hv, ?_⟩⟩
      rw [this.1]
  · rcases hTS with ⟨h, _⟩ | ⟨_, rfl⟩
    · exact absurd h hv
    have nU : Event.ok (.getDataParts .data) ∉ TU ++ (RB ++ E) := by
      intro hm
      rcases List.mem_append.1 hm with h | h
      · rcases h4 _ h with h | ⟨_, h⟩
        · simp [Event.call, Call.stage] at h
        · exact hv h
      · exact n5 h
    have e1 : ∀ T : List Event, (fetch env w).trace ++
        (cancelMerges env (decide (v ≠ w.storage.columns_version)) (fetch env w).world).trace ++
        T ++ TU ++ RB ++ E =
        ((fetch env w).trace ++ (cancelMerges env (decide (v ≠ w.storage.columns_version))
          (fetch env w).world).trace) ++ (T ++ (TU ++ (RB ++ E))) := by intro T; simp
    rw [e1] at hsplit
    obtain ⟨pre1, hs1, rfl⟩ := split_right n0 hsplit
    obtain ⟨post1, hs2, _⟩ := split_left nU hs1
    obtain ⟨X, R, hX, hR, hx⟩ := structuralUpdate_anatomy env d v
      (cancelMerges env (decide (v ≠ w.storage.columns_version)) (fetch env w).world).world
    have nR : Event.ok (.getDataParts .data) ∉ R := by
      intro hm
      obtain ⟨x, hx1, _⟩ := hR _ hm
      simp at hx1
    rcases hx with ⟨e, _, _, _, hx⟩ | ⟨_, hx⟩
    · rw [hx] at hs2
      have : Event.ok (.getDataParts .data) ∈
          Event.ok .temporarilyStop :: Event.threw .lockStructureForAlter e :: R := by
        rw [hs2]; simp
      simp only [List.mem_cons, reduceCtorEq, false_or, Event.ok.injEq] at this
      exact absurd this nR
    · rw [hx] at hs2
      have e2 : Event.ok .temporarilyStop :: Event.ok .lockStructureForAlter :: (X ++ R) =
          ([Event.ok .temporarilyStop, Event.ok .lockStructureForAlter] ++ X) ++ R := by simp
      rw [e2] at hs2
      obtain ⟨post2, hs3, _⟩ := split_left nR hs2
      obtain ⟨x1, hs4, hp⟩ := split_right (A := [Event.ok .temporarilyStop,
        Event.ok .lockStructureForAlter]) (by simp) hs3
      refine ⟨(fetch env w).trace ++ (cancelMerges env (decide (v ≠ w.storage.columns_version))
          (fetch env w).world).trace ++ [Event.ok .temporarilyStop], x1, ?_, Or.inl ⟨hv, ?_⟩⟩
      rotate_left
      · rw [hp]
        simp
      · intro ev hev
        have := hX ev (by rw [hs4]; exact List.mem_append_left _ hev)
        simp only [Event.isQuiet, Bool.and_eq_true, Bool.not_eq_true'] at this
        exact this.1

theorem heldAfter_mem_of_acquired {r : Resource} {ev : Event} (hs : ∀ h, heldStep h ev = r :: h)
    {p0 x1 : List Event} (hx : ∀ e ∈ x1, e.moves = false) (h : List Resource) :
    r ∈ heldAfter h (p0 ++ ev :: x1) := by
  rw [heldAfter_append, heldAfter_cons, hs, heldAfter_of_not_moves hx]
  exact List.mem_cons_self _ _

/-- The update of the parts in a turn that fetched another version: it is
run with the list of parts that the structural update returned, in the world
the structural update left. -/
theorem iteration_changed_update {env : Env} {w : World} {s : String} {v : Int}
    {d : ColumnsDescription} (hf : (fetch env w).result = .ok (s, v, d))
    (hv : v ≠ w.storage.columns_version) {ev : Event} (hev : ev ∈ (iteration env w).trace)
    (hst : ev.call.stage = 4) :
    ∃ ps w2 T0 T1, (structuralUpdate env d v w2).result = .ok ps ∧
      w2.storage = w.storage ∧
      ev ∈ (updateParts env s true ps (structuralUpdate env d v w2).world).trace ∧
      (iteration env w).trace =
        T0 ++ (updateParts env s true ps (structuralUpdate env d v w2).world).trace ++ T1 := by
  have hk := fetch_keeps env w
  simp only [Keeps, Prod.mk.injEq] at hk
  have hkc := cancelMerges_stable env (decide (v ≠ w.storage.columns_version)) (fetch env w).world
  simp only [Keeps, Prod.mk.injEq] at hkc
  obtain ⟨TS, TU, RB, E, htr, h0, h1, h2, h4, h5, h6, hTS, hTU⟩ := iteration_pieces hf
  have hin : ev ∈ TU := by
    rw [htr] at hev
    simp only [List.mem_append] at hev
    rcases hev with ((((h | h) | h) | h) | h) | h
    · have := h0 ev h; omega
    · have := h1 ev h; omega
    · have := h2 ev h; omega
    · exact h
    · have := h5 ev h; omega
    · have := (h6 ev h).1; omega
  rcases hTU with rfl | ⟨ps, w3, rfl, h3⟩
  · simp at hin
  obtain ⟨hr, rfl⟩ := h3 hv
  have hc : decide (v ≠ w.storage.columns_version) = true := by simpa using hv
  rw [hc] at hin htr hr hkc
  exact ⟨ps, _, (fetch env w).trace ++ (cancelMerges env true (fetch env w).world).trace ++ TS,
    RB ++ E, hr, by rw [hkc.1, hk.1], hin, by rw [htr]; simp⟩

theorem initPrimaryKeys_ok_trace {env : Env} {w : World} {u : Unit}
    (h : (initPrimaryKeys env w).result = .ok u) :
    (initPrimaryKeys env w).trace = initEvents w := by
  unfold initPrimaryKeys at h ⊢
  unfold initEvents
  cases hf : env.fault (.initPrimaryKey .data) with
  | some e => simp [bind_apply, call, hf] at h
  | none =>
    cases hs : w.storage.unreplicated_data.isSome
    · simp [bind_apply, call, hf, hs]
    · cases hf2 : env.fault (.initPrimaryKey .unreplicated_data) with
      | some e => simp [bind_apply, call, hf, hs, hf2] at h
      | none => simp [bind_apply, call, hf, hs, hf2]

theorem applyChanges_no_version (env : Env) (d : ColumnsDescription) :
    Holds (All fun ev => match ev.call with
      | .assign_columns_version _ => false
      | _ => true) (applyChanges env d) := by
  have hC := closed_all fun ev => match ev.call with
    | .assign_columns_version _ => false
    | _ => true
  unfold applyChanges assignColumns assignMaterialized assignAlias
    assignDefaults initPrimaryKeys
  repeat' first
    | with_reducible first
      | apply holds_pure hC
      | apply holds_getWorld hC
      | apply holds_ite
      | apply holds_emit
      | apply holds_call
      | apply holds_modifyWorld
      | refine holds_bind hC ?_ (fun _ => ?_)
      | dsimp only
      | split
    | (intro w; first | exact all_nil _ _ _ _ | exact all_one rfl _ _ _)
    | (intro w e; exact all_one rfl _ _ _)

/-- A structural update that raised has not assigned `columns_version`. -/
theorem structuralUpdate_error_no_version {env : Env} {d : ColumnsDescription} {v : Int}
    {w : World} {e : Exc} (hr : (structuralUpdate env d v w).result = .error e) :
    ∀ ev ∈ (structuralUpdate env d v w).trace, ∀ v1, ev.call ≠ .assign_columns_version v1 := by
  have hR : ∀ w1 : World, ∀ ev ∈ releases
      [Resource.table_lock_for_alter, Resource.temporarily_stop_part_checks] w1,
      ∀ v1, ev.call ≠ .assign_columns_version v1 := by
    intro w1 ev hev v1
    obtain ⟨x, _, rfl⟩ := mem_releases hev
    simp [Event.call]
  unfold structuralUpdate at hr ⊢
  simp only [scope_apply] at hr ⊢
  rw [bind_of_ok (show (emit env .temporarilyStop w).result = .ok () from rfl)] at hr ⊢
  rw [bind_of_ok (show (acquire _ _).result = .ok () from rfl)] at hr ⊢
  cases hf : env.fault .lockStructureForAlter with
  | some e1 =>
    have h1 : ∀ w1, (call env .lockStructureForAlter w1).result = .error e1 := by
      intro w1; simp [call, hf]
    rw [bind_of_error (h1 _)]
    simp only [call, hf, emit_apply, acquire_apply, List.singleton_append, List.nil_append,
      List.cons_append]
    intro ev hev v1
    simp only [List.mem_cons] at hev
    rcases hev with rfl | rfl | hev
    · simp [Event.call]
    · simp [Event.call]
    · exact hR _ ev hev v1
  | none =>
    have h1 : ∀ w1, (call env .lockStructureForAlter w1).result = .ok () := by
      intro w1; simp [call, hf]
    rw [bind_of_ok (h1 _)] at hr ⊢
    rw [bind_of_ok (show (acquire _ _).result = .ok () from rfl)] at hr ⊢
    simp only [call, hf, emit_apply, acquire_apply, List.singleton_append, List.nil_append,
      List.cons_append] at hr ⊢
    generalize hW : ({ (World.noteStop env Call.lockStructureForAlter
      { (World.noteStop env Call.temporarilyStop w) with
        held := Resource.temporarily_stop_part_checks ::
          (World.noteStop env Call.temporarilyStop w).held }) with
      held := Resource.table_lock_for_alter ::
        (World.noteStop env Call.lockStructureForAlter
          { (World.noteStop env Call.temporarilyStop w) with
            held := Resource.temporarily_stop_part_checks ::
              (World.noteStop env Call.temporarilyStop w).held }).held } : World) = W at hr ⊢
    cases hac : (applyChanges env d W).result with
    | error e2 =>
      rw [bind_of_error hac]
      intro ev hev v1
      simp only [List.mem_cons, List.mem_append] at hev
      rcases hev with rfl | rfl | hev | hev
      · simp [Event.call]
      · simp [Event.call]
      · have := applyChanges_no_version env d W ev hev
        intro hc
        simp only [hc] at this
        exact absurd this (by simp)
      · exact hR _ ev hev v1
    | ok u =>
      rw [bind_of_ok hac] at hr
      simp [snapshotAndSetVersion_apply] at hr

theorem assignEvents_congr {d : ColumnsDescription} {a b : World} (h : a.storage = b.storage) :
    assignEvents d a = assignEvents d b := by
  unfold assignEvents
  rw [h]

theorem differs_congr {d : ColumnsDescription} {a b : World} (h : a.storage = b.storage) :
    differs d a = differs d b := by
  unfold differs
  rw [h]

theorem initEvents_congr {a b : World} (h : a.storage = b.storage) :
    initEvents a = initEvents b := by
  unfold initEvents
  rw [h]

/-- The trace of a structural update that returned while a component
differs: the part checks are stopped, the exclusive lock is given, the catalog
is altered, the components that differ are assigned, the primary keys are
initialised again, the parts are read, `columns_version` is assigned, and the
two scoped objects are released. -/
theorem structuralUpdate_ok_shape {env : Env} {d : ColumnsDescription} {v : Int} {w : World}
    {ps : List DataPart} (hd : differs d w = true)
    (hr : (structuralUpdate env d v w).result = .ok ps) :
    (structuralUpdate env d v w).trace =
      ([Event.ok .temporarilyStop, .ok .lockStructureForAlter, .ok (.alterTable d)] ++
        assignEvents d w ++ initEvents w ++ [.ok (.getDataParts .data)]) ++
      Event.ok (.assign_columns_version v) ::
        [.ok (.release .table_lock_for_alter), .ok (.release .temporarily_stop_part_checks)] := by
  obtain ⟨_, hac, htr, _, _⟩ := structuralUpdate_of_ok hr
  have hd1 : differs d (w.locked env) = true := hd
  have hf : env.fault (.alterTable d) = none := by
    cases hf : env.fault (.alterTable d) with
    | none => rfl
    | some e =>
      rw [applyChanges_of_fault hd1 hf] at hac
      simp at hac
  obtain ⟨w5, h1, _, _, _, _, h6, h7, _⟩ := applyChanges_of_differs hd1 hf
  rw [h7] at hac
  have hi := initPrimaryKeys_ok_trace hac
  have hsome : initEvents w5 = initEvents w := by
    unfold initEvents
    rw [h1]
    have : (assigned d (w.locked env).storage).unreplicated_data.isSome =
        w.storage.unreplicated_data.isSome := by
      show (assigned d w.storage).unreplicated_data.isSome = _
      simp only [assigned]
      split <;> simp
    rw [this]
  rw [htr, h6, hi, hsome]
  have : assignEvents d (w.locked env) = assignEvents d w := rfl
  rw [this]
  simp

theorem initEvents_calls {w : World} {ev : Event} (h : ev ∈ initEvents w) :
    ∃ st, ev = Event.ok (.initPrimaryKey st) := by
  unfold initEvents at h
  simp only [List.mem_cons] at h
  rcases h with rfl | h
  · exact ⟨_, rfl⟩
  · split at h
    · simp only [List.mem_singleton] at h
      exact ⟨_, h⟩
    · simp at h

/-- In a turn that fetched another version while a component differs,
`columns_version` is assigned only after every assignment of a component that
differs and after the primary keys were initialised again. -/
theorem changed_version_after_init {env : Env} {w : World} {blob : String} {v : Int}
    {d : ColumnsDescription}
    (hnode : w.zookeeper.lookup (w.storage.zookeeper_path ++ "/columns") = some ⟨blob, v⟩)
    (hparse : env.parse blob = .ok d) (hv : v ≠ w.storage.columns_version)
    (hd : differs d w = true) :
    ∀ pre ev post v1, (iteration env w).trace = pre ++ ev :: post →
      ev.call = .assign_columns_version v1 →
      (∀ a ∈ assignEvents d w, a ∈ pre) ∧ (∀ a ∈ initEvents w, a ∈ pre) := by
  intro pre ev post v1 hsplit hc
  have hst : ev.call.stage = 2 := by rw [hc]; rfl
  have hmem : ev ∈ (iteration env w).trace := by rw [hsplit]; simp
  cases hr : (fetch env w).result with
  | error e =>
    have := iteration_error_stage hr ev hmem
    omega
  | ok a =>
    obtain ⟨s, v', d'⟩ := a
    have hf := fetch_ok_inv hr
    rw [hnode] at hf
    simp only [Option.some.injEq, ZNode.mk.injEq] at hf
    obtain ⟨⟨rfl, rfl⟩, hp⟩ := hf
    rw [hparse] at hp
    simp only [Except.ok.injEq] at hp
    subst hp
    have hk := fetch_keeps env w
    simp only [Keeps, Prod.mk.injEq] at hk
    have hkc := cancelMerges_stable env (decide (v ≠ w.storage.columns_version))
      (fetch env w).world
    simp only [Keeps, Prod.mk.injEq] at hkc
    have hsto : (cancelMerges env (decide (v ≠ w.storage.columns_version))
        (fetch env w).world).world.storage = w.storage := by rw [hkc.1, hk.1]
    obtain ⟨TS, TU, RB, E, htr, h0, h1, h2, h4, h5, h6, hTS, hTU⟩ := iteration_pieces hr
    rcases hTS with ⟨h, _⟩ | ⟨_, rfl⟩
    · exact absurd h hv
    have n0 : ev ∉ (fetch env w).trace ++
        (cancelMerges env (decide (v ≠ w.storage.columns_version)) (fetch env w).world).trace := by
      intro hm
      rcases List.mem_append.1 hm with h | h
      · have := h0 _ h; omega
      · have := h1 _ h; omega
    have nU : ev ∉ TU ++ (RB ++ E) := by
      intro hm
      simp only [List.mem_append] at hm
      rcases hm with h | h | h
      · rcases h4 _ h with h | ⟨_, h⟩
        · omega
        · exact hv h
      · have := h5 _ h; omega
      · have := (h6 _ h).1; omega
    have e1 : ∀ T : List Event, (fetch env w).trace ++
        (cancelMerges env (decide (v ≠ w.storage.columns_version)) (fetch env w).world).trace ++
        T ++ TU ++ RB ++ E =
        ((fetch env w).trace ++ (cancelMerges env (decide (v ≠ w.storage.columns_version))
          (fetch env w).world).trace) ++ (T ++ (TU ++ (RB ++ E))) := by intro T; simp
    rw [htr, e1] at hsplit
    obtain ⟨pre1, hs1, rfl⟩ := split_right n0 hsplit
    obtain ⟨post1, hs2, _⟩ := split_left nU hs1
    have hin : ev ∈ (structuralUpdate env d v (cancelMerges env
        (decide (v ≠ w.storage.columns_version)) (fetch env w).world).world).trace := by
      rw [hs2]; simp
    cases hsu : (structuralUpdate env d v (cancelMerges env
        (decide (v ≠ w.storage.columns_version)) (fetch env w).world).world).result with
    | error e => exact absurd hc (structuralUpdate_error_no_version hsu ev hin v1)
    | ok ps =>
      have hd2 : differs d (cancelMerges env (decide (v ≠ w.storage.columns_version))
          (fetch env w).world).world = true := by rw [differs_congr hsto]; exact hd
      have hsh := structuralUpdate_ok_shape hd2 hsu
      rw [assignEvents_congr hsto, initEvents_congr hsto] at hsh
      have hA : ∀ a ∈ [Event.ok .temporarilyStop, .ok .lockStructureForAlter,
          .ok (.alterTable d)] ++ assignEvents d w ++ initEvents w ++
          [.ok (.getDataParts .data)], ∀ v2, a.call ≠ .assign_columns_version v2 := by
        intro a ha v2
        simp only [List.mem_append, List.mem_cons, List.mem_singleton, List.not_mem_nil,
          or_false] at ha
        rcases ha with (((rfl | rfl | rfl) | h) | h) | rfl
        · simp [Event.call]
        · simp [Event.call]
        · simp [Event.call]
        · have := assignEvents_calls h
          intro hc2
          rw [hc2] at this
          simp [Call.isAssignment] at this
        · obtain ⟨st, rfl⟩ := initEvents_calls h
          simp [Event.call]
        · simp [Event.call]
      have hev : ev = Event.ok (.assign_columns_version v) := by
        rcases List.mem_append.1 (show ev ∈ ([Event.ok .temporarilyStop,
            .ok .lockStructureForAlter, .ok (.alterTable d)] ++ assignEvents d w ++
            initEvents w ++ [.ok (.getDataParts .data)]) ++
            (Event.ok (.assign_columns_version v) ::
              [.ok (.release .table_lock_for_alter),
                .ok (.release .temporarily_stop_part_checks)]) by
          rw [← hsh, hs2]; simp) with h | h
        · exact absurd hc (hA ev h v1)
        · simp only [List.mem_cons, List.mem_singleton, List.not_mem_nil, or_false] at h
          rcases h with rfl | rfl | rfl
          · rfl
          · simp [Event.call] at hc
          · simp [Event.call] at hc
      subst hev
      rw [hsh] at hs2
      have hu := split_at_unique (fun hm => hA (Event.ok (.assign_columns_version v)) hm v rfl) (by simp) hs2
      rw [hu.1]
      constructor
      · intro a ha
        simp only [List.mem_append]
        exact Or.inr (Or.inl (Or.inl (Or.inr ha)))
      · intro a ha
        simp only [List.mem_append]
        exact Or.inr (Or.inl (Or.inr ha))

/-- The loop over the parts of the non-replicated store, when it returns, has
called `alterDataPart` for each part of its list, and the call returned. -/
theorem alterUnreplicatedParts_ok_all {env : Env} {cols : NamesAndTypesList} :
    ∀ (ps : List DataPart) (w : World) (u : Unit),
      (alterUnreplicatedParts env cols ps w).result = .ok u →
      ∀ p ∈ ps, ∃ t, Event.returned (.alterDataPart .unreplicated_data p.name cols) t ∈
        (alterUnreplicatedParts env cols ps w).trace := by
  intro ps
  induction ps with
  | nil => intro w u _ p hp; simp at hp
  | cons q ps ih =>
    intro w u h p hp
    unfold alterUnreplicatedParts at h ⊢
    obtain ⟨w1, h1, h, _, e1⟩ := bind_ok_inv2 h
    simp only [getWorld_apply, Except.ok.injEq] at h1
    subst h1
    rw [e1]
    simp only [getWorld_apply, List.nil_append] at h ⊢
    obtain ⟨t, h2, h, _, e2⟩ := bind_ok_inv2 h
    rw [e2]
    rcases alterDataPart_cases env .unreplicated_data q cols w.storage.data.primary_expr_ast w
      with ⟨e, he, _⟩ | ⟨t1, ht1, htr, _, _⟩
    · rw [he] at h2; simp at h2
    · rw [ht1] at h2
      simp only [Except.ok.injEq] at h2
      subst h2
      rcases List.mem_cons.1 hp with rfl | hp
      · exact ⟨t1, List.mem_append_left _ (by rw [htr]; simp)⟩
      · cases t1 with
        | none =>
          dsimp only at h ⊢
          obtain ⟨t2, ht2⟩ := ih _ _ h p hp
          exact ⟨t2, List.mem_append_right _ ht2⟩
        | some tr =>
          dsimp only at h ⊢
          obtain ⟨_, h3, h, _, e3⟩ := bind_ok_inv2 h
          rw [e3]
          obtain ⟨t2, ht2⟩ := ih _ _ h p hp
          exact ⟨t2, List.mem_append_right _ (List.mem_append_right _ ht2)⟩

/-- Lines 203-219, when they return: every part of the non-replicated store
was given to `alterDataPart`. -/
theorem alterUnreplicated_ok_all {env : Env} {cols : NamesAndTypesList} {w : World} {u : Unit}
    (h : (alterUnreplicated env cols w).result = .ok u) :
    ∀ p ∈ (w.storage.unreplicated_data.map fun x => x.data_parts).getD [],
      ∃ t, Event.returned (.alterDataPart .unreplicated_data p.name cols) t ∈
        (alterUnreplicated env cols w).trace := by
  intro p hp
  unfold alterUnreplicated at h ⊢
  obtain ⟨w1, h1, h, _, e1⟩ := bind_ok_inv2 h
  simp only [getWorld_apply, Except.ok.injEq] at h1
  subst h1
  rw [e1]
  simp only [getWorld_apply, List.nil_append] at h ⊢
  cases hu : w.storage.unreplicated_data with
  | none => rw [hu] at hp; simp at hp
  | some x =>
    rw [hu] at hp
    simp only [Option.map_some', Option.getD_some] at hp
    simp only [hu] at h ⊢
    obtain ⟨_, h2, h, _, e2⟩ := bind_ok_inv2 h
    rw [e2]
    have hk : ((emit env (.getDataParts .unreplicated_data) w).world).storage = w.storage := rfl
    obtain ⟨t, ht⟩ := alterUnreplicatedParts_ok_all _ _ _ h p hp
    exact ⟨t, List.mem_append_right _ ht⟩

theorem multiOrEnqueue_unreplicated (env : Env) (ops : List SetData) (name : String) :
    Holds (Keeps fun w => w.storage.unreplicated_data) (multiOrEnqueue env ops name) := by
  have hC := closed_keeps fun w : World => w.storage.unreplicated_data
  unfold multiOrEnqueue
  apply holds_tryCatch_keeps
  · unfold zkMulti
    repeat' first
      | with_reducible first
        | apply holds_getWorld hC
        | apply holds_callResult
        | apply holds_modifyWorld
        | refine holds_bind hC ?_ (fun _ => ?_)
      | (intro w; rfl)
      | (intro w e; rfl)
  · intro e
    unfold enqueuePartForCheck
    repeat' first
      | with_reducible first
        | apply holds_pure hC
        | apply holds_ite
        | apply holds_emit
        | apply holds_modifyWorld
        | refine holds_bind hC ?_ (fun _ => ?_)
        | split
      | (intro w; rfl)

/-- The loop over the parts of the primary store leaves the non-replicated
store as it was. -/
theorem alterParts_unreplicated (env : Env) (cols : NamesAndTypesList) (ps : List DataPart) :
    Holds (Keeps fun w => w.storage.unreplicated_data) (alterParts env cols ps) := by
  have hC := closed_keeps fun w : World => w.storage.unreplicated_data
  induction ps with
  | nil => exact holds_pure hC _
  | cons p ps ih =>
    unfold alterParts commit
    repeat' first
      | with_reducible first
        | exact ih
        | apply multiOrEnqueue_unreplicated
        | apply holds_pure hC
        | apply holds_getWorld hC
        | apply holds_call
        | apply holds_alterDataPart
        | apply holds_modifyWorld
        | refine holds_bind hC ?_ (fun _ => ?_)
        | dsimp only
        | split
      | (intro w; rfl)
      | (intro w e; rfl)
      | (intro w t; rfl)

/-- The update of the parts, up to the loop over the primary store, leaves the
non-replicated store as it was. -/
theorem partsToAlter_unreplicated (env : Env) (c : Bool) (ps : List DataPart) :
    Holds (Keeps fun w => w.storage.unreplicated_data) (partsToAlter env c ps) := by
  have hC := closed_keeps fun w : World => w.storage.unreplicated_data
  unfold partsToAlter
  repeat' first
    | with_reducible first
      | apply holds_pure hC
      | apply holds_getWorld hC
      | apply holds_ite
      | apply holds_emit
      | refine holds_bind hC ?_ (fun _ => ?_)
      | dsimp only
      | split
    | (intro w; rfl)

/-- The update of the parts, when it returns, has called `alterDataPart` for
every part of the non-replicated store (lines 203-219). -/
theorem updateParts_ok_unreplicated {env : Env} {s : String} {c : Bool} {ps : List DataPart}
    {w : World} {u : Unit} (h : (updateParts env s c ps w).result = .ok u) :
    ∀ p ∈ (w.storage.unreplicated_data.map fun x => x.data_parts).getD [],
      ∃ cols t, Event.returned (.alterDataPart .unreplicated_data p.name cols) t ∈
        (updateParts env s c ps w).trace := by
  intro p hp
  unfold updateParts at h ⊢
  simp only [scope_apply] at h ⊢
  obtain ⟨_, h1, h, _, e1⟩ := bind_ok_inv2 h
  have k1 : (call env .lockStructure w).world.storage = w.storage := by simp
  obtain ⟨_, h2, h, _, e2⟩ := bind_ok_inv2 h
  have k2 : (acquire .table_lock (call env .lockStructure w).world).world.storage =
      w.storage := by rw [← k1]; rfl
  obtain ⟨ps1, h3, h, _, e3⟩ := bind_ok_inv2 h
  have k3 := partsToAlter_unreplicated env c ps
    (acquire .table_lock (call env .lockStructure w).world).world
  simp only [Keeps] at k3
  rw [k2] at k3
  obtain ⟨w4, h4, h, _, e4⟩ := bind_ok_inv2 h
  simp only [getWorld_apply, Except.ok.injEq] at h4
  subst h4
  simp only [getWorld_apply] at h e4
  obtain ⟨_, h5, h, _, e5⟩ := bind_ok_inv2 h
  have k5 := alterParts_unreplicated env
    (partsToAlter env c ps (acquire .table_lock
      (call env .lockStructure w).world).world).world.storage.data.getColumnsList ps1
    (partsToAlter env c ps (acquire .table_lock (call env .lockStructure w).world).world).world
  simp only [Keeps] at k5
  rw [k3] at k5
  obtain ⟨_, h6, h, _, e6⟩ := bind_ok_inv2 h
  rw [← k5] at hp
  obtain ⟨t, ht⟩ := alterUnreplicated_ok_all h6 p hp
  exact ⟨_, t, List.mem_append_left _ (by
    rw [e1, e2, e3, e4, e5, e6]
    simp only [List.mem_append]
    exact Or.inr (Or.inr (Or.inr (Or.inr (Or.inr (Or.inl ht))))))⟩

theorem assigned_unreplicated_parts (d : ColumnsDescription) (s : StorageReplicatedMergeTree) :
    ((assigned d s).unreplicated_data.map fun x => x.data_parts) =
      s.unreplicated_data.map fun x => x.data_parts := by
  unfold assigned
  dsimp only
  split
  · cases s.unreplicated_data <;> rfl
  · rfl

/-- A pass that completes with a changed version or a pending recheck has run
the update of the parts to its end, from a world whose non-replicated store
has the parts it had when the pass began. -/
theorem underBlockers_ok_updateParts_unreplicated {env : Env} {s : String}
    {d : ColumnsDescription} {v : Int} {c : Bool} {w : World} {u : Unit}
    (h : (underBlockers env s d v c w).result = .ok u)
    (hc : c = true ∨ w.force_recheck_parts = true) :
    ∃ ps w2, (w2.storage.unreplicated_data.map fun x => x.data_parts) =
        (w.storage.unreplicated_data.map fun x => x.data_parts) ∧
      (updateParts env s c ps w2).result = .ok () ∧
      ∀ ev ∈ (updateParts env s c ps w2).trace, ev ∈ (underBlockers env s d v c w).trace := by
  have hcond : (c || w.force_recheck_parts) = true := by
    rcases hc with h1 | h1 <;> simp [h1]
  unfold underBlockers at h ⊢
  simp only [scope_apply] at h ⊢
  obtain ⟨w1, h1, h⟩ := bind_ok_inv h
  simp only [getWorld_apply, Except.ok.injEq] at h1
  subst h1
  obtain ⟨a2, h2, h⟩ := bind_ok_inv h
  have hk := cancelMerges_stable env c w
  simp only [Keeps, Prod.mk.injEq] at hk
  simp only [getWorld_apply] at h hk
  obtain ⟨ps, h3, h⟩ := bind_ok_inv h
  simp only [hcond, if_true] at h
  have hmem : ∀ ev, ev ∈ (updateParts env s c ps
      ((if c = true then structuralUpdate env d v else pure [])
        (cancelMerges env c w).world).world).trace →
      ev ∈ ((do
        let w ← getWorld
        cancelMerges env c
        let parts ← (if c = true then structuralUpdate env d v else pure [])
        if (c || w.force_recheck_parts) = true then updateParts env s c parts
        else pure PUnit.unit) w).trace := by
    intro ev hev
    refine mem_bind_right (show (getWorld w).result = .ok w from rfl) ?_
    refine mem_bind_right h2 ?_
    refine mem_bind_right h3 ?_
    simp only [getWorld_apply, hcond, if_true]
    exact hev
  refine ⟨ps, _, ?_, h, fun ev hev => List.mem_append_left _ (hmem ev hev)⟩
  cases c with
  | false =>
    simp only [Bool.false_eq_true, if_false, pure_apply]
    rw [hk.1]
  | true =>
    simp only [if_true] at h3 ⊢
    rw [structuralUpdate_components h3]
    dsimp only
    rw [assigned_unreplicated_parts, hk.1]

theorem reconcile_ok_updateParts_unreplicated {env : Env} {w : World} {u : Unit}
    (h : (reconcile env w).result = .ok u) (hc : w.force_recheck_parts = true) :
    ∃ s c ps w2, (w2.storage.unreplicated_data.map fun x => x.data_parts) =
        (w.storage.unreplicated_data.map fun x => x.data_parts) ∧
      (updateParts env s c ps w2).result = .ok () ∧
      ∀ ev ∈ (updateParts env s c ps w2).trace, ev ∈ (reconcile env w).trace := by
  unfold reconcile at h ⊢
  obtain ⟨a, h1, h⟩ := bind_ok_inv h
  obtain ⟨s, v1, d⟩ := a
  dsimp only at h
  obtain ⟨w1, h2, h⟩ := bind_ok_inv h
  simp only [getWorld_apply, Except.ok.injEq] at h2
  subst h2
  obtain ⟨_, h3, h⟩ := bind_ok_inv h
  have hk := fetch_keeps env w
  simp only [Keeps, Prod.mk.injEq] at hk
  simp only [getWorld_apply] at h3
  obtain ⟨ps, w2, hp, hr, hm⟩ := underBlockers_ok_updateParts_unreplicated h3 (by
    rw [hk.2.2.1]
    exact Or.inr hc)
  refine ⟨s, _, ps, w2, by rw [hp, hk.1], hr, fun ev hev => ?_⟩
  refine mem_bind_right h1 ?_
  dsimp only
  refine mem_bind_right (show (getWorld _).result = .ok _ from rfl) ?_
  apply mem_bind_left
  exact hm ev hev

/-- A pass that begins with `force_recheck_parts` set and completes has called
`alterDataPart` for every part the non-replicated store had when the pass
began (lines 203-219). -/
theorem iteration_ok_all_unreplicated_parts {env : Env} {w : World}
    (hf : w.force_recheck_parts = true) (h : (iteration env w).result = .ok none) :
    ∀ u, w.storage.unreplicated_data = some u → ∀ p ∈ u.data_parts, ∃ cols t,
      Event.returned (.alterDataPart .unreplicated_data p.name cols) t ∈
        (iteration env w).trace := by
  intro u hu p hp
  obtain ⟨hr, htr, _⟩ := iteration_ok h
  obtain ⟨s, c, ps, w2, hw2, hres, hm⟩ := reconcile_ok_updateParts_unreplicated hr hf
  have hp2 : p ∈ (w2.storage.unreplicated_data.map fun x => x.data_parts).getD [] := by
    rw [hw2, hu]
    exact hp
  obtain ⟨cols, t, ht⟩ := updateParts_ok_unreplicated hres p hp2
  exact ⟨cols, t, by rw [htr]; exact hm _ ht⟩

end DB

/-! ## Comparison of string references -/

theorem zipWith_map_same {α β γ δ : Type} (f : β → γ → δ) (g : α → β) (h : α → γ) (l : List α) :
    List.zipWith f (l.map g) (l.map h) = l.map (fun i => f (g i) (h i)) := by
  induction l with
  | nil => rfl
  | cons a l ih => simp [ih]

theorem movemask_flags {α : Type} (P : α → Prop) [DecidablePred P] (l : List α) :
    _mm_movemask_epi8 (l.map fun i => if P i then (0xFF : Byte) else 0) ≤ 2 ^ l.length - 1 ∧
    (_mm_movemask_epi8 (l.map fun i => if P i then (0xFF : Byte) else 0) = 2 ^ l.length - 1 ↔
      ∀ i ∈ l, P i) := by
  induction l with
  | nil => simp [_mm_movemask_epi8]
  | cons a l ih =>
    obtain ⟨h1, h2⟩ := ih
    have hpos : 0 < 2 ^ l.length := Nat.two_pow_pos _
    simp only [List.map_cons, _mm_movemask_epi8, List.length_cons, pow_succ, List.mem_cons,
      forall_eq_or_imp]
    by_cases ha : P a
    · simp only [ha, if_true, true_and]
      have : ((0xFF : Byte).val) / 128 = 1 := by decide
      rw [this]
      constructor
      · omega
      · rw [← h2]; omega
    · simp only [ha, if_false, false_and, iff_false]
      have : ((0 : Byte).val) / 128 = 0 := by decide
      rw [this]
      constructor
      · omega
      · omega

theorem cmpeq_loadu (p1 p2 : CharPtr) :
    _mm_cmpeq_epi8 (_mm_loadu_si128 p1) (_mm_loadu_si128 p2)
      = (List.range 16).map (fun i => if p1 i = p2 i then (0xFF : Byte) else 0) := by
  unfold _mm_cmpeq_epi8 _mm_loadu_si128
  rw [zipWith_map_same]

theorem and_flags (P Q : Nat → Prop) [DecidablePred P] [DecidablePred Q] (l : List Nat) :
    _mm_and_si128 (l.map fun i => if P i then (0xFF : Byte) else 0)
        (l.map fun i => if Q i then (0xFF : Byte) else 0)
      = l.map (fun i => if P i ∧ Q i then (0xFF : Byte) else 0) := by
  unfold _mm_and_si128
  rw [zipWith_map_same]
  apply List.map_congr_left
  intro i _
  by_cases hp : P i <;> by_cases hq : Q i <;> simp [hp, hq] <;> decide

theorem compareSSE2_iff (p1 p2 : CharPtr) :
    compareSSE2 p1 p2 = true ↔ ∀ i, i < 16 → p1 i = p2 i := by
  unfold compareSSE2
  rw [cmpeq_loadu, decide_eq_true_iff]
  have h := (movemask_flags (fun i => p1 i = p2 i) (List.range 16)).2
  simp only [List.length_range, List.mem_range] at h
  rw [← h]
  constructor
  · intro e; rw [← e]; rfl
  · intro e; rw [e]; rfl

theorem compareSSE2x4_iff (p1 p2 : CharPtr) :
    compareSSE2x4 p1 p2 = true ↔ ∀ i, i < 64 → p1 i = p2 i := by
  unfold compareSSE2x4
  rw [cmpeq_loadu, cmpeq_loadu, cmpeq_loadu, cmpeq_loadu, and_flags, and_flags, and_flags,
    decide_eq_true_iff]
  have h := (movemask_flags (fun i => (p1 i = p2 i ∧ p1.add 16 i = p2.add 16 i) ∧
    (p1.add 32 i = p2.add 32 i ∧ p1.add 48 i = p2.add 48 i)) (List.range 16)).2
  simp only [List.length_range, List.mem_range] at h
  have h2 : (∀ i, i < 16 → (p1 i = p2 i ∧ p1.add 16 i = p2.add 16 i) ∧
      (p1.add 32 i = p2.add 32 i ∧ p1.add 48 i = p2.add 48 i)) ↔ ∀ i, i < 64 → p1 i = p2 i := by
    simp only [CharPtr.add]
    constructor
    · intro H i hi
      by_cases h16 : i < 16
      · exact (H i h16).1.1
      · by_cases h32 : i < 32
        · have := (H (i - 16) (by omega)).1.2
          rwa [show 16 + (i - 16) = i by omega] at this
        · by_cases h48 : i < 48
          · have := (H (i - 32) (by omega)).2.1
            rwa [show 32 + (i - 32) = i by omega] at this
          · have := (H (i - 48) (by omega)).2.2
            rwa [show 48 + (i - 48) = i by omega] at this
    · intro H i hi
      exact ⟨⟨H _ (by omega), H _ (by omega)⟩, H _ (by omega), H _ (by omega)⟩
  rw [← h2, ← h]
  constructor
  · intro e; rw [← e]; rfl
  · intro e; rw [e]; rfl

theorem loadLE_lt (p : CharPtr) (w off : Nat) : loadLE p off w < 256 ^ w := by
  induction w generalizing off with
  | zero => simp [loadLE]
  | succ w ih =>
    have := ih (off + 1)
    have hb := (p off).isLt
    simp only [loadLE, pow_succ]
    omega

theorem loadLE_inj (p1 p2 : CharPtr) (w off1 off2 : Nat) :
    loadLE p1 off1 w = loadLE p2 off2 w ↔ ∀ i, i < w → p1 (off1 + i) = p2 (off2 + i) := by
  induction w generalizing off1 off2 with
  | zero => simp [loadLE]
  | succ w ih =>
    have hb1 := (p1 off1).isLt
    have hb2 := (p2 off2).isLt
    simp only [loadLE]
    constructor
    · intro h i hi
      have h0 : (p1 off1).val = (p2 off2).val := by omega
      have h1 : loadLE p1 (off1 + 1) w = loadLE p2 (off2 + 1) w := by omega
      cases i with
      | zero => exact Fin.ext h0
      | succ j =>
        have := (ih (off1 + 1) (off2 + 1)).1 h1 j (by omega)
        rwa [show off1 + 1 + j = off1 + (j + 1) by omega,
          show off2 + 1 + j = off2 + (j + 1) by omega] at this
    · intro h
      have h0 := h 0 (by omega)
      simp only [Nat.add_zero] at h0
      have h1 : loadLE p1 (off1 + 1) w = loadLE p2 (off2 + 1) w := by
        rw [ih]
        intro i hi
        have := h (i + 1) (by omega)
        rwa [show off1 + (i + 1) = off1 + 1 + i by omega,
          show off2 + (i + 1) = off2 + 1 + i by omega] at this
      rw [h0, h1]

theorem memequalSSE2Wide_blocks_iff (p1 p2 : CharPtr) (k : Nat) (hk : k < 4) :
    memequalSSE2Wide_blocks p1 p2 k = true ↔ ∀ i, i < 16 * k → p1 i = p2 i := by
  have e1 := compareSSE2_iff p1 p2
  have e2 := compareSSE2_iff (p1.add 16) (p2.add 16)
  have e3 := compareSSE2_iff (p1.add 32) (p2.add 32)
  simp only [CharPtr.add] at e2 e3
  have s2 : (∀ i, i < 16 → p1 (16 + i) = p2 (16 + i)) ↔ ∀ i, 16 ≤ i → i < 32 → p1 i = p2 i := by
    constructor
    · intro H i h1 h2
      have := H (i - 16) (by omega)
      rwa [show 16 + (i - 16) = i by omega] at this
    · intro H i hi; exact H _ (by omega) (by omega)
  have s3 : (∀ i, i < 16 → p1 (32 + i) = p2 (32 + i)) ↔ ∀ i, 32 ≤ i → i < 48 → p1 i = p2 i := by
    constructor
    · intro H i h1 h2
      have := H (i - 32) (by omega)
      rwa [show 32 + (i - 32) = i by omega] at this
    · intro H i hi; exact H _ (by omega) (by omega)
  rw [s2] at e2
  rw [s3] at e3
  unfold memequalSSE2Wide_blocks
  match k, hk with
  | 0, _ => simp
  | 1, _ =>
    cases h1 : compareSSE2 p1 p2
    · simp only [h1] at e1; simpa using e1
    · simp only [h1] at e1; simpa using e1
  | 2, _ =>
    have e : (∀ i, i < 16 * 2 → p1 i = p2 i) ↔
        (∀ i, 16 ≤ i → i < 32 → p1 i = p2 i) ∧ (∀ i, i < 16 → p1 i = p2 i) := by
      constructor
      · intro H
        exact ⟨fun i _ h => H i (by omega), fun i h => H i (by omega)⟩
      · rintro ⟨a, b⟩ i hi
        by_cases h : i < 16
        · exact b i h
        · exact a i (by omega) (by omega)
    rw [e, ← e1, ← e2]
    cases compareSSE2 p1 p2 <;> cases compareSSE2 (p1.add 16) (p2.add 16) <;> simp
  | 3, _ =>
    have e : (∀ i, i < 16 * 3 → p1 i = p2 i) ↔
        (∀ i, 32 ≤ i → i < 48 → p1 i = p2 i) ∧ (∀ i, 16 ≤ i → i < 32 → p1 i = p2 i) ∧
          (∀ i, i < 16 → p1 i = p2 i) := by
      constructor
      · intro H
        exact ⟨fun i _ h => H i (by omega), fun i _ h => H i (by omega), fun i h => H i (by omega)⟩
      · rintro ⟨a, b, c⟩ i hi
        by_cases h : i < 16
        · exact c i h
        · by_cases h' : i < 32
          · exact b i (by omega) h'
          · exact a i (by omega) (by omega)
    rw [e, ← e1, ← e2, ← e3]
    cases compareSSE2 p1 p2 <;> cases compareSSE2 (p1.add 16) (p2.add 16) <;>
      cases compareSSE2 (p1.add 32) (p2.add 32) <;> simp

theorem memequalSSE2Wide_tail_iff (p1 p2 : CharPtr) (r : Nat) (hr : r < 16) :
    memequalSSE2Wide_tail p1 p2 r = true ↔ ∀ i, i < r → p1 i = p2 i := by
  unfold memequalSSE2Wide_tail
  simp only [loadLE_inj]
  interval_cases r <;>
    simp only [Nat.forall_lt_succ, Nat.zero_add, Nat.reduceAdd, Nat.not_lt_zero, false_imp_iff,
      implies_true, true_and, ne_eq, ite_not, decide_eq_true_eq] <;>
    (repeat' split) <;> simp_all

theorem memequalSSE2Wide_iff (p1 p2 : CharPtr) (size : Nat) :
    memequalSSE2Wide p1 p2 size = true ↔ ∀ i, i < size → p1 i = p2 i := by
  induction size using Nat.strong_induction_on generalizing p1 p2 with
  | _ size ih =>
    rw [memequalSSE2Wide]
    by_cases h : size ≥ 64
    · rw [if_pos h]
      cases hc : compareSSE2x4 p1 p2
      · have hn : ¬ ∀ i, i < 64 → p1 i = p2 i := by
          rw [← compareSSE2x4_iff, hc]; simp
        simp only [Bool.false_eq_true, if_false, false_iff]
        intro H
        exact hn (fun i hi => H i (by omega))
      · have hy := (compareSSE2x4_iff p1 p2).1 hc
        simp only [if_true]
        rw [ih (size - 64) (by omega)]
        simp only [CharPtr.add]
        constructor
        · intro H i hi
          by_cases h64 : i < 64
          · exact hy i h64
          · have := H (i - 64) (by omega)
            rwa [show 64 + (i - 64) = i by omega] at this
        · intro H i hi
          exact H _ (by omega)
    · rw [if_neg h]
      have hk : size % 64 / 16 < 4 := by omega
      have hr : size % 16 < 16 := by omega
      have hb := memequalSSE2Wide_blocks_iff p1 p2 (size % 64 / 16) hk
      have ht := memequalSSE2Wide_tail_iff (p1.add (size % 64 / 16 * 16))
        (p2.add (size % 64 / 16 * 16)) (size % 16) hr
      simp only [CharPtr.add] at ht
      cases hc : memequalSSE2Wide_blocks p1 p2 (size % 64 / 16)
      · have hn : ¬ ∀ i, i < 16 * (size % 64 / 16) → p1 i = p2 i := by
          rw [← hb, hc]; simp
        simp only [Bool.not_false, if_true, Bool.false_eq_true, false_iff]
        intro H
        exact hn (fun i hi => H i (by omega))
      · have hy := hb.1 hc
        simp only [Bool.not_true, Bool.false_eq_true, if_false]
        rw [ht]
        constructor
        · intro H i hi
          by_cases hlt : i < 16 * (size % 64 / 16)
          · exact hy i hlt
          · have := H (i - size % 64 / 16 * 16) (by omega)
            rwa [show size % 64 / 16 * 16 + (i - size % 64 / 16 * 16) = i by omega] at this
        · intro H i hi
          exact H _ (by omega)

theorem memcmp_eq_zero_iff (p1 p2 : CharPtr) (n : Nat) :
    memcmp p1 p2 n = 0 ↔ ∀ i, i < n → p1 i = p2 i := by
  induction n generalizing p1 p2 with
  | zero => simp [memcmp]
  | succ n ih =>
    rw [memcmp]
    by_cases h : p1 0 = p2 0
    · rw [if_pos h, ih]
      simp only [CharPtr.add]
      constructor
      · intro H i hi
        cases i with
        | zero => exact h
        | succ j =>
          have := H j (by omega)
          rwa [show 1 + j = j + 1 by omega] at this
      · intro H i hi
        have := H (i + 1) (by omega)
        rwa [show i + 1 = 1 + i by omega] at this
    · rw [if_neg h]
      constructor
      · intro e
        exact absurd (Fin.ext (by omega)) h
      · intro H
        exact absurd (H 0 (by omega)) h

theorem toString_eq_iff (a b : StringRef) :
    a.toString = b.toString ↔ a.size = b.size ∧ ∀ i, i < a.size → a.data i = b.data i := by
  unfold StringRef.toString
  constructor
  · intro h
    have hl : a.size = b.size := by
      have := congrArg List.length h
      simpa using this
    refine ⟨hl, fun i hi => ?_⟩
    have := congrArg (fun l => l.getD i 0) h
    simp only [List.getD_eq_getElem?_getD, List.getElem?_map] at this
    rw [List.getElem?_range hi, List.getElem?_range (hl ▸ hi)] at this
    simpa using this
  · rintro ⟨hl, H⟩
    rw [← hl]
    apply List.map_congr_left
    intro i hi
    exact H i (List.mem_range.1 hi)

theorem operator_eq_iff (sse2 : Bool) (lhs rhs : StringRef) :
    StringRef.operator_eq sse2 lhs rhs = true ↔
      lhs.size = rhs.size ∧ ∀ i, i < lhs.size → lhs.data i = rhs.data i := by
  unfold StringRef.operator_eq
  by_cases hs : lhs.size = rhs.size
  · simp only [hs, ne_eq, not_true_eq_false, if_false, true_and]
    by_cases h0 : rhs.size = 0
    · simp [h0]
    · simp only [h0, if_false]
      cases sse2
      · simp only [Bool.false_eq_true, if_false, decide_eq_true_eq]
        rw [eq_comm, memcmp_eq_zero_iff]
      · simp only [if_true]
        rw [memequalSSE2Wide_iff]
  · simp [hs]

theorem toString_succ (p : CharPtr) (n : Nat) :
    StringRef.toString ⟨p, n + 1⟩ = p 0 :: StringRef.toString ⟨p.add 1, n⟩ := by
  unfold StringRef.toString
  simp only [List.range_succ_eq_map, List.map_cons, List.map_map]
  congr 1
  apply List.map_congr_left
  intro i _
  simp [CharPtr.add, Nat.add_comm]

theorem toString_zero (p : CharPtr) : StringRef.toString ⟨p, 0⟩ = [] := rfl

theorem operator_lt_eq_lexLt (n m : Nat) (p1 p2 : CharPtr) :
    StringRef.operator_lt ⟨p1, n⟩ ⟨p2, m⟩
      = lexLt (StringRef.toString ⟨p1, n⟩) (StringRef.toString ⟨p2, m⟩) := by
  induction n generalizing m p1 p2 with
  | zero =>
    cases m with
    | zero => simp [StringRef.operator_lt, memcmp, toString_zero, lexLt]
    | succ m => simp [StringRef.operator_lt, memcmp, toString_zero, toString_succ, lexLt]
  | succ n ih =>
    cases m with
    | zero => simp [StringRef.operator_lt, memcmp, toString_zero, toString_succ, lexLt]
    | succ m =>
      have ih1 := ih m (p1.add 1) (p2.add 1)
      simp only [StringRef.operator_lt] at ih1 ⊢
      rw [toString_succ, toString_succ, lexLt, ← ih1, Nat.succ_min_succ, memcmp]
      by_cases h : p1 0 = p2 0
      · simp [h]
      · have hv : (p1 0).val ≠ (p2 0).val := fun e => h (Fin.ext e)
        have e1 : (((p1 0).val : Int) - ((p2 0).val : Int) < 0) ↔ p1 0 < p2 0 := by
          rw [Fin.lt_def]; omega
        have e2 : ¬ (((p1 0).val : Int) - ((p2 0).val : Int) = 0) := by omega
        simp [h, e1, e2]

theorem memcmp_swap (p1 p2 : CharPtr) (n : Nat) : memcmp p2 p1 n = - memcmp p1 p2 n := by
  induction n generalizing p1 p2 with
  | zero => simp [memcmp]
  | succ n ih =>
    rw [memcmp, memcmp]
    by_cases h : p1 0 = p2 0
    · rw [if_pos h, if_pos h.symm, ih]
    · rw [if_neg h, if_neg (fun e => h e.symm)]; omega

theorem operator_gt_eq_lt (a b : StringRef) :
    StringRef.operator_gt a b = StringRef.operator_lt b a := by
  unfold StringRef.operator_gt StringRef.operator_lt
  rw [memcmp_swap a.data b.data, Nat.min_comm b.size a.size]
  simp only [gt_iff_lt, Left.neg_neg_iff, neg_eq_zero]

theorem lexLt_irrefl (x : List Byte) : lexLt x x = false := by
  induction x with
  | nil => rfl
  | cons a x ih => simp [lexLt, ih]

theorem lexLt_trans (x y z : List Byte) (h1 : lexLt x y = true) (h2 : lexLt y z = true) :
    lexLt x z = true := by
  induction x generalizing y z with
  | nil =>
    cases y with
    | nil => simp [lexLt] at h1
    | cons b y =>
      cases z with
      | nil => simp [lexLt] at h2
      | cons c z => simp [lexLt]
  | cons a x ih =>
    cases y with
    | nil => simp [lexLt] at h1
    | cons b y =>
      cases z with
      | nil => simp [lexLt] at h2
      | cons c z =>
        simp only [lexLt, Bool.or_eq_true, decide_eq_true_eq, Bool.and_eq_true] at h1 h2 ⊢
        rcases h1 with h1 | ⟨rfl, h1⟩
        · rcases h2 with h2 | ⟨rfl, h2⟩
          · exact Or.inl (lt_trans h1 h2)
          · exact Or.inl h1
        · rcases h2 with h2 | ⟨rfl, h2⟩
          · exact Or.inl h2
          · exact Or.inr ⟨rfl, ih y z h1 h2⟩

theorem lexLt_trichotomy (x y : List Byte) :
    (lexLt x y = true ∧ x ≠ y ∧ lexLt y x = false) ∨
    (lexLt x y = false ∧ x = y ∧ lexLt y x = false) ∨
    (lexLt x y = false ∧ x ≠ y ∧ lexLt y x = true) := by
  induction x generalizing y with
  | nil =>
    cases y with
    | nil => simp [lexLt]
    | cons b y => simp [lexLt]
  | cons a x ih =>
    cases y with
    | nil => simp [lexLt]
    | cons b y =>
      simp only [lexLt, List.cons.injEq, ne_eq]
      rcases lt_trichotomy a b with h | h | h
      · have h1 : ¬ b < a := not_lt.2 (le_of_lt h)
        have h2 : a ≠ b := ne_of_lt h
        have h3 : b ≠ a := fun e => h2 e.symm
        simp [h, h1, h2, h3]
      · subst h
        rcases ih y with h | h | h
        · simp [h.1, h.2.1, h.2.2]
        · obtain ⟨_, rfl, _⟩ := h
          simp [lexLt_irrefl]
        · simp [h.1, h.2.1, h.2.2]
      · have h1 : ¬ a < b := not_lt.2 (le_of_lt h)
        have h2 : a ≠ b := fun e => (ne_of_lt h) e.symm
        have h3 : b ≠ a := ne_of_lt h
        simp [h, h1, h2, h3]

theorem operator_eq_iff_toString (sse2 : Bool) (a b : StringRef) :
    StringRef.operator_eq sse2 a b = true ↔ a.toString = b.toString := by
  rw [operator_eq_iff, toString_eq_iff]

theorem operator_eq_cstr_from_iff (lhs : StringRef) (rhs : CharPtr) (pos : Nat) :
    StringRef.operator_eq_cstr_from lhs rhs pos = true ↔
      ∀ i, pos ≤ i → i < lhs.size → rhs i ≠ 0 ∧ lhs.data i = rhs i := by
  generalize hk : lhs.size - pos = k
  induction k generalizing pos with
  | zero =>
    rw [StringRef.operator_eq_cstr_from, if_neg (by omega)]
    simp only [true_iff]
    intro i h1 h2
    omega
  | succ k ih =>
    rw [StringRef.operator_eq_cstr_from, if_pos (by omega)]
    by_cases hc : rhs pos = 0 ∨ lhs.data pos ≠ rhs pos
    · rw [if_pos hc]
      simp only [Bool.false_eq_true, false_iff]
      intro H
      have := H pos (le_refl _) (by omega)
      rcases hc with hc | hc
      · exact this.1 hc
      · exact hc this.2
    · rw [if_neg hc, ih (pos + 1) (by omega)]
      have hc1 : rhs pos ≠ 0 := fun e => hc (Or.inl e)
      have hc2 : lhs.data pos = rhs pos := by
        by_contra e; exact hc (Or.inr e)
      constructor
      · intro H i h1 h2
        by_cases e : i = pos
        · subst e; exact ⟨hc1, hc2⟩
        · exact H i (by omega) h2
      · intro H i h1 h2
        exact H i (by omega) h2

theorem operator_eq_cstr_iff (lhs : StringRef) (rhs : CharPtr) :
    StringRef.operator_eq_cstr lhs rhs = true ↔
      ∀ i, i < lhs.size → rhs i ≠ 0 ∧ lhs.data i = rhs i := by
  unfold StringRef.operator_eq_cstr
  rw [operator_eq_cstr_from_iff]
  constructor
  · intro H i hi; exact H i (Nat.zero_le _) hi
  · intro H i _ hi; exact H i hi

theorem cstr_of_lt (s : List Byte) (i : Nat) (h : i < s.length) : cstr s i = s.get ⟨i, h⟩ := by
  simp [cstr, List.getD_eq_getElem?_getD, List.getElem?_eq_getElem h]

theorem cstr_length (s : List Byte) : cstr s s.length = 0 := by
  simp [cstr, List.getD_eq_getElem?_getD]

theorem toString_cstr (s : List Byte) (n : Nat) (h : n ≤ s.length) :
    StringRef.toString ⟨cstr s, n⟩ = s.take n := by
  apply List.ext_getElem
  · simp [StringRef.toString, h]
  · intro i h1 h2
    simp only [StringRef.toString, List.getElem_map, List.getElem_range, List.getElem_take]
    simp only [StringRef.toString, List.length_map, List.length_range] at h1
    exact cstr_of_lt s i (by omega)

theorem operator_eq_cstr_iff_take (lhs : StringRef) (s : List Byte) (hs : (0 : Byte) ∉ s) :
    StringRef.operator_eq_cstr lhs (cstr s) = true ↔
      lhs.size ≤ s.length ∧ lhs.toString = s.take lhs.size := by
  rw [operator_eq_cstr_iff]
  constructor
  · intro H
    have hle : lhs.size ≤ s.length := by
      by_contra hlt
      exact (H s.length (by omega)).1 (cstr_length s)
    refine ⟨hle, ?_⟩
    rw [← toString_cstr s lhs.size hle]
    exact (toString_eq_iff lhs ⟨cstr s, lhs.size⟩).2 ⟨rfl, fun i hi => (H i hi).2⟩
  · rintro ⟨hle, he⟩ i hi
    rw [← toString_cstr s lhs.size hle] at he
    have h2 := ((toString_eq_iff lhs ⟨cstr s, lhs.size⟩).1 he).2 i hi
    refine ⟨?_, h2⟩
    rw [cstr_of_lt s i (by omega)]
    intro e
    exact hs (e ▸ List.get_mem s i (by omega))

/-! ## The reads of `CRC32Hash` -/

theorem mem_indicesRead (rs : List Read) (i : Nat) :
    i ∈ indicesRead rs ↔ ∃ r ∈ rs, r.1 ≤ i ∧ i < r.1 + r.2 := by
  unfold indicesRead Read.indices
  simp only [List.mem_flatMap, List.mem_map, List.mem_range]
  constructor
  · rintro ⟨r, hr, j, hj, rfl⟩
    exact ⟨r, hr, by omega, by omega⟩
  · rintro ⟨r, hr, h1, h2⟩
    exact ⟨r, hr, i - r.1, by omega, by omega⟩

theorem CRC32Hash_loop_reads (F : HashFunctions) (data : CharPtr) (size pos res : Nat) :
    (CRC32Hash.loop F data size pos res).2
      = (List.range ((size - pos - 9) / 8 + 1)).map (fun j => (pos + 8 * j, 8)) := by
  generalize hk : size - pos = k
  induction k using Nat.strong_induction_on generalizing pos res with
  | _ k ih =>
    rw [CRC32Hash.loop]
    by_cases h : pos + 8 + 8 < size
    · simp only [h, if_true, unalignedLoad]
      rw [ih (size - (pos + 8)) (by omega) (pos + 8) _ rfl]
      have e : (k - 9) / 8 + 1 = ((size - (pos + 8) - 9) / 8 + 1) + 1 := by omega
      rw [e, List.range_succ_eq_map (((size - (pos + 8) - 9) / 8 + 1))]
      simp only [List.map_cons, List.map_map, Nat.mul_zero, Nat.add_zero, List.singleton_append,
        List.cons.injEq, true_and]
      apply List.map_congr_left
      intro j _
      simp only [Function.comp, Prod.mk.injEq, and_true]
      omega
    · simp only [h, if_false, unalignedLoad]
      have e : (k - 9) / 8 + 1 = 1 := by omega
      rw [e]
      rfl

theorem CRC32Hash_reads_large (F : HashFunctions) (x : StringRef) (h : 8 ≤ x.size) :
    (CRC32Hash.call F x).2
      = (List.range ((x.size - 9) / 8 + 1)).map (fun j => (8 * j, 8)) ++ [(x.size - 8, 8)] := by
  unfold CRC32Hash.call
  rw [if_neg (by omega), if_neg (by omega)]
  simp only [CRC32Hash_loop_reads, unalignedLoad, Nat.sub_zero, Nat.zero_add]

theorem CRC32Hash_small (F : HashFunctions) (x : StringRef) (h1 : 1 ≤ x.size) (h2 : x.size < 8) :
    CRC32Hash.call F x = hashLessThan8 F x.data x.size := by
  unfold CRC32Hash.call
  rw [if_neg (by omega), if_pos h2]

theorem hashLessThan8_reads_bytes (F : HashFunctions) (data : CharPtr) (size : Nat)
    (h1 : 1 ≤ size) (h2 : size < 4) :
    (hashLessThan8 F data size).2 = [(0, 1), (size >>> 1, 1), (size - 1, 1)] := by
  unfold hashLessThan8
  simp only [ge_iff_le, gt_iff_lt]
  rw [if_neg (by omega), if_pos (by omega)]
  rfl

theorem hashLessThan8_reads_words (F : HashFunctions) (data : CharPtr) (size : Nat)
    (h1 : 4 ≤ size) :
    (hashLessThan8 F data size).2 = [(0, 4), (size - 4, 4)] := by
  unfold hashLessThan8
  simp only [ge_iff_le]
  rw [if_pos h1]
  rfl

theorem CRC32Hash_reads_below (F : HashFunctions) (x : StringRef) (i : Nat)
    (hi : i ∈ indicesRead (CRC32Hash.call F x).2) : i < x.size := by
  rw [mem_indicesRead] at hi
  obtain ⟨r, hr, h1, h2⟩ := hi
  by_cases h0 : x.size = 0
  · simp [CRC32Hash.call, h0] at hr
  by_cases h8 : x.size < 8
  · rw [CRC32Hash_small F x (by omega) h8] at hr
    by_cases h4 : x.size < 4
    · rw [hashLessThan8_reads_bytes F _ _ (by omega) h4] at hr
      simp only [List.mem_cons, List.mem_singleton, List.not_mem_nil, or_false] at hr
      have : x.size >>> 1 = x.size / 2 := Nat.shiftRight_eq_div_pow _ 1
      rcases hr with rfl | rfl | rfl <;> simp at h1 h2 ⊢ <;> omega
    · rw [hashLessThan8_reads_words F _ _ (by omega)] at hr
      simp only [List.mem_cons, List.mem_singleton, List.not_mem_nil, or_false] at hr
      rcases hr with rfl | rfl <;> simp at h1 h2 ⊢ <;> omega
  · rw [CRC32Hash_reads_large F x (by omega)] at hr
    simp only [List.mem_append, List.mem_map, List.mem_range, List.mem_singleton] at hr
    rcases hr with ⟨j, hj, rfl⟩ | rfl
    · simp only at h1 h2; omega
    · simp only at h1 h2; omega

theorem CRC32Hash_reads_cover (F : HashFunctions) (x : StringRef) (i : Nat) (hi : i < x.size) :
    i ∈ indicesRead (CRC32Hash.call F x).2 := by
  rw [mem_indicesRead]
  by_cases h8 : x.size < 8
  · rw [CRC32Hash_small F x (by omega) h8]
    by_cases h4 : x.size < 4
    · rw [hashLessThan8_reads_bytes F _ _ (by omega) h4]
      have : x.size >>> 1 = x.size / 2 := Nat.shiftRight_eq_div_pow _ 1
      by_cases e0 : i = 0
      · exact ⟨(0, 1), by simp, by simp; omega⟩
      · by_cases e1 : i = x.size - 1
        · exact ⟨(x.size - 1, 1), by simp, by simp; omega⟩
        · exact ⟨(x.size >>> 1, 1), by simp, by simp; omega⟩
    · rw [hashLessThan8_reads_words F _ _ (by omega)]
      by_cases e0 : i < 4
      · exact ⟨(0, 4), by simp, by simp; omega⟩
      · exact ⟨(x.size - 4, 4), by simp, by simp; omega⟩
  · rw [CRC32Hash_reads_large F x (by omega)]
    by_cases e : x.size - 8 ≤ i
    · exact ⟨(x.size - 8, 8), by simp, by simp; omega⟩
    · refine ⟨(8 * (i / 8), 8), ?_, by simp; omega, by simp; omega⟩
      simp only [List.mem_append, List.mem_map, List.mem_range, List.mem_singleton]
      exact Or.inl ⟨i / 8, by omega, rfl⟩

theorem CRC32Hash_words (F : HashFunctions) (x : StringRef) (h : 8 ≤ x.size) (r : Read) :
    r ∈ (CRC32Hash.call F x).2 ↔
      r.2 = 8 ∧ ((8 ∣ r.1 ∧ r.1 + 8 < x.size) ∨ r.1 = x.size - 8) := by
  rw [CRC32Hash_reads_large F x h]
  simp only [List.mem_append, List.mem_map, List.mem_range, List.mem_singleton]
  obtain ⟨o, w⟩ := r
  simp only [Prod.mk.injEq]
  constructor
  · rintro (⟨j, hj, rfl, rfl⟩ | ⟨rfl, rfl⟩)
    · refine ⟨rfl, ?_⟩
      by_cases e : j = 0
      · subst e
        by_cases e8 : x.size = 8
        · right; omega
        · left; exact ⟨by simp, by omega⟩
      · left; exact ⟨Dvd.intro _ rfl, by omega⟩
    · exact ⟨rfl, Or.inr rfl⟩
  · rintro ⟨rfl, (⟨⟨j, rfl⟩, h2⟩ | rfl)⟩
    · exact Or.inl ⟨j, by omega, rfl, rfl⟩
    · exact Or.inr ⟨rfl, rfl⟩

theorem lexLt_iff_lex (x y : List Byte) :
    lexLt x y = true ↔ List.Lex (fun a b => a < b) x y := by
  induction x generalizing y with
  | nil =>
    cases y with
    | nil =>
      simp only [lexLt, Bool.false_eq_true, false_iff]
      intro h; cases h
    | cons b y =>
      simp only [lexLt, true_iff]
      exact List.Lex.nil
  | cons a x ih =>
    cases y with
    | nil =>
      simp only [lexLt, Bool.false_eq_true, false_iff]
      intro h; cases h
    | cons b y =>
      simp only [lexLt, Bool.or_eq_true, decide_eq_true_eq, Bool.and_eq_true, ih]
      constructor
      · rintro (h | ⟨rfl, h⟩)
        · exact List.Lex.rel h
        · exact List.Lex.cons h
      · intro h
        cases h with
        | rel h => exact Or.inl h
        | cons h => exact Or.inr ⟨rfl, h⟩

/-! ## Lookup of a row's column by name -/

namespace mysqlxx

theorem char_eq_of_toNat {x y : Char} (h : x.toNat = y.toNat) : x = y := by
  apply Char.ext
  apply UInt32.ext
  simpa [Char.toNat] using h

theorem strcmp_chars_eq_zero_iff (a b : List Char) (ha : ∀ c ∈ a, c.toNat ≠ 0)
    (hb : ∀ c ∈ b, c.toNat ≠ 0) :
    strcmp_chars a b = 0 ↔ a = b := by
  induction a generalizing b with
  | nil =>
    cases b with
    | nil => simp [strcmp_chars]
    | cons y b =>
      simp only [strcmp_chars, neg_eq_zero, Int.natCast_eq_zero, List.nil_eq, reduceCtorEq, iff_false]
      exact hb y (List.mem_cons_self _ _)
  | cons x a ih =>
    cases b with
    | nil =>
      simp only [strcmp_chars, Int.natCast_eq_zero, reduceCtorEq, iff_false]
      exact ha x (List.mem_cons_self _ _)
    | cons y b =>
      simp only [strcmp_chars, List.cons.injEq]
      by_cases h : x = y
      · subst h
        simp only [if_true, true_and]
        exact ih b (fun c m => ha c (List.mem_cons_of_mem _ m))
          (fun c m => hb c (List.mem_cons_of_mem _ m))
      · simp only [h, if_false, false_and, iff_false]
        intro e
        apply h
        exact char_eq_of_toNat (by omega)

theorem strcmp_eq_zero_iff (a b : String) (ha : isCString a) (hb : isCString b) :
    strcmp a b = 0 ↔ a = b := by
  unfold strcmp
  rw [strcmp_chars_eq_zero_iff _ _ ha hb]
  constructor
  · intro h; exact String.ext h
  · intro h; rw [h]

theorem operator_index_name_from_found {Value : Type} (r : Row Value) (name : String)
    (n : Nat) (fields : Nat → MYSQL_FIELD) (i j : Nat) (hj : j < n) (hij : i ≤ j)
    (hm : strcmp name (fields j).name = 0)
    (hfirst : ∀ k, i ≤ k → k < j → strcmp name (fields k).name ≠ 0) :
    Row.operator_index_name_from r name n fields i = r.operator_index j := by
  generalize hd : j - i = d
  induction d generalizing i with
  | zero =>
    have : i = j := by omega
    subst this
    rw [Row.operator_index_name_from, if_pos hj, if_pos hm]
  | succ d ih =>
    rw [Row.operator_index_name_from, if_pos (by omega), if_neg (hfirst i (le_refl _) (by omega))]
    exact ih (i + 1) (by omega) (fun k h1 h2 => hfirst k (by omega) h2) (by omega)

theorem operator_index_name_from_none {Value : Type} (r : Row Value) (name : String)
    (n : Nat) (fields : Nat → MYSQL_FIELD) (i : Nat)
    (hnone : ∀ k, i ≤ k → k < n → strcmp name (fields k).name ≠ 0) :
    Row.operator_index_name_from r name n fields i = .error ⟨"Unknown column " ++ name⟩ := by
  generalize hd : n - i = d
  induction d generalizing i with
  | zero =>
    rw [Row.operator_index_name_from, if_neg (by omega)]
  | succ d ih =>
    rw [Row.operator_index_name_from, if_pos (by omega), if_neg (hnone i (le_refl _) (by omega))]
    exact ih (i + 1) (fun k h1 h2 => hnone k (by omega) h2) (by omega)

theorem exists_first (P : Nat → Prop) [DecidablePred P] (n : Nat) (h : ∃ k, k < n ∧ P k) :
    ∃ j, j < n ∧ P j ∧ ∀ k, k < j → ¬ P k := by
  obtain ⟨k, hk, hp⟩ := h
  have hex : ∃ k, P k := ⟨k, hp⟩
  refine ⟨Nat.find hex, ?_, Nat.find_spec hex, fun m hm => Nat.find_min hex hm⟩
  exact lt_of_le_of_lt (Nat.find_min' hex hp) hk

end mysqlxx

namespace DB

/-! ## The claims -/

/-- C1: in every pass, a call of `commit` for a part of the primary store
comes right after `alterDataPart` returned a transaction for that part and
the multi-update setting the part's `/columns` and `/checksums` nodes to the
blobs of that transaction returned; and when the multi-update of a part
raises, `commit` is not called for that part in the pass. -/
theorem C1_commit_only_after_multi_update (env : Env) (w : World)
    (hnd : (w.storage.data.data_parts.map DataPart.name).Nodup) :
    (∀ pre ev post n, (iteration env w).trace = pre ++ ev :: post →
      ev.call = .commit .data n →
      ∃ pre1 p t cols, p ∈ w.storage.data.data_parts ∧ p.name = n ∧
        pre = pre1 ++ [.returned (.alterDataPart .data n cols) (some t),
          .ok (.multi (partOps w.storage.replica_path p t))]) ∧
    (∀ p t e, Event.threw (.multi (partOps w.storage.replica_path p t)) e ∈
        (iteration env w).trace →
      ∀ ev ∈ (iteration env w).trace, ev.call ≠ .commit .data p.name) := by
  obtain ⟨x, _, A, PA, B, cols, ps, y, htr, hP, hA, hB, hy, hps, _⟩ := iteration_spine env w
  have hsub : ∀ q ∈ ps, q ∈ w.storage.data.data_parts := by
    intro q hq
    rcases hps with rfl | rfl
    · simp at hq
    · exact hq
  have hndps : (ps.map DataPart.name).Nodup := by
    rcases hps with rfl | rfl
    · simp
    · exact hnd
  constructor
  · intro pre ev post n h hc
    have hpc : ev.call.isPartCall = true := by rw [hc]; rfl
    have hnA : ev ∉ A := fun hm => by
      have := isEarly_not_part (hA ev hm)
      rw [hpc] at this
      exact absurd this (by simp)
    have hnB : ev ∉ B := fun hm => by
      have := isLate_not_part (hB ev hm)
      rw [hpc] at this
      exact absurd this (by simp)
    rw [htr] at h
    obtain ⟨pre1, post1, h1, h2, _⟩ := mem_middle h hnA hnB
    obtain ⟨pre2, p, t, hp, hn, h3⟩ := partsTrace_commit hP pre1 ev post1 n h1 hc
    exact ⟨A ++ pre2, p, t, cols, hsub p hp, hn, by rw [h2, h3]; simp⟩
  · intro p t e hmem ev hev
    rw [htr] at hmem hev
    have hPA : Event.threw (.multi (partOps w.storage.replica_path p t)) e ∈ PA := by
      simp only [List.mem_append] at hmem
      rcases hmem with (h | h) | h
      · have := isEarly_not_part (hA _ h)
        simp [Event.call, Call.isPartCall] at this
      · exact h
      · have := isLate_not_part (hB _ h)
        simp [Event.call, Call.isPartCall] at this
    obtain ⟨pre, q, u, hq, hops, _, hPAeq, hpre, hcommit⟩ :=
      partsTrace_multi_threw hP _ e hPA
    have hname : p.name = q.name := partOps_name hops
    simp only [List.mem_append] at hev
    rcases hev with (h | h) | h
    · exact (isEarly_not_set (hA _ h)).2.2 _ _
    · rw [hPAeq] at h
      simp only [List.mem_append, List.mem_cons] at h
      rcases h with h | rfl | h
      · rw [hname]; exact hcommit hndps ev h
      · simp [Event.call]
      · rw [(handlerEvents_mem h).1]; simp [Event.call]
    · intro hc
      have := isLate_not_part (hB _ h)
      rw [hc] at this
      simp [Call.isPartCall] at this

theorem C1_commit_only_after_multi_update_witness :
    (Example.world.storage.data.data_parts.map DataPart.name).Nodup ∧
    Event.threw (.multi (partOps Example.world.storage.replica_path Example.P2
      Example.transaction6)) (.KeeperException ZNONODE) ∈
      (iteration Example.env Example.world).trace ∧
    ∀ ev ∈ (iteration Example.env Example.world).trace,
      ev.call ≠ .commit .data Example.P2.name :=
  ⟨by decide, by decide,
    (C1_commit_only_after_multi_update Example.env Example.world (by decide)).2
      Example.P2 Example.transaction6 (.KeeperException ZNONODE) (by decide)⟩

/-- C2: when the multi-update of a part `p` of the primary store raises `e`,
the pass ends in the `catch` block with `e` and sets `force_recheck_parts`;
after the raising call only the handler of the multi-update, destructors and
the `catch` block run, so no part of either store is processed later;
`commit` is not called for `p` and the replica's columns node is not set in
the pass.  When `e` is the node-absent code, `p` is enqueued for a check
exactly once; otherwise no part is enqueued. -/
theorem C2_multi_update_failure_aborts_pass (env : Env) (w : World)
    (hnd : (w.storage.data.data_parts.map DataPart.name).Nodup)
    (p : DataPart) (t : AlterDataPartTransaction) (e : Exc)
    (h : Event.threw (.multi (partOps w.storage.replica_path p t)) e ∈
      (iteration env w).trace) :
    (iteration env w).result = .ok (some e) ∧
    (iteration env w).world.force_recheck_parts = true ∧
    (∃ pre post, (iteration env w).trace =
        pre ++ Event.threw (.multi (partOps w.storage.replica_path p t)) e ::
          (handlerEvents e p.name ++ post) ∧
      (∀ ev ∈ pre, ev.isThrew = false) ∧
      (∀ ev ∈ post, ev.isUnwind = true) ∧
      (∀ ev ∈ handlerEvents e p.name ++ post, ∀ st n cols,
        ev.call ≠ .alterDataPart st n cols)) ∧
    (∀ ev ∈ (iteration env w).trace, ev.call ≠ .commit .data p.name) ∧
    (∀ ev ∈ (iteration env w).trace, ∀ path data, ev.call ≠ .set path data) ∧
    (e = .KeeperException ZNONODE →
      (iteration env w).trace.count (.ok (.enqueuePartForCheck p.name)) = 1) ∧
    (e ≠ .KeeperException ZNONODE →
      ∀ ev ∈ (iteration env w).trace, ∀ n, ev.call ≠ .enqueuePartForCheck n) := by
  obtain ⟨x, hres, A, PA, B, cols, ps, y, htr, hP, hA, hB, hy, hps, _⟩ := iteration_spine env w
  have hndps : (ps.map DataPart.name).Nodup := by
    rcases hps with rfl | rfl
    · simp
    · exact hnd
  have hPA : Event.threw (.multi (partOps w.storage.replica_path p t)) e ∈ PA := by
    rw [htr] at h
    simp only [List.mem_append] at h
    rcases h with (h | h) | h
    · have := isEarly_not_part (hA _ h)
      simp [Event.call, Call.isPartCall] at this
    · exact h
    · have := isLate_not_part (hB _ h)
      simp [Event.call, Call.isPartCall] at this
  obtain ⟨pre, q, u, hq, hops, hye, hPAeq, hpre, hcommit⟩ := partsTrace_multi_threw hP _ e hPA
  have hname : p.name = q.name := partOps_name hops
  have hyx := hy (by rw [hye]; simp)
  rw [hye] at hyx
  have hresult : (iteration env w).result = .ok (some e) := by rw [hres, hyx.1]
  have hBu := hyx.2
  have hshape : (iteration env w).trace =
      (A ++ pre) ++ Event.threw (.multi (partOps w.storage.replica_path p t)) e ::
        (handlerEvents e p.name ++ B) := by
    rw [htr, hPAeq, hname]
    simp
  have hpreP : ∀ ev ∈ pre, ev.call.isPartCall = true := by
    intro ev hev
    exact partsTrace_calls hP ev (by rw [hPAeq]; simp [hev])
  have hpre0 : ∀ ev ∈ A ++ pre, ev.isThrew = false ∧
      (∀ n, ev.call ≠ .enqueuePartForCheck n) ∧ ev.call ≠ .commit .data p.name ∧
      ∀ path data, ev.call ≠ .set path data := by
    intro ev hev
    rcases List.mem_append.1 hev with h1 | h1
    · refine ⟨?_, isEarly_not_enqueue (hA ev h1), (isEarly_not_set (hA ev h1)).2.2 _ _,
        (isEarly_not_set (hA ev h1)).1⟩
      by_contra hth
      have hth1 : ev.isThrew = true := by simpa using hth
      have hmem : ev ∈ (iteration env w).trace := by rw [htr]; simp [h1]
      have := iteration_threw_unique env w ev hmem _ h hth1 rfl
      have hp := isEarly_not_part (hA ev h1)
      rw [this] at hp
      simp [Event.call, Call.isPartCall] at hp
    · refine ⟨(hpre ev h1).1, (hpre ev h1).2, ?_, isPartCall_not_set (hpreP ev h1)⟩
      rw [hname]; exact hcommit hndps ev h1
  have hpost0 : ∀ ev ∈ handlerEvents e p.name ++ B,
      (∀ st n cols, ev.call ≠ .alterDataPart st n cols) ∧ ev.call ≠ .commit .data p.name ∧
      ∀ path data, ev.call ≠ .set path data := by
    intro ev hev
    rcases List.mem_append.1 hev with h1 | h1
    · rw [(handlerEvents_mem h1).1]
      simp [Event.call]
    · have := isUnwind_calls (hBu ev h1)
      exact ⟨this.2.2.2.1, this.2.2.2.2.1 _ _, this.2.2.1⟩
  refine ⟨hresult, (iteration_caught hresult).2.2, ⟨A ++ pre, B, hshape,
    fun ev hev => (hpre0 ev hev).1, hBu, fun ev hev => (hpost0 ev hev).1⟩, ?_, ?_, ?_, ?_⟩
  · intro ev hev
    rw [hshape] at hev
    simp only [List.mem_append, List.mem_cons] at hev
    rcases hev with h1 | rfl | h1
    · exact (hpre0 ev (List.mem_append.2 h1)).2.2.1
    · simp [Event.call]
    · exact (hpost0 ev (List.mem_append.2 h1)).2.1
  · intro ev hev
    rw [hshape] at hev
    simp only [List.mem_append, List.mem_cons] at hev
    rcases hev with h1 | rfl | h1
    · exact (hpre0 ev (List.mem_append.2 h1)).2.2.2
    · simp [Event.call]
    · exact (hpost0 ev (List.mem_append.2 h1)).2.2
  · intro he
    rw [hshape]
    have h1 : (A ++ pre).count (Event.ok (.enqueuePartForCheck p.name)) = 0 := by
      apply List.count_eq_zero_of_not_mem
      intro hm
      exact (hpre0 _ hm).2.1 p.name rfl
    have h2 : B.count (Event.ok (.enqueuePartForCheck p.name)) = 0 := by
      apply List.count_eq_zero_of_not_mem
      intro hm
      have := (isUnwind_calls (hBu _ hm)).2.1
      simp [Event.call, Call.isPartCall] at this
    rw [List.count_append, h1, List.count_cons, List.count_append, h2]
    simp [handlerEvents, he]
  · intro he ev hev n
    rw [hshape] at hev
    simp only [List.mem_append, List.mem_cons] at hev
    rcases hev with h1 | rfl | h1 | h1
    · exact (hpre0 ev (List.mem_append.2 h1)).2.1 n
    · simp [Event.call]
    · exact absurd (handlerEvents_mem h1).2 he
    · intro hc
      have := (isUnwind_calls (hBu ev h1)).2.1
      rw [hc] at this
      simp [Call.isPartCall] at this

theorem C2_multi_update_failure_aborts_pass_witness :
    (Example.world.storage.data.data_parts.map DataPart.name).Nodup ∧
    Event.threw (.multi (partOps Example.world.storage.replica_path Example.P2
      Example.transaction6)) (.KeeperException ZNONODE) ∈
      (iteration Example.env Example.world).trace ∧
    (iteration Example.env Example.world).result = .ok (some (.KeeperException ZNONODE)) ∧
    (iteration Example.env Example.world).trace.count
      (.ok (.enqueuePartForCheck Example.P2.name)) = 1 :=
  ⟨by decide, by decide,
    (C2_multi_update_failure_aborts_pass Example.env Example.world (by decide)
      Example.P2 Example.transaction6 (.KeeperException ZNONODE) (by decide)).1,
    (C2_multi_update_failure_aborts_pass Example.env Example.world (by decide)
      Example.P2 Example.transaction6 (.KeeperException ZNONODE)
      (by decide)).2.2.2.2.2.1 rfl⟩

/-- C3: when a call raises in a pass, the exception is caught by the `catch`
block of the loop body, which sets `force_recheck_parts` and waits with the
timeout `ALTER_ERROR_SLEEP_MS = 10 * 1000`; the loop goes on with the next
turn and never lets an exception out.  `run` starts the loop with
`force_recheck_parts` set.  The pass that follows a pass that raised, when it
completes, has called `alterDataPart` for every part of the primary store and
for every part of the non-replicated store (lines 203-219), whatever version
it fetched. -/
theorem C3_exception_is_caught_and_forces_recheck (env env2 : Env) (w : World)
    (c : Call) (e : Exc) (h : Event.threw c e ∈ (iteration env w).trace) :
    (iteration env w).result = .ok (some e) ∧
    (iteration env w).world.force_recheck_parts = true ∧
    (iteration env w).trace = (reconcile env w).trace ++
      [.ok .tryLogCurrentException, .ok (.assign_force_recheck_parts true),
        .ok (.tryWait ALTER_ERROR_SLEEP_MS)] ∧
    ALTER_ERROR_SLEEP_MS = 10 * 1000 ∧
    (∀ envs, w.need_stop = false →
      (loop (env :: envs) w).trace =
        (iteration env w).trace ++ (loop envs (iteration env w).world).trace ∧
      ∃ b, (loop (env :: envs) w).result = .ok b) ∧
    (∀ envs w0, run envs w0 = loop envs { w0 with force_recheck_parts := true }) ∧
    ((iteration env2 (iteration env w).world).result = .ok none →
      (∀ p ∈ (iteration env w).world.storage.data.data_parts, ∃ cols t,
        Event.returned (.alterDataPart .data p.name cols) t ∈
          (iteration env2 (iteration env w).world).trace) ∧
      (∀ u, (iteration env w).world.storage.unreplicated_data = some u →
        ∀ p ∈ u.data_parts, ∃ cols t,
          Event.returned (.alterDataPart .unreplicated_data p.name cols) t ∈
            (iteration env2 (iteration env w).world).trace)) := by
  have hrec : (reconcile env w).result = .error e :=
    threw_mem_exc (iteration_threw_mem h rfl)
  have hres : (iteration env w).result = .ok (some e) := by
    rw [iteration_apply, hrec]
  have hc := iteration_caught hres
  refine ⟨hres, hc.2.2, hc.2.1, rfl, ?_, ?_, ?_⟩
  · intro envs hs
    exact ⟨(loop_cons hs).1, loop_never_raises _ _⟩
  · intro envs w0
    rfl
  · intro h2
    exact ⟨iteration_ok_all_parts hc.2.2 h2, iteration_ok_all_unreplicated_parts hc.2.2 h2⟩

theorem C3_exception_is_caught_and_forces_recheck_witness :
    Event.threw (.set "/t/replicas/r1/columns" "v6") (.KeeperException (-4)) ∈
      (iteration Example.envSetFails Example.worldFull).trace ∧
    (iteration Example.envSetFails Example.worldFull).world.storage.columns_version = 6 ∧
    (iteration Example.env
      (iteration Example.envSetFails Example.worldFull).world).result = .ok none ∧
    (∀ p ∈ (iteration Example.envSetFails Example.worldFull).world.storage.data.data_parts,
      ∃ cols t, Event.returned (.alterDataPart .data p.name cols) t ∈
        (iteration Example.env
          (iteration Example.envSetFails Example.worldFull).world).trace) ∧
    Event.threw (.set "/t/replicas/r1/columns" "v6") (.KeeperException (-4)) ∈
      (iteration Example.envSetFails Example.worldUnreplicated).trace ∧
    (iteration Example.envSetFails Example.worldUnreplicated).world.storage.columns_version
      = 6 ∧
    ((iteration Example.envSetFails Example.worldUnreplicated).world.storage.unreplicated_data.map
      fun u => u.data_parts.map DataPart.name) = some ["U1"] ∧
    Event.returned (.alterDataPart .unreplicated_data "U1" Example.schema6.columns) none ∈
      (iteration Example.env
        (iteration Example.envSetFails Example.worldUnreplicated).world).trace ∧
    (∀ u, (iteration Example.envSetFails
        Example.worldUnreplicated).world.storage.unreplicated_data = some u →
      ∀ p ∈ u.data_parts, ∃ cols t,
        Event.returned (.alterDataPart .unreplicated_data p.name cols) t ∈
          (iteration Example.env
            (iteration Example.envSetFails Example.worldUnreplicated).world).trace) :=
  ⟨by decide, by decide, rfl,
    ((C3_exception_is_caught_and_forces_recheck Example.envSetFails Example.env
      Example.worldFull (.set "/t/replicas/r1/columns" "v6") (.KeeperException (-4))
      (by decide)).2.2.2.2.2.2 rfl).1,
    by decide, by decide, by decide, by decide,
    ((C3_exception_is_caught_and_forces_recheck Example.envSetFails Example.env
      Example.worldUnreplicated (.set "/t/replicas/r1/columns" "v6") (.KeeperException (-4))
      (by decide)).2.2.2.2.2.2 rfl).2⟩

/-- C4: whatever versions were published to the shared columns node before,
a pass that fetches the blob `blob` with version `vn`, finds `vn` different
from `columns_version` or `force_recheck_parts` set, and completes without an
exception, ends with `columns_version = vn`, with the replica's own columns
node holding `blob`, with `force_recheck_parts` cleared, and with every
transaction returned for a part of the primary store followed at once by its
multi-update and its `commit`, both returning. -/
theorem C4_completed_pass_converges (env : Env) (w : World) (vs : List Int) (vn : Int)
    (blob : String) (_hvs : vs.Chain' (· < ·)) (_hlast : vs.getLast? = some vn)
    (hnode : w.zookeeper.lookup (w.storage.zookeeper_path ++ "/columns") = some ⟨blob, vn⟩)
    (hok : (iteration env w).result = .ok none)
    (hc : vn ≠ w.storage.columns_version ∨ w.force_recheck_parts = true) :
    (iteration env w).world.storage.columns_version = vn ∧
    (∃ ver, (iteration env w).world.zookeeper.lookup
      ((iteration env w).world.storage.replica_path ++ "/columns") = some ⟨blob, ver⟩) ∧
    (∀ pre post n c t, (iteration env w).trace =
        pre ++ Event.returned (.alterDataPart .data n c) (some t) :: post →
      ∃ p post1, p ∈ w.storage.data.data_parts ∧ p.name = n ∧
        post = .ok (.multi (partOps w.storage.replica_path p t)) ::
          .ok (.commit .data n) :: post1) ∧
    (iteration env w).world.force_recheck_parts = false := by
  have hi := iteration_ok hok
  have hr := reconcile_ok hi.1 hnode hc
  rw [hi.2.2]
  refine ⟨hr.1, hr.2.2, ?_, hr.2.1⟩
  obtain ⟨x, hres, A, PA, B, cols, ps, y, htr, hP, hA, hB, hy, hps, _⟩ := iteration_spine env w
  have hx : x = none := by
    rw [hok] at hres
    simp only [Except.ok.injEq] at hres
    exact hres.symm
  have hyn : y = none := by
    by_contra hne
    have := (hy hne).1
    rw [hx] at this
    exact hne this.symm
  subst hyn
  intro pre post n c t h
  rw [htr] at h
  have hnA : Event.returned (.alterDataPart .data n c) (some t) ∉ A := fun hm => by
    have := isEarly_not_part (hA _ hm)
    simp [Event.call, Call.isPartCall] at this
  have hnB : Event.returned (.alterDataPart .data n c) (some t) ∉ B := fun hm => by
    have := isLate_not_part (hB _ hm)
    simp [Event.call, Call.isPartCall] at this
  obtain ⟨pre1, post1, h1, _, h3⟩ := mem_middle h hnA hnB
  obtain ⟨p, post2, hp, hn, hpost⟩ := partsTrace_committed hP pre1 post1 n c t h1
  refine ⟨p, post2 ++ B, ?_, hn, by rw [h3, hpost]; simp⟩
  rcases hps with rfl | rfl
  · simp at hp
  · exact hp

theorem C4_completed_pass_converges_witness :
    [5, 6].Chain' (· < ·) ∧ [5, 6].getLast? = some (6 : Int) ∧
    Example.worldFull.zookeeper.lookup (Example.worldFull.storage.zookeeper_path ++ "/columns") =
      some ⟨"v6", 6⟩ ∧
    (iteration Example.env Example.worldFull).result = .ok none ∧
    (6 ≠ Example.worldFull.storage.columns_version ∨
      Example.worldFull.force_recheck_parts = true) ∧
    (iteration Example.env Example.worldFull).world.storage.columns_version = 6 ∧
    (iteration Example.env Example.worldFull).world.force_recheck_parts = false :=
  ⟨by simp, by decide, by decide, rfl, by decide,
    (C4_completed_pass_converges Example.env Example.worldFull [5, 6] 6 "v6" (by simp)
      (by decide) (by decide) rfl (by decide)).1,
    (C4_completed_pass_converges Example.env Example.worldFull [5, 6] 6 "v6" (by simp)
      (by decide) (by decide) rfl (by decide)).2.2.2⟩


/-- C5: when the structural update returns, each of the four components in
memory (of the primary store, and of the table when it agreed with the store
before) is the parsed one; its trace ends with the release of the exclusive
lock; a component that did not differ is not assigned and one that differed is.
When the fetched version is `columns_version`, the pass has no event of the
structural update and leaves the schema in memory, the catalog and
`columns_version` as they were.  A completed pass that fetched another version
ends with the four parsed components in memory. -/
theorem C5_structural_update_assigns_what_differs (env : Env) (w : World)
    (d : ColumnsDescription) (v : Int) (blob : String) :
    (∀ ps, (structuralUpdate env d v w).result = .ok ps →
      ((structuralUpdate env d v w).world.storage.data.columns = d.columns ∧
        (structuralUpdate env d v w).world.storage.data.materialized_columns = d.materialized ∧
        (structuralUpdate env d v w).world.storage.data.alias_columns = d.alias_ ∧
        (structuralUpdate env d v w).world.storage.data.column_defaults = d.defaults) ∧
      ((w.storage.materialized_columns = w.storage.data.materialized_columns →
          (structuralUpdate env d v w).world.storage.materialized_columns = d.materialized) ∧
        (w.storage.alias_columns = w.storage.data.alias_columns →
          (structuralUpdate env d v w).world.storage.alias_columns = d.alias_) ∧
        (w.storage.column_defaults = w.storage.data.column_defaults →
          (structuralUpdate env d v w).world.storage.column_defaults = d.defaults)) ∧
      (∃ body, (structuralUpdate env d v w).trace =
        body ++ [.ok (.release .table_lock_for_alter),
          .ok (.release .temporarily_stop_part_checks)]) ∧
      ((d.columns = w.storage.data.columns →
          ∀ ev ∈ (structuralUpdate env d v w).trace, ∀ st c, ev.call ≠ .setColumnsList st c) ∧
        (d.materialized = w.storage.data.materialized_columns →
          ∀ ev ∈ (structuralUpdate env d v w).trace, ∀ c,
            ev.call ≠ .assign_materialized_columns c) ∧
        (d.alias_ = w.storage.data.alias_columns →
          ∀ ev ∈ (structuralUpdate env d v w).trace, ∀ c, ev.call ≠ .assign_alias_columns c) ∧
        (d.defaults = w.storage.data.column_defaults →
          ∀ ev ∈ (structuralUpdate env d v w).trace, ∀ c,
            ev.call ≠ .assign_column_defaults c)) ∧
      ((d.columns ≠ w.storage.data.columns →
          Event.ok (.setColumnsList .data d.columns) ∈ (structuralUpdate env d v w).trace) ∧
        (d.materialized ≠ w.storage.data.materialized_columns →
          Event.ok (.assign_materialized_columns d.materialized) ∈
            (structuralUpdate env d v w).trace) ∧
        (d.alias_ ≠ w.storage.data.alias_columns →
          Event.ok (.assign_alias_columns d.alias_) ∈ (structuralUpdate env d v w).trace) ∧
        (d.defaults ≠ w.storage.data.column_defaults →
          Event.ok (.assign_column_defaults d.defaults) ∈
            (structuralUpdate env d v w).trace))) ∧
    (w.zookeeper.lookup (w.storage.zookeeper_path ++ "/columns") =
        some ⟨blob, w.storage.columns_version⟩ →
      structural (iteration env w).trace = [] ∧ (iteration env w).world.schema = w.schema) ∧
    (w.zookeeper.lookup (w.storage.zookeeper_path ++ "/columns") = some ⟨blob, v⟩ →
      env.parse blob = .ok d → v ≠ w.storage.columns_version →
      (iteration env w).result = .ok none →
      (iteration env w).world.storage.data.columns = d.columns ∧
      (iteration env w).world.storage.data.materialized_columns = d.materialized ∧
      (iteration env w).world.storage.data.alias_columns = d.alias_ ∧
      (iteration env w).world.storage.data.column_defaults = d.defaults) := by
  refine ⟨?_, ?_, ?_⟩
  · intro ps h
    have hc := structuralUpdate_components h
    have hm := structuralUpdate_mem_of_ok h
    obtain ⟨_, _, h3, _, _⟩ := structuralUpdate_of_ok h
    refine ⟨by rw [hc]; exact ⟨rfl, rfl, rfl, rfl⟩, ?_,
      ⟨.ok .temporarilyStop :: .ok .lockStructureForAlter ::
        ((applyChanges env d (w.locked env)).trace ++
          [.ok (.getDataParts .data), .ok (.assign_columns_version v)]),
        by rw [h3]; simp⟩, ?_, ?_⟩
    · rw [hc]
      refine ⟨fun h => ?_, fun h => ?_, fun h => ?_⟩
      · by_cases hd : d.materialized = w.storage.data.materialized_columns
        · simp [assigned, hd, h]
        · simp [assigned, hd]
      · by_cases hd : d.alias_ = w.storage.data.alias_columns
        · simp [assigned, hd, h]
        · simp [assigned, hd]
      · by_cases hd : d.defaults = w.storage.data.column_defaults
        · simp [assigned, hd, h]
        · simp [assigned, hd]
    · refine ⟨fun h => ?_, fun h => ?_, fun h => ?_, fun h => ?_⟩ <;>
      · intro ev hev
        rw [hm ev, mem_assignEvents] at hev
        rcases hev with rfl | rfl | ⟨_, rfl⟩ | hev | ⟨_, st, hst⟩ | rfl | rfl | rfl | rfl
        · simp [Event.call]
        · simp [Event.call]
        · simp [Event.call]
        · rcases hev with ⟨h1, h2⟩ | ⟨h1, rfl⟩ | ⟨h1, rfl⟩ | ⟨h1, rfl⟩
          · first
            | exact absurd h h1
            | (rcases h2 with rfl | ⟨_, rfl⟩ <;> simp [Event.call])
          · first
            | exact absurd h h1
            | simp [Event.call]
          · first
            | exact absurd h h1
            | simp [Event.call]
          · first
            | exact absurd h h1
            | simp [Event.call]
        · simp [hst]
        · simp [Event.call]
        · simp [Event.call]
        · simp [Event.call]
        · simp [Event.call]
    · refine ⟨fun h => ?_, fun h => ?_, fun h => ?_, fun h => ?_⟩ <;>
      · rw [hm, mem_assignEvents]
        simp [h]
  · intro hnode
    have := @reconcile_unchanged env _ _ hnode
    exact ⟨by rw [iteration_structural]; exact this.1, iteration_schema_of_reconcile this.2⟩
  · intro hnode hparse hv hok
    have hi := iteration_ok hok
    rw [hi.2.2]
    exact reconcile_changed_ok hi.1 hnode hparse hv

theorem C5_structural_update_assigns_what_differs_witness :
    (structuralUpdate Example.env Example.schema6 6 Example.worldFull).result =
      .ok [Example.P1, Example.P2] ∧
    Example.schema6.columns ≠ Example.worldFull.storage.data.columns ∧
    Example.schema6.alias_ = Example.worldFull.storage.data.alias_columns ∧
    (structuralUpdate Example.env Example.schema6 6 Example.worldFull).world.storage.data.columns =
      Example.schema6.columns ∧
    Event.ok (.setColumnsList .data Example.schema6.columns) ∈
      (structuralUpdate Example.env Example.schema6 6 Example.worldFull).trace ∧
    (∀ ev ∈ (structuralUpdate Example.env Example.schema6 6 Example.worldFull).trace,
      ∀ c, ev.call ≠ .assign_alias_columns c) :=
  ⟨rfl, by decide, by decide,
    ((C5_structural_update_assigns_what_differs Example.env Example.worldFull Example.schema6 6
      "v6").1 _ rfl).1.1,
    ((C5_structural_update_assigns_what_differs Example.env Example.worldFull Example.schema6 6
      "v6").1 _ rfl).2.2.2.2.1 (by decide),
    ((C5_structural_update_assigns_what_differs Example.env Example.worldFull Example.schema6 6
      "v6").1 _ rfl).2.2.2.1.2.2.1 (by decide)⟩


/-- C6 (amended): a pass that fetches another version while the four parsed
components equal the ones in memory does not call `alterTable`, assigns no
component and does not re-initialise the primary key; the schema in memory and
the catalog stay as they were and `columns_version` is the old or the fetched
version.  If the pass completes, `columns_version` is the fetched version, but
the update of the parts has run all the same: `alterDataPart` was called for
every part of the primary store, the replica's columns node was set to the
fetched blob, and `force_recheck_parts` is cleared. -/
theorem C6_version_bump_keeps_schema_but_updates_parts (env : Env) (w : World)
    (d : ColumnsDescription) (v : Int) (blob : String)
    (hnode : w.zookeeper.lookup (w.storage.zookeeper_path ++ "/columns") = some ⟨blob, v⟩)
    (hparse : env.parse blob = .ok d) (hv : v ≠ w.storage.columns_version)
    (h1 : d.columns = w.storage.data.getColumnsListNonMaterialized)
    (h2 : d.materialized = w.storage.data.materialized_columns)
    (h3 : d.alias_ = w.storage.data.alias_columns)
    (h4 : d.defaults = w.storage.data.column_defaults) :
    (∀ ev ∈ (iteration env w).trace,
      (∀ d1, ev.call ≠ .alterTable d1) ∧ (∀ st c, ev.call ≠ .setColumnsList st c) ∧
      (∀ c, ev.call ≠ .assign_materialized_columns c) ∧
      (∀ c, ev.call ≠ .assign_alias_columns c) ∧
      (∀ c, ev.call ≠ .assign_column_defaults c) ∧ (∀ st, ev.call ≠ .initPrimaryKey st) ∧
      (∀ v1, ev.call = .assign_columns_version v1 → v1 = v)) ∧
    (iteration env w).world.layout = w.layout ∧
    ((iteration env w).world.storage.columns_version = w.storage.columns_version ∨
      (iteration env w).world.storage.columns_version = v) ∧
    ((iteration env w).result = .ok none →
      (iteration env w).world.storage.columns_version = v ∧
      (iteration env w).world.force_recheck_parts = false ∧
      Event.ok (.set (w.storage.replica_path ++ "/columns") blob) ∈ (iteration env w).trace ∧
      (∃ ver, (iteration env w).world.zookeeper.lookup
        (w.storage.replica_path ++ "/columns") = some ⟨blob, ver⟩) ∧
      (∀ p ∈ w.storage.data.data_parts, ∃ cols t,
        Event.returned (.alterDataPart .data p.name cols) t ∈ (iteration env w).trace)) := by
  have hd : differs d w = false := by
    simp only [MergeTreeData.getColumnsListNonMaterialized] at h1
    simp [differs, MergeTreeData.getColumnsListNonMaterialized, h1, h2, h3, h4]
  obtain ⟨hsch, hev⟩ := reconcile_of_same hnode hparse hv hd
  rw [← iteration_schema] at hsch
  refine ⟨?_, ?_, ?_, ?_⟩
  · intro ev hmem
    have key : ev.call.isStructural = true →
        ev.call ∈ [Call.temporarilyStop, .lockStructureForAlter, .assign_columns_version v,
          .release .table_lock_for_alter, .release .temporarily_stop_part_checks] :=
      fun hs => hev ev (iteration_mem_structural hmem hs) hs
    refine ⟨?_, ?_, ?_, ?_, ?_, ?_, ?_⟩
    · intro d1 hc
      have := key (by rw [hc]; rfl)
      rw [hc] at this
      simp at this
    · intro st c hc
      have := key (by rw [hc]; rfl)
      rw [hc] at this
      simp at this
    · intro c hc
      have := key (by rw [hc]; rfl)
      rw [hc] at this
      simp at this
    · intro c hc
      have := key (by rw [hc]; rfl)
      rw [hc] at this
      simp at this
    · intro c hc
      have := key (by rw [hc]; rfl)
      rw [hc] at this
      simp at this
    · intro st hc
      have := key (by rw [hc]; rfl)
      rw [hc] at this
      simp at this
    · intro v1 hc
      have := key (by rw [hc]; rfl)
      rw [hc] at this
      simpa using this
  · rcases hsch with h | h
    · rw [World.layout, h]
      rfl
    · rw [World.layout, h]
  · rcases hsch with h | h
    · exact Or.inl (congrArg Prod.fst h)
    · exact Or.inr (congrArg Prod.fst h)
  · intro hok
    have hi := iteration_ok hok
    have hr := reconcile_ok hi.1 hnode (Or.inl hv)
    obtain ⟨c, ps, w2, hp, hres, hm⟩ := reconcile_ok_updateParts hi.1 hnode (Or.inl hv)
    have hset := hm _ (updateParts_ok_set hres)
    have hlock := hm _ (updateParts_ok_lock hres)
    have hrp : (reconcile env w).world.storage.replica_path = w.storage.replica_path := by
      have h := hsch
      rw [iteration_schema] at h
      rcases h with h | h
      · exact congrArg (fun x => x.2.2.1) h
      · exact congrArg (fun x => x.2.2.1) h
    rw [hi.2.2, hi.2.1]
    rw [hp] at hset
    rw [hrp] at hr
    refine ⟨hr.1, hr.2.1, hset, hr.2.2, ?_⟩
    rw [← hi.2.1]
    exact iteration_ok_all_parts_of_lock (by rw [hi.2.1]; exact hlock) hok

theorem C6_version_bump_keeps_schema_but_updates_parts_witness :
    (iteration Example.env Example.worldCyclic).result = .ok none ∧
    (iteration Example.env Example.worldCyclic).world.layout = Example.worldCyclic.layout ∧
    (iteration Example.env Example.worldCyclic).world.storage.columns_version = 7 ∧
    Event.ok (.set (Example.worldCyclic.storage.replica_path ++ "/columns") "v5") ∈
      (iteration Example.env Example.worldCyclic).trace :=
  ⟨rfl,
    (C6_version_bump_keeps_schema_but_updates_parts Example.env Example.worldCyclic
      Example.schema5 7 "v5" (by decide) rfl (by decide) (by decide) (by decide) (by decide)
      (by decide)).2.1,
    ((C6_version_bump_keeps_schema_but_updates_parts Example.env Example.worldCyclic
      Example.schema5 7 "v5" (by decide) rfl (by decide) (by decide) (by decide) (by decide)
      (by decide)).2.2.2 rfl).1,
    ((C6_version_bump_keeps_schema_but_updates_parts Example.env Example.worldCyclic
      Example.schema5 7 "v5" (by decide) rfl (by decide) (by decide) (by decide) (by decide)
      (by decide)).2.2.2 rfl).2.2.1⟩

/-- C6 as stated fails: the shared node is at version 7 with the blob of
version 5, the table is at version 5 and the four parsed components equal the
ones in memory.  With the stale part `P3` the pass makes a transaction for it,
writes its nodes and commits it; with every part in the current layout it still
sets the replica's columns node.  In both the coordination store differs after
the pass, so more than `columns_version` has changed. -/
theorem C6_version_bump_still_touches_parts_and_store :
    (Example.worldCyclicStale.zookeeper.lookup
        (Example.worldCyclicStale.storage.zookeeper_path ++ "/columns") = some ⟨"v5", 7⟩ ∧
      Example.env.parse "v5" = .ok Example.schema5 ∧
      (7 : Int) ≠ Example.worldCyclicStale.storage.columns_version ∧
      Example.schema5.columns =
        Example.worldCyclicStale.storage.data.getColumnsListNonMaterialized ∧
      Example.schema5.materialized = Example.worldCyclicStale.storage.data.materialized_columns ∧
      Example.schema5.alias_ = Example.worldCyclicStale.storage.data.alias_columns ∧
      Example.schema5.defaults = Example.worldCyclicStale.storage.data.column_defaults) ∧
    (iteration Example.env Example.worldCyclicStale).result = .ok none ∧
    Event.returned (.alterDataPart .data "P3" Example.schema5.columns)
        (some ⟨Example.schema5.columns, "cols", "sums"⟩) ∈
      (iteration Example.env Example.worldCyclicStale).trace ∧
    Event.ok (.multi [⟨"/t/replicas/r1/parts/P3/columns", "cols", -1⟩,
        ⟨"/t/replicas/r1/parts/P3/checksums", "sums", -1⟩]) ∈
      (iteration Example.env Example.worldCyclicStale).trace ∧
    Event.ok (.commit .data "P3") ∈ (iteration Example.env Example.worldCyclicStale).trace ∧
    (iteration Example.env Example.worldCyclicStale).world.storage.data.data_parts ≠
      Example.worldCyclicStale.storage.data.data_parts ∧
    (iteration Example.env Example.worldCyclicStale).world.zookeeper ≠
      Example.worldCyclicStale.zookeeper ∧
    (iteration Example.env Example.worldCyclicStale).world ≠
      { Example.worldCyclicStale with
        storage := { Example.worldCyclicStale.storage with columns_version := 7 } } ∧
    (Example.worldCyclic.zookeeper.lookup
        (Example.worldCyclic.storage.zookeeper_path ++ "/columns") = some ⟨"v5", 7⟩ ∧
      (7 : Int) ≠ Example.worldCyclic.storage.columns_version ∧
      Example.schema5.columns = Example.worldCyclic.storage.data.getColumnsListNonMaterialized ∧
      Example.schema5.materialized = Example.worldCyclic.storage.data.materialized_columns ∧
      Example.schema5.alias_ = Example.worldCyclic.storage.data.alias_columns ∧
      Example.schema5.defaults = Example.worldCyclic.storage.data.column_defaults) ∧
    Event.ok (.set "/t/replicas/r1/columns" "v5") ∈
      (iteration Example.env Example.worldCyclic).trace ∧
    (iteration Example.env Example.worldCyclic).world ≠
      { Example.worldCyclic with
        storage := { Example.worldCyclic.storage with columns_version := 7 } } := by
  refine ⟨⟨by decide, rfl, by decide, by decide, by decide, by decide, by decide⟩, rfl,
    by decide, by decide, by decide, by decide, by decide, by decide,
    ⟨by decide, by decide, by decide, by decide, by decide, by decide⟩, by decide, by decide⟩


/-- C7: after a pass that completed, a second pass that finds the shared
columns node as the first one did (and whose three calls of the fetch do not
fail) completes too, consists of the fetch and the wait only (no merge blocker,
no lock, no `alterTable`, no `alterDataPart`, no write to the coordination
store, no assignment) and leaves the state, `columns_version` included, as the
first pass left it; only `need_stop` may have been set by a stop request. -/
theorem C7_second_pass_is_a_no_op (env env2 : Env) (w : World) (blob : String) (v : Int)
    (d2 : ColumnsDescription)
    (hnode : w.zookeeper.lookup (w.storage.zookeeper_path ++ "/columns") = some ⟨blob, v⟩)
    (hok : (iteration env w).result = .ok none)
    (hnode2 : (iteration env w).world.zookeeper.lookup (w.storage.zookeeper_path ++ "/columns") =
      some ⟨blob, v⟩)
    (hz : env2.fault .getZooKeeper = none)
    (hg : env2.fault (.get (w.storage.zookeeper_path ++ "/columns")) = none)
    (hp : env2.fault (.parse blob) = none)
    (hparse2 : env2.parse blob = .ok d2) :
    (iteration env2 (iteration env w).world).result = .ok none ∧
    (iteration env2 (iteration env w).world).trace =
      [.ok .getZooKeeper, .ok (.get (w.storage.zookeeper_path ++ "/columns")),
        .ok (.parse blob), .ok .wait] ∧
    (iteration env2 (iteration env w).world).world =
      { (iteration env w).world with
        need_stop := (iteration env2 (iteration env w).world).world.need_stop } ∧
    (iteration env2 (iteration env w).world).world.storage.columns_version =
      (iteration env w).world.storage.columns_version := by
  have hi := iteration_ok hok
  have hset := reconcile_ok_settled hi.1 hnode
  have hheld := reconcile_ok_held hi.1
  have hpath := reconcile_paths env w
  simp only [Keeps, Prod.mk.injEq] at hpath
  rw [← hi.2.2] at hset hheld hpath
  generalize (iteration env w).world = w1 at hset hheld hpath hnode2 ⊢
  rw [← hpath.1] at hnode2 hg ⊢
  obtain ⟨hfr, hft⟩ := fetch_of_none hz hg hp hnode2 hparse2
  rw [← hset.1] at hfr
  have hid := reconcile_idle hfr hset.2
  obtain ⟨hheld2, htr⟩ := hid.2.2.2.2.2 hheld
  have key : iteration env2 w1 = ⟨(reconcile env2 w1).trace, (reconcile env2 w1).world,
      .ok none⟩ := by
    rw [iteration_apply, hid.1]
  rw [key]
  refine ⟨rfl, ?_, ?_, ?_⟩
  · show (reconcile env2 w1).trace = _
    rw [htr, hft]
    rfl
  · show (reconcile env2 w1).world = { w1 with need_stop := (reconcile env2 w1).world.need_stop }
    exact World.eq_of_fields hid.2.1 hid.2.2.1 hid.2.2.2.1 (by rw [hid.2.2.2.2.1, hset.2]) hheld2
  · show (reconcile env2 w1).world.storage.columns_version = _
    rw [hid.2.1]

theorem C7_second_pass_is_a_no_op_witness :
    (iteration Example.env Example.worldFull).result = .ok none ∧
    (iteration Example.env (iteration Example.env Example.worldFull).world).result = .ok none ∧
    (iteration Example.env (iteration Example.env Example.worldFull).world).trace =
      [.ok .getZooKeeper, .ok (.get (Example.worldFull.storage.zookeeper_path ++ "/columns")),
        .ok (.parse "v6"), .ok .wait] :=
  ⟨rfl,
    (C7_second_pass_is_a_no_op Example.env Example.env Example.worldFull "v6" 6 Example.schema6
      (by decide) rfl (by decide) rfl rfl rfl rfl).1,
    (C7_second_pass_is_a_no_op Example.env Example.env Example.worldFull "v6" 6 Example.schema6
      (by decide) rfl (by decide) rfl rfl rfl rfl).2.1⟩


/-- C8 (amended): in every pass, a transaction returned for a part of the
primary store is followed at once by the multi-update that sets the part's
`/columns` and `/checksums` nodes to the blobs of the transaction, and the
call of its `commit` comes right after that multi-update returned (when it
raised, no `commit` is called any more); a transaction returned for a part of
the non-replicated store is followed at once by the call of its `commit`,
without a multi-update; and every multi-update of the pass is the one of a
part of the primary store. -/
theorem C8_primary_multi_then_commit_unreplicated_commit_only (env : Env) (w : World) :
    (∀ pre post n c t, (iteration env w).trace =
        pre ++ Event.returned (.alterDataPart .data n c) (some t) :: post →
      ∃ p, p ∈ w.storage.data.data_parts ∧ p.name = n ∧
        ((∃ ev post1, post = .ok (.multi (partOps w.storage.replica_path p t)) :: ev :: post1 ∧
            ev.call = .commit .data n) ∨
          (∃ e post1, post = .threw (.multi (partOps w.storage.replica_path p t)) e :: post1 ∧
            ∀ ev ∈ post1, ∀ st m, ev.call ≠ .commit st m))) ∧
    (∀ pre post n c t, (iteration env w).trace =
        pre ++ Event.returned (.alterDataPart .unreplicated_data n c) (some t) :: post →
      ∃ ev post1, post = ev :: post1 ∧ ev.call = .commit .unreplicated_data n) ∧
    (∀ ev ∈ (iteration env w).trace, ∀ ops, ev.call = .multi ops →
      ∃ p, p ∈ w.storage.data.data_parts ∧ ∃ t, ops = partOps w.storage.replica_path p t) := by
  obtain ⟨x, _, A, PA, B, cols, ps, y, htr, hP, hA, hB, hy, hps, _⟩ := iteration_spine env w
  have hsub : ∀ q ∈ ps, q ∈ w.storage.data.data_parts := by
    intro q hq
    rcases hps with rfl | rfl
    · simp at hq
    · exact hq
  refine ⟨?_, commitsAtOnce_iteration env w, ?_⟩
  · intro pre post n c t h
    rw [htr] at h
    have hnA : Event.returned (.alterDataPart .data n c) (some t) ∉ A := fun hm => by
      have := isEarly_not_part (hA _ hm)
      simp [Event.call, Call.isPartCall] at this
    have hnB : Event.returned (.alterDataPart .data n c) (some t) ∉ B := fun hm => by
      have := isLate_not_part (hB _ hm)
      simp [Event.call, Call.isPartCall] at this
    obtain ⟨pre1, post1, h1, _, h3⟩ := mem_middle h hnA hnB
    obtain ⟨p, hp, hn, hcase⟩ := partsTrace_transaction hP pre1 post1 n c t h1
    refine ⟨p, hsub p hp, hn, ?_⟩
    rcases hcase with ⟨ev, post2, hpost, hev⟩ | ⟨e, hxe, hpost⟩
    · exact Or.inl ⟨ev, post2 ++ B, by rw [h3, hpost]; simp, hev⟩
    · refine Or.inr ⟨e, handlerEvents e n ++ B, by rw [h3, hpost]; simp, ?_⟩
      intro ev hev st m hc
      rcases List.mem_append.1 hev with hm | hm
      · rw [(handlerEvents_mem hm).1] at hc
        simp [Event.call] at hc
      · have hu := (hy (by rw [hxe]; simp)).2 ev hm
        exact (isUnwind_calls hu).2.2.2.2.1 st m hc
  · intro ev hev ops hc
    rw [htr] at hev
    simp only [List.mem_append] at hev
    rcases hev with (h1 | h1) | h1
    · have := hA _ h1
      rw [hc] at this
      simp [Call.isEarly] at this
    · obtain ⟨p, hp, t, ht⟩ := partsTrace_multi_ops hP ev h1 ops hc
      exact ⟨p, hsub p hp, t, ht⟩
    · have := hB _ h1
      rw [hc] at this
      simp [Call.isLate] at this

theorem C8_primary_multi_then_commit_unreplicated_commit_only_witness :
    (iteration Example.env Example.worldUnreplicated).trace =
      (iteration Example.env Example.worldUnreplicated).trace.take 22 ++
        Event.returned (.alterDataPart .unreplicated_data "U1" Example.schema6.columns)
          (some Example.transaction6) ::
        (iteration Example.env Example.worldUnreplicated).trace.drop 23 ∧
    ∃ ev post1, (iteration Example.env Example.worldUnreplicated).trace.drop 23 = ev :: post1 ∧
      ev.call = .commit .unreplicated_data "U1" :=
  ⟨by decide,
    (C8_primary_multi_then_commit_unreplicated_commit_only Example.env
      Example.worldUnreplicated).2.1
      ((iteration Example.env Example.worldUnreplicated).trace.take 22)
      ((iteration Example.env Example.worldUnreplicated).trace.drop 23) "U1"
      Example.schema6.columns Example.transaction6 (by decide)⟩

/-- C8 as stated fails for the non-replicated store: the table has the part
`P1` in the replicated store and `U1` in the non-replicated one, and the
schema goes from version 5 to 6.  The pass completes; the transaction returned
for `U1` is followed at once by its `commit`; the only multi-update of the
pass is the one of `P1`; the coordination store has no node of `U1` before or
after the pass, while `U1` has the new columns. -/
theorem C8_unreplicated_part_committed_without_multi_update :
    (iteration Example.env Example.worldUnreplicated).result = .ok none ∧
    List.IsInfix
      [Event.returned (.alterDataPart .unreplicated_data "U1" Example.schema6.columns)
          (some Example.transaction6),
        Event.ok (.commit .unreplicated_data "U1")]
      (iteration Example.env Example.worldUnreplicated).trace ∧
    (iteration Example.env Example.worldUnreplicated).trace.filter
        (fun ev => match ev.call with
          | .multi _ => true
          | _ => false) =
      [.ok (.multi (partOps "/t/replicas/r1" Example.P1 Example.transaction6))] ∧
    Example.worldUnreplicated.zookeeper.lookup "/t/replicas/r1/parts/U1/columns" = none ∧
    (iteration Example.env Example.worldUnreplicated).world.zookeeper.lookup
      "/t/replicas/r1/parts/U1/columns" = none ∧
    (iteration Example.env Example.worldUnreplicated).world.zookeeper.lookup
      "/t/replicas/r1/parts/U1/checksums" = none ∧
    (iteration Example.env Example.worldUnreplicated).world.storage.unreplicated_data.map
        MergeTreeData.getDataParts =
      some [⟨"U1", Example.schema6.columns, "sums"⟩] := by
  refine ⟨rfl, by decide, by decide, by decide, by decide, by decide, by decide⟩


/-- C9: in a pass that fetched another version while one of the four
components differs, every `alterTable` is called with the fetched description
and has returned before any component in memory is assigned; `columns_version`
is assigned the fetched version after `alterTable`, after the assignment of
every component that differs and after the primary key of the primary store,
and of the non-replicated store if there is one, was initialised again
(lines 133-135); after it no assignment of a component and no initialisation
of a primary key follows, and it comes before the exclusive lock is released.
When `alterTable` raises, the turn ends in the `catch` block, the schema in
memory, the catalog, `columns_version` and the coordination store are
unchanged, so the fetched version still differs from `columns_version` and the
same components differ; a next pass that gets as far as the exclusive lock
calls `alterTable` with the same description again. -/
theorem C9_catalog_first_version_last (env : Env) (w : World) (d : ColumnsDescription)
    (v : Int) (blob : String)
    (hnode : w.zookeeper.lookup (w.storage.zookeeper_path ++ "/columns") = some ⟨blob, v⟩)
    (hparse : env.parse blob = .ok d) (hv : v ≠ w.storage.columns_version)
    (hdiff : d.columns ≠ w.storage.data.getColumnsListNonMaterialized ∨
      d.materialized ≠ w.storage.data.materialized_columns ∨
      d.alias_ ≠ w.storage.data.alias_columns ∨
      d.defaults ≠ w.storage.data.column_defaults) :
    (∀ ev ∈ (iteration env w).trace, ∀ d1, ev.call = .alterTable d1 → d1 = d) ∧
    (∀ pre ev post, (iteration env w).trace = pre ++ ev :: post →
      ev.call.isAssignment = true → Event.ok (.alterTable d) ∈ pre) ∧
    (∀ pre ev post v1, (iteration env w).trace = pre ++ ev :: post →
      ev.call = .assign_columns_version v1 →
      v1 = v ∧ Event.ok (.alterTable d) ∈ pre ∧ Event.ok .lockStructureForAlter ∈ pre ∧
      (∀ e1 ∈ pre, e1.call ≠ .release .table_lock_for_alter) ∧
      (∀ e1 ∈ post, e1.call.isAssignment = false ∧ (∀ st, e1.call ≠ .initPrimaryKey st) ∧
        ∀ d1, e1.call ≠ .alterTable d1)) ∧
    (∀ pre ev post v1, (iteration env w).trace = pre ++ ev :: post →
      ev.call = .assign_columns_version v1 →
      (∀ a ∈ assignEvents d w, a ∈ pre) ∧
      Event.ok (.initPrimaryKey .data) ∈ pre ∧
      (w.storage.unreplicated_data.isSome = true →
        Event.ok (.initPrimaryKey .unreplicated_data) ∈ pre)) ∧
    (∀ e, Event.threw (.alterTable d) e ∈ (iteration env w).trace →
      (iteration env w).result = .ok (some e) ∧
      (iteration env w).world.schema = w.schema ∧
      (iteration env w).world.zookeeper = w.zookeeper ∧
      (iteration env w).world.force_recheck_parts = true ∧
      v ≠ (iteration env w).world.storage.columns_version ∧
      (d.columns ≠ (iteration env w).world.storage.data.getColumnsListNonMaterialized ↔
        d.columns ≠ w.storage.data.getColumnsListNonMaterialized) ∧
      (d.materialized ≠ (iteration env w).world.storage.data.materialized_columns ↔
        d.materialized ≠ w.storage.data.materialized_columns) ∧
      (d.alias_ ≠ (iteration env w).world.storage.data.alias_columns ↔
        d.alias_ ≠ w.storage.data.alias_columns) ∧
      (d.defaults ≠ (iteration env w).world.storage.data.column_defaults ↔
        d.defaults ≠ w.storage.data.column_defaults) ∧
      ∀ env2 : Env, env2.fault .getZooKeeper = none →
        env2.fault (.get (w.storage.zookeeper_path ++ "/columns")) = none →
        env2.fault (.parse blob) = none → env2.parse blob = .ok d →
        env2.fault .lockStructureForAlter = none →
        ∃ ev ∈ (iteration env2 (iteration env w).world).trace, ev.call = .alterTable d) := by
  have hd : differs d w = true := by
    simp only [differs, Bool.or_eq_true, decide_eq_true_eq]
    tauto
  refine ⟨changed_alterTable_arg hnode hparse hv hd,
    changed_assignment_after_alterTable hnode hparse hv hd,
    changed_version_last hnode hparse hv hd, ?_, ?_⟩
  · intro pre ev post v1 htr hc
    obtain ⟨ha, hi⟩ := changed_version_after_init hnode hparse hv hd pre ev post v1 htr hc
    refine ⟨ha, hi _ (by simp [initEvents]), fun hu => hi _ (by simp [initEvents, hu])⟩
  intro e he
  obtain ⟨hres, hsch, hzk, hforce⟩ := changed_alterTable_threw hnode hparse hv hd e he
  have hs := hsch
  simp only [World.schema, Prod.mk.injEq] at hs
  obtain ⟨s1, s2, s3, s4, s5, s6, s7, _⟩ := hs
  have hd2 : differs d (iteration env w).world = true := by
    simp only [differs, MergeTreeData.getColumnsListNonMaterialized, s4, s5, s6, s7] at hd ⊢
    exact hd
  refine ⟨hres, hsch, hzk, hforce, by rw [s1]; exact hv, ?_, ?_, ?_, ?_, ?_⟩
  · simp only [MergeTreeData.getColumnsListNonMaterialized, s4]
  · rw [s5]
  · rw [s6]
  · rw [s7]
  · intro env2 hz hg hp hparse2 hl
    have hnode2 : (iteration env w).world.zookeeper.lookup
        ((iteration env w).world.storage.zookeeper_path ++ "/columns") = some ⟨blob, v⟩ := by
      rw [hzk, s2]; exact hnode
    exact changed_calls_alterTable hnode2 hparse2 (by rw [s1]; exact hv) hd2 hz
      (by rw [s2]; exact hg) hp hl

theorem C9_catalog_first_version_last_witness :
    Event.threw (.alterTable Example.schema6) (.Exception "cannot alter") ∈
      (iteration Example.envAlterFails Example.worldFull).trace ∧
    (iteration Example.envAlterFails Example.worldFull).world.schema =
      Example.worldFull.schema ∧
    (∃ ev ∈ (iteration Example.env
        (iteration Example.envAlterFails Example.worldFull).world).trace,
      ev.call = .alterTable Example.schema6) ∧
    (iteration Example.env Example.worldUnreplicated).trace.get? 14 =
      some (.ok (.assign_columns_version 6)) ∧
    (∀ a ∈ assignEvents Example.schema6 Example.worldUnreplicated,
      a ∈ (iteration Example.env Example.worldUnreplicated).trace.take 14) ∧
    Event.ok (.initPrimaryKey .data) ∈
      (iteration Example.env Example.worldUnreplicated).trace.take 14 ∧
    Event.ok (.initPrimaryKey .unreplicated_data) ∈
      (iteration Example.env Example.worldUnreplicated).trace.take 14 :=
  ⟨by decide,
    ((C9_catalog_first_version_last Example.envAlterFails Example.worldFull Example.schema6 6
      "v6" (by decide) rfl (by decide) (Or.inl (by decide))).2.2.2.2 (.Exception "cannot alter")
      (by decide)).2.1,
    ((C9_catalog_first_version_last Example.envAlterFails Example.worldFull Example.schema6 6
      "v6" (by decide) rfl (by decide) (Or.inl (by decide))).2.2.2.2 (.Exception "cannot alter")
      (by decide)).2.2.2.2.2.2.2.2.2 Example.env rfl rfl rfl rfl rfl,
    by decide,
    ((C9_catalog_first_version_last Example.env Example.worldUnreplicated Example.schema6 6
      "v6" (by decide) rfl (by decide) (Or.inl (by decide))).2.2.2.1
      ((iteration Example.env Example.worldUnreplicated).trace.take 14)
      (.ok (.assign_columns_version 6))
      ((iteration Example.env Example.worldUnreplicated).trace.drop 15) 6
      (by decide) rfl).1,
    ((C9_catalog_first_version_last Example.env Example.worldUnreplicated Example.schema6 6
      "v6" (by decide) rfl (by decide) (Or.inl (by decide))).2.2.2.1
      ((iteration Example.env Example.worldUnreplicated).trace.take 14)
      (.ok (.assign_columns_version 6))
      ((iteration Example.env Example.worldUnreplicated).trace.drop 15) 6
      (by decide) rfl).2.1,
    ((C9_catalog_first_version_last Example.env Example.worldUnreplicated Example.schema6 6
      "v6" (by decide) rfl (by decide) (Or.inl (by decide))).2.2.2.1
      ((iteration Example.env Example.worldUnreplicated).trace.take 14)
      (.ok (.assign_columns_version 6))
      ((iteration Example.env Example.worldUnreplicated).trace.drop 15) 6
      (by decide) rfl).2.2 rfl⟩


/-- C10 (amended): the loop over the parts does not look at `need_stop`.  In
every pass, whatever stop request arrives, once a part of the primary store is
done with (its `commit` returned, or `alterDataPart` returned no transaction
for it) the next event is the call of `alterDataPart` for the part that
follows it; a returned transaction is followed at once by its multi-update and,
when that returned, by the call of its `commit`.  A stop request that arrives
during the pass is seen in `need_stop` when the pass ends, and the loop then
ends before the next pass. -/
theorem C10_stop_request_ends_loop_not_part_loop (env : Env) (w : World)
    (hnd : (w.storage.data.data_parts.map DataPart.name).Nodup) :
    (∀ l1 p q l2 pre e post, w.storage.data.data_parts = l1 ++ p :: q :: l2 →
      (iteration env w).trace = pre ++ e :: post →
      (e = .ok (.commit .data p.name) ∨
        ∃ c, e = .returned (.alterDataPart .data p.name c) none) →
      ∃ ev post1, post = ev :: post1 ∧ ∃ c, ev.call = .alterDataPart .data q.name c) ∧
    (∀ pre post n c t, (iteration env w).trace =
        pre ++ Event.returned (.alterDataPart .data n c) (some t) :: post →
      ∃ p, p ∈ w.storage.data.data_parts ∧ p.name = n ∧
        ∃ ev post1, post = ev :: post1 ∧
          ev.call = .multi (partOps w.storage.replica_path p t) ∧
          (ev.isThrew = false →
            ∃ ev2 post2, post1 = ev2 :: post2 ∧ ev2.call = .commit .data n)) ∧
    (∀ ev ∈ (iteration env w).trace, env.stop_after ev.call = true →
      (iteration env w).world.need_stop = true) ∧
    (w.need_stop = false → (iteration env w).world.need_stop = true →
      ∀ envs, (loop (env :: envs) w).trace = (iteration env w).trace ∧
        (loop (env :: envs) w).result = .ok true) := by
  obtain ⟨x, _, A, PA, B, cols, ps, y, htr, hP, hA, hB, hy, hps, _⟩ := iteration_spine env w
  refine ⟨?_, ?_, (stopSeen_iteration env w).2, ?_⟩
  · intro l1 p q l2 pre e post hparts htrace he
    have hpc : e.call.isPartCall = true := by
      rcases he with rfl | ⟨c, rfl⟩ <;> rfl
    rw [htr] at htrace
    have hnA : e ∉ A := fun hm => by
      have := isEarly_not_part (hA e hm)
      rw [hpc] at this
      exact absurd this (by simp)
    have hnB : e ∉ B := fun hm => by
      have := isLate_not_part (hB e hm)
      rw [hpc] at this
      exact absurd this (by simp)
    obtain ⟨pre1, post1, h1, _, h3⟩ := mem_middle htrace hnA hnB
    rcases hps with rfl | rfl
    · cases hP
      simp at h1
    · obtain ⟨ev, post2, hpost, hev⟩ := partsTrace_next hP hnd l1 p q l2 hparts pre1 e post1 h1 he
      exact ⟨ev, post2 ++ B, by rw [h3, hpost]; rfl, cols, hev⟩
  · intro pre post n c t h
    rw [htr] at h
    have hnA : Event.returned (.alterDataPart .data n c) (some t) ∉ A := fun hm => by
      have := isEarly_not_part (hA _ hm)
      simp [Event.call, Call.isPartCall] at this
    have hnB : Event.returned (.alterDataPart .data n c) (some t) ∉ B := fun hm => by
      have := isLate_not_part (hB _ hm)
      simp [Event.call, Call.isPartCall] at this
    obtain ⟨pre1, post1, h1, _, h3⟩ := mem_middle h hnA hnB
    obtain ⟨p, hp, hn, hcase⟩ := partsTrace_transaction hP pre1 post1 n c t h1
    have hpw : p ∈ w.storage.data.data_parts := by
      rcases hps with rfl | rfl
      · simp at hp
      · exact hp
    refine ⟨p, hpw, hn, ?_⟩
    rcases hcase with ⟨ev, post2, hpost, hev⟩ | ⟨e, _, hpost⟩
    · refine ⟨.ok (.multi (partOps w.storage.replica_path p t)), ev :: post2 ++ B,
        by rw [h3, hpost]; rfl, rfl, fun _ => ⟨ev, post2 ++ B, rfl, hev⟩⟩
    · refine ⟨.threw (.multi (partOps w.storage.replica_path p t)) e, handlerEvents e n ++ B,
        by rw [h3, hpost]; rfl, rfl, fun hthrew => ?_⟩
      simp [Event.isThrew] at hthrew
  · intro hw hstop envs
    have hl := @loop_cons env envs _ hw
    rw [hl.1, hl.2.2, loop_of_stop envs hstop]
    simp

theorem C10_stop_request_ends_loop_not_part_loop_witness :
    (Example.worldFull.storage.data.data_parts.map DataPart.name).Nodup ∧
    Example.envStop.stop_after (.commit .data Example.P1.name) = true ∧
    (∃ ev post1, (iteration Example.envStop Example.worldFull).trace.drop 18 = ev :: post1 ∧
      ∃ c, ev.call = .alterDataPart .data Example.P2.name c) ∧
    (loop [Example.envStop, Example.env] Example.worldFull).result = .ok true :=
  ⟨by decide, by decide,
    (C10_stop_request_ends_loop_not_part_loop Example.envStop Example.worldFull (by decide)).1
      [] Example.P1 Example.P2 []
      ((iteration Example.envStop Example.worldFull).trace.take 17)
      (.ok (.commit .data Example.P1.name))
      ((iteration Example.envStop Example.worldFull).trace.drop 18) rfl (by decide)
      (Or.inl rfl),
    ((C10_stop_request_ends_loop_not_part_loop Example.envStop Example.worldFull
      (by decide)).2.2.2 (by decide) (by decide) [Example.env]).2⟩

/-- C10 as stated fails: the table has the parts `P1` and `P2`, both to be
altered, and a stop request arrives right after the `commit` of `P1`.  The
pass goes on as without the request: right after that `commit`,
`alterDataPart` is called for `P2`, whose transaction is written and
committed; the trace is the one of the pass without a stop request.
`need_stop` is set when the pass ends, and the loop makes no second pass. -/
theorem C10_next_part_started_after_stop_request :
    Example.envStop.stop_after (.commit .data "P1") = true ∧
    Example.worldFull.storage.data.data_parts = [Example.P1, Example.P2] ∧
    List.IsInfix
      [Event.ok (.commit .data "P1"),
        Event.returned (.alterDataPart .data "P2" Example.schema6.columns)
          (some Example.transaction6),
        Event.ok (.multi (partOps "/t/replicas/r1" Example.P2 Example.transaction6)),
        Event.ok (.commit .data "P2")]
      (iteration Example.envStop Example.worldFull).trace ∧
    (iteration Example.envStop Example.worldFull).trace =
      (iteration Example.env Example.worldFull).trace ∧
    (iteration Example.envStop Example.worldFull).world.need_stop = true ∧
    (loop [Example.envStop, Example.env] Example.worldFull).trace =
      (iteration Example.envStop Example.worldFull).trace ∧
    (loop [Example.envStop, Example.env] Example.worldFull).result = .ok true := by
  refine ⟨by decide, by decide, by decide, by decide, by decide, by decide, rfl⟩

/-- C13: in every pass (started with no scoped object alive) whose fetch
returned, a merge blocker is obtained from the primary merger exactly when
`changed_version` or `force_recheck_parts` is true, and one from the secondary
merger exactly when, in addition, there is a secondary merger; a pass whose
fetch raised obtains none.  The pass ends with its one wait (the normal wait or
the backoff wait of the `catch` block), and at every wait no merge blocker is
alive. -/
theorem C13_merges_suspended_only_while_parts_are_looked_at (env : Env) (w : World)
    (hw : w.held = []) :
    (∀ s v d, (fetch env w).result = .ok (s, v, d) →
      ((Event.ok .merger_cancel ∈ (iteration env w).trace ↔
          (v ≠ w.storage.columns_version ∨ w.force_recheck_parts = true)) ∧
        (Event.ok .unreplicated_merger_cancel ∈ (iteration env w).trace ↔
          ((v ≠ w.storage.columns_version ∨ w.force_recheck_parts = true) ∧
            w.storage.unreplicated_merger = true)))) ∧
    (∀ e, (fetch env w).result = .error e →
      Event.ok .merger_cancel ∉ (iteration env w).trace ∧
      Event.ok .unreplicated_merger_cancel ∉ (iteration env w).trace) ∧
    (∀ pre ev post, (iteration env w).trace = pre ++ ev :: post →
      (ev.call = .wait ∨ ∃ ms, ev.call = .tryWait ms) →
      Resource.merge_blocker ∉ heldAfter w.held pre ∧
      Resource.unreplicated_merge_blocker ∉ heldAfter w.held pre) ∧
    (∃ pre ev, (iteration env w).trace = pre ++ [ev] ∧
      (ev = .ok .wait ∨ ev = .ok (.tryWait ALTER_ERROR_SLEEP_MS))) ∧
    (iteration env w).world.held = heldAfter w.held (iteration env w).trace ∧
    (iteration env w).world.held = [] := by
  have hT := (orderly_iteration env w (by rw [hw]; simp)).1
  refine ⟨fun s v d hf => ⟨?_, ?_⟩, fun e hf => ⟨fun hm => ?_, fun hm => ?_⟩,
    fun pre ev post hsplit hwait => ?_, iteration_last env w, hT, ?_⟩
  · rw [iteration_cancels hf (.ok .merger_cancel) rfl]
    by_cases h1 : v = w.storage.columns_version <;>
      by_cases h2 : w.force_recheck_parts = true <;> simp [h1, h2]
  · rw [iteration_cancels hf (.ok .unreplicated_merger_cancel) rfl]
    by_cases h1 : v = w.storage.columns_version <;>
      by_cases h2 : w.force_recheck_parts = true <;>
        by_cases h3 : w.storage.unreplicated_merger = true <;> simp [h1, h2, h3]
  · have := iteration_error_stage hf _ hm
    simp [Event.call, Call.stage] at this
  · have := iteration_error_stage hf _ hm
    simp [Event.call, Call.stage] at this
  · rw [hw, wait_points_idle hw pre ev post hsplit (stage_of_wait hwait)]
    simp
  · obtain ⟨pre, ev, htr, hev⟩ := iteration_last env w
    have hst : ev.call.stage = 6 := by rcases hev with rfl | rfl <;> rfl
    have hmv : ev.moves = false := by rcases hev with rfl | rfl <;> rfl
    rw [hT, htr, heldAfter_append, hw,
      wait_points_idle hw pre ev [] (by rw [htr]) hst]
    exact heldAfter_of_not_moves (by simpa using hmv) _

/-- C13 at a concrete input: the pass of the example table, which fetches
version 6 with a recheck pending and has no secondary merger, suspends the
merges of the primary merger only, and before its wait the blocker is gone. -/
theorem C13_merges_suspended_only_while_parts_are_looked_at_witness :
    Example.worldFull.held = [] ∧
    Event.ok .merger_cancel ∈ (iteration Example.env Example.worldFull).trace ∧
    Event.ok .unreplicated_merger_cancel ∉ (iteration Example.env Example.worldFull).trace ∧
    Resource.merge_blocker ∉
      heldAfter [] ((iteration Example.env Example.worldFull).trace.take 25) :=
  ⟨rfl,
   ((C13_merges_suspended_only_while_parts_are_looked_at Example.env Example.worldFull rfl).1
      "v6" 6 Example.schema6 rfl).1.2 (Or.inl (by decide)),
   fun h => absurd
     ((((C13_merges_suspended_only_while_parts_are_looked_at Example.env Example.worldFull
        rfl).1 "v6" 6 Example.schema6 rfl).2.1 h).2) (by decide),
   ((C13_merges_suspended_only_while_parts_are_looked_at Example.env Example.worldFull
      rfl).2.2.1 ((iteration Example.env Example.worldFull).trace.take 25) (.ok .wait) []
      (by decide) (Or.inl rfl)).1⟩

/-- C14: in every pass (started with no scoped object alive) the exclusive
structural lock is given only when the fetch returned a version that differs
from the recorded one; when the shared structural lock is given the exclusive
one is not alive any more; at no point of the pass are the two alive at once;
and at every wait neither is alive. -/
theorem C14_exclusive_then_shared_never_both (env : Env) (w : World) (hw : w.held = []) :
    (Event.ok .lockStructureForAlter ∈ (iteration env w).trace →
      ∃ s v d, (fetch env w).result = .ok (s, v, d) ∧ v ≠ w.storage.columns_version) ∧
    (∀ pre post, (iteration env w).trace = pre ++ Event.ok .lockStructure :: post →
      Resource.table_lock_for_alter ∉ heldAfter w.held pre) ∧
    (∀ pre post, (iteration env w).trace = pre ++ post →
      ¬(Resource.table_lock_for_alter ∈ heldAfter w.held pre ∧
        Resource.table_lock ∈ heldAfter w.held pre)) ∧
    (∀ pre ev post, (iteration env w).trace = pre ++ ev :: post →
      (ev.call = .wait ∨ ∃ ms, ev.call = .tryWait ms) →
      Resource.table_lock_for_alter ∉ heldAfter w.held pre ∧
      Resource.table_lock ∉ heldAfter w.held pre) := by
  have hO := (orderly_iteration env w (by rw [hw]; simp)).2.2
  refine ⟨fun hm => ?_, fun pre post hsplit hl => ?_, hO, fun pre ev post hsplit hwait => ?_⟩
  · cases hr : (fetch env w).result with
    | error e =>
      have := iteration_error_stage hr _ hm
      simp [Event.call, Call.stage] at this
    | ok a =>
      obtain ⟨s, v, d⟩ := a
      refine ⟨s, v, d, rfl, fun hv => ?_⟩
      obtain ⟨TS, TU, RB, E, htr, h0, h1, h2, h4, h5, h6, hTS, _⟩ := iteration_pieces hr
      rcases hTS with ⟨_, rfl⟩ | ⟨h, _⟩
      swap
      · exact h hv
      rw [htr] at hm
      simp only [List.mem_append, List.not_mem_nil, or_false] at hm
      rcases hm with (((h | h) | h) | h) | h
      · have := h0 _ h; simp [Event.call, Call.stage] at this
      · have := h1 _ h; simp [Event.call, Call.stage] at this
      · rcases h4 _ h with h | ⟨h, _⟩
        · simp [Event.call, Call.stage] at h
        · simp at h
      · have := h5 _ h; simp [Event.call, Call.stage] at this
      · have := (h6 _ h).1; simp [Event.call, Call.stage] at this
  · have := hO (pre ++ [Event.ok .lockStructure]) post (by rw [hsplit]; simp)
    apply this
    rw [heldAfter_append]
    exact ⟨List.mem_cons_of_mem _ hl, List.mem_cons_self _ _⟩
  · rw [hw, wait_points_idle hw pre ev post hsplit (stage_of_wait hwait)]
    simp

/-- C14 at a concrete input: in the pass of the example table, which fetches
version 6, the exclusive lock is alive after the first six events, and it is
not alive any more when the shared lock is given, after fourteen events. -/
theorem C14_exclusive_then_shared_never_both_witness :
    Example.worldFull.held = [] ∧
    Resource.table_lock_for_alter ∈
      heldAfter [] ((iteration Example.env Example.worldFull).trace.take 6) ∧
    Resource.table_lock_for_alter ∉
      heldAfter [] ((iteration Example.env Example.worldFull).trace.take 14) :=
  ⟨rfl, by decide,
   (C14_exclusive_then_shared_never_both Example.env Example.worldFull rfl).2.1
     ((iteration Example.env Example.worldFull).trace.take 14)
     ((iteration Example.env Example.worldFull).trace.drop 15) (by decide)⟩

/-- C15: in a pass (started with no scoped object alive) that fetched a version
other than the recorded one, the parts of the primary store are read only
while the exclusive lock is alive and the shared one is not, and the update of
the parts runs over the list that the structural update returned, which is the
list of parts of the store at that point; in a pass that fetched the recorded
version they are read only while the shared lock is alive and the exclusive
one is not.  The loop of the update of the parts runs over the list it is
given when the version changed, whatever the store holds then, and over the
list of the store when it did not. -/
theorem C15_parts_are_listed_under_the_lock_of_the_pass (env : Env) (w : World)
    (hw : w.held = []) (s : String) (v : Int) (d : ColumnsDescription)
    (hf : (fetch env w).result = .ok (s, v, d)) :
    (v ≠ w.storage.columns_version →
      ∀ pre post, (iteration env w).trace = pre ++ Event.ok (.getDataParts .data) :: post →
        Resource.table_lock_for_alter ∈ heldAfter w.held pre ∧
        Resource.table_lock ∉ heldAfter w.held pre) ∧
    (v = w.storage.columns_version →
      ∀ pre post, (iteration env w).trace = pre ++ Event.ok (.getDataParts .data) :: post →
        Resource.table_lock ∈ heldAfter w.held pre ∧
        Resource.table_lock_for_alter ∉ heldAfter w.held pre) ∧
    (v ≠ w.storage.columns_version →
      ∀ ev ∈ (iteration env w).trace, ev.call.stage = 4 →
        ∃ ps w2 T0 T1, (structuralUpdate env d v w2).result = .ok ps ∧
          ps = w2.storage.data.getDataParts ∧ ps = w.storage.data.getDataParts ∧
          (iteration env w).trace =
            T0 ++ (updateParts env s true ps (structuralUpdate env d v w2).world).trace ++ T1) ∧
    (∀ ps w3, Spine w3.storage.replica_path ps
      (updateParts env s true ps w3).trace (updateParts env s true ps w3).exc) ∧
    (∀ ps w3, Spine w3.storage.replica_path w3.storage.data.getDataParts
      (updateParts env s false ps w3).trace (updateParts env s false ps w3).exc) := by
  have hO := (orderly_iteration env w (by rw [hw]; simp)).2.2
  refine ⟨fun hv pre post hsplit => ?_, fun hv pre post hsplit => ?_,
    fun hv ev hev hst => ?_, fun ps w3 => ?_, fun ps w3 => ?_⟩
  · obtain ⟨p0, x1, hx, h | h⟩ := iteration_reads_parts hf hsplit
    · have hm : Resource.table_lock_for_alter ∈ heldAfter w.held pre := by
        rw [h.2]
        exact @heldAfter_mem_of_acquired .table_lock_for_alter (.ok .lockStructureForAlter)
          (fun _ => rfl) _ _ hx _
      exact ⟨hm, fun h2 => hO pre _ hsplit ⟨hm, h2⟩⟩
    · exact absurd h.1 hv
  · obtain ⟨p0, x1, hx, h | h⟩ := iteration_reads_parts hf hsplit
    · exact absurd hv h.1
    · have hm : Resource.table_lock ∈ heldAfter w.held pre := by
        rw [h.2]
        exact @heldAfter_mem_of_acquired .table_lock (.ok .lockStructure)
          (fun _ => rfl) _ _ hx _
      exact ⟨hm, fun h2 => hO pre _ hsplit ⟨h2, hm⟩⟩
  · obtain ⟨ps, w2, T0, T1, hr, hst2, _, htr⟩ := iteration_changed_update hf hv hev hst
    have hp := structuralUpdate_parts env d v w2 ps hr
    exact ⟨ps, w2, T0, T1, hr, hp, by rw [hp, hst2]; rfl, htr⟩
  · simpa using updateParts_spine env s true ps w3
  · simpa [MergeTreeData.getDataParts] using updateParts_spine env s false ps w3

/-- C15 at concrete inputs: in the pass of the example table that fetches
version 6 the parts are read after ten events, under the exclusive lock; in
the pass that fetches the recorded version 5 with a recheck pending they are
read after five events, under the shared lock. -/
theorem C15_parts_are_listed_under_the_lock_of_the_pass_witness :
    Example.worldFull.held = [] ∧
    (Resource.table_lock_for_alter ∈
        heldAfter [] ((iteration Example.env Example.worldFull).trace.take 10) ∧
      Resource.table_lock ∉
        heldAfter [] ((iteration Example.env Example.worldFull).trace.take 10)) ∧
    (Resource.table_lock ∈
        heldAfter [] ((iteration Example.env Example.worldRecheck).trace.take 5) ∧
      Resource.table_lock_for_alter ∉
        heldAfter [] ((iteration Example.env Example.worldRecheck).trace.take 5)) :=
  ⟨rfl,
   (C15_parts_are_listed_under_the_lock_of_the_pass Example.env Example.worldFull rfl
      "v6" 6 Example.schema6 rfl).1 (by decide)
      ((iteration Example.env Example.worldFull).trace.take 10)
      ((iteration Example.env Example.worldFull).trace.drop 11) (by decide),
   (C15_parts_are_listed_under_the_lock_of_the_pass Example.env Example.worldRecheck rfl
      "v5" 5 Example.schema5 rfl).2.1 (by decide)
      ((iteration Example.env Example.worldRecheck).trace.take 5)
      ((iteration Example.env Example.worldRecheck).trace.drop 6) (by decide)⟩

/-- C16: in every pass that fetched a version other than the recorded one,
every call of `alterDataPart`, on the primary and on the non-replicated store,
has as its target the column list of the schema fetched in this pass: its
ordinary columns followed by its materialized ones. -/
theorem C16_parts_are_altered_to_the_fetched_columns (env : Env) (w : World) (s : String)
    (v : Int) (d : ColumnsDescription) (hf : (fetch env w).result = .ok (s, v, d))
    (hv : v ≠ w.storage.columns_version) :
    ∀ ev ∈ (iteration env w).trace, ∀ st n c, ev.call = .alterDataPart st n c →
      c = d.columns ++ d.materialized ∧
      c = ({ w.storage.data with
        columns := d.columns, materialized_columns := d.materialized }).getColumnsList := by
  intro ev hev st n c hc
  obtain ⟨ps, w2, T0, T1, hr, _, hin, _⟩ :=
    iteration_changed_update hf hv hev (by rw [hc]; rfl)
  obtain ⟨Z, hZ, hz⟩ := updateParts_anatomy env s true ps (structuralUpdate env d v w2).world
  have hcols : (structuralUpdate env d v w2).world.storage.data.getColumnsList =
      d.columns ++ d.materialized := by
    rw [structuralUpdate_components hr]
    rfl
  rw [hcols] at hZ
  have hmem : ev ∈ Z := by
    rcases hz with ⟨e, _, hz⟩ | ⟨_, hz⟩
    · rw [hz] at hin
      rcases List.mem_cons.1 hin with rfl | h
      · simp [Event.call] at hc
      · exact h
    · rw [hz] at hin
      simp only [if_true, List.nil_append] at hin
      rcases List.mem_cons.1 hin with rfl | h
      · simp [Event.call] at hc
      · exact h
  have := hZ ev hmem
  simp only [Event.updates, hc, Bool.and_eq_true, decide_eq_true_eq] at this
  exact ⟨this.2, this.2⟩

/-- C16 at a concrete input: in the pass of the example table that fetches
version 6, the call of `alterDataPart` for the part `P1` has the three columns
of version 6 as its target. -/
theorem C16_parts_are_altered_to_the_fetched_columns_witness :
    Event.returned (.alterDataPart .data "P1" Example.schema6.columns)
        (some Example.transaction6) ∈ (iteration Example.env Example.worldFull).trace ∧
    Example.schema6.columns = Example.schema6.columns ++ Example.schema6.materialized :=
  ⟨by decide,
   (C16_parts_are_altered_to_the_fetched_columns Example.env Example.worldFull "v6" 6
      Example.schema6 rfl (by decide)
      (.returned (.alterDataPart .data "P1" Example.schema6.columns)
        (some Example.transaction6)) (by decide) .data "P1" Example.schema6.columns rfl).1⟩

end DB

/-! ## The claims about `StringRef` and `Row` -/

/-- C11: `operator== (StringRef, StringRef)` is true exactly when the two have
the same size and the same bytes, whether `__SSE2__` is defined or not, and
`memequalSSE2Wide (p1, p2, size)` is `memcmp (p1, p2, size) == 0` for every
size, so for every number of 64-byte blocks and every rest modulo 64 and
modulo 16. -/
theorem C11_equality_is_same_size_and_same_bytes :
    (∀ (sse2 : Bool) (lhs rhs : StringRef),
      (StringRef.operator_eq sse2 lhs rhs = true ↔
        (lhs.size = rhs.size ∧ ∀ i, i < lhs.size → lhs.data i = rhs.data i)) ∧
      (StringRef.operator_eq sse2 lhs rhs = true ↔ lhs.toString = rhs.toString) ∧
      StringRef.operator_ne sse2 lhs rhs = !(StringRef.operator_eq sse2 lhs rhs)) ∧
    (∀ (p1 p2 : CharPtr) (size : Nat),
      memequalSSE2Wide p1 p2 size = decide (memcmp p1 p2 size = 0)) ∧
    (∀ (p1 p2 : CharPtr) (size : Nat),
      memequalSSE2Wide p1 p2 size = true ↔ ∀ i, i < size → p1 i = p2 i) := by
  refine ⟨fun sse2 lhs rhs => ⟨operator_eq_iff sse2 lhs rhs,
    operator_eq_iff_toString sse2 lhs rhs, rfl⟩, fun p1 p2 size => ?_,
    fun p1 p2 size => memequalSSE2Wide_iff p1 p2 size⟩
  rw [Bool.eq_iff_iff, memequalSSE2Wide_iff, decide_eq_true_iff, memcmp_eq_zero_iff]

/-- C11 at concrete inputs: two strings of 83 bytes (one 64-byte block, one
16-byte block and a rest of 3) that differ in the last byte only are not
equal, and each is equal to itself. -/
theorem C11_equality_is_same_size_and_same_bytes_witness :
    StringRef.operator_eq true (StringRef.ofString (List.replicate 83 7))
        (StringRef.ofString (List.replicate 83 7)) = true ∧
    StringRef.operator_eq true (StringRef.ofString (List.replicate 83 7))
        (StringRef.ofString (List.replicate 82 7 ++ [8])) = false :=
  ⟨((C11_equality_is_same_size_and_same_bytes.1 true _ _).2.1).2 rfl,
   Bool.eq_false_iff.2 (fun h =>
    absurd (((C11_equality_is_same_size_and_same_bytes.1 true _ _).2.1).1 h) (by decide))⟩

/-- C17: for all byte strings exactly one of `a < b`, `a == b`, `a > b` holds;
`operator<` is the lexicographic order on the bytes read as unsigned, a proper
prefix being smaller; it is irreflexive and transitive; and `a > b` is
`b < a`. -/
theorem C17_order_is_strict_lexicographic :
    (∀ (sse2 : Bool) (a b : StringRef),
      (StringRef.operator_lt a b = true ∧ StringRef.operator_eq sse2 a b = false ∧
          StringRef.operator_gt a b = false) ∨
      (StringRef.operator_lt a b = false ∧ StringRef.operator_eq sse2 a b = true ∧
          StringRef.operator_gt a b = false) ∨
      (StringRef.operator_lt a b = false ∧ StringRef.operator_eq sse2 a b = false ∧
          StringRef.operator_gt a b = true)) ∧
    (∀ a b : StringRef, StringRef.operator_lt a b = lexLt a.toString b.toString) ∧
    (∀ a b : StringRef,
      StringRef.operator_lt a b = true ↔ List.Lex (fun x y => x < y) a.toString b.toString) ∧
    (∀ a : StringRef, StringRef.operator_lt a a = false) ∧
    (∀ a b c : StringRef, StringRef.operator_lt a b = true → StringRef.operator_lt b c = true →
      StringRef.operator_lt a c = true) ∧
    (∀ a b : StringRef, StringRef.operator_gt a b = StringRef.operator_lt b a) := by
  have hlt : ∀ a b : StringRef, StringRef.operator_lt a b = lexLt a.toString b.toString :=
    fun a b => operator_lt_eq_lexLt a.size b.size a.data b.data
  refine ⟨fun sse2 a b => ?_, hlt, fun a b => ?_, fun a => ?_, fun a b c h1 h2 => ?_,
    operator_gt_eq_lt⟩
  · rw [operator_gt_eq_lt, hlt a b, hlt b a]
    have he : ∀ v : Bool, (StringRef.operator_eq sse2 a b = v) ↔
        (decide (a.toString = b.toString) = v) := by
      intro v
      cases v
      · rw [← Bool.not_eq_true, ← Bool.not_eq_true, operator_eq_iff_toString, decide_eq_true_iff]
      · rw [operator_eq_iff_toString, decide_eq_true_iff]
    rw [he, he]
    rcases lexLt_trichotomy a.toString b.toString with h | h | h
    · exact Or.inl ⟨h.1, decide_eq_false h.2.1, h.2.2⟩
    · exact Or.inr (Or.inl ⟨h.1, decide_eq_true h.2.1, h.2.2⟩)
    · exact Or.inr (Or.inr ⟨h.1, decide_eq_false h.2.1, h.2.2⟩)
  · rw [hlt, lexLt_iff_lex]
  · rw [hlt, lexLt_irrefl]
  · rw [hlt] at h1 h2 ⊢
    exact lexLt_trans _ _ _ h1 h2

/-- C17 at concrete inputs: `ab` is smaller than `abc` (a proper prefix) and
than `b`, and a byte above 127 is larger than one below (unsigned bytes). -/
theorem C17_order_is_strict_lexicographic_witness :
    StringRef.operator_lt (StringRef.ofString [97, 98]) (StringRef.ofString [97, 98, 99]) = true ∧
    StringRef.operator_lt (StringRef.ofString [97, 98]) (StringRef.ofString [98]) = true ∧
    StringRef.operator_lt (StringRef.ofString [200]) (StringRef.ofString [100]) = false ∧
    StringRef.operator_gt (StringRef.ofString [200]) (StringRef.ofString [100]) = true :=
  ⟨(C17_order_is_strict_lexicographic.2.1 _ _).trans (by decide),
   (C17_order_is_strict_lexicographic.2.1 _ _).trans (by decide),
   (C17_order_is_strict_lexicographic.2.1 _ _).trans (by decide),
   ((C17_order_is_strict_lexicographic.2.2.2.2.2 _ _).trans
     (C17_order_is_strict_lexicographic.2.1 _ _)).trans (by decide)⟩

/-- C18: `operator== (StringRef lhs, const char * rhs)` is true exactly when
`rhs` has at least `lhs.size` bytes before its terminator and its first
`lhs.size` bytes are those of `lhs`: a test that `lhs` is a prefix of `rhs`, not
of equality, so it is true for `ab` against `abc` and for an empty `lhs`
against any `rhs`. -/
theorem C18_comparison_with_c_string_tests_leading_bytes :
    (∀ (lhs : StringRef) (rhs : CharPtr),
      StringRef.operator_eq_cstr lhs rhs = true ↔
        ∀ i, i < lhs.size → rhs i ≠ 0 ∧ lhs.data i = rhs i) ∧
    (∀ (lhs : StringRef) (s : List Byte), (0 : Byte) ∉ s →
      (StringRef.operator_eq_cstr lhs (cstr s) = true ↔
        lhs.size ≤ s.length ∧ lhs.toString = s.take lhs.size)) ∧
    (∀ (lhs : StringRef) (s : List Byte), (0 : Byte) ∉ s →
      (StringRef.operator_eq_cstr lhs (cstr s) = true ↔ lhs.toString <+: s)) ∧
    StringRef.operator_eq_cstr (StringRef.ofString [97, 98]) (cstr [97, 98, 99]) = true ∧
    (∀ (data rhs : CharPtr), StringRef.operator_eq_cstr ⟨data, 0⟩ rhs = true) := by
  refine ⟨operator_eq_cstr_iff, operator_eq_cstr_iff_take, fun lhs s hs => ?_, ?_, ?_⟩
  · rw [operator_eq_cstr_iff_take lhs s hs]
    constructor
    · rintro ⟨_, h⟩
      rw [h]
      exact List.take_prefix _ _
    · intro h
      have hl : lhs.toString.length = lhs.size := by simp [StringRef.toString]
      have hle := h.length_le
      rw [hl] at hle
      refine ⟨hle, ?_⟩
      have := List.prefix_iff_eq_take.1 h
      rwa [hl] at this
  · rw [operator_eq_cstr_iff]
    decide
  · intro data rhs
    rw [operator_eq_cstr_iff]
    intro i hi
    exact absurd hi (Nat.not_lt_zero _)

/-- C18 at concrete inputs: `ab` against the C string `abc` is true although
the two differ, and `abc` against the C string `ab` is false. -/
theorem C18_comparison_with_c_string_tests_leading_bytes_witness :
    StringRef.operator_eq_cstr (StringRef.ofString [97, 98]) (cstr [97, 98, 99]) = true ∧
    (StringRef.ofString [97, 98]).toString ≠ [97, 98, 99] ∧
    StringRef.operator_eq_cstr (StringRef.ofString [97, 98, 99]) (cstr [97, 98]) = false :=
  ⟨C18_comparison_with_c_string_tests_leading_bytes.2.2.2.1, by decide,
   Bool.eq_false_iff.2 (fun h =>
     absurd ((C18_comparison_with_c_string_tests_leading_bytes.2.1 _ [97, 98] (by decide)).1 h)
       (by decide))⟩

/-- C19: for a `StringRef` of `n` bytes `CRC32Hash` reads only indices below
`n` and every index below `n` lies in a word it reads; it returns 0 for
`n = 0`; for `1 ≤ n < 8` it is `hashLessThan8`, which reads the indices 0,
`n >> 1` and `n - 1` when `n < 4` and the two 4-byte words at 0 and `n - 4`
when `n ≥ 4`; for `n ≥ 8` its loop runs `(n - 9) / 8 + 1` times (once when
`n ≤ 16`), reading the 8-byte words at 0, 8, 16, ..., and it then reads the
word at `n - 8`, so the words read are those at the multiples of 8 with
`offset + 8 < n` and the one at `n - 8`. -/
theorem C19_crc32_hash_reads_every_byte_and_no_other (F : HashFunctions) (x : StringRef) :
    (∀ i, i ∈ indicesRead (CRC32Hash.call F x).2 → i < x.size) ∧
    (∀ i, i < x.size → i ∈ indicesRead (CRC32Hash.call F x).2) ∧
    (x.size = 0 → CRC32Hash.call F x = (0, [])) ∧
    (1 ≤ x.size → x.size < 8 → CRC32Hash.call F x = hashLessThan8 F x.data x.size) ∧
    (1 ≤ x.size → x.size < 4 →
      (hashLessThan8 F x.data x.size).2 = [(0, 1), (x.size >>> 1, 1), (x.size - 1, 1)]) ∧
    (4 ≤ x.size → x.size < 8 →
      (hashLessThan8 F x.data x.size).2 = [(0, 4), (x.size - 4, 4)]) ∧
    (8 ≤ x.size →
      (CRC32Hash.call F x).2
        = (List.range ((x.size - 9) / 8 + 1)).map (fun j => (8 * j, 8)) ++ [(x.size - 8, 8)]) ∧
    (8 ≤ x.size → ∀ r : Read, r ∈ (CRC32Hash.call F x).2 ↔
      r.2 = 8 ∧ ((8 ∣ r.1 ∧ r.1 + 8 < x.size) ∨ r.1 = x.size - 8)) := by
  refine ⟨CRC32Hash_reads_below F x, CRC32Hash_reads_cover F x, fun h => ?_,
    CRC32Hash_small F x, hashLessThan8_reads_bytes F x.data x.size,
    fun h _ => hashLessThan8_reads_words F x.data x.size h, CRC32Hash_reads_large F x,
    CRC32Hash_words F x⟩
  unfold CRC32Hash.call
  rw [if_pos h]

/-- C19 at a concrete input: for 20 bytes the words read are those at 0, 8
and 12. -/
theorem C19_crc32_hash_reads_every_byte_and_no_other_witness :
    (CRC32Hash.call ⟨fun a b => a + b, fun a b => a + b⟩
      (StringRef.ofString (List.replicate 20 1))).2 = [(0, 8), (8, 8), (12, 8)] :=
  (C19_crc32_hash_reads_every_byte_and_no_other ⟨fun a b => a + b, fun a b => a + b⟩
    (StringRef.ofString (List.replicate 20 1))).2.2.2.2.2.2.1 (by decide)

namespace mysqlxx

/-- C12: `Row::operator[] (const char * name)` returns `operator[] (i)` for the
smallest index `i` below `getNumFields ()` whose field name equals `name`, and
throws `Exception ("Unknown column " + name)` when no field has that name, in
particular when there is no field; when `operator[] (i)` itself does not throw
that exception, it is thrown exactly when no field has that name. -/
theorem C12_lookup_by_name_takes_first_match {Value : Type} (r : Row Value) (name : String)
    (hname : isCString name)
    (hfields : ∀ i, i < r.res.getNumFields → isCString (r.res.getFields i).name) :
    (∀ i, i < r.res.getNumFields → (r.res.getFields i).name = name →
      (∀ k, k < i → (r.res.getFields k).name ≠ name) →
      r.operator_index_name name = r.operator_index i) ∧
    ((∀ i, i < r.res.getNumFields → (r.res.getFields i).name ≠ name) →
      r.operator_index_name name = .error ⟨"Unknown column " ++ name⟩) ∧
    (r.res.getNumFields = 0 →
      r.operator_index_name name = .error ⟨"Unknown column " ++ name⟩) ∧
    ((∀ i, i < r.res.getNumFields →
        r.operator_index i ≠ .error ⟨"Unknown column " ++ name⟩) →
      (r.operator_index_name name = .error ⟨"Unknown column " ++ name⟩ ↔
        ∀ i, i < r.res.getNumFields → (r.res.getFields i).name ≠ name)) := by
  have hcmp : ∀ i, i < r.res.getNumFields →
      (strcmp name (r.res.getFields i).name = 0 ↔ (r.res.getFields i).name = name) := by
    intro i hi
    rw [strcmp_eq_zero_iff name _ hname (hfields i hi)]
    exact eq_comm
  have hfound : ∀ i, i < r.res.getNumFields → (r.res.getFields i).name = name →
      (∀ k, k < i → (r.res.getFields k).name ≠ name) →
      r.operator_index_name name = r.operator_index i := by
    intro i hi hm hfirst
    unfold Row.operator_index_name
    exact operator_index_name_from_found r name _ _ 0 i hi (Nat.zero_le _) ((hcmp i hi).2 hm)
      (fun k _ hk e => hfirst k hk ((hcmp k (lt_trans hk hi)).1 e))
  have hnone : (∀ i, i < r.res.getNumFields → (r.res.getFields i).name ≠ name) →
      r.operator_index_name name = .error ⟨"Unknown column " ++ name⟩ := by
    intro H
    unfold Row.operator_index_name
    exact operator_index_name_from_none r name _ _ 0 (fun k _ hk e => H k hk ((hcmp k hk).1 e))
  refine ⟨hfound, hnone, fun h0 => hnone (fun i hi => ?_), fun hget => ⟨fun he i hi hm => ?_, hnone⟩⟩
  · rw [h0] at hi
    exact absurd hi (Nat.not_lt_zero _)
  · obtain ⟨j, hj, hmj, hfirst⟩ := exists_first (fun k => (r.res.getFields k).name = name)
      r.res.getNumFields ⟨i, hi, hm⟩
    rw [hfound j hj hmj hfirst] at he
    exact hget j hj he

/-- C12 at a concrete input: in a row with the fields `id`, `name`, `id` the
name `id` gives the value at index 0, and the name `age` is unknown. -/
theorem C12_lookup_by_name_takes_first_match_witness :
    Example.row3.operator_index_name "id" = .ok 10 ∧
    Example.row3.operator_index_name "age" = .error ⟨"Unknown column age"⟩ :=
  ⟨(C12_lookup_by_name_takes_first_match Example.row3 "id" (by decide) (by decide)).1 0
      (by decide) (by decide) (by decide),
   (C12_lookup_by_name_takes_first_match Example.row3 "age" (by decide) (by decide)).2.1
      (by decide)⟩

end mysqlxx
